import Mathlib

/-!
File-System-Simulator: a shallow embedding of `filesystem.cpp`

The C++ program keeps its tree on the heap: `Directory` and `File` objects linked by raw
pointers, a `root` pointer and a cursor `curr`.  The embedding keeps that shape.

* A `std::string` is its sequence of bytes, `Str`.
* The heap is a pair of cell lists; a pointer is an index, a cell that holds `none` has been
  freed by `delete`, `new` appends a cell (addresses are never reused).
* A `std::map<std::string, T*>` is an association list in ascending key order.
* Every member function becomes a function `FileSystem → Except Fault (Reply × FileSystem)`:
  `Reply` is the class of the message the function prints, `Fault` is what C++ leaves
  undefined (dereferencing a freed or null pointer), an uncaught exception, or the embedding
  running out of recursion fuel.
* `getTimestamp()` reads the wall clock.  The clock is an oracle `τ : Nat → Str`; the state
  counts the readings taken so far, and the `n`-th reading returns `τ n`.
* `size_t` arithmetic is arithmetic modulo `2 ^ 64` (LP64), with `npos = 2 ^ 64 - 1`.
-/

namespace FSim

/-! ## Strings and maps -/

/-- A C++ string, as the sequence of its bytes. -/
abbrev Str := List Char

/-- A raw pointer: the index of a heap cell. -/
abbrev Ptr := Nat

/-- Byte-wise lexicographic order of `std::string::operator<`. -/
def strLt : Str → Str → Bool
  | [], [] => false
  | [], _ :: _ => true
  | _ :: _, [] => false
  | a :: as, b :: bs =>
    if a.toNat < b.toNat then true
    else if b.toNat < a.toNat then false
    else strLt as bs

/-- A map from names to pointers, `std::map<std::string, T*>`, in iteration order. -/
abbrev PMap := List (Str × Ptr)

namespace PMap

/-- The pointer stored under a key, `m.find(k)`. -/
def find : PMap → Str → Option Ptr
  | [], _ => none
  | (k', v) :: r, k => if k' = k then some v else find r k

/-- Presence of a key, `m.count(k)`. -/
def count (m : PMap) (k : Str) : Bool := (m.find k).isSome

/-- Assignment `m[k] = v`: replaces the entry of `k` or inserts it in key order. -/
def set : PMap → Str → Ptr → PMap
  | [], k, v => [(k, v)]
  | (k', v') :: r, k, v =>
    if k' = k then (k, v) :: r
    else if strLt k k' then (k, v) :: (k', v') :: r
    else (k', v') :: set r k v

/-- Removal `m.erase(k)`. -/
def erase : PMap → Str → PMap
  | [], _ => []
  | (k', v') :: r, k => if k' = k then r else (k', v') :: erase r k

/-- The keys in iteration order. -/
def keys (m : PMap) : List Str := m.map Prod.fst

/-- Strictly ascending keys: the representation invariant of `std::map`. -/
def Sorted : PMap → Prop
  | [] => True
  | [_] => True
  | (k, _) :: (k', v') :: r => strLt k k' = true ∧ Sorted ((k', v') :: r)

/-- Key order of a concrete map can be checked. -/
instance decSorted : (m : PMap) → Decidable (Sorted m)
  | [] => isTrue trivial
  | [_] => isTrue trivial
  | (k, _) :: (k', v') :: r =>
    match decSorted ((k', v') :: r) with
    | isTrue h => if e : strLt k k' = true then isTrue ⟨e, h⟩ else isFalse (fun x => e x.1)
    | isFalse h => isFalse (fun x => h x.2)

end PMap

/-! ## The heap objects -/

/-- The `File` struct. -/
structure File where
  name : Str
  content : Str
  createdAt : Str
  modifiedAt : Str
deriving DecidableEq, Repr

/-- The `Directory` class; `parent = none` is the null pointer. -/
structure Directory where
  name : Str
  parent : Option Ptr
  subDirs : PMap
  files : PMap
deriving DecidableEq, Repr

/-- The value of `std::string::max_size()`: `2 ^ 62 - 1` with libstdc++ on a 64-bit platform.
The constructor `string(len, 0)` throws `std::length_error` for a longer string. -/
def maxSize : Nat := 4611686018427387903

/-- The `FileSystem` object with its heap, the count of clock readings taken, and the size
of the largest buffer the allocator grants in this run (`avail`): a request for more bytes
throws `std::bad_alloc`.  Without a shortage of memory this is `maxSize`. -/
structure FileSystem where
  dirs : List (Option Directory)
  fls : List (Option File)
  root : Ptr
  curr : Option Ptr
  ticks : Nat
  avail : Nat := maxSize
deriving DecidableEq, Repr

/-- What stops a run: undefined behaviour, an uncaught exception, or exhausted fuel. -/
inductive Fault where
  | undefinedBehaviour
  | uncaught
  | outOfFuel
deriving DecidableEq, Repr

/-- Equality of results is decidable. -/
instance instDecidableEqExcept {ε α : Type} [DecidableEq ε] [DecidableEq α] :
    DecidableEq (Except ε α)
  | .ok a, .ok b => if h : a = b then isTrue (by rw [h]) else isFalse (fun e => h (by cases e; rfl))
  | .error a, .error b =>
    if h : a = b then isTrue (by rw [h]) else isFalse (fun e => h (by cases e; rfl))
  | .ok _, .error _ => isFalse (fun e => by cases e)
  | .error _, .ok _ => isFalse (fun e => by cases e)

/-- The class of the message an operation prints. -/
inductive Reply where
  | done
  | notFound
  | nameCollision
  | cancelled
  | invalidSelection
deriving DecidableEq, Repr

namespace FileSystem

/-- The live `Directory` object at an address. -/
def dir (s : FileSystem) (p : Ptr) : Option Directory := s.dirs.getD p none

/-- The live `File` object at an address. -/
def file (s : FileSystem) (p : Ptr) : Option File := s.fls.getD p none

/-- Dereference of a `Directory*`. -/
def derefDir (s : FileSystem) (p : Ptr) : Except Fault Directory :=
  match s.dir p with
  | some d => .ok d
  | none => .error .undefinedBehaviour

/-- Dereference of a `File*`. -/
def derefFile (s : FileSystem) (p : Ptr) : Except Fault File :=
  match s.file p with
  | some f => .ok f
  | none => .error .undefinedBehaviour

/-- Dereference of the cursor `curr`. -/
def derefCurr (s : FileSystem) : Except Fault (Ptr × Directory) :=
  match s.curr with
  | none => .error .undefinedBehaviour
  | some c =>
    match s.dir c with
    | some d => .ok (c, d)
    | none => .error .undefinedBehaviour

/-- A write through a `Directory*`: the object at `p` is replaced by `f` of itself. -/
def modDir (s : FileSystem) (p : Ptr) (f : Directory → Directory) : Except Fault FileSystem :=
  match s.dir p with
  | some d => .ok { s with dirs := s.dirs.set p (some (f d)) }
  | none => .error .undefinedBehaviour

/-- A write through a `File*`. -/
def modFile (s : FileSystem) (p : Ptr) (f : File → File) : Except Fault FileSystem :=
  match s.file p with
  | some d => .ok { s with fls := s.fls.set p (some (f d)) }
  | none => .error .undefinedBehaviour

/-- The expression `new Directory(name, par)`: the new address and the heap holding it. -/
def newDir (s : FileSystem) (name : Str) (par : Option Ptr) : Ptr × FileSystem :=
  (s.dirs.length, { s with dirs := s.dirs ++ [some ⟨name, par, [], []⟩] })

/-- The call `getTimestamp()`. -/
def getTimestamp (τ : Nat → Str) (s : FileSystem) : Str × FileSystem :=
  (τ s.ticks, { s with ticks := s.ticks + 1 })

/-- The expression `new File(filename)`: one clock reading, empty content. -/
def newFile (τ : Nat → Str) (s : FileSystem) (name : Str) : Ptr × FileSystem :=
  let (t, s1) := getTimestamp τ s
  (s1.fls.length, { s1 with fls := s1.fls ++ [some ⟨name, [], t, t⟩] })

/-- The statement `delete f` for a `File*`. -/
def deleteFile (s : FileSystem) (p : Ptr) : Except Fault FileSystem :=
  match s.file p with
  | some _ => .ok { s with fls := s.fls.set p none }
  | none => .error .undefinedBehaviour

/-- A loop `for (auto& x : xs) body`, stopping at the first fault. -/
def forEach {α : Type} (body : α → FileSystem → Except Fault FileSystem) :
    List α → FileSystem → Except Fault FileSystem
  | [], s => .ok s
  | x :: xs, s =>
    match body x s with
    | .ok s1 => forEach body xs s1
    | .error e => .error e

/-- The statement `delete d` for a `Directory*`: `~Directory` deletes every subdirectory and
every file, then the cell is freed.  The recursion depth is bounded by `fuel`. -/
def deleteDir : Nat → Ptr → FileSystem → Except Fault FileSystem
  | 0, _, _ => .error .outOfFuel
  | fuel + 1, p, s =>
    match s.dir p with
    | none => .error .undefinedBehaviour
    | some d =>
      match forEach (fun kc => deleteDir fuel kc.2) d.subDirs s with
      | .error e => .error e
      | .ok s1 =>
        match forEach (fun kf s => deleteFile s kf.2) d.files s1 with
        | .error e => .error e
        | .ok s2 =>
          match s2.dir p with
          | none => .error .undefinedBehaviour
          | some _ => .ok { s2 with dirs := s2.dirs.set p none }

/-- The constructor `FileSystem()` before `loadFromDisk`: a root named "root", cursor on it,
in a run without a shortage of memory (`avail` is `maxSize`). -/
def init : FileSystem :=
  { dirs := [some ⟨['r', 'o', 'o', 't'], none, [], []⟩], fls := [], root := 0, curr := some 0,
    ticks := 0 }


/-! ## Structural operations -/

/-- The member `makeDirectory`. -/
def makeDirectory (name : Str) (s : FileSystem) : Except Fault (Reply × FileSystem) :=
  match s.derefCurr with
  | .error e => .error e
  | .ok (c, d) =>
    if d.subDirs.count name || d.files.count name then .ok (.nameCollision, s)
    else
      let (neo, s1) := s.newDir name (some c)
      match s1.modDir c (fun x => { x with subDirs := x.subDirs.set name neo }) with
      | .error e => .error e
      | .ok s2 => .ok (.done, s2)

/-- The member `createFile`. -/
def createFile (τ : Nat → Str) (name : Str) (s : FileSystem) :
    Except Fault (Reply × FileSystem) :=
  match s.derefCurr with
  | .error e => .error e
  | .ok (c, d) =>
    if d.files.count name || d.subDirs.count name then .ok (.nameCollision, s)
    else
      let (neo, s1) := s.newFile τ name
      match s1.modDir c (fun x => { x with files := x.files.set name neo }) with
      | .error e => .error e
      | .ok s2 => .ok (.done, s2)

/-- The member `deleteFileByName`. -/
def deleteFileByName (name : Str) (s : FileSystem) : Except Fault (Reply × FileSystem) :=
  match s.derefCurr with
  | .error e => .error e
  | .ok (c, d) =>
    match d.files.find name with
    | none => .ok (.notFound, s)
    | some fp =>
      match s.deleteFile fp with
      | .error e => .error e
      | .ok s1 =>
        match s1.modDir c (fun x => { x with files := x.files.erase name }) with
        | .error e => .error e
        | .ok s2 => .ok (.done, s2)

/-- The member `deleteDirectoryByName`; `fuel` bounds the depth of the destructor calls. -/
def deleteDirectoryByName (fuel : Nat) (name : Str) (s : FileSystem) :
    Except Fault (Reply × FileSystem) :=
  match s.derefCurr with
  | .error e => .error e
  | .ok (c, d) =>
    match d.subDirs.find name with
    | none => .ok (.notFound, s)
    | some p =>
      match s.deleteDir fuel p with
      | .error e => .error e
      | .ok s1 =>
        match s1.modDir c (fun x => { x with subDirs := x.subDirs.erase name }) with
        | .error e => .error e
        | .ok s2 => .ok (.done, s2)

/-- The member `renameDirectory`. -/
def renameDirectory (oldN newN : Str) (s : FileSystem) : Except Fault (Reply × FileSystem) :=
  match s.derefCurr with
  | .error e => .error e
  | .ok (c, d) =>
    match d.subDirs.find oldN with
    | none => .ok (.notFound, s)
    | some p =>
      if d.subDirs.count newN || d.files.count newN then .ok (.nameCollision, s)
      else
        match s.modDir c (fun x => { x with subDirs := x.subDirs.set newN p }) with
        | .error e => .error e
        | .ok s1 =>
          match s1.modDir p (fun x => { x with name := newN }) with
          | .error e => .error e
          | .ok s2 =>
            match s2.modDir c (fun x => { x with subDirs := x.subDirs.erase oldN }) with
            | .error e => .error e
            | .ok s3 => .ok (.done, s3)

/-- The member `renameFile`. -/
def renameFile (oldN newN : Str) (s : FileSystem) : Except Fault (Reply × FileSystem) :=
  match s.derefCurr with
  | .error e => .error e
  | .ok (c, d) =>
    match d.files.find oldN with
    | none => .ok (.notFound, s)
    | some p =>
      if d.files.count newN || d.subDirs.count newN then .ok (.nameCollision, s)
      else
        match s.modDir c (fun x => { x with files := x.files.set newN p }) with
        | .error e => .error e
        | .ok s1 =>
          match s1.modFile p (fun x => { x with name := newN }) with
          | .error e => .error e
          | .ok s2 =>
            match s2.modDir c (fun x => { x with files := x.files.erase oldN }) with
            | .error e => .error e
            | .ok s3 => .ok (.done, s3)

/-- The text `writeFile` collects from standard input: every line before the first line
"EOF" (or the end of input), each followed by a newline. -/
def readContent : List Str → Str
  | [] => []
  | l :: ls => if l = ['E', 'O', 'F'] then [] else l ++ ['\n'] ++ readContent ls

/-- The member `writeFile`; `input` is the sequence of lines standard input supplies. -/
def writeFile (τ : Nat → Str) (name : Str) (append : Bool) (input : List Str)
    (s : FileSystem) : Except Fault (Reply × FileSystem) :=
  match s.derefCurr with
  | .error e => .error e
  | .ok (_, d) =>
    match d.files.find name with
    | none => .ok (.notFound, s)
    | some fp =>
      let content := readContent input
      match s.modFile fp
          (fun x => { x with content := if append then x.content ++ content else content }) with
      | .error e => .error e
      | .ok s1 =>
        let (t, s2) := s1.getTimestamp τ
        match s2.modFile fp (fun x => { x with modifiedAt := t }) with
        | .error e => .error e
        | .ok s3 => .ok (.done, s3)

/-- The names `batchCreateFiles` passes to `createFile`: every piece that ends at a comma,
and the remainder after the last comma when it is not empty. -/
def batchNames : Str → List Str
  | [] => []
  | c :: cs =>
    if c = ',' then [] :: batchNames cs
    else
      match batchNames cs with
      | [] => [[c]]
      | t :: ts => (c :: t) :: ts

/-- The member `batchCreateFiles`; `input` is the line read from standard input. -/
def batchCreateFiles (τ : Nat → Str) (input : Str) (s : FileSystem) :
    Except Fault FileSystem :=
  forEach (fun n s => match createFile τ n s with
    | .ok (_, s1) => .ok s1
    | .error e => .error e) (batchNames input) s

/-- The member `deleteAll`; `confirm` is the character read from standard input. -/
def deleteAll (fuel : Nat) (confirm : Char) (s : FileSystem) :
    Except Fault (Reply × FileSystem) :=
  if confirm ≠ 'y' ∧ confirm ≠ 'Y' then .ok (.cancelled, s)
  else
    match s.derefDir s.root with
    | .error e => .error e
    | .ok r =>
      match forEach (fun kc => deleteDir fuel kc.2) r.subDirs s with
      | .error e => .error e
      | .ok s1 =>
        match forEach (fun kf s => deleteFile s kf.2) r.files s1 with
        | .error e => .error e
        | .ok s2 =>
          match s2.modDir s2.root (fun x => { x with subDirs := [], files := [] }) with
          | .error e => .error e
          | .ok s3 => .ok (.done, s3)

/-- The member `moveFile`. -/
def moveFile (name : Str) (target : Ptr) (s : FileSystem) :
    Except Fault (Reply × FileSystem) :=
  match s.derefCurr with
  | .error e => .error e
  | .ok (c, d) =>
    match d.files.find name with
    | none => .ok (.notFound, s)
    | some fp =>
      match s.derefDir target with
      | .error e => .error e
      | .ok t =>
        if t.files.count name || t.subDirs.count name then .ok (.nameCollision, s)
        else
          match s.modDir target (fun x => { x with files := x.files.set name fp }) with
          | .error e => .error e
          | .ok s1 =>
            match s1.modDir c (fun x => { x with files := x.files.erase name }) with
            | .error e => .error e
            | .ok s2 => .ok (.done, s2)

/-- The member `moveDirectory`. -/
def moveDirectory (name : Str) (target : Ptr) (s : FileSystem) :
    Except Fault (Reply × FileSystem) :=
  match s.derefCurr with
  | .error e => .error e
  | .ok (c, d) =>
    match d.subDirs.find name with
    | none => .ok (.notFound, s)
    | some p =>
      match s.derefDir target with
      | .error e => .error e
      | .ok t =>
        if t.subDirs.count name || t.files.count name then .ok (.nameCollision, s)
        else
          -- target->subDirs[name] = curr->subDirs[name];
          match s.modDir target (fun x => { x with subDirs := x.subDirs.set name p }) with
          | .error e => .error e
          | .ok s1 =>
            -- curr->subDirs[name]->parent = target;
            match s1.derefDir c with
            | .error e => .error e
            | .ok d1 =>
              match d1.subDirs.find name with
              | none => .error .undefinedBehaviour
              | some p1 =>
                match s1.modDir p1 (fun x => { x with parent := some target }) with
                | .error e => .error e
                | .ok s2 =>
                  -- curr->subDirs.erase(name);
                  match s2.modDir c (fun x => { x with subDirs := x.subDirs.erase name }) with
                  | .error e => .error e
                  | .ok s3 => .ok (.done, s3)

/-- The member `copyFile`: the constructor reads the clock, then `createdAt` is read again. -/
def copyFile (τ : Nat → Str) (name : Str) (target : Ptr) (s : FileSystem) :
    Except Fault (Reply × FileSystem) :=
  match s.derefCurr with
  | .error e => .error e
  | .ok (_, d) =>
    match d.files.find name with
    | none => .ok (.notFound, s)
    | some fp =>
      match s.derefDir target with
      | .error e => .error e
      | .ok t =>
        if t.files.count name || t.subDirs.count name then .ok (.nameCollision, s)
        else
          match s.derefFile fp with
          | .error e => .error e
          | .ok orig =>
            let (cp, s1) := s.newFile τ orig.name
            let (now, s2) := s1.getTimestamp τ
            match s2.modFile cp
                (fun x => { x with content := orig.content, createdAt := now,
                                   modifiedAt := now }) with
            | .error e => .error e
            | .ok s3 =>
              match s3.modDir target (fun x => { x with files := x.files.set name cp }) with
              | .error e => .error e
              | .ok s4 => .ok (.done, s4)

/-- One round of the file loop of `copyDirectoryHelper`: the file behind `kf` is cloned with
fresh timestamps and stored in `copy` under the key of the original. -/
def copyOneFile (τ : Nat → Str) (copy : Ptr) (kf : Str × Ptr) (s : FileSystem) :
    Except Fault FileSystem :=
  match s.derefFile kf.2 with
  | .error e => .error e
  | .ok orig =>
    let (cp, s1) := s.newFile τ orig.name
    let (now, s2) := s1.getTimestamp τ
    match s2.modFile cp
        (fun x => { x with content := orig.content, createdAt := now, modifiedAt := now }) with
    | .error e => .error e
    | .ok s3 => s3.modDir copy (fun x => { x with files := x.files.set kf.1 cp })

/-- The member `copyDirectoryHelper`.  The two loops run over the maps of `orig` as they are
when the loops start: the body writes only to cells allocated by this call.  `fuel` bounds the
recursion depth. -/
def copyDirectoryHelper (τ : Nat → Str) : Nat → Ptr → Ptr → FileSystem → Except Fault FileSystem
  | 0, _, _, _ => .error .outOfFuel
  | fuel + 1, orig, target, s =>
    match s.derefDir orig with
    | .error e => .error e
    | .ok o =>
      let (copy, s1) := s.newDir o.name (some target)
      match forEach (copyOneFile τ copy) o.files s1 with
      | .error e => .error e
      | .ok s2 =>
        match s2.derefDir orig with
        | .error e => .error e
        | .ok o2 =>
          match forEach (fun kc => copyDirectoryHelper τ fuel kc.2 copy) o2.subDirs s2 with
          | .error e => .error e
          | .ok s3 =>
            match s3.derefDir orig with
            | .error e => .error e
            | .ok o3 => s3.modDir target (fun x => { x with subDirs := x.subDirs.set o3.name copy })

/-- The member `copyDirectory`. -/
def copyDirectory (τ : Nat → Str) (fuel : Nat) (name : Str) (target : Ptr) (s : FileSystem) :
    Except Fault (Reply × FileSystem) :=
  match s.derefCurr with
  | .error e => .error e
  | .ok (_, d) =>
    match d.subDirs.find name with
    | none => .ok (.notFound, s)
    | some orig =>
      match s.derefDir target with
      | .error e => .error e
      | .ok t =>
        if t.subDirs.count name || t.files.count name then .ok (.nameCollision, s)
        else
          match copyDirectoryHelper τ fuel orig target s with
          | .error e => .error e
          | .ok s1 => .ok (.done, s1)


/-! ## Path resolution and cursor movement -/

/-- The tokens that successive calls `getline(ss, token, d)` extract from a string stream:
a token ends at each delimiter, and the characters after the last delimiter form a final token
when there are any. -/
def tokens (d : Char) : Str → List Str
  | [] => []
  | c :: cs =>
    if c = d then [] :: tokens d cs
    else
      match tokens d cs with
      | [] => [[c]]
      | t :: ts => (c :: t) :: ts

/-- The loop of `navigateToPath` over the tokens of the path; `none` is the null pointer. -/
def navLoop (s : FileSystem) : List Str → Ptr → Except Fault (Option Ptr)
  | [], cur => .ok (some cur)
  | t :: ts, cur =>
    if t = [] then navLoop s ts cur
    else
      match s.dir cur with
      | none => .error .undefinedBehaviour
      | some d =>
        match d.subDirs.find t with
        | none => .ok none
        | some c => navLoop s ts c

/-- The member `navigateToPath`. -/
def navigateToPath (s : FileSystem) (relPath : Str) : Except Fault (Option Ptr) :=
  if relPath = [] ∨ relPath = ['/'] then .ok (some s.root)
  else navLoop s (tokens '/' relPath) s.root

/-- The member `changeDirectory`; `choice` is the number read from standard input. -/
def changeDirectory (choice : Int) (s : FileSystem) : Except Fault (Reply × FileSystem) :=
  match s.derefCurr with
  | .error e => .error e
  | .ok (_, d) =>
    let names := d.subDirs.keys ++ (if d.parent.isSome then [['.', '.']] else [])
    if names = [] then .ok (.notFound, s)
    else if choice < 1 ∨ choice > names.length then .ok (.invalidSelection, s)
    else
      let selected := names.getD (choice - 1).toNat []
      if selected = ['.', '.'] then .ok (.done, { s with curr := d.parent })
      else .ok (.done, { s with curr := d.subDirs.find selected })

/-- Substring test `text.find(pat) != npos`. -/
def hasSubstr (pat : Str) : Str → Bool
  | [] => pat = []
  | c :: cs => (pat.isPrefixOf (c :: cs)) || hasSubstr pat cs

/-- The names `searchFiles` prints, in printing order. -/
def searchFiles (pattern : Str) (s : FileSystem) : Except Fault (List Str) :=
  match s.derefCurr with
  | .error e => .error e
  | .ok (_, d) => .ok (d.files.keys.filter (hasSubstr pattern))

end FileSystem

/-! ## The persistence codec -/

/-- The modulus of `size_t` arithmetic. -/
def sizeMod : Nat := 18446744073709551616

/-- The constant `std::string::npos`. -/
def npos : Nat := 18446744073709551615

/-- Addition of `size_t` values. -/
def szAdd (a b : Nat) : Nat := (a + b) % sizeMod

/-- Subtraction of `size_t` values. -/
def szSub (a b : Nat) : Nat := (a + (sizeMod - b % sizeMod)) % sizeMod

/-- The index of the first occurrence of a byte. -/
def findIdx (c : Char) : Str → Option Nat
  | [] => none
  | x :: xs => if x = c then some 0 else (findIdx c xs).map (· + 1)

/-- The call `l.find(c, pos)`. -/
def sfind (l : Str) (c : Char) (pos : Nat) : Nat :=
  match findIdx c (l.drop pos) with
  | some i => pos + i
  | none => npos

/-- The call `l.find_last_of(c)`. -/
def sfindLast (l : Str) (c : Char) : Nat :=
  match findIdx c l.reverse with
  | some i => l.length - 1 - i
  | none => npos

/-- The call `l.substr(pos, n)`; `std::out_of_range` when `pos` exceeds the size. -/
def substr (l : Str) (pos n : Nat) : Except Fault Str :=
  if pos > l.length then .error .uncaught else .ok ((l.drop pos).take n)

/-- The C locale `isspace`. -/
def isSpace (c : Char) : Bool := c = ' ' ∨ (9 ≤ c.toNat ∧ c.toNat ≤ 13)

/-- The C locale `isdigit`. -/
def isDigit (c : Char) : Bool := 48 ≤ c.toNat ∧ c.toNat ≤ 57

/-- The number a run of decimal digits denotes. -/
def digitsValue (ds : Str) : Nat := ds.foldl (fun a c => 10 * a + (c.toNat - 48)) 0

/-- The call `std::stoul(l)`: leading white space and an optional sign are skipped, the longest
run of digits is converted; `std::invalid_argument` when there is no digit,
`std::out_of_range` when the number does not fit `unsigned long`. -/
def stoul (l : Str) : Except Fault Nat :=
  let l1 := l.dropWhile isSpace
  let neg := l1.head? = some '-'
  let l2 := if l1.head? = some '-' ∨ l1.head? = some '+' then l1.drop 1 else l1
  let ds := l2.takeWhile isDigit
  if ds = [] then .error .uncaught
  else if digitsValue ds ≥ sizeMod then .error .uncaught
  else .ok (if neg then (sizeMod - digitsValue ds) % sizeMod else digitsValue ds)

/-- The decimal digits of `n`, most significant first, at most `fuel` of them. -/
def decDigits : Nat → Nat → Str
  | 0, _ => []
  | fuel + 1, n =>
    if n < 10 then [Char.ofNat (48 + n)]
    else decDigits fuel (n / 10) ++ [Char.ofNat (48 + n % 10)]

/-- The text `out << n` writes for a `size_t`. -/
def toDecimal (n : Nat) : Str := decDigits (n + 1) n

/-- The call `getline(in, line)` on the unread part of a stream: `none` when nothing is left,
otherwise the line and the unread part after its newline. -/
def getline (inp : Str) : Option (Str × Str) :=
  match inp with
  | [] => none
  | _ :: _ => some (inp.takeWhile (· ≠ '\n'), (inp.dropWhile (· ≠ '\n')).drop 1)

/-- A buffer of `len` zero bytes after `in.read(&content[0], len)`, and the unread part of
the stream: bytes the stream cannot supply stay zero. -/
def readBytes (inp : Str) (len : Nat) : Str × Str :=
  (inp.take len ++ List.replicate (len - inp.length) (Char.ofNat 0), inp.drop len)

/-- The statements `string content(len, 0); if (len) in.read(&content[0], len);`, where the
allocator grants at most `avail` bytes: the constructor throws `std::length_error` when `len`
is above `max_size()` and `std::bad_alloc` when the buffer cannot be allocated, and nothing
catches either; otherwise the buffer is read from the stream. -/
def readN (avail : Nat) (inp : Str) (len : Nat) : Except Fault (Str × Str) :=
  if maxSize < len then .error .uncaught
  else if avail < len then .error .uncaught
  else .ok (readBytes inp len)

namespace FileSystem

/-- The helper `ensureDir`, as its loop over the tokens of the path, from directory `cur`. -/
def ensureLoop : List Str → Ptr → FileSystem → Except Fault (Ptr × FileSystem)
  | [], cur, s => .ok (cur, s)
  | t :: ts, cur, s =>
    if t = [] then ensureLoop ts cur s
    else
      match s.dir cur with
      | none => .error .undefinedBehaviour
      | some d =>
        match d.subDirs.find t with
        | some c => ensureLoop ts c s
        | none =>
          let (neo, s1) := s.newDir t (some cur)
          match s1.modDir cur (fun x => { x with subDirs := x.subDirs.set t neo }) with
          | .error e => .error e
          | .ok s2 => ensureLoop ts neo s2

/-- The helper `ensureDir(root, relPath)`. -/
def ensureDir (s : FileSystem) (relPath : Str) : Except Fault (Ptr × FileSystem) :=
  ensureLoop (tokens '/' relPath) s.root s

/-- The record `saveToDisk` writes for a subdirectory entry of the directory at `path`. -/
def dirRecord (path : Str) (kc : Str × Ptr) : Str :=
  ['D', '|'] ++ (path ++ ['/'] ++ kc.1) ++ ['\n']

/-- The record `saveToDisk` writes for a file of the directory at `path`. -/
def fileRecord (path : Str) (f : File) : Str :=
  ['F', '|'] ++ (path ++ ['/'] ++ f.name) ++ ['|'] ++ f.createdAt ++ ['|'] ++ f.modifiedAt
    ++ ['|'] ++ toDecimal f.content.length ++ ['\n'] ++ f.content ++ ['\n']

/-- The file loop of `saveToDisk` for one directory. -/
def fileRecords (s : FileSystem) (path : Str) : PMap → Except Fault Str
  | [] => .ok []
  | kf :: r =>
    match s.derefFile kf.2 with
    | .error e => .error e
    | .ok f =>
      match fileRecords s path r with
      | .error e => .error e
      | .ok rest => .ok (fileRecord path f ++ rest)

/-- The queue loop of `saveToDisk`: the bytes written from a queue state on; `fuel` bounds
the number of directories taken off the queue. -/
def saveLoop (s : FileSystem) : Nat → List (Ptr × Str) → Except Fault Str
  | _, [] => .ok []
  | 0, _ :: _ => .error .outOfFuel
  | fuel + 1, (p, path) :: q =>
    match s.derefDir p with
    | .error e => .error e
    | .ok d =>
      match fileRecords s path d.files with
      | .error e => .error e
      | .ok fr =>
        match saveLoop s fuel (q ++ d.subDirs.map (fun kc => (kc.2, path ++ ['/'] ++ kc.1))) with
        | .error e => .error e
        | .ok rest => .ok ((d.subDirs.map (dirRecord path)).flatten ++ fr ++ rest)

/-- The member `saveToDisk`: the bytes written to the store. -/
def saveToDisk (fuel : Nat) (s : FileSystem) : Except Fault Str :=
  saveLoop s fuel [(s.root, [])]

/-- The body of the read loop of `loadFromDisk` for a line that starts with "F|"; `rest` is
the unread part of the stream after the line.  The result is the stream and the tree after the
record. -/
def loadFileLine (τ : Nat → Str) (line rest : Str) (s : FileSystem) :
    Except Fault (Str × FileSystem) :=
  let p1 := sfind line '|' 2
  let p2 := sfind line '|' (szAdd p1 1)
  let p3 := sfind line '|' (szAdd p2 1)
  match substr line 2 (szSub p1 2) with
  | .error e => .error e
  | .ok filePath =>
    match substr line (szAdd p1 1) (szSub (szSub p2 p1) 1) with
    | .error e => .error e
    | .ok createdAt =>
      match substr line (szAdd p2 1) (szSub (szSub p3 p2) 1) with
      | .error e => .error e
      | .ok modifiedAt =>
        match substr line (szAdd p3 1) npos with
        | .error e => .error e
        | .ok lenStr =>
          match stoul lenStr with
          | .error e => .error e
          | .ok len =>
            match readN s.avail rest len with
            | .error e => .error e
            | .ok cr =>
              let content := cr.1
              let rest2 := cr.2.drop 1
              let lastSlash := sfindLast filePath '/'
              match (if lastSlash = npos then .ok [] else substr filePath 0 lastSlash) with
              | .error e => .error e
              | .ok dirPart =>
                match substr filePath (szAdd lastSlash 1) npos with
                | .error e => .error e
                | .ok base =>
                  match ensureDir s dirPart with
                  | .error e => .error e
                  | .ok (parent, s1) =>
                    match s1.derefDir parent with
                    | .error e => .error e
                    | .ok pd =>
                      if pd.files.count base then .ok (rest2, s1)
                      else
                        let (fp, s2) := s1.newFile τ base
                        match s2.modFile fp
                            (fun x => { x with createdAt := createdAt, modifiedAt := modifiedAt,
                                               content := content }) with
                        | .error e => .error e
                        | .ok s3 =>
                          match s3.modDir parent
                              (fun x => { x with files := x.files.set base fp }) with
                          | .error e => .error e
                          | .ok s4 => .ok (rest2, s4)

/-- The read loop of `loadFromDisk` on the unread part of the stream; `fuel` bounds the number
of lines read. -/
def loadLoop (τ : Nat → Str) : Nat → Str → FileSystem → Except Fault FileSystem
  | 0, _, _ => .error .outOfFuel
  | fuel + 1, inp, s =>
    match getline inp with
    | none => .ok s
    | some (line, rest) =>
      if line.take 2 = ['D', '|'] then
        match substr line 2 npos with
        | .error e => .error e
        | .ok path =>
          match ensureDir s path with
          | .error e => .error e
          | .ok (_, s1) => loadLoop τ fuel rest s1
      else if line.take 2 = ['F', '|'] then
        match loadFileLine τ line rest s with
        | .error e => .error e
        | .ok (rest2, s1) => loadLoop τ fuel rest2 s1
      else loadLoop τ fuel rest s

/-- The member `loadFromDisk`; `store` is the content of the store file, `none` when the file
cannot be opened.  Every line read consumes at least one byte, so the fuel never runs out. -/
def loadFromDisk (τ : Nat → Str) (store : Option Str) (s : FileSystem) :
    Except Fault FileSystem :=
  match store with
  | none => .ok s
  | some inp =>
    match loadLoop τ (inp.length + 1) inp s with
    | .error e => .error e
    | .ok s1 => .ok { s1 with curr := some s1.root }

end FileSystem

/-! ## Vocabulary of the specification -/

namespace FileSystem

/-- The directory reached from `p` by descending through the subdirectories named in `q`. -/
def walk (s : FileSystem) : Ptr → List Str → Option Ptr
  | p, [] => some p
  | p, k :: ks =>
    match s.dir p with
    | none => none
    | some d =>
      match d.subDirs.find k with
      | none => none
      | some c => walk s c ks

/-- The directory object at the path `q` below the root. -/
def dirAt (s : FileSystem) (q : List Str) : Option Directory :=
  match s.walk s.root q with
  | some p => s.dir p
  | none => none

/-- The file named `k` in the directory at the path `q`. -/
def fileAt (s : FileSystem) (q : List Str) (k : Str) : Option File :=
  match s.dirAt q with
  | none => none
  | some d =>
    match d.files.find k with
    | none => none
    | some fp => s.file fp

/-- What a directory shows: the names of its subdirectories and its files, in map order. -/
def viewAt (s : FileSystem) (q : List Str) : Option (List Str × List (Str × Option File)) :=
  match s.dirAt q with
  | none => none
  | some d => some (d.subDirs.keys, d.files.map (fun kf => (kf.1, s.file kf.2)))

/-- Equality of two trees in directory structure, file names, file content and timestamps:
the same paths lead to directories, and these show the same subdirectory names and the same
files. -/
def SameTree (a b : FileSystem) : Prop := ∀ q, a.viewAt q = b.viewAt q

end FileSystem

/-- A name the store format can carry as a file name: free of the bytes the records use as
delimiters. -/
def okFileName (k : Str) : Bool := !k.contains '/' && !k.contains '|' && !k.contains '\n'

/-- A name the store format can carry as a directory name. -/
def okDirName (k : Str) : Bool := !k.isEmpty && okFileName k

/-- A timestamp the store format can carry. -/
def okStamp (t : Str) : Bool := !t.contains '|' && !t.contains '\n'

/-- The boolean form of `PMap.Sorted`. -/
def PMap.sortedB : PMap → Bool
  | [] => true
  | [_] => true
  | (k, _) :: (k', v') :: r => strLt k k' && PMap.sortedB ((k', v') :: r)

namespace FileSystem

/-- The file entries of a directory are sound for the store: each points to a live file whose
name is its key, with a storable name and storable timestamps, and with a content that is a
`std::string` (no longer than `maxSize`). -/
def storableFiles (s : FileSystem) (m : PMap) : Bool :=
  m.all (fun kf =>
    match s.file kf.2 with
    | none => false
    | some f => decide (f.name = kf.1) && okFileName f.name && okStamp f.createdAt
        && okStamp f.modifiedAt && decide (f.content.length ≤ maxSize))

/-- The subtree below `p` is a storable tree of height below `h`: every directory in it is
live, its maps are in key order, its files are sound and its subdirectories carry storable
names. -/
def storable (s : FileSystem) : Nat → Ptr → Bool
  | 0, _ => false
  | h + 1, p =>
    match s.dir p with
    | none => false
    | some d =>
      d.subDirs.sortedB && d.files.sortedB && s.storableFiles d.files
        && d.subDirs.all (fun kc => okDirName kc.1 && storable s h kc.2)

end FileSystem

/-- The path string `saveToDisk` builds for the directory reached through the names `q`. -/
def pathStr (q : List Str) : Str := (q.map (fun k => '/' :: k)).flatten

/-- A record of the store: a directory with its path, or a file with the path of its
directory. -/
inductive Rec where
  | dir (q : List Str)
  | file (q : List Str) (f : File)

/-- The bytes of a record. -/
def Rec.enc : Rec → Str
  | .dir q => ['D', '|'] ++ pathStr q ++ ['\n']
  | .file q f => FileSystem.fileRecord (pathStr q) f

namespace FileSystem

/-- What `loadFromDisk` does with one record. -/
def applyRec (τ : Nat → Str) (r : Rec) (s : FileSystem) : Except Fault FileSystem :=
  match r with
  | .dir q =>
    match ensureLoop q s.root s with
    | .error e => .error e
    | .ok (_, s1) => .ok s1
  | .file q f =>
    match ensureLoop q s.root s with
    | .error e => .error e
    | .ok (parent, s1) =>
      match s1.derefDir parent with
      | .error e => .error e
      | .ok pd =>
        if pd.files.count f.name then .ok s1
        else
          let (fp, s2) := s1.newFile τ f.name
          match s2.modFile fp
              (fun x => { x with createdAt := f.createdAt, modifiedAt := f.modifiedAt,
                                 content := f.content }) with
          | .error e => .error e
          | .ok s3 => s3.modDir parent (fun x => { x with files := x.files.set f.name fp })

/-- The records of a list applied in order. -/
def applyRecs (τ : Nat → Str) : List Rec → FileSystem → Except Fault FileSystem
  | [], s => .ok s
  | r :: rs, s =>
    match applyRec τ r s with
    | .error e => .error e
    | .ok s1 => applyRecs τ rs s1

end FileSystem

/-- The fields of a record can be told apart, the record fits `size_t`, and the content of
a file record is a `std::string` (no longer than `maxSize`). -/
def Rec.ok : Rec → Prop
  | .dir q => (∀ x ∈ q, okDirName x = true) ∧ (Rec.enc (.dir q)).length < sizeMod
  | .file q f => (∀ x ∈ q, okDirName x = true) ∧ okFileName f.name = true ∧
      okStamp f.createdAt = true ∧ okStamp f.modifiedAt = true ∧
      (Rec.enc (.file q f)).length < sizeMod ∧ f.content.length ≤ maxSize

/-- The allocator grants a buffer for the content of the record when it grants `a` bytes. -/
def Rec.fits (a : Nat) : Rec → Prop
  | .dir _ => True
  | .file _ f => f.content.length ≤ a

/-- A record describes something the tree `t` holds. -/
def Rec.sound (t : FileSystem) : Rec → Prop
  | .dir q => (t.dirAt q).isSome
  | .file q f => t.fileAt q f.name = some f

/-- A record has been taken up by the tree `l`. -/
def Rec.present (l : FileSystem) : Rec → Prop
  | .dir q => (l.dirAt q).isSome
  | .file q f => (l.fileAt q f.name).isSome

/-- The tree `l` is a part of the tree `t`: `φ` sends every directory of `l` to a directory
of `t` with at least the same subdirectories and files. -/
structure Sim (l t : FileSystem) (φ : Ptr → Ptr) : Prop where
  root : φ l.root = t.root
  rootLive : (l.dir l.root).isSome
  dirs : ∀ p d, l.dir p = some d → ∃ d', t.dir (φ p) = some d' ∧
    (∀ k c, (k, c) ∈ d.subDirs → (l.dir c).isSome ∧ d'.subDirs.find k = some (φ c)) ∧
    (∀ k fp, (k, fp) ∈ d.files →
      ∃ f fp', l.file fp = some f ∧ d'.files.find k = some fp' ∧ t.file fp' = some f) ∧
    d.subDirs.Sorted ∧ d.files.Sorted

/-- The tree `l2` holds everything the tree `l1` holds, at the same addresses. -/
structure Grows (l1 l2 : FileSystem) : Prop where
  root : l2.root = l1.root
  dirs : ∀ p d, l1.dir p = some d → ∃ d', l2.dir p = some d' ∧
    (∀ k c, d.subDirs.find k = some c → d'.subDirs.find k = some c) ∧
    (∀ k fp, d.files.find k = some fp → d'.files.find k = some fp)
  files : ∀ fp f, l1.file fp = some f → l2.file fp = some f

namespace FileSystem

/-- The records `saveToDisk` writes while it visits the directory `d` found at the path `q`:
one per subdirectory, then one per file. -/
def blockRecs (s : FileSystem) (q : List Str) (d : Directory) : List Rec :=
  d.subDirs.map (fun kc => Rec.dir (q ++ [kc.1]))
    ++ d.files.filterMap (fun kf => (s.file kf.2).map (Rec.file q))

/-- The queue entries `saveToDisk` adds while it visits the directories of a queue, each with
the names on its path. -/
def kids (s : FileSystem) (qu : List (Ptr × List Str)) : List (Ptr × List Str) :=
  qu.flatMap (fun x =>
    match s.dir x.1 with
    | none => []
    | some d => d.subDirs.map (fun kc => (kc.2, x.2 ++ [kc.1])))

/-- The records `saveToDisk` writes while it visits the directories of a queue. -/
def levelRecs (s : FileSystem) (qu : List (Ptr × List Str)) : List Rec :=
  qu.flatMap (fun x =>
    match s.dir x.1 with
    | none => []
    | some d => s.blockRecs x.2 d)

/-- A queue entry as `saveToDisk` holds it: the directory and its path string. -/
def conc (x : Ptr × List Str) : Ptr × Str := (x.1, pathStr x.2)

end FileSystem

/-- The bytes of a list of records. -/
def encAll (recs : List Rec) : Str := (recs.map Rec.enc).flatten

/-- The names and timestamps of a record are free of the delimiters of the store, and the
content of a file record is a `std::string` (no longer than `maxSize`). -/
def Rec.fields : Rec → Prop
  | .dir q => ∀ x ∈ q, okDirName x = true
  | .file q f => (∀ x ∈ q, okDirName x = true) ∧ okFileName f.name = true ∧
      okStamp f.createdAt = true ∧ okStamp f.modifiedAt = true ∧ f.content.length ≤ maxSize

namespace FileSystem

/-- The file entries of a directory obey the data model: each points to a live file whose
name is its key and whose `modifiedAt` is not before its `createdAt` (I3). -/
def wfFiles (s : FileSystem) (m : PMap) : Bool :=
  m.all (fun kf =>
    match s.file kf.2 with
    | none => false
    | some f => decide (f.name = kf.1) && !strLt f.modifiedAt f.createdAt)

/-- The subtree below `p` obeys the data model and has height below `h`: maps in key order,
no name used twice in a directory (I1), every entry pointing to a live object that carries
the key as its name, every subdirectory pointing back to its parent (I2). -/
def wfTree (s : FileSystem) : Nat → Ptr → Bool
  | 0, _ => false
  | h + 1, p =>
    match s.dir p with
    | none => false
    | some d =>
      d.subDirs.sortedB && d.files.sortedB
        && d.subDirs.keys.all (fun k => !d.files.count k)
        && s.wfFiles d.files
        && d.subDirs.all (fun kc =>
            (match s.dir kc.2 with
              | none => false
              | some c => decide (c.name = kc.1) && decide (c.parent = some p))
            && wfTree s h kc.2)

/-- The file entries of a directory are sound: each points to a live file whose name is its
key.  Nothing is asked of the timestamps. -/
def soundFiles (s : FileSystem) (m : PMap) : Bool :=
  m.all (fun kf =>
    match s.file kf.2 with
    | none => false
    | some f => decide (f.name = kf.1))

/-- The subtree below `p` is sound and has height below `h`: maps in key order, as `std::map`
keeps them, and every entry pointing to a live object that carries the key as its name.
Nothing is asked of the names of one directory (I1), of the parent links (I2) or of the
timestamps of the files (I3). -/
def soundTree (s : FileSystem) : Nat → Ptr → Bool
  | 0, _ => false
  | h + 1, p =>
    match s.dir p with
    | none => false
    | some d =>
      d.subDirs.sortedB && d.files.sortedB
        && s.soundFiles d.files
        && d.subDirs.all (fun kc =>
            (match s.dir kc.2 with
              | none => false
              | some c => decide (c.name = kc.1))
            && soundTree s h kc.2)

/-- The tree obeys the data model: the root has no parent, the tree below it is well formed
with height below `h`, and the cursor is a live directory. -/
def wellFormed (s : FileSystem) (h : Nat) : Bool :=
  (match s.dir s.root with
    | none => false
    | some r => decide (r.parent = none))
  && s.wfTree h s.root
  && (match s.curr with
    | none => false
    | some c => (s.dir c).isSome)

end FileSystem

/-- A clock that always shows the same time, for the concrete runs below. -/
def noon : Nat → Str := fun _ => "2024-01-01 12:00:00".toList

/-- The tree after `makeDirectory("a/b")` on a fresh tree. -/
def slashTree : FileSystem :=
  { dirs := [some ⟨"root".toList, none, [("a/b".toList, 1)], []⟩,
             some ⟨"a/b".toList, some 0, [], []⟩],
    fls := [], root := 0, curr := some 0, ticks := 0 }

/-- The tree `loadFromDisk` builds from the store of `slashTree`. -/
def slashLoaded : FileSystem :=
  { dirs := [some ⟨"root".toList, none, [("a".toList, 1)], []⟩,
             some ⟨"a".toList, some 0, [("b".toList, 2)], []⟩,
             some ⟨"b".toList, some 1, [], []⟩],
    fls := [], root := 0, curr := some 0, ticks := 0 }

/-- The tree of the scenario: directory "docs" with the file "a.txt" holding "hello\n". -/
def docsTree : FileSystem :=
  { dirs := [some ⟨"root".toList, none, [("docs".toList, 1)], []⟩,
             some ⟨"docs".toList, some 0, [], [("a.txt".toList, 0)]⟩],
    fls := [some ⟨"a.txt".toList, "hello\n".toList, "2024-01-01 12:00:00".toList,
                  "2024-01-01 12:00:00".toList⟩],
    root := 0, curr := some 1, ticks := 2 }

/-- A tree with one directory "a" below the root, cursor on the root. -/
def selfTree : FileSystem :=
  { dirs := [some ⟨"root".toList, none, [("a".toList, 1)], []⟩,
             some ⟨"a".toList, some 0, [], []⟩],
    fls := [], root := 0, curr := some 0, ticks := 0 }

/-- The heap after `moveDirectory("a", a)` on `selfTree`: "a" is its own child and its own
parent, and the root is empty. -/
def selfMoved : FileSystem :=
  { dirs := [some ⟨"root".toList, none, [], []⟩,
             some ⟨"a".toList, some 1, [("a".toList, 1)], []⟩],
    fls := [], root := 0, curr := some 0, ticks := 0 }

/-- The directory reached from `p` by following `parent` links `n` times; `none` when a link
is null or dangling. -/
def FileSystem.ancestor (s : FileSystem) : Nat → Ptr → Option Ptr
  | 0, p => some p
  | n + 1, p =>
    match s.dir p with
    | none => none
    | some d =>
      match d.parent with
      | none => none
      | some q => FileSystem.ancestor s n q

namespace FileSystem

/-- The directories of the subtree below `p`, down to depth `h`. -/
def subtreeDirs (s : FileSystem) : Nat → Ptr → List Ptr
  | 0, _ => []
  | h + 1, p =>
    match s.dir p with
    | none => []
    | some d => p :: d.subDirs.flatMap (fun kc => subtreeDirs s h kc.2)

/-- The files of the subtree below `p`, down to depth `h`. -/
def subtreeFiles (s : FileSystem) : Nat → Ptr → List Ptr
  | 0, _ => []
  | h + 1, p =>
    match s.dir p with
    | none => []
    | some d => d.files.map (fun kf => kf.2) ++ d.subDirs.flatMap (fun kc => subtreeFiles s h kc.2)

/-- Every directory and every file of the subtree below `p` is live, and the subtree has
height below `h`. -/
def liveTree (s : FileSystem) : Nat → Ptr → Bool
  | 0, _ => false
  | h + 1, p =>
    match s.dir p with
    | none => false
    | some d =>
      d.files.all (fun kf => (s.file kf.2).isSome) && d.subDirs.all (fun kc => liveTree s h kc.2)

/-- The subtree below `p` is a tree of live objects of height below `h`, each owned once
(no directory and no file is reached twice). -/
def ownedTree (s : FileSystem) (h : Nat) (p : Ptr) : Prop :=
  s.liveTree h p = true ∧ (s.subtreeDirs h p).Nodup ∧ (s.subtreeFiles h p).Nodup

/-- Ownership of a concrete subtree can be checked. -/
instance decOwnedTree (s : FileSystem) (h : Nat) (p : Ptr) : Decidable (s.ownedTree h p) := by
  unfold ownedTree
  exact inferInstance

end FileSystem

/-- No two children of a directory, of either kind, share a name. -/
def NamesUnique (d : Directory) : Prop := (d.subDirs.keys ++ d.files.keys).Nodup

/-- Uniqueness of names in a concrete directory can be checked. -/
instance decNamesUnique (d : Directory) : Decidable (NamesUnique d) := by
  unfold NamesUnique
  exact inferInstance

/-- Invariant I1 for every live directory of the heap. -/
def I1 (s : FileSystem) : Prop :=
  s.dirs.all (fun x =>
    match x with
    | none => true
    | some d => decide (NamesUnique d)) = true

/-- Invariant I1 of a concrete heap can be checked. -/
instance decI1 (s : FileSystem) : Decidable (I1 s) := by
  unfold I1
  exact inferInstance

/-- The subtree below `p'` in the state `b` is a copy of the subtree below `p` in the state
`a`, of height below the index: the directory at `p'` has address at least `lo`, parent
`par` and the name of the original, the same subdirectory names and file names as the
original, every file is a `File` object at an address from `flo` on with the name and the
content of the original file, and the subdirectories are copies in the same way. -/
def CloneR (a b : FileSystem) (lo flo : Nat) : Nat → Ptr → Ptr → Ptr → Prop
  | 0, _, _, _ => False
  | h + 1, p, p', par =>
    ∃ d d', a.dir p = some d ∧ b.dir p' = some d' ∧ lo ≤ p' ∧ d'.name = d.name ∧
      d'.parent = some par ∧ d'.subDirs.Sorted ∧ d'.files.Sorted ∧
      (∀ k, (d'.files.find k).isSome = (d.files.find k).isSome) ∧
      (∀ k fp fp', d.files.find k = some fp → d'.files.find k = some fp' →
        flo ≤ fp' ∧ ∃ f f', a.file fp = some f ∧ b.file fp' = some f' ∧
          f'.name = f.name ∧ f'.content = f.content) ∧
      (∀ k, (d'.subDirs.find k).isSome = (d.subDirs.find k).isSome) ∧
      (∀ k c c', d.subDirs.find k = some c → d'.subDirs.find k = some c' →
        CloneR a b lo flo h c c' p')

/-- A tree with a nested source: "src" holds the file "f" and the directory "in", which holds
the file "g"; next to it the empty directory "dst".  The cursor is on the root. -/
def copyTree : FileSystem :=
  { dirs := [some ⟨"root".toList, none, [("dst".toList, 3), ("src".toList, 1)], []⟩,
             some ⟨"src".toList, some 0, [("in".toList, 2)], [("f".toList, 0)]⟩,
             some ⟨"in".toList, some 1, [], [("g".toList, 1)]⟩,
             some ⟨"dst".toList, some 0, [], []⟩],
    fls := [some ⟨"f".toList, "one".toList, "2024-01-01 12:00:00".toList,
                  "2024-01-01 12:00:00".toList⟩,
            some ⟨"g".toList, "two\n".toList, "2024-01-01 12:00:00".toList,
                  "2024-01-01 12:00:00".toList⟩],
    root := 0, curr := some 0, ticks := 2 }

/-- The directory at `p'` in the state `b` is a fresh copy of the directory at `p` in the
state `a`: a new object with the same name, the same subdirectory names and the same file
names, in which every file is a new `File` object with the name and the content of the
original file. -/
def CopyOf (a b : FileSystem) (p p' : Ptr) : Prop :=
  ∃ d d', a.dir p = some d ∧ b.dir p' = some d' ∧ a.dir p' = none ∧ d'.name = d.name ∧
    (∀ k, (d'.subDirs.find k).isSome = (d.subDirs.find k).isSome) ∧
    (∀ k, (d'.files.find k).isSome = (d.files.find k).isSome) ∧
    (∀ k fp fp', d.files.find k = some fp → d'.files.find k = some fp' →
      a.file fp' = none ∧ ∃ f f', a.file fp = some f ∧ b.file fp' = some f' ∧
        f'.name = f.name ∧ f'.content = f.content)

end FSim

namespace FSim

/-- The example tree `copyTree` after "src" has been copied into "dst" while the clock shows
noon. -/
def copyTreeCopied : FileSystem :=
  { dirs := [some ⟨"root".toList, none, [("dst".toList, 3), ("src".toList, 1)], []⟩,
             some ⟨"src".toList, some 0, [("in".toList, 2)], [("f".toList, 0)]⟩,
             some ⟨"in".toList, some 1, [], [("g".toList, 1)]⟩,
             some ⟨"dst".toList, some 0, [("src".toList, 4)], []⟩,
             some ⟨"src".toList, some 3, [("in".toList, 5)], [("f".toList, 2)]⟩,
             some ⟨"in".toList, some 4, [], [("g".toList, 3)]⟩],
    fls := [some ⟨"f".toList, "one".toList, "2024-01-01 12:00:00".toList,
                  "2024-01-01 12:00:00".toList⟩,
            some ⟨"g".toList, "two\n".toList, "2024-01-01 12:00:00".toList,
                  "2024-01-01 12:00:00".toList⟩,
            some ⟨"f".toList, "one".toList, "2024-01-01 12:00:00".toList,
                  "2024-01-01 12:00:00".toList⟩,
            some ⟨"g".toList, "two\n".toList, "2024-01-01 12:00:00".toList,
                  "2024-01-01 12:00:00".toList⟩],
    root := 0, curr := some 0, ticks := 6 }

/-- Every file at an address from `L` on carries, as `createdAt` and as `modifiedAt`, one
reading of the clock `τ` taken at some tick from `T` on and before the current tick. -/
def Stamped (τ : Nat → Str) (L T : Nat) (σ : FileSystem) : Prop :=
  T ≤ σ.ticks ∧ ∀ f x, L ≤ f → σ.file f = some x →
    ∃ t, T ≤ t ∧ t < σ.ticks ∧ x.createdAt = τ t ∧ x.modifiedAt = τ t

end FSim

namespace FSim

/-- The segments of a path string: the pieces between the slashes, the empty ones left out
(the tokens `navigateToPath` does not skip). -/
def segments (p : Str) : List Str :=
  (FileSystem.tokens '/' p).filter (fun t => !decide (t = []))

end FSim

namespace FSim

/-- The cells of a chain of directories, from the address `self` on: the directory `name`
with parent `par` holds the first directory of the list, that one holds the next, and so on;
the last directory of the chain holds the files `fs` and nothing else. -/
def chain (name : Str) (par : Option Ptr) (self : Nat) (fs : PMap) :
    List Str → List (Option Directory)
  | [] => [some ⟨name, par, [], fs⟩]
  | d :: ds => some ⟨name, par, [(d, self + 1)], []⟩ :: chain d (some self) (self + 1) fs ds

/-- The tree that holds the directories `d1`, `d1/d2`, ... of the path `q`, each below the
one before, the file `f` in the last of them (in the root when `q` is empty), and nothing
else; the clock has been read once. -/
def singleFileTree (q : List Str) (f : File) : FileSystem :=
  { dirs := chain ['r', 'o', 'o', 't'] none 0 [(f.name, 0)] q, fls := [some f], root := 0,
    curr := some 0, ticks := 1 }

end FSim

namespace FSim

/-- The tree has no dangling directory pointer: the root is live, and every subdirectory
entry of a live directory leads to a live directory. -/
def Closed (s : FileSystem) : Prop :=
  (s.dir s.root).isSome ∧
    ∀ p d k c, s.dir p = some d → d.subDirs.find k = some c → (s.dir c).isSome

namespace FileSystem

/-- The end of the loop body of `loadFromDisk` for a file record, from the test
`parent->files.count(base)` on: an existing file of that name is kept, otherwise a new file
with the fields of the record is stored under `base`. -/
def putFile (τ : Nat → Str) (parent : Ptr) (base createdAt modifiedAt content : Str)
    (s1 : FileSystem) : Except Fault FileSystem :=
  match s1.derefDir parent with
  | .error e => .error e
  | .ok pd =>
    if pd.files.count base then .ok s1
    else
      let (fp, s2) := s1.newFile τ base
      match s2.modFile fp
          (fun x => { x with createdAt := createdAt, modifiedAt := modifiedAt,
                             content := content }) with
      | .error e => .error e
      | .ok s3 => s3.modDir parent (fun x => { x with files := x.files.set base fp })

end FileSystem

/-- The fresh tree of the constructor in a run whose allocator grants at most `a` bytes for
a buffer; `initIn maxSize` is `init`. -/
def initIn (a : Nat) : FileSystem := { FileSystem.init with avail := a }

/-- What the loop body of `loadFromDisk` reads from a file record before it touches the
tree. -/
structure FileFields where
  dirPart : Str
  base : Str
  createdAt : Str
  modifiedAt : Str
  content : Str
  rest : Str

/-- The part of the loop body of `loadFromDisk` for a line that starts with "F|" that does
not depend on the tree: the fields cut out of the line, the content read from the stream
into a buffer the allocator grants when it has `avail` bytes, and the unread part of the
stream after the record. -/
def parseFileLine (avail : Nat) (line rest : Str) : Except Fault FileFields :=
  let p1 := sfind line '|' 2
  let p2 := sfind line '|' (szAdd p1 1)
  let p3 := sfind line '|' (szAdd p2 1)
  match substr line 2 (szSub p1 2) with
  | .error e => .error e
  | .ok filePath =>
    match substr line (szAdd p1 1) (szSub (szSub p2 p1) 1) with
    | .error e => .error e
    | .ok createdAt =>
      match substr line (szAdd p2 1) (szSub (szSub p3 p2) 1) with
      | .error e => .error e
      | .ok modifiedAt =>
        match substr line (szAdd p3 1) npos with
        | .error e => .error e
        | .ok lenStr =>
          match stoul lenStr with
          | .error e => .error e
          | .ok len =>
            match readN avail rest len with
            | .error e => .error e
            | .ok cr =>
              let content := cr.1
              let rest2 := cr.2.drop 1
              let lastSlash := sfindLast filePath '/'
              match (if lastSlash = npos then .ok [] else substr filePath 0 lastSlash) with
              | .error e => .error e
              | .ok dirPart =>
                match substr filePath (szAdd lastSlash 1) npos with
                | .error e => .error e
                | .ok base => .ok ⟨dirPart, base, createdAt, modifiedAt, content, rest2⟩

end FSim

namespace FSim

/-! ## Runs of the program -/

/-- A request the menus pass to the `FileSystem` object, with what the user types for it:
names, the path of a target, the text for a file, the answer to a prompt. -/
inductive Cmd where
  | makeDirectory (name : Str)
  | createFile (name : Str)
  | batchCreateFiles (input : Str)
  | deleteDirectoryByName (name : Str)
  | deleteFileByName (name : Str)
  | renameDirectory (oldN newN : Str)
  | renameFile (oldN newN : Str)
  | writeFile (name : Str) (append : Bool) (input : List Str)
  | moveFile (name path : Str)
  | moveDirectory (name path : Str)
  | copyFile (name path : Str)
  | copyDirectory (name path : Str)
  | deleteAll (confirm : Char)
  | changeDirectory (choice : Int)

/-- The state an operation leaves, without the message it prints. -/
def stateOf (r : Except Fault (Reply × FileSystem)) : Except Fault FileSystem :=
  match r with
  | .error e => .error e
  | .ok (_, s) => .ok s

/-- The branch of `contentOps` for a move or a copy: the target path is resolved with
`navigateToPath`, a null result is reported as "INVALID PATH", otherwise the operation is
called with the directory found. -/
def withTarget (s : FileSystem) (path : Str)
    (op : Ptr → FileSystem → Except Fault (Reply × FileSystem)) : Except Fault FileSystem :=
  match FileSystem.navigateToPath s path with
  | .error e => .error e
  | .ok none => .ok s
  | .ok (some t) => stateOf (op t s)

/-- One request carried out; `fuel` bounds the recursion of the delete and copy helpers. -/
def Cmd.run (τ : Nat → Str) (fuel : Nat) : Cmd → FileSystem → Except Fault FileSystem
  | .makeDirectory n, s => stateOf (FileSystem.makeDirectory n s)
  | .createFile n, s => stateOf (FileSystem.createFile τ n s)
  | .batchCreateFiles inp, s => FileSystem.batchCreateFiles τ inp s
  | .deleteDirectoryByName n, s => stateOf (FileSystem.deleteDirectoryByName fuel n s)
  | .deleteFileByName n, s => stateOf (FileSystem.deleteFileByName n s)
  | .renameDirectory o n, s => stateOf (FileSystem.renameDirectory o n s)
  | .renameFile o n, s => stateOf (FileSystem.renameFile o n s)
  | .writeFile n a inp, s => stateOf (FileSystem.writeFile τ n a inp s)
  | .moveFile n p, s => withTarget s p (FileSystem.moveFile n)
  | .moveDirectory n p, s => withTarget s p (FileSystem.moveDirectory n)
  | .copyFile n p, s => withTarget s p (FileSystem.copyFile τ n)
  | .copyDirectory n p, s => withTarget s p (FileSystem.copyDirectory τ fuel n)
  | .deleteAll c, s => stateOf (FileSystem.deleteAll fuel c s)
  | .changeDirectory c, s => stateOf (FileSystem.changeDirectory c s)

/-- The states a run of the program passes through: the constructor loads the store into the
fresh tree, then the requests are carried out one after the other. -/
inductive Reach (τ : Nat → Str) (fuel : Nat) (store : Option Str) : FileSystem → Prop
  | start {s : FileSystem} :
      FileSystem.loadFromDisk τ store FileSystem.init = .ok s → Reach τ fuel store s
  | step {s s' : FileSystem} (c : Cmd) :
      Reach τ fuel store s → c.run τ fuel s = .ok s' → Reach τ fuel store s'

/-- Invariant I3 with what keeps it: every file has `modifiedAt` not before `createdAt`, and
no reading of the clock from now on is before its `createdAt`. -/
def TimeOrdered (τ : Nat → Str) (s : FileSystem) : Prop :=
  ∀ fp f, s.file fp = some f →
    strLt f.modifiedAt f.createdAt = false ∧
      ∀ t, s.ticks ≤ t → strLt (τ t) f.createdAt = false

/-- A clock that goes back by an hour after its first reading. -/
def fallBack : Nat → Str := fun t =>
  if t = 0 then "2024-10-27 02:30:00".toList else "2024-10-27 02:00:00".toList

end FSim

namespace FSim

/-- A store whose only record is a file with `createdAt` a day after `modifiedAt`. -/
def lateStore : Str := "F|/f|2024-01-02 00:00:00|2024-01-01 00:00:00|0\n\n".toList

/-- The tree the constructor builds from `lateStore`. -/
def lateTree : FileSystem :=
  { dirs := [some ⟨"root".toList, none, [], [("f".toList, 0)]⟩],
    fls := [some ⟨"f".toList, [], "2024-01-02 00:00:00".toList, "2024-01-01 00:00:00".toList⟩],
    root := 0, curr := some 0, ticks := 1 }

/-- The tree after `createFile("f")` on the fresh tree under the clock `fallBack`. -/
def fallBackMade : FileSystem :=
  { dirs := [some ⟨"root".toList, none, [], [("f".toList, 0)]⟩],
    fls := [some ⟨"f".toList, [], "2024-10-27 02:30:00".toList,
                  "2024-10-27 02:30:00".toList⟩],
    root := 0, curr := some 0, ticks := 1 }

/-- The tree after `createFile("f")` and a write of the line "x" to "f" under the clock
`fallBack`, from the fresh tree. -/
def fallBackTree : FileSystem :=
  { dirs := [some ⟨"root".toList, none, [], [("f".toList, 0)]⟩],
    fls := [some ⟨"f".toList, "x\n".toList, "2024-10-27 02:30:00".toList,
                  "2024-10-27 02:00:00".toList⟩],
    root := 0, curr := some 0, ticks := 2 }

/-- A store whose only record is a file created and modified a year before `noon`. -/
def earlyStore : Str := "F|/f|2023-01-01 00:00:00|2023-01-02 00:00:00|0\n\n".toList

/-- The tree the constructor builds from `earlyStore`. -/
def earlyTree : FileSystem :=
  { dirs := [some ⟨"root".toList, none, [], [("f".toList, 0)]⟩],
    fls := [some ⟨"f".toList, [], "2023-01-01 00:00:00".toList, "2023-01-02 00:00:00".toList⟩],
    root := 0, curr := some 0, ticks := 1 }

/-- The tree `earlyTree` after a write of the line "x" to "f" at `noon`. -/
def earlyWritten : FileSystem :=
  { dirs := [some ⟨"root".toList, none, [], [("f".toList, 0)]⟩],
    fls := [some ⟨"f".toList, "x\n".toList, "2023-01-01 00:00:00".toList,
                  "2024-01-01 12:00:00".toList⟩],
    root := 0, curr := some 0, ticks := 2 }

/-- A store with a directory record and a file record for the same path "/x". -/
def clashStore : Str := "D|/x\nF|/x|2024-01-01 12:00:00|2024-01-01 12:00:00|0\n\n".toList

/-- The tree the constructor builds from `clashStore`: the root holds a subdirectory "x" and
a file "x". -/
def clashTree : FileSystem :=
  { dirs := [some ⟨"root".toList, none, [("x".toList, 1)], [("x".toList, 0)]⟩,
             some ⟨"x".toList, some 0, [], []⟩],
    fls := [some ⟨"x".toList, [], "2024-01-01 12:00:00".toList, "2024-01-01 12:00:00".toList⟩],
    root := 0, curr := some 0, ticks := 1 }

/-- The tree after `makeDirectory("a/b")` and `createFile("a")` on the fresh tree at `noon`. -/
def slashFileTree : FileSystem :=
  { dirs := [some ⟨"root".toList, none, [("a/b".toList, 1)], [("a".toList, 0)]⟩,
             some ⟨"a/b".toList, some 0, [], []⟩],
    fls := [some ⟨"a".toList, [], "2024-01-01 12:00:00".toList, "2024-01-01 12:00:00".toList⟩],
    root := 0, curr := some 0, ticks := 1 }

/-- The store `saveToDisk` writes for `slashFileTree`. -/
def slashFileStore : Str := "D|/a/b\nF|/a|2024-01-01 12:00:00|2024-01-01 12:00:00|0\n\n".toList

/-- The tree the constructor builds from `slashFileStore`: the root holds a subdirectory "a"
and a file "a". -/
def slashFileLoaded : FileSystem :=
  { dirs := [some ⟨"root".toList, none, [("a".toList, 1)], [("a".toList, 0)]⟩,
             some ⟨"a".toList, some 0, [("b".toList, 2)], []⟩,
             some ⟨"b".toList, some 1, [], []⟩],
    fls := [some ⟨"a".toList, [], "2024-01-01 12:00:00".toList, "2024-01-01 12:00:00".toList⟩],
    root := 0, curr := some 0, ticks := 1 }

/-- The tree `selfTree` with the cursor in the directory "a". -/
def insideTree : FileSystem :=
  { dirs := [some ⟨"root".toList, none, [("a".toList, 1)], []⟩,
             some ⟨"a".toList, some 0, [], []⟩],
    fls := [], root := 0, curr := some 1, ticks := 0 }

/-- The heap after a confirmed `deleteAll` on `insideTree`: the directory "a" is deleted and
the cursor still holds its address. -/
def danglingTree : FileSystem :=
  { dirs := [some ⟨"root".toList, none, [], []⟩, none],
    fls := [], root := 0, curr := some 1, ticks := 0 }

/-- The tree after `makeDirectory("..")` on the fresh tree. -/
def dotsTree : FileSystem :=
  { dirs := [some ⟨"root".toList, none, [("..".toList, 1)], []⟩,
             some ⟨"..".toList, some 0, [], []⟩],
    fls := [], root := 0, curr := some 0, ticks := 0 }

/-- The tree `dotsTree` after the first entry of the list of `changeDirectory` is chosen:
the cursor is null. -/
def dotsGone : FileSystem :=
  { dirs := [some ⟨"root".toList, none, [("..".toList, 1)], []⟩,
             some ⟨"..".toList, some 0, [], []⟩],
    fls := [], root := 0, curr := none, ticks := 0 }

end FSim

namespace FSim

/-- The root is the directory the constructor makes: its name is "root" and it has no
parent. -/
def Rooted (s : FileSystem) : Prop :=
  ∃ r, s.dir s.root = some r ∧ r.name = "root".toList ∧ r.parent = none

/-- Rootedness of a concrete tree can be checked. -/
instance decRooted (s : FileSystem) : Decidable (Rooted s) :=
  match h : s.dir s.root with
  | none => isFalse (fun ⟨r, hr, _⟩ => by rw [h] at hr; cases hr)
  | some r =>
    if h1 : r.name = "root".toList ∧ r.parent = none then isTrue ⟨r, h, h1.1, h1.2⟩
    else isFalse (fun ⟨r', hr', h2⟩ => by rw [h] at hr'; cases hr'; exact h1 h2)

namespace FileSystem

end FileSystem

end FSim

namespace FSim

namespace FileSystem

/-- The directories `saveToDisk` takes off its queue, in the order it visits them, each with
the names on its path: the directories of the queue, then the ones their visits add, level by
level; `h` bounds the number of levels. -/
def bfsDirs (s : FileSystem) : Nat → List (Ptr × List Str) → List (Ptr × List Str)
  | 0, _ => []
  | h + 1, qu => qu ++ bfsDirs s h (s.kids qu)

/-- The directories of the tree in the order `saveToDisk` visits them, from the root. -/
def visited (s : FileSystem) (h : Nat) : List (Ptr × List Str) :=
  s.bfsDirs h [(s.root, [])]

/-- The records of the stream `saveToDisk` writes for a tree of height below `h`. -/
def saveRecs (s : FileSystem) (h : Nat) : List Rec :=
  s.levelRecs (s.visited h)

/-- The files held by the directories of a list, in the order of the list and of the
maps. -/
def filePtrs (s : FileSystem) (v : List (Ptr × List Str)) : List Ptr :=
  v.flatMap (fun x =>
    match s.dir x.1 with
    | none => []
    | some d => d.files.map (fun kf => kf.2))

/-- The maps of every directory are in key order, as `std::map` keeps them, and every file
is stored under its name. -/
def keyed (s : FileSystem) : Bool :=
  s.dirs.all (fun x =>
    match x with
    | none => true
    | some d =>
      d.subDirs.sortedB && d.files.sortedB &&
        d.files.all (fun kf =>
          match s.file kf.2 with
          | none => true
          | some f => decide (f.name = kf.1)))

end FileSystem

/-- The depth in the tree of the node a record describes; the root has depth 0. -/
def Rec.depth : Rec → Nat
  | .dir q => q.length
  | .file q _ => q.length + 1

/-- The record is a directory record. -/
def Rec.isDir : Rec → Bool
  | .dir _ => true
  | .file _ _ => false

/-- The file of a file record. -/
def Rec.toFile : Rec → Option File
  | .dir _ => none
  | .file _ f => some f

end FSim

namespace FSim

/-! ## The order on strings -/

theorem strLt_irrefl (a : Str) : strLt a a = false := by
  induction a with
  | nil => rfl
  | cons x xs ih => simp [strLt, ih]

theorem strLt_trans : ∀ a b c : Str, strLt a b = true → strLt b c = true → strLt a c = true
  | [], [], _, h, _ => by simp [strLt] at h
  | [], _ :: _, [], _, h => by simp [strLt] at h
  | [], _ :: _, _ :: _, _, _ => by simp [strLt]
  | _ :: _, [], _, h, _ => by simp [strLt] at h
  | _ :: _, _ :: _, [], _, h => by simp [strLt] at h
  | x :: xs, y :: ys, z :: zs, h1, h2 => by
    simp only [strLt] at h1 h2 ⊢
    have ih := strLt_trans xs ys zs
    split_ifs at h1 h2 ⊢ <;> first | rfl | omega | (exact ih h1 h2)

theorem strLt_total : ∀ a b : Str, strLt a b = false → a ≠ b → strLt b a = true
  | [], [], _, h => absurd rfl h
  | [], _ :: _, h, _ => by simp [strLt] at h
  | _ :: _, [], _, _ => by simp [strLt]
  | x :: xs, y :: ys, h, hne => by
    simp only [strLt] at h ⊢
    split_ifs at h ⊢ <;> first | rfl | omega | skip
    have hxy : x = y := by
      apply Char.ext; apply UInt32.ext
      show x.toNat = y.toNat
      omega
    subst hxy
    exact strLt_total xs ys h (fun e => hne (by rw [e]))

theorem strLt_ne {a b : Str} (h : strLt a b = true) : a ≠ b := by
  intro e; subst e; rw [strLt_irrefl] at h; exact Bool.noConfusion h

namespace PMap

@[simp] theorem find_nil (k : Str) : find [] k = none := rfl

theorem find_cons (k' : Str) (v : Ptr) (r : PMap) (k : Str) :
    find ((k', v) :: r) k = if k' = k then some v else find r k := rfl

theorem find_mem : ∀ {m : PMap} {k : Str} {v : Ptr}, find m k = some v → (k, v) ∈ m
  | [], _, _, h => by simp at h
  | (k', v') :: r, k, v, h => by
    rw [find_cons] at h
    split_ifs at h with e
    · cases h; subst e; exact List.mem_cons_self _ _
    · exact List.mem_cons_of_mem _ (find_mem h)

theorem find_none_iff {m : PMap} {k : Str} : find m k = none ↔ k ∉ keys m := by
  induction m with
  | nil => simp [keys]
  | cons x r ih =>
    obtain ⟨k', v'⟩ := x
    rw [find_cons]
    by_cases e : k' = k
    · simp [e, keys]
    · simp only [e, if_false, ih, keys, List.map_cons, List.mem_cons, not_or]
      constructor
      · intro h; exact ⟨fun e2 => e e2.symm, h⟩
      · intro h; exact h.2

theorem find_isSome_iff {m : PMap} {k : Str} : (find m k).isSome ↔ k ∈ keys m := by
  rw [← not_iff_not, Bool.not_eq_true, Option.not_isSome, Option.isNone_iff_eq_none, find_none_iff]

theorem count_eq_true {m : PMap} {k : Str} : count m k = true ↔ k ∈ keys m := find_isSome_iff

theorem count_eq_false {m : PMap} {k : Str} : count m k = false ↔ find m k = none := by
  unfold count; cases find m k <;> simp

theorem mem_keys_of_mem {m : PMap} {k : Str} {v : Ptr} (h : (k, v) ∈ m) : k ∈ keys m :=
  List.mem_map.2 ⟨(k, v), h, rfl⟩

theorem find_of_mem_nodup : ∀ {m : PMap} {k : Str} {v : Ptr}, (keys m).Nodup → (k, v) ∈ m →
    find m k = some v
  | [], _, _, _, h => by simp at h
  | (k', v') :: r, k, v, hn, h => by
    simp only [keys, List.map_cons, List.nodup_cons] at hn
    rw [find_cons]
    rcases List.mem_cons.1 h with e | h'
    · cases e; simp
    · have : k' ≠ k := fun e => hn.1 (e ▸ mem_keys_of_mem h')
      simp only [this, if_false]
      exact find_of_mem_nodup hn.2 h'

theorem find_set (m : PMap) (k : Str) (v : Ptr) (k' : Str) :
    find (set m k v) k' = if k = k' then some v else find m k' := by
  induction m with
  | nil => simp [set, find_cons]
  | cons x r ih =>
    obtain ⟨k0, v0⟩ := x
    simp only [set]
    split_ifs with h1 h2 h3 h4 <;> simp_all [find_cons]

theorem mem_set {m : PMap} {k : Str} {v : Ptr} {x : Str × Ptr} (h : x ∈ set m k v) :
    x = (k, v) ∨ x ∈ m := by
  induction m with
  | nil => simp [set] at h; exact Or.inl h
  | cons y r ih =>
    obtain ⟨k0, v0⟩ := y
    simp only [set] at h
    split_ifs at h with h1 h2
    · rcases List.mem_cons.1 h with e | e
      · exact Or.inl e
      · exact Or.inr (List.mem_cons_of_mem _ e)
    · rcases List.mem_cons.1 h with e | e
      · exact Or.inl e
      · exact Or.inr e
    · rcases List.mem_cons.1 h with e | e
      · exact Or.inr (e ▸ List.mem_cons_self _ _)
      · rcases ih e with e' | e'
        · exact Or.inl e'
        · exact Or.inr (List.mem_cons_of_mem _ e')

theorem mem_keys_set {m : PMap} {k : Str} {v : Ptr} {k' : Str} :
    k' ∈ keys (set m k v) ↔ k' = k ∨ k' ∈ keys m := by
  rw [← find_isSome_iff, ← find_isSome_iff, find_set]
  split_ifs with e
  · simp [e]
  · have e' : ¬ k' = k := fun h => e h.symm
    simp [e']

theorem mem_erase {m : PMap} {k : Str} {x : Str × Ptr} (h : x ∈ erase m k) : x ∈ m := by
  induction m with
  | nil => simp [erase] at h
  | cons y r ih =>
    obtain ⟨k0, v0⟩ := y
    simp only [erase] at h
    split_ifs at h with h1
    · exact List.mem_cons_of_mem _ h
    · rcases List.mem_cons.1 h with e | e
      · exact e ▸ List.mem_cons_self _ _
      · exact List.mem_cons_of_mem _ (ih e)

theorem find_erase_ne (m : PMap) {k k' : Str} (h : k ≠ k') :
    find (erase m k) k' = find m k' := by
  induction m with
  | nil => rfl
  | cons y r ih =>
    obtain ⟨k0, v0⟩ := y
    simp only [erase]
    split_ifs with h1
    · subst h1; simp [find_cons, h]
    · simp [find_cons, ih]

theorem keys_erase_sublist (m : PMap) (k : Str) : (keys (erase m k)).Sublist (keys m) := by
  induction m with
  | nil => exact List.Sublist.refl _
  | cons y r ih =>
    obtain ⟨k0, v0⟩ := y
    simp only [erase]
    split_ifs with h1
    · exact List.Sublist.cons _ (List.Sublist.refl _)
    · exact List.Sublist.cons₂ _ ih

theorem find_erase_self {m : PMap} (k : Str) (hn : (keys m).Nodup) :
    find (erase m k) k = none := by
  induction m with
  | nil => rfl
  | cons y r ih =>
    obtain ⟨k0, v0⟩ := y
    simp only [keys, List.map_cons, List.nodup_cons] at hn
    simp only [erase]
    split_ifs with h1
    · subst h1; exact find_none_iff.2 hn.1
    · simp [find_cons, h1, ih hn.2]

theorem mem_keys_erase {m : PMap} {k k' : Str} (hn : (keys m).Nodup) :
    k' ∈ keys (erase m k) ↔ k' ≠ k ∧ k' ∈ keys m := by
  rw [← find_isSome_iff, ← find_isSome_iff]
  by_cases e : k = k'
  · subst e; simp [find_erase_self k hn]
  · have e' : ¬ k' = k := fun h => e h.symm
    rw [find_erase_ne m e]; simp [e']

theorem nodup_keys_erase {m : PMap} (k : Str) (hn : (keys m).Nodup) :
    (keys (erase m k)).Nodup := hn.sublist (keys_erase_sublist m k)

theorem keys_set_perm {m : PMap} {k : Str} {v : Ptr} (h : k ∉ keys m) :
    (keys (set m k v)).Perm (k :: keys m) := by
  induction m with
  | nil => simp [set, keys]
  | cons y r ih =>
    obtain ⟨k0, v0⟩ := y
    simp only [keys, List.map_cons, List.mem_cons, not_or] at h
    simp only [set]
    split_ifs with h1 h2
    · exact absurd h1.symm h.1
    · exact List.Perm.refl _
    · simp only [keys, List.map_cons]
      exact ((ih h.2).cons k0).trans (List.Perm.swap _ _ _)

theorem nodup_keys_set {m : PMap} {k : Str} {v : Ptr} (hn : (keys m).Nodup) (h : k ∉ keys m) :
    (keys (set m k v)).Nodup :=
  (keys_set_perm h).nodup_iff.2 (List.nodup_cons.2 ⟨h, hn⟩)

end PMap

end FSim

namespace FSim

open FileSystem

/-! ## Strings: tokens, lines, searching and numbers -/

theorem tokens_cons_ne {d c : Char} (h : c ≠ d) (cs : Str) :
    tokens d (c :: cs) = match tokens d cs with
      | [] => [[c]]
      | t :: ts => (c :: t) :: ts := by
  rw [tokens]; simp only [h, if_false]

theorem tokens_cons_eq (d : Char) (cs : Str) : tokens d (d :: cs) = [] :: tokens d cs := by
  rw [tokens]; simp only [if_true]

theorem tokens_sep (d : Char) : ∀ (t rest : Str), d ∉ t →
    tokens d (t ++ d :: rest) = t :: tokens d rest
  | [], rest, _ => by rw [List.nil_append, tokens_cons_eq]
  | c :: cs, rest, h => by
    have hc : c ≠ d := fun e => h (e ▸ List.mem_cons_self _ _)
    have ih := tokens_sep d cs rest (fun m => h (List.mem_cons_of_mem _ m))
    rw [List.cons_append, tokens_cons_ne hc, ih]

theorem tokens_last (d : Char) : ∀ (t : Str), d ∉ t → t ≠ [] → tokens d t = [t]
  | [], _, h => absurd rfl h
  | [c], h, _ => by
    have hc : c ≠ d := fun e => h (e ▸ List.mem_cons_self _ _)
    rw [tokens_cons_ne hc]; rfl
  | c :: c' :: cs, h, _ => by
    have hc : c ≠ d := fun e => h (e ▸ List.mem_cons_self _ _)
    have ih := tokens_last d (c' :: cs) (fun m => h (List.mem_cons_of_mem _ m)) (by simp)
    rw [tokens_cons_ne hc, ih]

theorem okFileName_iff {k : Str} :
    okFileName k = true ↔ '/' ∉ k ∧ '|' ∉ k ∧ '\n' ∉ k := by
  simp [okFileName, List.contains_iff_exists_mem_beq, and_assoc]

theorem okDirName_iff {k : Str} :
    okDirName k = true ↔ k ≠ [] ∧ '/' ∉ k ∧ '|' ∉ k ∧ '\n' ∉ k := by
  simp [okDirName, okFileName_iff, List.isEmpty_iff]

theorem okStamp_iff {t : Str} : okStamp t = true ↔ '|' ∉ t ∧ '\n' ∉ t := by
  simp [okStamp, List.contains_iff_exists_mem_beq]

theorem pathStr_nil : pathStr [] = [] := rfl

theorem pathStr_cons (k : Str) (q : List Str) : pathStr (k :: q) = '/' :: (k ++ pathStr q) := by
  simp [pathStr]

theorem pathStr_snoc (q : List Str) (k : Str) : pathStr (q ++ [k]) = pathStr q ++ ['/'] ++ k := by
  simp [pathStr]

theorem tokens_name_pathStr : ∀ (q : List Str) (k : Str), okDirName k = true →
    (∀ x ∈ q, okDirName x = true) → tokens '/' (k ++ pathStr q) = k :: q
  | [], k, hk, _ => by
    rw [okDirName_iff] at hk
    simpa [pathStr_nil] using tokens_last '/' k hk.2.1 hk.1
  | k' :: q, k, hk, hq => by
    have hk2 := okDirName_iff.1 hk
    rw [pathStr_cons, tokens_sep '/' k _ hk2.2.1,
      tokens_name_pathStr q k' (hq k' (List.mem_cons_self _ _))
        (fun x hx => hq x (List.mem_cons_of_mem _ hx))]

theorem tokens_pathStr (q : List Str) (hq : ∀ x ∈ q, okDirName x = true) :
    (tokens '/' (pathStr q)).filter (fun t => !decide (t = [])) = q := by
  cases q with
  | nil => simp [pathStr_nil, tokens]
  | cons k q =>
    rw [pathStr_cons, tokens_cons_eq]
    rw [tokens_name_pathStr q k (hq k (List.mem_cons_self _ _))
      (fun x hx => hq x (List.mem_cons_of_mem _ hx))]
    have hne : ∀ x ∈ k :: q, (!decide (x = [])) = true := by
      intro x hx
      have := (okDirName_iff.1 (hq x hx)).1
      simpa using this
    rw [List.filter_cons_of_neg (by simp)]
    exact List.filter_eq_self.2 hne

theorem not_mem_pathStr (c : Char) (hc : c ≠ '/') (q : List Str) (hq : ∀ x ∈ q, c ∉ x) :
    c ∉ pathStr q := by
  induction q with
  | nil => simp [pathStr_nil]
  | cons k q ih =>
    rw [pathStr_cons]
    simp only [List.mem_cons, List.mem_append, not_or]
    exact ⟨hc, hq k (List.mem_cons_self _ _), ih (fun x hx => hq x (List.mem_cons_of_mem _ hx))⟩

theorem takeWhile_until (c : Char) : ∀ (l rest : Str), c ∉ l →
    (l ++ c :: rest).takeWhile (fun x => decide (x ≠ c)) = l
  | [], rest, _ => by simp [List.takeWhile]
  | x :: xs, rest, h => by
    have hx : x ≠ c := fun e => h (e ▸ List.mem_cons_self _ _)
    have ih := takeWhile_until c xs rest (fun m => h (List.mem_cons_of_mem _ m))
    have hd : decide (x ≠ c) = true := by simp [hx]
    rw [List.cons_append, List.takeWhile_cons]
    simp only [hd, if_true, ih]

theorem dropWhile_until (c : Char) : ∀ (l rest : Str), c ∉ l →
    (l ++ c :: rest).dropWhile (fun x => decide (x ≠ c)) = c :: rest
  | [], rest, _ => by simp [List.dropWhile]
  | x :: xs, rest, h => by
    have hx : x ≠ c := fun e => h (e ▸ List.mem_cons_self _ _)
    have ih := dropWhile_until c xs rest (fun m => h (List.mem_cons_of_mem _ m))
    have hd : decide (x ≠ c) = true := by simp [hx]
    rw [List.cons_append, List.dropWhile_cons]
    simp only [hd, if_true, ih]

theorem getline_line (l rest : Str) (h : '\n' ∉ l) :
    getline (l ++ '\n' :: rest) = some (l, rest) := by
  have e1 := takeWhile_until '\n' l rest h
  have e2 := dropWhile_until '\n' l rest h
  cases l with
  | nil =>
    simp only [List.nil_append] at e1 e2
    simp only [List.nil_append, getline, e1, e2, List.drop_succ_cons, List.drop_zero]
  | cons x xs =>
    simp only [List.cons_append] at e1 e2
    simp only [List.cons_append, getline, e1, e2, List.drop_succ_cons, List.drop_zero]

theorem findIdx_at (c : Char) : ∀ (a b : Str), c ∉ a → findIdx c (a ++ c :: b) = some a.length
  | [], b, _ => by simp [findIdx]
  | x :: xs, b, h => by
    have hx : x ≠ c := fun e => h (e ▸ List.mem_cons_self _ _)
    have ih := findIdx_at c xs b (fun m => h (List.mem_cons_of_mem _ m))
    simp [findIdx, hx, ih]

theorem findIdx_none (c : Char) : ∀ (a : Str), c ∉ a → findIdx c a = none
  | [], _ => rfl
  | x :: xs, h => by
    have hx : x ≠ c := fun e => h (e ▸ List.mem_cons_self _ _)
    have ih := findIdx_none c xs (fun m => h (List.mem_cons_of_mem _ m))
    simp [findIdx, hx, ih]

theorem sfind_at (line pre a b : Str) (c : Char) (pos : Nat) (hl : line = pre ++ (a ++ c :: b))
    (hp : pos = pre.length) (hc : c ∉ a) : sfind line c pos = pre.length + a.length := by
  subst hl hp
  simp [sfind, findIdx_at c a b hc]

theorem substr_mid (line pre a b : Str) (pos n : Nat) (hl : line = pre ++ (a ++ b))
    (hp : pos = pre.length) (hn : n = a.length) : substr line pos n = .ok a := by
  subst hl hp hn
  simp [substr]

theorem substr_end (line pre a : Str) (pos n : Nat) (hl : line = pre ++ a)
    (hp : pos = pre.length) (hn : a.length ≤ n) : substr line pos n = .ok a := by
  subst hl hp
  simp [substr, List.take_of_length_le hn]

theorem sfindLast_at (a b : Str) (c : Char) (hc : c ∉ b) :
    sfindLast (a ++ c :: b) c = a.length := by
  have : (a ++ c :: b).reverse = b.reverse ++ c :: a.reverse := by simp
  simp only [sfindLast, this]
  rw [findIdx_at c b.reverse a.reverse (by simpa using hc)]
  simp

theorem szAdd_small {a b : Nat} (h : a + b < sizeMod) : szAdd a b = a + b := by
  simp [szAdd, Nat.mod_eq_of_lt h]

theorem szSub_small {a b : Nat} (hb : b ≤ a) (ha : a < sizeMod) : szSub a b = a - b := by
  unfold szSub
  have hb' : b % sizeMod = b := Nat.mod_eq_of_lt (by omega)
  rw [hb']
  have : a + (sizeMod - b) = (a - b) + sizeMod := by omega
  rw [this, Nat.add_mod_right, Nat.mod_eq_of_lt (by omega)]

/-! ### Decimal numbers -/

theorem toNat_digit {d : Nat} (h : d < 10) : (Char.ofNat (48 + d)).toNat = 48 + d := by
  interval_cases d <;> rfl

theorem isDigit_digit {d : Nat} (h : d < 10) : isDigit (Char.ofNat (48 + d)) = true := by
  interval_cases d <;> rfl

theorem isSpace_digit {d : Nat} (h : d < 10) : isSpace (Char.ofNat (48 + d)) = false := by
  interval_cases d <;> rfl

theorem digit_ne {d : Nat} (h : d < 10) (c : Char) (hc : isDigit c = false) :
    Char.ofNat (48 + d) ≠ c := by
  intro e; rw [← e, isDigit_digit h] at hc; exact Bool.noConfusion hc

theorem digitsValue_append (a : Str) (c : Char) :
    digitsValue (a ++ [c]) = 10 * digitsValue a + (c.toNat - 48) := by
  simp [digitsValue, List.foldl_append]

theorem decDigits_spec : ∀ (fuel n : Nat), n < 10 ^ fuel → 0 < fuel →
    digitsValue (decDigits fuel n) = n ∧ (∀ c ∈ decDigits fuel n, isDigit c = true) ∧
      decDigits fuel n ≠ []
  | 0, _, _, h => absurd h (by decide)
  | fuel + 1, n, hn, _ => by
    simp only [decDigits]
    split_ifs with h10
    · refine ⟨?_, ?_, by simp⟩
      · simp [digitsValue, toNat_digit h10]
      · intro c hc
        rw [List.mem_singleton] at hc
        rw [hc]; exact isDigit_digit h10
    · have hf : 0 < fuel := by
        rcases Nat.eq_zero_or_pos fuel with e | e
        · subst e; simp at hn; omega
        · exact e
      have hlt : n / 10 < 10 ^ fuel := by
        rw [Nat.div_lt_iff_lt_mul (by decide)]
        calc n < 10 ^ (fuel + 1) := hn
          _ = 10 ^ fuel * 10 := by rw [pow_succ]
      obtain ⟨h1, h2, _⟩ := decDigits_spec fuel (n / 10) hlt hf
      have hm : n % 10 < 10 := Nat.mod_lt _ (by decide)
      refine ⟨?_, ?_, by simp⟩
      · rw [digitsValue_append, h1, toNat_digit hm]
        omega
      · intro c hc
        rcases List.mem_append.1 hc with hc | hc
        · exact h2 c hc
        · rw [List.mem_singleton] at hc
          rw [hc]; exact isDigit_digit hm

theorem lt_ten_pow_succ (n : Nat) : n < 10 ^ (n + 1) := by
  calc n < 2 ^ n := Nat.lt_two_pow n
    _ ≤ 10 ^ n := Nat.pow_le_pow_left (by decide) n
    _ ≤ 10 ^ (n + 1) := Nat.pow_le_pow_right (by decide) (Nat.le_succ n)

theorem toDecimal_spec (n : Nat) :
    digitsValue (toDecimal n) = n ∧ (∀ c ∈ toDecimal n, isDigit c = true) ∧ toDecimal n ≠ [] :=
  decDigits_spec (n + 1) n (lt_ten_pow_succ n) (Nat.succ_pos n)

theorem isDigit_not_delim {c : Char} (h : isDigit c = true) :
    c ≠ '|' ∧ c ≠ '\n' ∧ c ≠ '-' ∧ c ≠ '+' ∧ isSpace c = false := by
  refine ⟨?_, ?_, ?_, ?_, ?_⟩
  · intro e; subst e; exact absurd h (by decide)
  · intro e; subst e; exact absurd h (by decide)
  · intro e; subst e; exact absurd h (by decide)
  · intro e; subst e; exact absurd h (by decide)
  · simp only [isDigit, decide_eq_true_eq, Bool.decide_and, Bool.and_eq_true] at h
    simp only [isSpace, Bool.decide_or, Bool.decide_and, Bool.or_eq_false_iff,
      decide_eq_false_iff_not, Bool.and_eq_false_iff]
    constructor
    · intro e; subst e; revert h; decide
    · right; omega

theorem stoul_toDecimal (n : Nat) (hn : n < sizeMod) : stoul (toDecimal n) = .ok n := by
  obtain ⟨h1, h2, h3⟩ := toDecimal_spec n
  obtain ⟨c, cs, hcs⟩ := List.exists_cons_of_ne_nil h3
  have hc := isDigit_not_delim (h2 c (hcs ▸ List.mem_cons_self _ _))
  have e1 : (toDecimal n).dropWhile isSpace = toDecimal n := by
    rw [hcs]; simp [List.dropWhile, hc.2.2.2.2]
  have e2 : (toDecimal n).takeWhile isDigit = toDecimal n :=
    List.takeWhile_eq_self_iff.2 h2
  have e3 : (toDecimal n).head? = some c := by rw [hcs]; rfl
  have m1 : ¬ (some c = some '-') := fun e => hc.2.2.1 (Option.some.inj e)
  have m2 : ¬ (some c = some '+') := fun e => hc.2.2.2.1 (Option.some.inj e)
  simp only [stoul, e1, e3, m1, m2, or_self, if_false, e2, h3, h1, decide_False,
    Bool.false_eq_true, ge_iff_le, Nat.not_le.2 hn]

theorem readBytes_exact (content rest : Str) :
    readBytes (content ++ rest) content.length = (content, rest) := by
  simp [readBytes]

/-- The buffer is granted when the length is within `maxSize` and within what the allocator
has. -/
theorem readN_ok {avail len : Nat} (inp : Str) (h1 : len ≤ maxSize) (h2 : len ≤ avail) :
    readN avail inp len = .ok (readBytes inp len) := by
  unfold readN
  rw [if_neg (Nat.not_lt.2 h1), if_neg (Nat.not_lt.2 h2)]

/-- The constructor throws when the length is above `maxSize` or above what the allocator
has. -/
theorem readN_error {avail len : Nat} (inp : Str) (h : maxSize < len ∨ avail < len) :
    readN avail inp len = .error .uncaught := by
  unfold readN
  by_cases h1 : maxSize < len
  · rw [if_pos h1]
  · rw [if_neg h1, if_pos (h.resolve_left h1)]

theorem readN_ok_eq {avail len : Nat} {inp : Str} {cr : Str × Str}
    (h : readN avail inp len = .ok cr) :
    cr = readBytes inp len ∧ len ≤ maxSize ∧ len ≤ avail := by
  unfold readN at h
  split at h
  · cases h
  · split at h
    · cases h
    · cases h
      exact ⟨rfl, by omega, by omega⟩

theorem readN_uncaught {avail len : Nat} {inp : Str} {e : Fault}
    (h : readN avail inp len = .error e) : e = .uncaught := by
  unfold readN at h
  split at h
  · cases h; rfl
  · split at h
    · cases h; rfl
    · cases h

theorem readN_exact (avail : Nat) (content rest : Str) (h1 : content.length ≤ maxSize)
    (h2 : content.length ≤ avail) :
    readN avail (content ++ rest) content.length = .ok (content, rest) := by
  rw [readN_ok _ h1 h2, readBytes_exact]

end FSim

namespace FSim

open FileSystem

/-! ## One record through the read loop -/

theorem ensureLoop_filter : ∀ (ts : List Str) (cur : Ptr) (s : FileSystem),
    ensureLoop ts cur s = ensureLoop (ts.filter (fun t => !decide (t = []))) cur s
  | [], _, _ => rfl
  | t :: ts, cur, s => by
    by_cases ht : t = []
    · subst ht
      rw [List.filter_cons_of_neg (by simp)]
      rw [ensureLoop]
      simp only [if_true]
      exact ensureLoop_filter ts cur s
    · rw [List.filter_cons_of_pos (by simp [ht])]
      rw [ensureLoop, ensureLoop]
      simp only [ht, if_false]
      cases s.dir cur with
      | none => rfl
      | some d =>
        simp only
        cases d.subDirs.find t with
        | some c => simp only; exact ensureLoop_filter ts c s
        | none =>
          simp only
          split
          · rfl
          · exact ensureLoop_filter ts _ _

theorem ensureDir_pathStr (s : FileSystem) (q : List Str) (hq : ∀ x ∈ q, okDirName x = true) :
    ensureDir s (pathStr q) = ensureLoop q s.root s := by
  rw [ensureDir, ensureLoop_filter, tokens_pathStr q hq]

theorem loadLoop_dir (τ : Nat → Str) (fuel : Nat) (q : List Str) (rest : Str) (s : FileSystem)
    (hr : Rec.ok (.dir q)) :
    loadLoop τ (fuel + 1) (Rec.enc (.dir q) ++ rest) s =
      match applyRec τ (.dir q) s with
      | .error e => .error e
      | .ok s1 => loadLoop τ fuel rest s1 := by
  obtain ⟨hq, hlen⟩ := hr
  have hnl : '\n' ∉ (['D', '|'] ++ pathStr q) := by
    simp only [List.cons_append, List.nil_append, List.mem_cons, not_or]
    refine ⟨by decide, by decide, ?_⟩
    exact not_mem_pathStr '\n' (by decide) q (fun x hx => (okDirName_iff.1 (hq x hx)).2.2.2)
  have e : Rec.enc (.dir q) ++ rest = (['D', '|'] ++ pathStr q) ++ '\n' :: rest := by
    simp [Rec.enc]
  have hl : (pathStr q).length ≤ npos := by
    simp only [Rec.enc, List.length_append, List.length_cons, List.length_nil] at hlen
    have : sizeMod = npos + 1 := rfl
    omega
  rw [e, loadLoop, getline_line _ _ hnl]
  have h2 : (['D', '|'] ++ pathStr q).take 2 = ['D', '|'] := rfl
  have h3 : substr (['D', '|'] ++ pathStr q) 2 npos = .ok (pathStr q) :=
    substr_end _ ['D', '|'] _ _ _ rfl rfl hl
  simp only [h2, if_true, h3, ensureDir_pathStr s q hq, applyRec]
  cases ensureLoop q s.root s with
  | error e => rfl
  | ok r => rfl

theorem loadFileLine_enc (τ : Nat → Str) (q : List Str) (f : File) (rest : Str)
    (s : FileSystem) (hr : Rec.ok (.file q f)) (hfit : f.content.length ≤ s.avail) (line : Str)
    (hline : line = ['F', '|'] ++ (pathStr q ++ ['/'] ++ f.name) ++ ['|'] ++ f.createdAt
      ++ ['|'] ++ f.modifiedAt ++ ['|'] ++ toDecimal f.content.length) :
    loadFileLine τ line (f.content ++ '\n' :: rest) s =
      match applyRec τ (.file q f) s with
      | .error e => .error e
      | .ok s1 => .ok (rest, s1) := by
  obtain ⟨hq, hname, hca, hma, hlen, hmax⟩ := hr
  rw [okFileName_iff] at hname
  rw [okStamp_iff] at hca hma
  obtain ⟨hd1, hd2, hd3⟩ := toDecimal_spec f.content.length
  have hlen0 := hlen
  simp only [Rec.enc, fileRecord, List.length_append, List.length_cons,
    List.length_nil] at hlen0
  obtain ⟨fp, hfp⟩ : ∃ fp, fp = pathStr q ++ ['/'] ++ f.name := ⟨_, rfl⟩
  obtain ⟨ca, hcaE⟩ : ∃ ca, ca = f.createdAt := ⟨_, rfl⟩
  obtain ⟨ma, hmaE⟩ : ∃ ma, ma = f.modifiedAt := ⟨_, rfl⟩
  obtain ⟨dec, hdec⟩ : ∃ dec, dec = toDecimal f.content.length := ⟨_, rfl⟩
  rw [← hfp, ← hcaE, ← hmaE, ← hdec] at hline
  rw [← hcaE] at hca
  rw [← hmaE] at hma
  have hfl : fp.length = (pathStr q).length + 1 + f.name.length := by
    simp [hfp]; omega
  have hlen1 : 2 + fp.length + 1 + ca.length + 1 + ma.length + 1 + dec.length
      + f.content.length + 2 < sizeMod := by
    rw [hfl, hcaE, hmaE, hdec]; omega
  clear hlen0
  have hfpbar : '|' ∉ fp := by
    simp only [hfp, List.mem_append, List.mem_singleton, not_or]
    exact ⟨⟨not_mem_pathStr '|' (by decide) q (fun x hx => (okDirName_iff.1 (hq x hx)).2.2.1),
      by decide⟩, hname.2.1⟩
  have hsz : sizeMod = npos + 1 := rfl
  have hll : line.length = 2 + fp.length + 1 + ca.length + 1 + ma.length + 1 + dec.length := by
    simp only [hline, List.length_append, List.length_cons, List.length_nil]
  -- the three delimiters
  have hp1 : sfind line '|' 2 = 2 + fp.length :=
    sfind_at line ['F', '|'] fp (ca ++ '|' :: (ma ++ '|' :: dec)) '|' 2
      (by simp [hline]) rfl hfpbar
  have ha1 : szAdd (2 + fp.length) 1 = 2 + fp.length + 1 := szAdd_small (by omega)
  have hp2 : sfind line '|' (2 + fp.length + 1) = 2 + fp.length + 1 + ca.length := by
    have := sfind_at line (['F', '|'] ++ fp ++ ['|']) ca (ma ++ '|' :: dec) '|'
      (2 + fp.length + 1) (by simp [hline]) (by simp <;> omega) hca.1
    simpa [Nat.add_comm, Nat.add_left_comm, Nat.add_assoc] using this
  have ha2 : szAdd (2 + fp.length + 1 + ca.length) 1 = 2 + fp.length + 1 + ca.length + 1 :=
    szAdd_small (by omega)
  have hp3 : sfind line '|' (2 + fp.length + 1 + ca.length + 1)
      = 2 + fp.length + 1 + ca.length + 1 + ma.length := by
    have := sfind_at line (['F', '|'] ++ fp ++ ['|'] ++ ca ++ ['|']) ma dec '|'
      (2 + fp.length + 1 + ca.length + 1) (by simp [hline]) (by simp <;> omega) hma.1
    simpa [Nat.add_comm, Nat.add_left_comm, Nat.add_assoc] using this
  have ha3 : szAdd (2 + fp.length + 1 + ca.length + 1 + ma.length) 1
      = 2 + fp.length + 1 + ca.length + 1 + ma.length + 1 := szAdd_small (by omega)
  have hs1 : szSub (2 + fp.length) 2 = fp.length := by
    have e1 := @szSub_small (2 + fp.length) 2 (by omega) (by omega)
    rw [e1]; omega
  have hs2 : szSub (szSub (2 + fp.length + 1 + ca.length) (2 + fp.length)) 1 = ca.length := by
    have e1 := @szSub_small (2 + fp.length + 1 + ca.length) (2 + fp.length) (by omega) (by omega)
    have e2 := @szSub_small (2 + fp.length + 1 + ca.length - (2 + fp.length)) 1 (by omega)
      (by omega)
    rw [e1, e2]; omega
  have hs3 : szSub (szSub (2 + fp.length + 1 + ca.length + 1 + ma.length)
      (2 + fp.length + 1 + ca.length)) 1 = ma.length := by
    have e1 := @szSub_small (2 + fp.length + 1 + ca.length + 1 + ma.length)
      (2 + fp.length + 1 + ca.length) (by omega) (by omega)
    have e2 := @szSub_small (2 + fp.length + 1 + ca.length + 1 + ma.length
      - (2 + fp.length + 1 + ca.length)) 1 (by omega) (by omega)
    rw [e1, e2]; omega
  -- the four fields
  have hf1 : substr line 2 fp.length = .ok fp :=
    substr_mid line ['F', '|'] fp ('|' :: (ca ++ '|' :: (ma ++ '|' :: dec))) 2 _
      (by simp [hline]) rfl rfl
  have hf2 : substr line (2 + fp.length + 1) ca.length = .ok ca :=
    substr_mid line (['F', '|'] ++ fp ++ ['|']) ca ('|' :: (ma ++ '|' :: dec)) _ _
      (by simp [hline]) (by simp <;> omega) rfl
  have hf3 : substr line (2 + fp.length + 1 + ca.length + 1) ma.length = .ok ma :=
    substr_mid line (['F', '|'] ++ fp ++ ['|'] ++ ca ++ ['|']) ma ('|' :: dec) _ _
      (by simp [hline]) (by simp <;> omega) rfl
  have hf4 : substr line (2 + fp.length + 1 + ca.length + 1 + ma.length + 1) npos = .ok dec :=
    substr_end line (['F', '|'] ++ fp ++ ['|'] ++ ca ++ ['|'] ++ ma ++ ['|']) dec _ _
      (by simp [hline]) (by simp <;> omega) (by omega)
  have hst : stoul dec = .ok f.content.length := hdec ▸ stoul_toDecimal _ (by omega)
  have hrd : readN s.avail (f.content ++ '\n' :: rest) f.content.length
      = .ok (f.content, '\n' :: rest) := readN_exact _ _ _ hmax hfit
  -- the path and the base name
  have hls : sfindLast fp '/' = (pathStr q).length := by
    have : fp = pathStr q ++ '/' :: f.name := by simp [hfp]
    rw [this]; exact sfindLast_at _ _ _ hname.1
  have hne : (pathStr q).length ≠ npos := by
    have : (pathStr q).length ≤ fp.length := by omega
    omega
  have hdp : substr fp 0 (pathStr q).length = .ok (pathStr q) :=
    substr_mid fp [] (pathStr q) ('/' :: f.name) 0 _ (by simp [hfp]) rfl rfl
  have ha4 : szAdd (pathStr q).length 1 = (pathStr q).length + 1 := by
    have : (pathStr q).length ≤ fp.length := by omega
    exact szAdd_small (by omega)
  have hbs : substr fp ((pathStr q).length + 1) npos = .ok f.name :=
    substr_end fp (pathStr q ++ ['/']) f.name _ _ (by simp [hfp]) (by simp)
      (by omega)
  subst hcaE hmaE
  simp only [loadFileLine, hp1, ha1, hp2, ha2, hp3, ha3, hs1, hs2, hs3, hf1, hf2, hf3, hf4, hst,
    hrd, hls, hne, if_false, hdp, ha4, hbs, ensureDir_pathStr s q hq, applyRec,
    List.drop_succ_cons, List.drop_zero]
  cases ensureLoop q s.root s with
  | error e => rfl
  | ok r =>
    obtain ⟨parent, s1⟩ := r
    simp only
    cases s1.derefDir parent with
    | error e => rfl
    | ok pd =>
      simp only
      split_ifs
      · rfl
      · simp only [newFile, getTimestamp]
        generalize FileSystem.modFile _ _ _ = X
        cases X with
        | error e => rfl
        | ok s3 => rfl

theorem loadLoop_file (τ : Nat → Str) (fuel : Nat) (q : List Str) (f : File) (rest : Str)
    (s : FileSystem) (hr : Rec.ok (.file q f)) (hfit : f.content.length ≤ s.avail) :
    loadLoop τ (fuel + 1) (Rec.enc (.file q f) ++ rest) s =
      match applyRec τ (.file q f) s with
      | .error e => .error e
      | .ok s1 => loadLoop τ fuel rest s1 := by
  have hr' := hr
  obtain ⟨hq, hname, hca, hma, hlen, hmax⟩ := hr
  rw [okFileName_iff] at hname
  rw [okStamp_iff] at hca hma
  obtain ⟨hd1, hd2, hd3⟩ := toDecimal_spec f.content.length
  obtain ⟨line, hline⟩ : ∃ line, line = ['F', '|'] ++ (pathStr q ++ ['/'] ++ f.name) ++ ['|']
      ++ f.createdAt ++ ['|'] ++ f.modifiedAt ++ ['|'] ++ toDecimal f.content.length :=
    ⟨_, rfl⟩
  have e : Rec.enc (.file q f) ++ rest = line ++ '\n' :: (f.content ++ '\n' :: rest) := by
    simp [Rec.enc, fileRecord, hline]
  have hnl : '\n' ∉ line := by
    have c4 := not_mem_pathStr '\n' (by decide) q
      (fun x hx => (okDirName_iff.1 (hq x hx)).2.2.2)
    have c5 : '\n' ∉ toDecimal f.content.length :=
      fun hm => (isDigit_not_delim (hd2 _ hm)).2.1 rfl
    have c6 := hname.2.2
    have c7 := hca.2
    have c8 := hma.2
    simp [hline, c4, c5, c6, c7, c8]
  rw [e, loadLoop, getline_line _ _ hnl]
  have h2 : line.take 2 = ['F', '|'] := by simp [hline]
  have h2' : ¬ (['F', '|'] = ['D', '|']) := by decide
  simp only [h2, h2', if_false, if_true, loadFileLine_enc τ q f rest s hr' hfit line hline]
  cases applyRec τ (.file q f) s with
  | error e => rfl
  | ok s1 => rfl

end FSim

namespace FSim

open FileSystem

/-! ## The heap: reads after writes -/

namespace FileSystem

theorem getD_set_none {α : Type} (l : List (Option α)) (p q : Nat) (x : Option α)
    (hp : p < l.length) : (l.set p x).getD q none = if q = p then x else l.getD q none := by
  rw [List.getD_eq_getElem?_getD, List.getD_eq_getElem?_getD, List.getElem?_set]
  by_cases e : q = p
  · subst e; simp [hp]
  · have e' : ¬ p = q := fun h => e h.symm
    simp [e, e']

theorem getD_append_one {α : Type} (l : List (Option α)) (q : Nat) (x : Option α) :
    (l ++ [x]).getD q none = if q = l.length then x else l.getD q none := by
  rw [List.getD_eq_getElem?_getD, List.getD_eq_getElem?_getD]
  by_cases e : q = l.length
  · subst e; simp
  · rcases Nat.lt_or_gt_of_ne e with h | h
    · rw [List.getElem?_append_left h]; simp [e]
    · rw [List.getElem?_eq_none (by simp; omega), List.getElem?_eq_none (by omega)]; simp [e]

theorem dir_lt {s : FileSystem} {p : Nat} {d : Directory} (h : s.dir p = some d) :
    p < s.dirs.length := by
  by_contra hlt
  rw [dir, List.getD_eq_getElem?_getD, List.getElem?_eq_none (Nat.le_of_not_lt hlt)] at h
  simp at h

theorem file_lt {s : FileSystem} {p : Nat} {f : File} (h : s.file p = some f) :
    p < s.fls.length := by
  by_contra hlt
  rw [file, List.getD_eq_getElem?_getD, List.getElem?_eq_none (Nat.le_of_not_lt hlt)] at h
  simp at h

theorem dir_length_none (s : FileSystem) : s.dir s.dirs.length = none := by
  cases h : s.dir s.dirs.length with
  | none => rfl
  | some d => exact absurd (dir_lt h) (Nat.lt_irrefl _)

theorem file_length_none (s : FileSystem) : s.file s.fls.length = none := by
  cases h : s.file s.fls.length with
  | none => rfl
  | some d => exact absurd (file_lt h) (Nat.lt_irrefl _)

/-- What a successful `modDir` leaves behind. -/
theorem modDir_ok {s s' : FileSystem} {p : Ptr} {f : Directory → Directory}
    (h : s.modDir p f = .ok s') :
    ∃ d, s.dir p = some d ∧ (∀ q, s'.dir q = if q = p then some (f d) else s.dir q) ∧
      s'.fls = s.fls ∧ s'.root = s.root ∧ s'.curr = s.curr ∧ s'.ticks = s.ticks ∧
      s'.dirs.length = s.dirs.length := by
  unfold modDir at h
  cases hd : s.dir p with
  | none => rw [hd] at h; cases h
  | some d =>
    rw [hd] at h
    cases h
    refine ⟨d, rfl, ?_, rfl, rfl, rfl, rfl, by simp⟩
    intro q
    show (s.dirs.set p (some (f d))).getD q none = _
    rw [getD_set_none _ _ _ _ (dir_lt hd)]; rfl

theorem modDir_of_live {s : FileSystem} {p : Ptr} {d : Directory} (f : Directory → Directory)
    (h : s.dir p = some d) : ∃ s', s.modDir p f = .ok s' := by
  unfold modDir; rw [h]; exact Exists.intro _ rfl

/-- What a successful `modFile` leaves behind. -/
theorem modFile_ok {s s' : FileSystem} {p : Ptr} {f : File → File}
    (h : s.modFile p f = .ok s') :
    ∃ d, s.file p = some d ∧ (∀ q, s'.file q = if q = p then some (f d) else s.file q) ∧
      s'.dirs = s.dirs ∧ s'.root = s.root ∧ s'.curr = s.curr ∧ s'.ticks = s.ticks ∧
      s'.fls.length = s.fls.length := by
  unfold modFile at h
  cases hd : s.file p with
  | none => rw [hd] at h; cases h
  | some d =>
    rw [hd] at h
    cases h
    refine ⟨d, rfl, ?_, rfl, rfl, rfl, rfl, by simp⟩
    intro q
    show (s.fls.set p (some (f d))).getD q none = _
    rw [getD_set_none _ _ _ _ (file_lt hd)]; rfl

theorem modFile_of_live {s : FileSystem} {p : Ptr} {d : File} (f : File → File)
    (h : s.file p = some d) : ∃ s', s.modFile p f = .ok s' := by
  unfold modFile; rw [h]; exact Exists.intro _ rfl

theorem dir_eq_of_dirs {s s' : FileSystem} (h : s'.dirs = s.dirs) (q : Ptr) :
    s'.dir q = s.dir q := by unfold dir; rw [h]

theorem file_eq_of_fls {s s' : FileSystem} (h : s'.fls = s.fls) (q : Ptr) :
    s'.file q = s.file q := by unfold file; rw [h]

theorem newDir_fst (s : FileSystem) (n : Str) (par : Option Ptr) :
    (s.newDir n par).1 = s.dirs.length := rfl

theorem dir_newDir (s : FileSystem) (n : Str) (par : Option Ptr) (q : Ptr) :
    (s.newDir n par).2.dir q
      = if q = s.dirs.length then some ⟨n, par, [], []⟩ else s.dir q := by
  show (s.dirs ++ [some (Directory.mk n par [] [])]).getD q none = _
  rw [getD_append_one]; rfl

theorem newDir_frame (s : FileSystem) (n : Str) (par : Option Ptr) :
    (s.newDir n par).2.fls = s.fls ∧ (s.newDir n par).2.root = s.root ∧
      (s.newDir n par).2.curr = s.curr ∧ (s.newDir n par).2.ticks = s.ticks ∧
      (s.newDir n par).2.dirs.length = s.dirs.length + 1 :=
  ⟨rfl, rfl, rfl, rfl, by simp [newDir]⟩

theorem newFile_fst (τ : Nat → Str) (s : FileSystem) (n : Str) :
    (s.newFile τ n).1 = s.fls.length := rfl

theorem file_newFile (τ : Nat → Str) (s : FileSystem) (n : Str) (q : Ptr) :
    (s.newFile τ n).2.file q
      = if q = s.fls.length then some ⟨n, [], τ s.ticks, τ s.ticks⟩ else s.file q := by
  show (s.fls ++ [some (File.mk n [] (τ s.ticks) (τ s.ticks))]).getD q none = _
  rw [getD_append_one]; rfl

theorem newFile_frame (τ : Nat → Str) (s : FileSystem) (n : Str) :
    (s.newFile τ n).2.dirs = s.dirs ∧ (s.newFile τ n).2.root = s.root ∧
      (s.newFile τ n).2.curr = s.curr ∧ (s.newFile τ n).2.ticks = s.ticks + 1 ∧
      (s.newFile τ n).2.fls.length = s.fls.length + 1 :=
  ⟨rfl, rfl, rfl, rfl, by simp [newFile, getTimestamp]⟩

/-! ## Walking the tree -/

theorem walk_nil (s : FileSystem) (p : Ptr) : s.walk p [] = some p := rfl

theorem walk_cons (s : FileSystem) (p : Ptr) (k : Str) (ks : List Str) :
    s.walk p (k :: ks) = match s.dir p with
      | none => none
      | some d =>
        match d.subDirs.find k with
        | none => none
        | some c => s.walk c ks := rfl

theorem walk_cons_some {s : FileSystem} {p : Ptr} {k : Str} {ks : List Str} {r : Ptr} :
    s.walk p (k :: ks) = some r ↔
      ∃ d c, s.dir p = some d ∧ d.subDirs.find k = some c ∧ s.walk c ks = some r := by
  rw [walk_cons]
  cases hd : s.dir p with
  | none => simp
  | some d =>
    cases hc : d.subDirs.find k with
    | none => simp [hc]
    | some c => simp [hc]

theorem walk_append (s : FileSystem) : ∀ (a b : List Str) (p : Ptr),
    s.walk p (a ++ b) = match s.walk p a with
      | none => none
      | some m => s.walk m b
  | [], _, _ => rfl
  | k :: ks, b, p => by
    rw [List.cons_append, walk_cons, walk_cons]
    cases s.dir p with
    | none => rfl
    | some d =>
      simp only
      cases d.subDirs.find k with
      | none => rfl
      | some c => simp only; exact walk_append s ks b c

theorem walk_snoc_some {s : FileSystem} {p : Ptr} {a : List Str} {k : Str} {r : Ptr} :
    s.walk p (a ++ [k]) = some r ↔
      ∃ m d, s.walk p a = some m ∧ s.dir m = some d ∧ d.subDirs.find k = some r := by
  rw [walk_append]
  cases hm : s.walk p a with
  | none => simp
  | some m =>
    simp only
    rw [walk_cons_some]
    constructor
    · rintro ⟨d, c, h1, h2, h3⟩
      rw [walk_nil] at h3
      cases h3
      exact ⟨m, d, rfl, h1, h2⟩
    · rintro ⟨m', d, h0, h1, h2⟩
      cases h0
      exact ⟨d, r, h1, h2, rfl⟩

theorem dirAt_nil (s : FileSystem) : s.dirAt [] = s.dir s.root := rfl

theorem dirAt_some {s : FileSystem} {q : List Str} {d : Directory} :
    s.dirAt q = some d ↔ ∃ p, s.walk s.root q = some p ∧ s.dir p = some d := by
  unfold dirAt
  cases s.walk s.root q with
  | none => simp
  | some p => simp

theorem dirAt_snoc {s : FileSystem} {q : List Str} {k : Str} {d : Directory} :
    s.dirAt (q ++ [k]) = some d ↔
      ∃ dq c, s.dirAt q = some dq ∧ dq.subDirs.find k = some c ∧ s.dir c = some d := by
  rw [dirAt_some]
  constructor
  · rintro ⟨p, hw, hd⟩
    obtain ⟨m, dm, h1, h2, h3⟩ := walk_snoc_some.1 hw
    exact ⟨dm, p, dirAt_some.2 ⟨m, h1, h2⟩, h3, hd⟩
  · rintro ⟨dq, c, h1, h2, h3⟩
    obtain ⟨m, h4, h5⟩ := dirAt_some.1 h1
    exact ⟨c, walk_snoc_some.2 ⟨m, dq, h4, h5, h2⟩, h3⟩

theorem fileAt_some {s : FileSystem} {q : List Str} {k : Str} {f : File} :
    s.fileAt q k = some f ↔
      ∃ d fp, s.dirAt q = some d ∧ d.files.find k = some fp ∧ s.file fp = some f := by
  unfold fileAt
  cases s.dirAt q with
  | none => simp
  | some d =>
    cases hf : d.files.find k with
    | none => simp [hf]
    | some fp => simp [hf]

end FileSystem

/-! ## The allocator limit is a constant of the run -/

theorem modDir_avail {s s' : FileSystem} {p : Ptr} {f : Directory → Directory}
    (h : s.modDir p f = .ok s') : s'.avail = s.avail := by
  unfold FileSystem.modDir at h
  split at h
  · cases h; rfl
  · cases h

theorem modFile_avail {s s' : FileSystem} {p : Ptr} {f : File → File}
    (h : s.modFile p f = .ok s') : s'.avail = s.avail := by
  unfold FileSystem.modFile at h
  split at h
  · cases h; rfl
  · cases h

theorem ensureLoop_avail : ∀ (ts : List Str) (cur : Ptr) (s s' : FileSystem) (p : Ptr),
    FileSystem.ensureLoop ts cur s = .ok (p, s') → s'.avail = s.avail
  | [], cur, s, s', p, h => by
    rw [FileSystem.ensureLoop] at h
    cases h
    rfl
  | t :: ts, cur, s, s', p, h => by
    rw [FileSystem.ensureLoop] at h
    split at h
    · exact ensureLoop_avail ts cur s s' p h
    · split at h
      · cases h
      · split at h
        · exact ensureLoop_avail ts _ s s' p h
        · dsimp only at h
          split at h
          · cases h
          · next s2 e2 =>
            rw [ensureLoop_avail ts _ s2 s' p h, modDir_avail e2]
            rfl

theorem applyRec_avail {τ : Nat → Str} {r : Rec} {s s' : FileSystem}
    (h : FileSystem.applyRec τ r s = .ok s') : s'.avail = s.avail := by
  cases r with
  | dir q =>
    simp only [FileSystem.applyRec] at h
    split at h
    · cases h
    · next p s1 e1 =>
      cases h
      exact ensureLoop_avail _ _ _ _ _ e1
  | file q f =>
    simp only [FileSystem.applyRec] at h
    split at h
    · cases h
    · next p s1 e1 =>
      have a1 := ensureLoop_avail _ _ _ _ _ e1
      split at h
      · cases h
      · split at h
        · cases h; exact a1
        · split at h
          · cases h
          · next s3 e3 =>
            rw [modDir_avail h, modFile_avail e3]
            exact a1

theorem applyRecs_avail {τ : Nat → Str} : ∀ (recs : List Rec) (s s' : FileSystem),
    FileSystem.applyRecs τ recs s = .ok s' → s'.avail = s.avail
  | [], s, s', h => by
    simp only [FileSystem.applyRecs] at h
    cases h
    rfl
  | r :: rs, s, s', h => by
    simp only [FileSystem.applyRecs] at h
    split at h
    · cases h
    · next s1 e1 => rw [applyRecs_avail rs s1 s' h, applyRec_avail e1]

theorem Rec.fits_of_ok {r : Rec} (h : r.ok) : r.fits maxSize := by
  cases r with
  | dir q => trivial
  | file q f => exact h.2.2.2.2.2

theorem fits_init {recs : List Rec} (h : ∀ r ∈ recs, r.ok) :
    ∀ r ∈ recs, r.fits FileSystem.init.avail :=
  fun r hr => Rec.fits_of_ok (h r hr)

end FSim

namespace FSim

open FileSystem

/-! ## Sorted maps -/

namespace PMap

theorem sorted_cons_iff {k : Str} {v : Ptr} : ∀ {m : PMap},
    Sorted ((k, v) :: m) ↔ (∀ x ∈ m, strLt k x.1 = true) ∧ Sorted m
  | [] => by simp [Sorted]
  | (k', v') :: r => by
    have ih := @sorted_cons_iff k' v' r
    simp only [Sorted, List.mem_cons, forall_eq_or_imp]
    constructor
    · rintro ⟨h1, h2⟩
      refine ⟨⟨h1, ?_⟩, h2⟩
      intro x hx
      exact strLt_trans _ _ _ h1 ((ih.1 h2).1 x hx)
    · rintro ⟨⟨h1, _⟩, h3⟩
      exact ⟨h1, h3⟩

theorem Sorted.tail {x : Str × Ptr} {m : PMap} (h : Sorted (x :: m)) : Sorted m := by
  obtain ⟨k, v⟩ := x
  exact (sorted_cons_iff.1 h).2

theorem Sorted.nodup : ∀ {m : PMap}, Sorted m → (keys m).Nodup
  | [], _ => List.nodup_nil
  | (k, v) :: r, h => by
    obtain ⟨h1, h2⟩ := sorted_cons_iff.1 h
    simp only [keys, List.map_cons, List.nodup_cons, List.mem_map, not_exists, not_and]
    refine ⟨?_, Sorted.nodup h2⟩
    intro x hx e
    exact strLt_ne (h1 x hx) e.symm

theorem Sorted.set {m : PMap} (k : Str) (v : Ptr) (h : Sorted m) : Sorted (set m k v) := by
  induction m with
  | nil => simp [PMap.set, Sorted]
  | cons x r ih =>
    obtain ⟨k', v'⟩ := x
    obtain ⟨h1, h2⟩ := sorted_cons_iff.1 h
    simp only [PMap.set]
    split_ifs with e1 e2
    · subst e1; exact sorted_cons_iff.2 ⟨h1, h2⟩
    · refine sorted_cons_iff.2 ⟨?_, h⟩
      intro y hy
      rcases List.mem_cons.1 hy with e | e
      · rw [e]; exact e2
      · exact strLt_trans _ _ _ e2 (h1 y e)
    · refine sorted_cons_iff.2 ⟨?_, ih h2⟩
      intro y hy
      rcases mem_set hy with e | e
      · rw [e]
        exact strLt_total _ _ (by simpa using e2) (fun e' => e1 e'.symm)
      · exact h1 y e

theorem Sorted.erase {m : PMap} (k : Str) (h : Sorted m) : Sorted (erase m k) := by
  induction m with
  | nil => simp [PMap.erase, Sorted]
  | cons x r ih =>
    obtain ⟨k', v'⟩ := x
    obtain ⟨h1, h2⟩ := sorted_cons_iff.1 h
    simp only [PMap.erase]
    split_ifs with e1
    · exact h2
    · exact sorted_cons_iff.2 ⟨fun y hy => h1 y (mem_erase hy), ih h2⟩

theorem sortedB_iff : ∀ {m : PMap}, sortedB m = true ↔ Sorted m
  | [] => by simp [sortedB, Sorted]
  | [_] => by simp [sortedB, Sorted]
  | (k, v) :: (k', v') :: r => by
    have ih := @sortedB_iff ((k', v') :: r)
    simp only [sortedB, Sorted, Bool.and_eq_true, ih]

/-- Two maps in key order that hold the same keys, with values that agree under `g1` and
`g2`, list the same entries. -/
theorem sorted_map_ext {β : Type} (g1 g2 : Ptr → β) : ∀ (m1 m2 : PMap), Sorted m1 → Sorted m2 →
    (∀ k v1, (k, v1) ∈ m1 → ∃ v2, (k, v2) ∈ m2 ∧ g1 v1 = g2 v2) →
    (∀ k v2, (k, v2) ∈ m2 → ∃ v1, (k, v1) ∈ m1) →
    m1.map (fun kv => (kv.1, g1 kv.2)) = m2.map (fun kv => (kv.1, g2 kv.2))
  | [], [], _, _, _, _ => rfl
  | [], (k, v) :: _, _, _, _, h2 => by
    obtain ⟨v1, h⟩ := h2 k v (List.mem_cons_self _ _)
    cases h
  | (k, v) :: _, [], _, _, h1, _ => by
    obtain ⟨v2, h, _⟩ := h1 k v (List.mem_cons_self _ _)
    cases h
  | (k1, v1) :: r1, (k2, v2) :: r2, s1, s2, h1, h2 => by
    obtain ⟨a1, a2⟩ := sorted_cons_iff.1 s1
    obtain ⟨b1, b2⟩ := sorted_cons_iff.1 s2
    have hk : k1 = k2 := by
      obtain ⟨w2, hw2, _⟩ := h1 k1 v1 (List.mem_cons_self _ _)
      obtain ⟨w1, hw1⟩ := h2 k2 v2 (List.mem_cons_self _ _)
      rcases List.mem_cons.1 hw2 with e | e
      · exact (Prod.mk.inj e).1
      · rcases List.mem_cons.1 hw1 with e' | e'
        · exact ((Prod.mk.inj e').1).symm
        · have c1 := b1 _ e
          have c2 := a1 _ e'
          have := strLt_trans _ _ _ c1 c2
          rw [strLt_irrefl] at this
          exact Bool.noConfusion this
    subst hk
    have hv : g1 v1 = g2 v2 := by
      obtain ⟨w2, hw2, hg⟩ := h1 k1 v1 (List.mem_cons_self _ _)
      rcases List.mem_cons.1 hw2 with e | e
      · rw [hg, (Prod.mk.inj e).2]
      · exact absurd rfl (strLt_ne (b1 _ e))
    have ih := sorted_map_ext g1 g2 r1 r2 a2 b2
      (by
        intro k v hm
        obtain ⟨w2, hw2, hg⟩ := h1 k v (List.mem_cons_of_mem _ hm)
        rcases List.mem_cons.1 hw2 with e | e
        · exact absurd (Prod.mk.inj e).1.symm (strLt_ne (a1 _ hm))
        · exact ⟨w2, e, hg⟩)
      (by
        intro k v hm
        obtain ⟨w1, hw1⟩ := h2 k v (List.mem_cons_of_mem _ hm)
        rcases List.mem_cons.1 hw1 with e | e
        · exact absurd (Prod.mk.inj e).1.symm (strLt_ne (b1 _ hm))
        · exact ⟨w1, e⟩)
    simp only [List.map_cons, hv, ih]

end PMap

/-! ## Growing trees -/

theorem Grows.refl (l : FileSystem) : Grows l l :=
  ⟨rfl, fun _ d h => ⟨d, h, fun _ _ h => h, fun _ _ h => h⟩, fun _ _ h => h⟩

theorem Grows.trans {a b c : FileSystem} (h1 : Grows a b) (h2 : Grows b c) : Grows a c := by
  refine ⟨h2.root.trans h1.root, ?_, fun fp f h => h2.files fp f (h1.files fp f h)⟩
  intro p d hd
  obtain ⟨d1, e1, f1, g1⟩ := h1.dirs p d hd
  obtain ⟨d2, e2, f2, g2⟩ := h2.dirs p d1 e1
  exact ⟨d2, e2, fun k c h => f2 k c (f1 k c h), fun k fp h => g2 k fp (g1 k fp h)⟩

theorem Grows.walk_mono {a b : FileSystem} (h : Grows a b) : ∀ (q : List Str) (p r : Ptr),
    a.walk p q = some r → b.walk p q = some r
  | [], _, _, hw => hw
  | k :: ks, p, r, hw => by
    obtain ⟨d, c, h1, h2, h3⟩ := walk_cons_some.1 hw
    obtain ⟨d', e1, f1, _⟩ := h.dirs p d h1
    exact walk_cons_some.2 ⟨d', c, e1, f1 k c h2, Grows.walk_mono h ks c r h3⟩

theorem Grows.dirAt_mono {a b : FileSystem} (h : Grows a b) {q : List Str} {d : Directory}
    (hd : a.dirAt q = some d) : ∃ d', b.dirAt q = some d' ∧
      (∀ k fp, d.files.find k = some fp → d'.files.find k = some fp) := by
  obtain ⟨p, hw, hp⟩ := dirAt_some.1 hd
  obtain ⟨d', e1, _, g1⟩ := h.dirs p d hp
  refine ⟨d', dirAt_some.2 ⟨p, ?_, e1⟩, g1⟩
  rw [h.root]; exact h.walk_mono q _ _ hw

theorem Grows.present_mono {a b : FileSystem} (h : Grows a b) {r : Rec} (hp : r.present a) :
    r.present b := by
  cases r with
  | dir q =>
    simp only [Rec.present, Option.isSome_iff_exists] at hp ⊢
    obtain ⟨d, hd⟩ := hp
    obtain ⟨d', hd', _⟩ := h.dirAt_mono hd
    exact ⟨d', hd'⟩
  | file q f =>
    simp only [Rec.present, Option.isSome_iff_exists] at hp ⊢
    obtain ⟨f', hf⟩ := hp
    obtain ⟨d, fp, h1, h2, h3⟩ := fileAt_some.1 hf
    obtain ⟨d', hd', g⟩ := h.dirAt_mono h1
    exact ⟨f', fileAt_some.2 ⟨d', fp, hd', g _ fp h2, h.files fp f' h3⟩⟩

end FSim

namespace FSim

open FileSystem

/-! ## Loading keeps the loaded tree a part of the saved tree -/

theorem Sim.walk_image {l t : FileSystem} {φ : Ptr → Ptr} (h : Sim l t φ) :
    ∀ (q : List Str) (p r : Ptr), l.walk p q = some r → t.walk (φ p) q = some (φ r)
  | [], _, _, hw => by rw [walk_nil] at hw ⊢; cases hw; rfl
  | k :: ks, p, r, hw => by
    obtain ⟨d, c, h1, h2, h3⟩ := walk_cons_some.1 hw
    obtain ⟨d', e1, f1, _⟩ := h.dirs p d h1
    exact walk_cons_some.2
      ⟨d', φ c, e1, (f1 k c (PMap.find_mem h2)).2, Sim.walk_image h ks c r h3⟩

theorem Sim.dirAt_image {l t : FileSystem} {φ : Ptr → Ptr} (h : Sim l t φ) {q : List Str}
    {d : Directory} (hd : l.dirAt q = some d) :
    ∃ p d', l.walk l.root q = some p ∧ l.dir p = some d ∧ t.walk t.root q = some (φ p) ∧
      t.dir (φ p) = some d' ∧ t.dirAt q = some d' := by
  obtain ⟨p, hw, hp⟩ := dirAt_some.1 hd
  obtain ⟨d', e1, _⟩ := h.dirs p d hp
  have := h.walk_image q _ _ hw
  rw [h.root] at this
  exact ⟨p, d', hw, hp, this, e1, dirAt_some.2 ⟨_, this, e1⟩⟩

theorem Sim.fileAt_image {l t : FileSystem} {φ : Ptr → Ptr} (h : Sim l t φ) {q : List Str}
    {k : Str} {f : File} (hf : l.fileAt q k = some f) : t.fileAt q k = some f := by
  obtain ⟨d, fp, h1, h2, h3⟩ := fileAt_some.1 hf
  obtain ⟨p, d', _, hp, _, e1, e2⟩ := h.dirAt_image h1
  obtain ⟨d'', e1', _, g1, _⟩ := h.dirs p d hp
  rw [e1] at e1'; cases e1'
  obtain ⟨f', fp', a1, a2, a3⟩ := g1 k fp (PMap.find_mem h2)
  rw [h3] at a1; cases a1
  exact fileAt_some.2 ⟨d', fp', e2, a2, a3⟩

/-- The loop of `ensureDir` along a path the saved tree has. -/
theorem ensureLoop_sim {t : FileSystem} : ∀ (ts : List Str) (cur : Ptr) (l : FileSystem)
    (φ : Ptr → Ptr), Sim l t φ → (∀ x ∈ ts, x ≠ []) → (l.dir cur).isSome →
    (∃ r, t.walk (φ cur) ts = some r ∧ (t.dir r).isSome) →
    ∃ r l' φ', ensureLoop ts cur l = .ok (r, l') ∧ Sim l' t φ' ∧ Grows l l' ∧
      l'.walk cur ts = some r ∧ (l'.dir r).isSome ∧ l'.fls = l.fls ∧ l'.ticks = l.ticks ∧
      (∀ p, (l.dir p).isSome → φ' p = φ p)
  | [], cur, l, φ, hs, _, hc, _ =>
    ⟨cur, l, φ, rfl, hs, Grows.refl l, rfl, hc, rfl, rfl, fun _ _ => rfl⟩
  | k :: ks, cur, l, φ, hs, hne, hc, ht => by
    obtain ⟨d, hd⟩ := Option.isSome_iff_exists.1 hc
    obtain ⟨r, hr, hrl⟩ := ht
    obtain ⟨dT, c', hT1, hT2, hT3⟩ := walk_cons_some.1 hr
    have hk : k ≠ [] := hne k (List.mem_cons_self _ _)
    have hks : ∀ x ∈ ks, x ≠ [] := fun x hx => hne x (List.mem_cons_of_mem _ hx)
    obtain ⟨dT', e1, f1, g1, srt1, srt2⟩ := hs.dirs cur d hd
    rw [hT1] at e1; cases e1
    rw [ensureLoop]
    simp only [hk, if_false, hd]
    cases hfind : d.subDirs.find k with
    | some c =>
      simp only
      obtain ⟨hcl, hcφ⟩ := f1 k c (PMap.find_mem hfind)
      rw [hT2] at hcφ; cases hcφ
      obtain ⟨r', l', φ', a1, a2, a3, a4, a5, a6, a7, a8⟩ :=
        ensureLoop_sim ks c l φ hs hks hcl ⟨r, hT3, hrl⟩
      refine ⟨r', l', φ', a1, a2, a3, ?_, a5, a6, a7, a8⟩
      obtain ⟨d', b1, b2, _⟩ := a3.dirs cur d hd
      exact walk_cons_some.2 ⟨d', c, b1, b2 k c hfind, a4⟩
    | none =>
      simp only
      -- the new directory and the entry for it
      have hl1 := dir_newDir l k (some cur)
      obtain ⟨fr1, fr2, fr3, fr4, fr5⟩ := newDir_frame l k (some cur)
      have hcur1 : (l.newDir k (some cur)).2.dir cur = some d := by
        rw [hl1, if_neg (Nat.ne_of_lt (dir_lt hd))]; exact hd
      obtain ⟨l2, hl2⟩ := modDir_of_live
        (fun x => { x with subDirs := x.subDirs.set k (l.newDir k (some cur)).1 }) hcur1
      obtain ⟨d0, m1, m2, m3, m4, m5, m6, m7⟩ := modDir_ok hl2
      rw [hcur1] at m1; cases m1
      have hneo : ∀ p, (l.dir p).isSome → p ≠ l.dirs.length := by
        intro p hp e
        rw [e, dir_length_none] at hp; cases hp
      have hdir2 : ∀ p, l2.dir p = if p = cur then
          some { d with subDirs := d.subDirs.set k l.dirs.length }
          else if p = l.dirs.length then some ⟨k, some cur, [], []⟩ else l.dir p := by
        intro p
        rw [m2 p, hl1 p]; rfl
      have hfile2 : ∀ fp, l2.file fp = l.file fp := fun fp =>
        (file_eq_of_fls m3 fp).trans (file_eq_of_fls fr1 fp)
      have hcT : (t.dir c').isSome := by
        cases ks with
        | nil => rw [walk_nil] at hT3; cases hT3; exact hrl
        | cons k2 ks2 =>
          obtain ⟨dc, _, h1, _⟩ := walk_cons_some.1 hT3
          rw [h1]; rfl
      obtain ⟨dc', hdc'⟩ := Option.isSome_iff_exists.1 hcT
      have hcurne : cur ≠ l.dirs.length := hneo cur hc
      -- the simulation after the insertion
      have hs2 : Sim l2 t (fun p => if p = l.dirs.length then c' else φ p) := by
        refine ⟨?_, ?_, ?_⟩
        · rw [m4, fr2]
          simp only [hneo _ hs.rootLive, if_false]; exact hs.root
        · rw [m4, fr2, hdir2]
          split_ifs
          · rfl
          · rfl
          · exact hs.rootLive
        · intro p dp hp
          rw [hdir2] at hp
          by_cases e1 : p = cur
          · subst e1
            simp only [if_true] at hp; cases hp
            simp only [hcurne, if_false]
            refine ⟨dT, hT1, ?_, ?_, PMap.Sorted.set _ _ srt1, srt2⟩
            · intro k1 c1 hm
              rcases PMap.mem_set hm with e | e
              · cases e
                constructor
                · rw [hdir2]; simp [hcurne.symm]
                · simp only [if_true]; exact hT2
              · obtain ⟨x1, x2⟩ := f1 k1 c1 e
                have hc1 := hneo c1 x1
                constructor
                · rw [hdir2]
                  split_ifs
                  · rfl
                  · exact x1
                · simp only [hc1, if_false]; exact x2
            · intro k1 fp hm
              obtain ⟨f, fp', y1, y2, y3⟩ := g1 k1 fp hm
              exact ⟨f, fp', (hfile2 fp).trans y1, y2, y3⟩
          · simp only [e1, if_false] at hp
            by_cases e2 : p = l.dirs.length
            · subst e2
              simp only [if_true] at hp; cases hp
              simp only [if_true]
              refine ⟨dc', hdc', ?_, ?_, trivial, trivial⟩
              · intro k1 c1 hm; cases hm
              · intro k1 c1 hm; cases hm
            · simp only [e2, if_false] at hp ⊢
              obtain ⟨dp', z1, z2, z3, z4, z5⟩ := hs.dirs p dp hp
              refine ⟨dp', z1, ?_, ?_, z4, z5⟩
              · intro k1 c1 hm
                obtain ⟨x1, x2⟩ := z2 k1 c1 hm
                have hc1 := hneo c1 x1
                constructor
                · rw [hdir2]
                  split_ifs
                  · rfl
                  · exact x1
                · simp only [hc1, if_false]; exact x2
              · intro k1 fp hm
                obtain ⟨f, fp', y1, y2, y3⟩ := z3 k1 fp hm
                exact ⟨f, fp', (hfile2 fp).trans y1, y2, y3⟩
      have hg2 : Grows l l2 := by
        refine ⟨by rw [m4, fr2], ?_, fun fp f h => (hfile2 fp).trans h⟩
        intro p dp hp
        rw [hdir2]
        by_cases e1 : p = cur
        · subst e1
          rw [hd] at hp; cases hp
          simp only [if_true]
          refine ⟨_, rfl, ?_, fun _ _ h => h⟩
          intro k1 c1 h1
          simp only
          rw [PMap.find_set]
          split_ifs with e
          · subst e; rw [hfind] at h1; cases h1
          · exact h1
        · simp only [e1, if_false, hneo p (by rw [hp]; rfl)]
          exact ⟨dp, hp, fun _ _ h => h, fun _ _ h => h⟩
      have hneo2 : (l2.dir l.dirs.length).isSome := by
        rw [hdir2]; simp [hcurne.symm]
      obtain ⟨r', l', φ', a1, a2, a3, a4, a5, a6, a7, a8⟩ :=
        ensureLoop_sim ks l.dirs.length l2 _ hs2 hks hneo2
          ⟨r, by simp only [if_true]; exact hT3, hrl⟩
      refine ⟨r', l', φ', ?_, a2, hg2.trans a3, ?_, a5, ?_, ?_, ?_⟩
      · show (match (l.newDir k (some cur)).2.modDir cur
            (fun x => { x with subDirs := x.subDirs.set k (l.newDir k (some cur)).1 }) with
          | Except.error e => Except.error e
          | Except.ok s2 => ensureLoop ks (l.newDir k (some cur)).1 s2) = Except.ok (r', l')
        rw [hl2]; exact a1
      · have hcur2 : l2.dir cur = some { d with subDirs := d.subDirs.set k l.dirs.length } := by
          rw [hdir2]; simp
        obtain ⟨d', b1, b2, _⟩ := a3.dirs cur _ hcur2
        refine walk_cons_some.2 ⟨d', l.dirs.length, b1, b2 k _ ?_, a4⟩
        simp only [PMap.find_set, if_true]
      · rw [a6, m3, fr1]
      · rw [a7, m6, fr4]
      · intro p hp
        have hp2 : (l2.dir p).isSome := by
          obtain ⟨dp, hdp⟩ := Option.isSome_iff_exists.1 hp
          obtain ⟨dp', hdp', _⟩ := hg2.dirs p dp hdp
          rw [hdp']; rfl
        rw [a8 p hp2]
        simp only [hneo p hp, if_false]

end FSim

namespace FSim

open FileSystem

theorem okDirName_ne_nil {q : List Str} (hq : ∀ x ∈ q, okDirName x = true) :
    ∀ x ∈ q, x ≠ [] := fun x hx => (okDirName_iff.1 (hq x hx)).1

theorem File.eta (f : File) : File.mk f.name f.content f.createdAt f.modifiedAt = f := by
  cases f; rfl

/-- One record of the saved tree keeps the loaded tree a part of it, and is taken up. -/
theorem applyRec_sim {t l : FileSystem} {φ : Ptr → Ptr} (τ : Nat → Str) (r : Rec)
    (hs : Sim l t φ) (hok : r.ok) (hsound : r.sound t) :
    ∃ l' φ', applyRec τ r l = .ok l' ∧ Sim l' t φ' ∧ Grows l l' ∧ r.present l' := by
  cases r with
  | dir q =>
    obtain ⟨d, hd⟩ := Option.isSome_iff_exists.1 hsound
    obtain ⟨p, hw, hp⟩ := dirAt_some.1 hd
    obtain ⟨r', l', φ', a1, a2, a3, a4, a5, _⟩ :=
      ensureLoop_sim q l.root l φ hs (okDirName_ne_nil hok.1) hs.rootLive
        ⟨p, by rw [hs.root]; exact hw, by rw [hp]; rfl⟩
    refine ⟨l', φ', by simp only [applyRec, a1], a2, a3, ?_⟩
    obtain ⟨d', hd'⟩ := Option.isSome_iff_exists.1 a5
    have : l'.dirAt q = some d' := dirAt_some.2 ⟨r', by rw [a3.root]; exact a4, hd'⟩
    simp only [Rec.present, this, Option.isSome_some]
  | file q f =>
    obtain ⟨dT, fpT, hT1, hT2, hT3⟩ := fileAt_some.1 hsound
    obtain ⟨pT, hw, hp⟩ := dirAt_some.1 hT1
    obtain ⟨parent, l1, φ1, a1, a2, a3, a4, a5, a6, a7, _⟩ :=
      ensureLoop_sim q l.root l φ hs (okDirName_ne_nil hok.1) hs.rootLive
        ⟨pT, by rw [hs.root]; exact hw, by rw [hp]; rfl⟩
    obtain ⟨pd, hpd⟩ := Option.isSome_iff_exists.1 a5
    have hw1 : l1.walk l1.root q = some parent := by rw [a3.root]; exact a4
    have hφ : φ1 parent = pT := by
      have := a2.walk_image q _ _ hw1
      rw [a2.root, hw] at this
      exact (Option.some.inj this).symm
    obtain ⟨dT', e1, f1, g1, srt1, srt2⟩ := a2.dirs parent pd hpd
    rw [hφ, hp] at e1; cases e1
    have hderef : l1.derefDir parent = .ok pd := by simp only [derefDir, hpd]
    simp only [applyRec, a1, hderef]
    by_cases hcount : pd.files.count f.name = true
    · simp only [hcount, if_true]
      refine ⟨l1, φ1, rfl, a2, a3, ?_⟩
      obtain ⟨fp, hfp⟩ := Option.isSome_iff_exists.1 hcount
      obtain ⟨f', fp', b1, _, _⟩ := g1 f.name fp (PMap.find_mem hfp)
      have : l1.fileAt q f.name = some f' :=
        fileAt_some.2 ⟨pd, fp, dirAt_some.2 ⟨parent, hw1, hpd⟩, hfp, b1⟩
      simp only [Rec.present, this, Option.isSome_some]
    · simp only [hcount, if_false]
      have hnone : pd.files.find f.name = none :=
        PMap.count_eq_false.1 (by simpa using hcount)
      obtain ⟨n1, n2, n3, n4, n5⟩ := newFile_frame τ l1 f.name
      have hnf := file_newFile τ l1 f.name
      have hlive2 : (l1.newFile τ f.name).2.file (l1.newFile τ f.name).1
          = some ⟨f.name, [], τ l1.ticks, τ l1.ticks⟩ := by
        rw [hnf, newFile_fst, if_pos rfl]
      obtain ⟨l3, hl3⟩ := modFile_of_live
        (fun x => { x with createdAt := f.createdAt, modifiedAt := f.modifiedAt,
                           content := f.content }) hlive2
      obtain ⟨x0, m1, m2, m3, m4, m5, m6, m7⟩ := modFile_ok hl3
      rw [hlive2] at m1; cases m1
      have hd3 : l3.dir parent = some pd := by
        rw [dir_eq_of_dirs m3, dir_eq_of_dirs n1]; exact hpd
      obtain ⟨l4, hl4⟩ := modDir_of_live
        (fun x => { x with files := x.files.set f.name (l1.newFile τ f.name).1 }) hd3
      obtain ⟨y0, k1, k2, k3, k4, k5, k6, k7⟩ := modDir_ok hl4
      rw [hd3] at k1; cases k1
      have hdir4 : ∀ p, l4.dir p = if p = parent then
          some { pd with files := pd.files.set f.name l1.fls.length } else l1.dir p := by
        intro p
        rw [k2 p, dir_eq_of_dirs m3, dir_eq_of_dirs n1]; rfl
      have hfile4 : ∀ x, l4.file x = if x = l1.fls.length then some f else l1.file x := by
        intro x
        rw [file_eq_of_fls k3, m2 x, hnf x, newFile_fst]
        split_ifs
        · exact congrArg some (File.eta f)
        · rfl
      have hold : ∀ x g, l1.file x = some g → l4.file x = some g := by
        intro x g hx
        rw [hfile4, if_neg (Nat.ne_of_lt (file_lt hx))]; exact hx
      have hroot4 : l4.root = l1.root := by rw [k4, m4, n2]
      refine ⟨l4, φ1, ?_, ?_, a3.trans ?_, ?_⟩
      · show (match (l1.newFile τ f.name).2.modFile (l1.newFile τ f.name).1
            (fun x => { x with createdAt := f.createdAt, modifiedAt := f.modifiedAt,
                               content := f.content }) with
          | Except.error e => Except.error e
          | Except.ok s3 => s3.modDir parent
              (fun x => { x with files := x.files.set f.name (l1.newFile τ f.name).1 }))
          = Except.ok l4
        rw [hl3]; exact hl4
      · refine ⟨by rw [hroot4]; exact a2.root, ?_, ?_⟩
        · rw [hroot4, hdir4]
          split_ifs
          · rfl
          · exact a2.rootLive
        · intro p dp hdp
          rw [hdir4] at hdp
          have hkids : ∀ (dq : Directory) (dq' : Directory),
              (∀ k c, (k, c) ∈ dq.subDirs → (l1.dir c).isSome ∧ dq'.subDirs.find k = some (φ1 c))
              → ∀ k c, (k, c) ∈ dq.subDirs →
                (l4.dir c).isSome ∧ dq'.subDirs.find k = some (φ1 c) := by
            intro dq dq' h k c hm
            obtain ⟨x1, x2⟩ := h k c hm
            refine ⟨?_, x2⟩
            rw [hdir4]
            split_ifs
            · rfl
            · exact x1
          by_cases e : p = parent
          · subst e
            simp only [if_true] at hdp; cases hdp
            refine ⟨dT, by rw [hφ]; exact hp, hkids pd dT f1, ?_, srt1, PMap.Sorted.set _ _ srt2⟩
            intro k fp hm
            rcases PMap.mem_set hm with e | e
            · cases e
              exact ⟨f, fpT, by rw [hfile4, if_pos rfl], hT2, hT3⟩
            · obtain ⟨f', fp', b1, b2, b3⟩ := g1 k fp e
              exact ⟨f', fp', hold _ _ b1, b2, b3⟩
          · simp only [e, if_false] at hdp
            obtain ⟨dp', z1, z2, z3, z4, z5⟩ := a2.dirs p dp hdp
            refine ⟨dp', z1, hkids dp dp' z2, ?_, z4, z5⟩
            intro k fp hm
            obtain ⟨f', fp', b1, b2, b3⟩ := z3 k fp hm
            exact ⟨f', fp', hold _ _ b1, b2, b3⟩
      · refine ⟨hroot4, ?_, hold⟩
        intro p dp hdp
        rw [hdir4]
        by_cases e : p = parent
        · subst e
          rw [hpd] at hdp; cases hdp
          simp only [if_true]
          refine ⟨_, rfl, fun _ _ h => h, ?_⟩
          intro k fp h
          simp only
          rw [PMap.find_set]
          split_ifs with e
          · subst e; rw [hnone] at h; cases h
          · exact h
        · simp only [e, if_false]
          exact ⟨dp, hdp, fun _ _ h => h, fun _ _ h => h⟩
      · have hw4 : l4.walk l4.root q = some parent := by
          rw [hroot4]
          refine Grows.walk_mono (a := l1) ⟨hroot4, ?_, hold⟩ q _ _ hw1
          intro p dp hdp
          rw [hdir4]
          by_cases e : p = parent
          · subst e
            rw [hpd] at hdp; cases hdp
            simp only [if_true]
            refine ⟨_, rfl, fun _ _ h => h, ?_⟩
            intro k fp h
            simp only
            rw [PMap.find_set]
            split_ifs with e
            · subst e; rw [hnone] at h; cases h
            · exact h
          · simp only [e, if_false]
            exact ⟨dp, hdp, fun _ _ h => h, fun _ _ h => h⟩
        have : l4.fileAt q f.name = some f := by
          have hd4 : l4.dir parent
              = some { pd with files := pd.files.set f.name l1.fls.length } := by
            rw [hdir4, if_pos rfl]
          refine fileAt_some.2 ⟨_, l1.fls.length, dirAt_some.2 ⟨parent, hw4, hd4⟩, ?_, ?_⟩
          · simp only [PMap.find_set, if_true]
          · rw [hfile4, if_pos rfl]
        simp only [Rec.present, this, Option.isSome_some]

/-- The records of the saved tree, applied in order. -/
theorem applyRecs_sim {t : FileSystem} (τ : Nat → Str) : ∀ (recs : List Rec) (l : FileSystem)
    (φ : Ptr → Ptr), Sim l t φ → (∀ r ∈ recs, r.ok ∧ r.sound t) →
    ∃ l' φ', applyRecs τ recs l = .ok l' ∧ Sim l' t φ' ∧ Grows l l' ∧ ∀ r ∈ recs, r.present l'
  | [], l, φ, hs, _ => ⟨l, φ, rfl, hs, Grows.refl l, fun _ h => by cases h⟩
  | r :: rs, l, φ, hs, hr => by
    obtain ⟨h1, h2⟩ := hr r (List.mem_cons_self _ _)
    obtain ⟨l1, φ1, a1, a2, a3, a4⟩ := applyRec_sim τ r hs h1 h2
    obtain ⟨l2, φ2, b1, b2, b3, b4⟩ :=
      applyRecs_sim τ rs l1 φ1 a2 (fun x hx => hr x (List.mem_cons_of_mem _ hx))
    refine ⟨l2, φ2, by simp only [applyRecs, a1, b1], b2, a3.trans b3, ?_⟩
    intro x hx
    rcases List.mem_cons.1 hx with e | e
    · subst e; exact b3.present_mono a4
    · exact b4 x e

theorem Rec.enc_ne_nil (r : Rec) : r.enc ≠ [] := by
  cases r <;> simp [Rec.enc, fileRecord]

/-- The read loop on the bytes of a list of records. -/
theorem loadLoop_recs (τ : Nat → Str) : ∀ (recs : List Rec) (k : Nat) (rest : Str)
    (s : FileSystem), (∀ r ∈ recs, r.ok) → (∀ r ∈ recs, r.fits s.avail) →
    loadLoop τ (recs.length + k) ((recs.map Rec.enc).flatten ++ rest) s =
      match applyRecs τ recs s with
      | .error e => .error e
      | .ok s1 => loadLoop τ k rest s1
  | [], k, rest, s, _, _ => by simp [applyRecs]
  | r :: rs, k, rest, s, hr, hfit => by
    have h1 := hr r (List.mem_cons_self _ _)
    have f1 := hfit r (List.mem_cons_self _ _)
    have e1 : (r :: rs).length + k = (rs.length + k) + 1 := by simp; omega
    have e2 : (((r :: rs).map Rec.enc).flatten ++ rest)
        = r.enc ++ ((rs.map Rec.enc).flatten ++ rest) := by simp
    rw [e1, e2, applyRecs]
    have ih := fun s1 (hs1 : s1.avail = s.avail) => loadLoop_recs τ rs k rest s1
      (fun x hx => hr x (List.mem_cons_of_mem _ hx))
      (fun x hx => by rw [hs1]; exact hfit x (List.mem_cons_of_mem _ hx))
    cases r with
    | dir q =>
      rw [loadLoop_dir τ _ q _ s h1]
      cases ha : applyRec τ (.dir q) s with
      | error e => rfl
      | ok s1 => exact ih s1 (applyRec_avail ha)
    | file q f =>
      rw [loadLoop_file τ _ q f _ s h1 f1]
      cases ha : applyRec τ (.file q f) s with
      | error e => rfl
      | ok s1 => exact ih s1 (applyRec_avail ha)

end FSim

namespace FSim

open FileSystem

/-! ## What `saveToDisk` writes -/

theorem storableFiles_mem {s : FileSystem} {m : PMap} (h : s.storableFiles m = true)
    {k : Str} {fp : Ptr} (hm : (k, fp) ∈ m) :
    ∃ f, s.file fp = some f ∧ f.name = k ∧ okFileName f.name = true ∧
      okStamp f.createdAt = true ∧ okStamp f.modifiedAt = true ∧
      f.content.length ≤ maxSize := by
  have := List.all_eq_true.1 h (k, fp) hm
  cases hf : s.file fp with
  | none => simp only [hf] at this; cases this
  | some f =>
    simp only [hf, Bool.and_eq_true, decide_eq_true_eq] at this
    exact ⟨f, rfl, this.1.1.1.1, this.1.1.1.2, this.1.1.2, this.1.2, this.2⟩

theorem storable_succ {s : FileSystem} {h : Nat} {p : Ptr} (hs : s.storable (h + 1) p = true) :
    ∃ d, s.dir p = some d ∧ d.subDirs.Sorted ∧ d.files.Sorted ∧
      s.storableFiles d.files = true ∧
      ∀ k c, (k, c) ∈ d.subDirs → okDirName k = true ∧ s.storable h c = true := by
  rw [storable] at hs
  cases hd : s.dir p with
  | none => simp only [hd] at hs; cases hs
  | some d =>
    simp only [hd, Bool.and_eq_true] at hs
    refine ⟨d, rfl, PMap.sortedB_iff.1 hs.1.1.1, PMap.sortedB_iff.1 hs.1.1.2, hs.1.2, ?_⟩
    intro k c hm
    have := List.all_eq_true.1 hs.2 (k, c) hm
    simpa using this

theorem storable_zero (s : FileSystem) (p : Ptr) : s.storable 0 p = false := rfl

/-- Every directory below a storable directory is storable. -/
theorem storable_walk {s : FileSystem} : ∀ (q : List Str) (h : Nat) (p r : Ptr),
    s.storable h p = true → s.walk p q = some r → ∃ h', s.storable (h' + 1) r = true
  | [], h, p, r, hs, hw => by
    rw [walk_nil] at hw; cases hw
    cases h with
    | zero => rw [storable_zero] at hs; cases hs
    | succ h => exact ⟨h, hs⟩
  | k :: ks, h, p, r, hs, hw => by
    cases h with
    | zero => rw [storable_zero] at hs; cases hs
    | succ h =>
      obtain ⟨d, hd, _, _, _, hk⟩ := storable_succ hs
      obtain ⟨d', c, h1, h2, h3⟩ := walk_cons_some.1 hw
      rw [hd] at h1; cases h1
      exact storable_walk ks h c r (hk k c (PMap.find_mem h2)).2 h3

theorem encAll_nil : encAll [] = [] := rfl

theorem encAll_append (a b : List Rec) : encAll (a ++ b) = encAll a ++ encAll b := by
  simp [encAll]

theorem encAll_cons (r : Rec) (b : List Rec) : encAll (r :: b) = r.enc ++ encAll b := by
  simp [encAll]

theorem dirRecords_eq (q : List Str) (m : PMap) :
    (m.map (dirRecord (pathStr q))).flatten
      = encAll (m.map (fun kc => Rec.dir (q ++ [kc.1]))) := by
  induction m with
  | nil => rfl
  | cons x r ih =>
    simp only [List.map_cons, List.flatten_cons, ih, encAll_cons]
    simp [dirRecord, Rec.enc, pathStr_snoc]

theorem fileRecords_ok {s : FileSystem} (q : List Str) : ∀ (m : PMap),
    s.storableFiles m = true →
    s.fileRecords (pathStr q) m
      = .ok (encAll (m.filterMap (fun kf => (s.file kf.2).map (Rec.file q))))
  | [], _ => rfl
  | (k, fp) :: r, h => by
    obtain ⟨f, hf, _⟩ := storableFiles_mem h (List.mem_cons_self _ _)
    have hr : s.storableFiles r = true := by
      simp only [storableFiles, List.all_cons, Bool.and_eq_true] at h
      exact h.2
    rw [fileRecords]
    simp only [derefFile, hf, fileRecords_ok q r hr]
    rw [List.filterMap_cons_some (b := Rec.file q f) (by simp [hf]), encAll_cons]
    rfl

theorem block_eq {s : FileSystem} (q : List Str) (d : Directory) (fr : Str)
    (h : s.fileRecords (pathStr q) d.files
      = .ok (encAll (d.files.filterMap (fun kf => (s.file kf.2).map (Rec.file q)))))
    (hfr : s.fileRecords (pathStr q) d.files = .ok fr) :
    (d.subDirs.map (dirRecord (pathStr q))).flatten ++ fr = encAll (s.blockRecs q d) := by
  rw [h] at hfr; cases hfr
  rw [blockRecs, encAll_append, dirRecords_eq]

theorem kids_cons {s : FileSystem} {x : Ptr × List Str} {d : Directory}
    (hd : s.dir x.1 = some d) (qu : List (Ptr × List Str)) :
    s.kids (x :: qu) = d.subDirs.map (fun kc => (kc.2, x.2 ++ [kc.1])) ++ s.kids qu := by
  simp [kids, hd]

theorem levelRecs_cons {s : FileSystem} {x : Ptr × List Str} {d : Directory}
    (hd : s.dir x.1 = some d) (qu : List (Ptr × List Str)) :
    s.levelRecs (x :: qu) = s.blockRecs x.2 d ++ s.levelRecs qu := by
  simp [levelRecs, hd]

/-- The queue loop works off a whole level of storable directories. -/
theorem saveLoop_level {s : FileSystem} {h : Nat} : ∀ (qu : List (Ptr × List Str)),
    (∀ x ∈ qu, s.storable (h + 1) x.1 = true) →
    ∀ (fuel : Nat) (rest : List (Ptr × Str)),
      s.saveLoop (fuel + qu.length) (qu.map conc ++ rest) =
        match s.saveLoop fuel (rest ++ (s.kids qu).map conc) with
        | .error e => .error e
        | .ok out => .ok (encAll (s.levelRecs qu) ++ out)
  | [], _, fuel, rest => by
    simp only [List.length_nil, Nat.add_zero, List.map_nil, List.nil_append, kids, levelRecs,
      List.flatMap_nil, List.append_nil, encAll_nil]
    cases s.saveLoop fuel rest <;> rfl
  | x :: qu, hq, fuel, rest => by
    obtain ⟨d, hd, _, _, hsf, _⟩ := storable_succ (hq x (List.mem_cons_self _ _))
    have ih := saveLoop_level qu (fun y hy => hq y (List.mem_cons_of_mem _ hy)) fuel
      (rest ++ (d.subDirs.map (fun kc => (kc.2, x.2 ++ [kc.1]))).map conc)
    have e1 : fuel + (x :: qu).length = (fuel + qu.length) + 1 := by simp; omega
    have e2 : (x :: qu).map conc ++ rest = (x.1, pathStr x.2) :: (qu.map conc ++ rest) := rfl
    have e3 : (d.subDirs.map (fun kc => (kc.2, pathStr x.2 ++ ['/'] ++ kc.1)))
        = (d.subDirs.map (fun kc => (kc.2, x.2 ++ [kc.1]))).map conc := by
      simp [conc, pathStr_snoc]
    have hfr := fileRecords_ok (s := s) x.2 d.files hsf
    rw [e1, e2, saveLoop]
    simp only [derefDir, hd, hfr]
    rw [e3, List.append_assoc, ih, kids_cons hd, levelRecs_cons hd]
    simp only [List.map_append, List.append_assoc]
    cases s.saveLoop fuel (rest ++ ((d.subDirs.map (fun kc => (kc.2, x.2 ++ [kc.1]))).map conc
        ++ (s.kids qu).map conc)) with
    | error e => rfl
    | ok out =>
      simp only [encAll_append, List.append_assoc]
      rw [← List.append_assoc, block_eq x.2 d _ hfr hfr]

end FSim

namespace FSim

open FileSystem

theorem saveLoop_nil (s : FileSystem) (fuel : Nat) : s.saveLoop fuel [] = .ok [] := by
  cases fuel <;> rfl

theorem mem_kids {s : FileSystem} {qu : List (Ptr × List Str)} {y : Ptr × List Str} :
    y ∈ s.kids qu ↔ ∃ x ∈ qu, ∃ d, s.dir x.1 = some d ∧
      ∃ kc ∈ d.subDirs, y = (kc.2, x.2 ++ [kc.1]) := by
  simp only [kids, List.mem_flatMap]
  constructor
  · rintro ⟨x, hx, hy⟩
    cases hd : s.dir x.1 with
    | none => simp only [hd] at hy; cases hy
    | some d =>
      simp only [hd, List.mem_map] at hy
      obtain ⟨kc, h1, h2⟩ := hy
      exact ⟨x, hx, d, hd, kc, h1, h2.symm⟩
  · rintro ⟨x, hx, d, hd, kc, h1, h2⟩
    refine ⟨x, hx, ?_⟩
    simp only [hd, List.mem_map]
    exact ⟨kc, h1, h2.symm⟩

theorem mem_levelRecs {s : FileSystem} {qu : List (Ptr × List Str)} {r : Rec} :
    r ∈ s.levelRecs qu ↔ ∃ x ∈ qu, ∃ d, s.dir x.1 = some d ∧ r ∈ s.blockRecs x.2 d := by
  simp only [levelRecs, List.mem_flatMap]
  constructor
  · rintro ⟨x, hx, hy⟩
    cases hd : s.dir x.1 with
    | none => simp only [hd] at hy; cases hy
    | some d =>
      simp only [hd] at hy
      exact ⟨x, hx, d, hd, hy⟩
  · rintro ⟨x, hx, d, hd, h1⟩
    refine ⟨x, hx, ?_⟩
    simp only [hd]
    exact h1

/-- The records written for a storable directory describe the tree and can be parsed. -/
theorem blockRecs_sound {s : FileSystem} {h : Nat} {q : List Str} {p : Ptr}
    (hs : s.storable (h + 1) p = true) (hw : s.walk s.root q = some p)
    (hq : ∀ n ∈ q, okDirName n = true) {d : Directory} (hd : s.dir p = some d) :
    ∀ r ∈ s.blockRecs q d, r.sound s ∧ r.fields := by
  obtain ⟨d', hd', srt1, srt2, hsf, hk⟩ := storable_succ hs
  rw [hd] at hd'; cases hd'
  intro r hr
  rcases List.mem_append.1 hr with hr | hr
  · obtain ⟨kc, hm, e⟩ := List.mem_map.1 hr
    subst e
    obtain ⟨k, c⟩ := kc
    obtain ⟨hn, hc⟩ := hk k c hm
    constructor
    · have hf := PMap.find_of_mem_nodup srt1.nodup hm
      cases h with
      | zero => rw [storable_zero] at hc; cases hc
      | succ h =>
        obtain ⟨dc, hdc, _⟩ := storable_succ hc
        have : s.dirAt (q ++ [k]) = some dc :=
          dirAt_snoc.2 ⟨d, c, dirAt_some.2 ⟨p, hw, hd⟩, hf, hdc⟩
        simp only [Rec.sound, this, Option.isSome_some]
    · intro n hn'
      rcases List.mem_append.1 hn' with e | e
      · exact hq n e
      · rw [List.mem_singleton] at e; rw [e]; exact hn
  · obtain ⟨kf, hm, e⟩ := List.mem_filterMap.1 hr
    obtain ⟨k, fp⟩ := kf
    obtain ⟨f, hf, hname, o1, o2, o3, o4⟩ := storableFiles_mem hsf hm
    simp only [hf, Option.map_some'] at e
    cases e
    constructor
    · have hfind := PMap.find_of_mem_nodup srt2.nodup hm
      rw [← hname] at hfind
      exact fileAt_some.2 ⟨d, fp, dirAt_some.2 ⟨p, hw, hd⟩, hfind, hf⟩
    · exact ⟨hq, o1, o2, o3, o4⟩

/-- The queue loop of `saveToDisk` ends on a queue of storable directories, and what it
writes is the records of everything below them. -/
theorem saveLoop_storable {s : FileSystem} : ∀ (h : Nat) (qu : List (Ptr × List Str)),
    (∀ x ∈ qu, s.storable h x.1 = true ∧ s.walk s.root x.2 = some x.1 ∧
      ∀ n ∈ x.2, okDirName n = true) →
    ∃ N recs, (∀ fuel, N ≤ fuel → s.saveLoop fuel (qu.map conc) = .ok (encAll recs)) ∧
      (∀ r ∈ recs, r.sound s ∧ r.fields) ∧
      (∀ x ∈ qu, ∀ q' p' d, s.walk x.1 q' = some p' → s.dir p' = some d →
        ∀ r ∈ s.blockRecs (x.2 ++ q') d, r ∈ recs)
  | 0, qu, hq => by
    cases qu with
    | nil =>
      refine ⟨0, [], fun fuel _ => saveLoop_nil s fuel,
        fun r hr => absurd hr (List.not_mem_nil r), ?_⟩
      intro x hx; exact absurd hx (List.not_mem_nil x)
    | cons x qu =>
      have := (hq x (List.mem_cons_self _ _)).1
      rw [storable_zero] at this; cases this
  | h + 1, qu, hq => by
    have hkids : ∀ y ∈ s.kids qu, s.storable h y.1 = true ∧ s.walk s.root y.2 = some y.1 ∧
        ∀ n ∈ y.2, okDirName n = true := by
      intro y hy
      obtain ⟨x, hx, d, hd, kc, hm, e⟩ := mem_kids.1 hy
      subst e
      obtain ⟨k, c⟩ := kc
      obtain ⟨a1, a2, a3⟩ := hq x hx
      obtain ⟨d', hd', srt1, _, _, hk⟩ := storable_succ a1
      rw [hd] at hd'; cases hd'
      obtain ⟨hn, hc⟩ := hk k c hm
      refine ⟨hc, walk_snoc_some.2 ⟨x.1, d, a2, hd, PMap.find_of_mem_nodup srt1.nodup hm⟩, ?_⟩
      intro n hn'
      rcases List.mem_append.1 hn' with e | e
      · exact a3 n e
      · rw [List.mem_singleton] at e; rw [e]; exact hn
    obtain ⟨N', recs', b1, b2, b3⟩ := saveLoop_storable h (s.kids qu) hkids
    refine ⟨N' + qu.length, s.levelRecs qu ++ recs', ?_, ?_, ?_⟩
    · intro fuel hf
      have hl := saveLoop_level (s := s) (h := h) qu (fun x hx => (hq x hx).1)
        (fuel - qu.length) []
      have e1 : fuel - qu.length + qu.length = fuel := by omega
      rw [e1, List.append_nil, List.nil_append, b1 _ (by omega)] at hl
      rw [hl, encAll_append]
    · intro r hr
      rcases List.mem_append.1 hr with hr | hr
      · obtain ⟨x, hx, d, hd, hm⟩ := mem_levelRecs.1 hr
        obtain ⟨a1, a2, a3⟩ := hq x hx
        exact blockRecs_sound a1 a2 a3 hd r hm
      · exact b2 r hr
    · intro x hx q' p' d hw hd r hr
      cases q' with
      | nil =>
        rw [walk_nil] at hw; cases hw
        rw [List.append_nil] at hr
        exact List.mem_append_left _ (mem_levelRecs.2 ⟨x, hx, d, hd, hr⟩)
      | cons k q'' =>
        obtain ⟨d0, c, h1, h2, h3⟩ := walk_cons_some.1 hw
        have hy : (c, x.2 ++ [k]) ∈ s.kids qu :=
          mem_kids.2 ⟨x, hx, d0, h1, (k, c), PMap.find_mem h2, rfl⟩
        have e : x.2 ++ k :: q'' = (x.2 ++ [k]) ++ q'' := by simp
        rw [e] at hr
        exact List.mem_append_right _ (b3 _ hy q'' p' d h3 hd r hr)

/-! ## The round trip -/

theorem length_enc_le {r : Rec} {recs : List Rec} (h : r ∈ recs) :
    r.enc.length ≤ (encAll recs).length := by
  induction recs with
  | nil => cases h
  | cons x xs ih =>
    rw [encAll_cons, List.length_append]
    rcases List.mem_cons.1 h with e | e
    · subst e; omega
    · have := ih e; omega

theorem length_le_encAll (recs : List Rec) : recs.length ≤ (encAll recs).length := by
  induction recs with
  | nil => simp
  | cons x xs ih =>
    rw [encAll_cons, List.length_append, List.length_cons]
    have : 0 < x.enc.length := List.length_pos.2 (Rec.enc_ne_nil x)
    omega

theorem Rec.ok_of_fields {r : Rec} (h : r.fields) (hl : r.enc.length < sizeMod) : r.ok := by
  cases r with
  | dir q => exact ⟨h, hl⟩
  | file q f => exact ⟨h.1, h.2.1, h.2.2.1, h.2.2.2.1, hl, h.2.2.2.2⟩

theorem loadLoop_empty (τ : Nat → Str) (k : Nat) (s : FileSystem) :
    loadLoop τ (k + 1) [] s = .ok s := rfl

theorem sim_init {t : FileSystem} (h : (t.dir t.root).isSome) :
    Sim init t (fun _ => t.root) := by
  refine ⟨rfl, rfl, ?_⟩
  intro p d hd
  obtain ⟨dT, hdT⟩ := Option.isSome_iff_exists.1 h
  have hp : p = 0 := by
    have := dir_lt hd
    simp [init] at this
    exact this
  subst hp
  have : d = ⟨['r', 'o', 'o', 't'], none, [], []⟩ := by
    have e : init.dir 0 = some ⟨['r', 'o', 'o', 't'], none, [], []⟩ := rfl
    rw [e] at hd; cases hd; rfl
  subst this
  refine ⟨dT, hdT, ?_, ?_, trivial, trivial⟩
  · intro k c hm; cases hm
  · intro k c hm; cases hm

theorem walk_curr (s : FileSystem) (c : Option Ptr) : ∀ (q : List Str) (p : Ptr),
    FileSystem.walk { s with curr := c } p q = s.walk p q
  | [], _ => rfl
  | k :: ks, p => by
    rw [walk_cons, walk_cons]
    have e : FileSystem.dir { s with curr := c } p = s.dir p := rfl
    rw [e]
    cases s.dir p with
    | none => rfl
    | some d =>
      simp only
      cases d.subDirs.find k with
      | none => rfl
      | some x => exact walk_curr s c ks x

theorem viewAt_curr (s : FileSystem) (c : Option Ptr) (q : List Str) :
    FileSystem.viewAt { s with curr := c } q = s.viewAt q := by
  unfold viewAt dirAt
  rw [walk_curr]
  rfl

/-- Two trees, one a part of the other and holding all its records, are the same tree. -/
theorem sameTree_of_sim {l t : FileSystem} {φ : Ptr → Ptr} {h : Nat} {recs : List Rec}
    (hs : Sim l t φ) (ht : t.storable h t.root = true)
    (hp : ∀ r ∈ recs, r.present l)
    (hc : ∀ q' p' d, t.walk t.root q' = some p' → t.dir p' = some d →
        ∀ r ∈ t.blockRecs q' d, r ∈ recs) :
    SameTree l t := by
  -- every directory of `t` is in `l`
  have hdirs : ∀ q dT, t.dirAt q = some dT → ∃ dL, l.dirAt q = some dL := by
    intro q dT hq
    rcases List.eq_nil_or_concat q with e | ⟨q0, k, e⟩
    · subst e
      rw [dirAt_nil]
      exact Option.isSome_iff_exists.1 hs.rootLive
    · rw [List.concat_eq_append] at e
      subst e
      obtain ⟨dq, c, h1, h2, h3⟩ := dirAt_snoc.1 hq
      obtain ⟨p0, h4, h5⟩ := dirAt_some.1 h1
      have hr : Rec.dir (q0 ++ [k]) ∈ t.blockRecs q0 dq :=
        List.mem_append_left _ (List.mem_map.2 ⟨(k, c), PMap.find_mem h2, rfl⟩)
      exact Option.isSome_iff_exists.1 (hp _ (hc q0 p0 dq h4 h5 _ hr))
  intro q
  cases hT : t.dirAt q with
  | none =>
    cases hL : l.dirAt q with
    | none => simp only [viewAt, hT, hL]
    | some dL =>
      obtain ⟨_, d', _, _, _, _, e⟩ := hs.dirAt_image hL
      rw [hT] at e; cases e
  | some dT =>
    obtain ⟨dL, hL⟩ := hdirs q dT hT
    obtain ⟨p, d', hw, hpL, hwT, hdT, e⟩ := hs.dirAt_image hL
    rw [hT] at e; cases e
    obtain ⟨d'', e1, f1, g1, srtL1, srtL2⟩ := hs.dirs p dL hpL
    rw [hdT] at e1; cases e1
    obtain ⟨h', hst⟩ := storable_walk q h _ _ ht hwT
    obtain ⟨d'', e2, srtT1, srtT2, hsf, _⟩ := storable_succ hst
    rw [hdT] at e2; cases e2
    have hkeys : dL.subDirs.keys = dT.subDirs.keys := by
      have := PMap.sorted_map_ext (fun _ => ()) (fun _ => ()) dL.subDirs dT.subDirs srtL1 srtT1
        (fun k c hm => ⟨φ c, PMap.find_mem (f1 k c hm).2, rfl⟩)
        (by
          intro k c hm
          have hr : Rec.dir (q ++ [k]) ∈ t.blockRecs q dT :=
            List.mem_append_left _ (List.mem_map.2 ⟨(k, c), hm, rfl⟩)
          obtain ⟨dc, hdc⟩ := Option.isSome_iff_exists.1 (hp _ (hc q _ dT hwT hdT _ hr))
          obtain ⟨dq, c1, a1, a2, _⟩ := dirAt_snoc.1 hdc
          rw [hL] at a1; cases a1
          exact ⟨c1, PMap.find_mem a2⟩)
      have := congrArg (List.map Prod.fst) this
      simpa [PMap.keys, List.map_map, Function.comp_def] using this
    have hfiles : dL.files.map (fun kf => (kf.1, l.file kf.2))
        = dT.files.map (fun kf => (kf.1, t.file kf.2)) := by
      refine PMap.sorted_map_ext l.file t.file dL.files dT.files srtL2 srtT2 ?_ ?_
      · intro k fp hm
        obtain ⟨f, fp', a1, a2, a3⟩ := g1 k fp hm
        exact ⟨fp', PMap.find_mem a2, a1.trans a3.symm⟩
      · intro k fp hm
        obtain ⟨f, hf, hname, _⟩ := storableFiles_mem hsf hm
        have hr : Rec.file q f ∈ t.blockRecs q dT :=
          List.mem_append_right _ (List.mem_filterMap.2 ⟨(k, fp), hm, by simp [hf]⟩)
        obtain ⟨f', hf'⟩ := Option.isSome_iff_exists.1 (hp _ (hc q _ dT hwT hdT _ hr))
        obtain ⟨dq, fp1, a1, a2, _⟩ := fileAt_some.1 hf'
        rw [hL] at a1; cases a1
        rw [hname] at a2
        exact ⟨fp1, PMap.find_mem a2⟩
    simp only [viewAt, hT, hL, hkeys, hfiles]

/-- Saving a storable tree ends, and loading the bytes written into a fresh tree gives the
same tree. -/
theorem save_load {τ : Nat → Str} {s : FileSystem} {h : Nat}
    (hs : s.storable h s.root = true) :
    ∃ N out, (∀ fuel, N ≤ fuel → s.saveToDisk fuel = .ok out) ∧
      (out.length < sizeMod →
        ∃ s', loadFromDisk τ (some out) init = .ok s' ∧ SameTree s' s ∧
          s'.curr = some s'.root ∧ s'.root = init.root) := by
  obtain ⟨N, recs, a1, a2, a3⟩ := saveLoop_storable h [(s.root, [])]
    (by
      intro x hx
      rw [List.mem_singleton] at hx; subst hx
      exact ⟨hs, rfl, fun _ h => by cases h⟩)
  refine ⟨N, encAll recs, a1, ?_⟩
  intro hlen
  have hlive : (s.dir s.root).isSome := by
    cases h with
    | zero => rw [storable_zero] at hs; cases hs
    | succ h =>
      obtain ⟨d, hd, _⟩ := storable_succ hs
      rw [hd]; rfl
  have hok : ∀ r ∈ recs, r.ok ∧ r.sound s := by
    intro r hr
    exact ⟨Rec.ok_of_fields (a2 r hr).2 (Nat.lt_of_le_of_lt (length_enc_le hr) hlen),
      (a2 r hr).1⟩
  obtain ⟨l', φ', b1, b2, b3, b4⟩ := applyRecs_sim τ recs init _ (sim_init hlive) hok
  have hfuel : (encAll recs).length + 1
      = recs.length + (((encAll recs).length - recs.length) + 1) := by
    have := length_le_encAll recs
    omega
  have hload : loadLoop τ ((encAll recs).length + 1) (encAll recs) init = .ok l' := by
    have h1 : loadLoop τ (recs.length + (((encAll recs).length - recs.length) + 1))
        (encAll recs) init = match applyRecs τ recs init with
          | .error e => .error e
          | .ok s1 => loadLoop τ (((encAll recs).length - recs.length) + 1) [] s1 := by
      have := loadLoop_recs τ recs (((encAll recs).length - recs.length) + 1) [] init
        (fun r hr => (hok r hr).1) (fun r hr => Rec.fits_of_ok (hok r hr).1)
      rw [List.append_nil] at this
      exact this
    rw [hfuel, h1, b1]
    exact loadLoop_empty τ _ l'
  refine ⟨{ l' with curr := some l'.root }, ?_, ?_, rfl, b3.root⟩
  · simp only [loadFromDisk, hload]
  · intro q
    rw [viewAt_curr]
    exact sameTree_of_sim b2 hs b4
      (fun q' p' d hw hd r hr => a3 (s.root, []) (List.mem_singleton.2 rfl) q' p' d hw hd r
        (by simpa using hr)) q

end FSim

namespace FSim

open FileSystem

/-! ## C1: the round trip of the persistence codec -/

/-- C1, counterexample: the tree that `makeDirectory("a/b")` builds on a fresh tree obeys the
data model, yet loading what `saveToDisk` writes for it yields another tree: the root then
holds a directory "a" with a subdirectory "b" instead of one directory "a/b". -/
theorem roundtrip_fails_on_slash :
    makeDirectory "a/b".toList init = .ok (.done, slashTree) ∧
    slashTree.wellFormed 2 = true ∧
    slashTree.saveToDisk 2 = .ok "D|/a/b\n".toList ∧
    loadFromDisk noon (some "D|/a/b\n".toList) init = .ok slashLoaded ∧
    ¬ SameTree slashLoaded slashTree := by
  refine ⟨by decide, by decide, by decide, by decide, ?_⟩
  intro h
  exact absurd (h []) (by decide)

/-- C1, amended: for every tree whose directory names are non-empty, whose names contain none
of the bytes '/', '|' and newline, whose timestamps contain neither '|' nor newline, and whose
maps are in key order with every file carrying its key as name (and a content that is a
`std::string`, no longer than `max_size()`), `saveToDisk` ends with a store `out` (for every
fuel from some bound on); when `out` is shorter than `2 ^ 64` bytes, loading it into a fresh
tree, in a run without a shortage of memory, succeeds and yields a tree equal to the original
in directory structure, file names, file content, `createdAt` and `modifiedAt`. -/
theorem roundtrip_delimiter_free (τ : Nat → Str) (s : FileSystem) (h : Nat)
    (hs : s.storable h s.root = true) :
    ∃ N out, (∀ fuel, N ≤ fuel → s.saveToDisk fuel = .ok out) ∧
      (out.length < sizeMod →
        ∃ s', loadFromDisk τ (some out) init = .ok s' ∧ SameTree s' s) := by
  obtain ⟨N, out, h1, h2⟩ := save_load (τ := τ) hs
  refine ⟨N, out, h1, fun hl => ?_⟩
  obtain ⟨s', a, b, _⟩ := h2 hl
  exact ⟨s', a, b⟩

/-- C1, witness: the scenario tree (directory "docs" holding "a.txt" with content "hello\n")
is storable, so its round trip succeeds. -/
theorem roundtrip_delimiter_free_witness :
    docsTree.storable 2 docsTree.root = true ∧
    ∃ N out, (∀ fuel, N ≤ fuel → docsTree.saveToDisk fuel = .ok out) ∧
      (out.length < sizeMod →
        ∃ s', loadFromDisk noon (some out) init = .ok s' ∧ SameTree s' docsTree) :=
  ⟨by decide, roundtrip_delimiter_free noon docsTree 2 (by decide)⟩

end FSim

namespace FSim

open FileSystem

/-! ## C3: `moveDirectory` into the moved directory -/

theorem ancestor_selfMoved : ∀ n, selfMoved.ancestor n 1 = some 1
  | 0 => rfl
  | n + 1 => by
    have ih := ancestor_selfMoved n
    rw [FileSystem.ancestor]
    exact ih

/-- C3, the failing run: on a well-formed tree with one directory "a" and the cursor on the
root, the path "a" resolves to that directory, and `moveDirectory("a", a)` reports success;
afterwards the root is empty, "a" is no longer reachable from the root, and following parent
links from "a" stays at "a" for ever and never reaches the root. -/
theorem moveDirectory_into_itself_detaches :
    selfTree.wellFormed 2 = true ∧
    navigateToPath selfTree "a".toList = .ok (some 1) ∧
    moveDirectory "a".toList 1 selfTree = .ok (.done, selfMoved) ∧
    selfMoved.walk selfMoved.root ["a".toList] = none ∧
    (∀ n, selfMoved.ancestor n 1 ≠ some selfMoved.root) := by
  refine ⟨by decide, by decide, by decide, by decide, ?_⟩
  intro n
  rw [ancestor_selfMoved n]
  decide

/-! ## Operations on the cursor directory -/

theorem derefCurr_of {s : FileSystem} {c : Ptr} {d : Directory} (hc : s.curr = some c)
    (hd : s.dir c = some d) : s.derefCurr = .ok (c, d) := by
  simp only [derefCurr, hc, hd]

theorem derefDir_of {s : FileSystem} {p : Ptr} {d : Directory} (hd : s.dir p = some d) :
    s.derefDir p = .ok d := by
  simp only [derefDir, hd]

theorem derefFile_of {s : FileSystem} {p : Ptr} {f : File} (hf : s.file p = some f) :
    s.derefFile p = .ok f := by
  simp only [derefFile, hf]

theorem count_false_of {m : PMap} {k : Str} (h : m.find k = none) : m.count k = false :=
  PMap.count_eq_false.2 h

theorem count_true_of {m : PMap} {k : Str} {v : Ptr} (h : m.find k = some v) :
    m.count k = true := by
  simp only [PMap.count, h, Option.isSome_some]

/-- The effect of a successful `makeDirectory`, cell by cell. -/
theorem makeDirectory_done {s : FileSystem} {c : Ptr} {d : Directory} (name : Str)
    (hc : s.curr = some c) (hd : s.dir c = some d) (h1 : d.subDirs.find name = none)
    (h2 : d.files.find name = none) :
    ∃ s', makeDirectory name s = .ok (.done, s') ∧
      (∀ q, s'.dir q = if q = c then some { d with subDirs := d.subDirs.set name s.dirs.length }
        else if q = s.dirs.length then some ⟨name, some c, [], []⟩ else s.dir q) ∧
      s'.fls = s.fls ∧ s'.root = s.root ∧ s'.curr = s.curr ∧ s'.ticks = s.ticks := by
  have hcur1 : (s.newDir name (some c)).2.dir c = some d := by
    rw [dir_newDir, if_neg (Nat.ne_of_lt (dir_lt hd))]; exact hd
  obtain ⟨s2, hs2⟩ := modDir_of_live
    (fun x => { x with subDirs := x.subDirs.set name (s.newDir name (some c)).1 }) hcur1
  obtain ⟨d0, m1, m2, m3, m4, m5, m6, _⟩ := modDir_ok hs2
  rw [hcur1] at m1; cases m1
  refine ⟨s2, ?_, ?_, m3, m4, m5, m6⟩
  · simp only [makeDirectory, derefCurr_of hc hd, count_false_of h1, count_false_of h2,
      Bool.or_self, Bool.false_eq_true, if_false]
    show (match (s.newDir name (some c)).2.modDir c
        (fun x => { x with subDirs := x.subDirs.set name (s.newDir name (some c)).1 }) with
      | Except.error e => Except.error e
      | Except.ok s2 => Except.ok (Reply.done, s2)) = _
    rw [hs2]
  · intro q
    rw [m2 q, dir_newDir]; rfl

/-- The effect of a successful `createFile`, cell by cell. -/
theorem createFile_done {s : FileSystem} {c : Ptr} {d : Directory} (τ : Nat → Str)
    (name : Str) (hc : s.curr = some c) (hd : s.dir c = some d)
    (h1 : d.subDirs.find name = none) (h2 : d.files.find name = none) :
    ∃ s', createFile τ name s = .ok (.done, s') ∧
      (∀ q, s'.dir q = if q = c then some { d with files := d.files.set name s.fls.length }
        else s.dir q) ∧
      (∀ q, s'.file q = if q = s.fls.length then some ⟨name, [], τ s.ticks, τ s.ticks⟩
        else s.file q) ∧
      s'.root = s.root ∧ s'.curr = s.curr ∧ s'.ticks = s.ticks + 1 ∧
      s'.dirs.length = s.dirs.length := by
  obtain ⟨n1, n2, n3, n4, n5⟩ := newFile_frame τ s name
  have hcur1 : (s.newFile τ name).2.dir c = some d := by
    rw [dir_eq_of_dirs n1]; exact hd
  obtain ⟨s2, hs2⟩ := modDir_of_live
    (fun x => { x with files := x.files.set name (s.newFile τ name).1 }) hcur1
  obtain ⟨d0, m1, m2, m3, m4, m5, m6, m7⟩ := modDir_ok hs2
  rw [hcur1] at m1; cases m1
  refine ⟨s2, ?_, ?_, ?_, by rw [m4, n2], by rw [m5, n3], by rw [m6, n4], ?_⟩
  · simp only [createFile, derefCurr_of hc hd, count_false_of h1, count_false_of h2,
      Bool.or_self, Bool.false_eq_true, if_false]
    show (match (s.newFile τ name).2.modDir c
        (fun x => { x with files := x.files.set name (s.newFile τ name).1 }) with
      | Except.error e => Except.error e
      | Except.ok s2 => Except.ok (Reply.done, s2)) = _
    rw [hs2]
  · intro q
    rw [m2 q, dir_eq_of_dirs n1]; rfl
  · intro q
    rw [file_eq_of_fls m3, file_newFile]
  · rw [m7, n1]

end FSim

namespace FSim

open FileSystem

/-- C4: with the cursor on a live directory, `createFile(name)` and `makeDirectory(name)`
fail with a name collision and leave the whole state unchanged when the cursor already has a
file or a subdirectory called `name`; otherwise the cursor gains exactly one child under the
key `name` (a new file with empty content and `createdAt = modifiedAt`, or a new directory
without children whose parent is the cursor), allocated at a fresh address, and every other
directory and file of the heap, the root and the cursor are unchanged. -/
theorem create_collision_or_one_new_child (τ : Nat → Str) (s : FileSystem) (c : Ptr)
    (d : Directory) (name : Str) (hc : s.curr = some c) (hd : s.dir c = some d) :
    ((d.files.count name = true ∨ d.subDirs.count name = true) →
      createFile τ name s = .ok (.nameCollision, s) ∧
      makeDirectory name s = .ok (.nameCollision, s)) ∧
    (d.files.count name = false → d.subDirs.count name = false →
      (∃ s' d' f, createFile τ name s = .ok (.done, s') ∧ s'.dir c = some d' ∧
        d'.name = d.name ∧ d'.parent = d.parent ∧ d'.subDirs = d.subDirs ∧
        (∀ k, d'.files.find k = if k = name then some s.fls.length else d.files.find k) ∧
        d'.files.keys.Perm (name :: d.files.keys) ∧
        s.file s.fls.length = none ∧ s'.file s.fls.length = some f ∧
        f.name = name ∧ f.content = [] ∧ f.createdAt = f.modifiedAt ∧
        (∀ q, q ≠ c → s'.dir q = s.dir q) ∧ (∀ q, q ≠ s.fls.length → s'.file q = s.file q) ∧
        s'.root = s.root ∧ s'.curr = s.curr) ∧
      (∃ s' d' n, makeDirectory name s = .ok (.done, s') ∧ s'.dir c = some d' ∧
        d'.name = d.name ∧ d'.parent = d.parent ∧ d'.files = d.files ∧
        (∀ k, d'.subDirs.find k = if k = name then some s.dirs.length else d.subDirs.find k) ∧
        d'.subDirs.keys.Perm (name :: d.subDirs.keys) ∧
        s.dir s.dirs.length = none ∧ s'.dir s.dirs.length = some n ∧
        n.name = name ∧ n.parent = some c ∧ n.subDirs = [] ∧ n.files = [] ∧
        (∀ q, q ≠ c → q ≠ s.dirs.length → s'.dir q = s.dir q) ∧ s'.fls = s.fls ∧
        s'.root = s.root ∧ s'.curr = s.curr)) := by
  constructor
  · intro h
    constructor
    · simp only [createFile, derefCurr_of hc hd]
      rcases h with h | h <;> simp [h]
    · simp only [makeDirectory, derefCurr_of hc hd]
      rcases h with h | h <;> simp [h]
  · intro h1 h2
    have hf := PMap.count_eq_false.1 h1
    have hs := PMap.count_eq_false.1 h2
    constructor
    · obtain ⟨s', a1, a2, a3, a4, a5, _, _⟩ := createFile_done τ name hc hd hs hf
      refine ⟨s', { d with files := d.files.set name s.fls.length },
        ⟨name, [], τ s.ticks, τ s.ticks⟩, a1, by rw [a2 c, if_pos rfl], rfl, rfl, rfl, ?_, ?_,
        file_length_none s, by rw [a3, if_pos rfl], rfl, rfl, rfl, ?_, ?_, a4, a5⟩
      · intro k
        simp only [PMap.find_set]
        by_cases e : k = name
        · subst e; simp
        · have e' : ¬ name = k := fun h => e h.symm
          simp [e, e']
      · exact PMap.keys_set_perm (PMap.find_none_iff.1 hf)
      · intro q hq; rw [a2 q, if_neg hq]
      · intro q hq; rw [a3 q, if_neg hq]
    · obtain ⟨s', a1, a2, a3, a4, a5, _⟩ := makeDirectory_done name hc hd hs hf
      have hne : s.dirs.length ≠ c := Nat.ne_of_gt (dir_lt hd)
      refine ⟨s', { d with subDirs := d.subDirs.set name s.dirs.length },
        ⟨name, some c, [], []⟩, a1, by rw [a2 c, if_pos rfl], rfl, rfl, rfl, ?_, ?_,
        dir_length_none s, by rw [a2, if_neg hne, if_pos rfl], rfl, rfl, rfl, rfl, ?_, a3, a4,
        a5⟩
      · intro k
        simp only [PMap.find_set]
        by_cases e : k = name
        · subst e; simp
        · have e' : ¬ name = k := fun h => e h.symm
          simp [e, e']
      · exact PMap.keys_set_perm (PMap.find_none_iff.1 hs)
      · intro q hq1 hq2; rw [a2 q, if_neg hq1, if_neg hq2]

/-- C4, witness: on the fresh tree the cursor is the live, empty root. -/
theorem create_collision_or_one_new_child_witness :
    init.curr = some 0 ∧ init.dir 0 = some ⟨"root".toList, none, [], []⟩ ∧
    (∃ s', createFile noon "a.txt".toList init = .ok (.done, s')) ∧
    (∃ s', makeDirectory "a.txt".toList init = .ok (.done, s')) := by
  have h := create_collision_or_one_new_child noon init 0 ⟨"root".toList, none, [], []⟩
    "a.txt".toList rfl rfl
  obtain ⟨⟨s1, _, _, a, _⟩, ⟨s2, _, _, b, _⟩⟩ := h.2 rfl rfl
  exact ⟨rfl, rfl, ⟨s1, a⟩, ⟨s2, b⟩⟩

/-! ## Renaming -/

theorem find_rekey {m : PMap} {oldN newN : Str} {p : Ptr} (hs : m.Sorted)
    (ho : m.find oldN = some p) (hn : m.find newN = none) (k : Str) :
    ((m.set newN p).erase oldN).find k
      = if k = oldN then none else if k = newN then some p else m.find k := by
  have hne : oldN ≠ newN := by
    intro e; rw [e, hn] at ho; cases ho
  have hnd : ((m.set newN p).keys).Nodup :=
    PMap.nodup_keys_set hs.nodup (PMap.find_none_iff.1 hn)
  by_cases e : k = oldN
  · subst e
    simp only [if_true]
    exact PMap.find_erase_self _ hnd
  · have e' : oldN ≠ k := fun h => e h.symm
    rw [PMap.find_erase_ne _ e', PMap.find_set]
    simp only [e, if_false]
    by_cases e2 : k = newN
    · subst e2; simp
    · have e2' : ¬ newN = k := fun h => e2 h.symm
      simp [e2, e2']

/-- The effect of a successful `renameFile`, cell by cell. -/
theorem renameFile_done {s : FileSystem} {c : Ptr} {d : Directory} {oldN newN : Str}
    {p : Ptr} {f : File} (hc : s.curr = some c) (hd : s.dir c = some d)
    (ho : d.files.find oldN = some p) (hf : s.file p = some f)
    (h1 : d.files.find newN = none) (h2 : d.subDirs.find newN = none) :
    ∃ s', renameFile oldN newN s = .ok (.done, s') ∧
      (∀ q, s'.dir q = if q = c then
        some { d with files := (d.files.set newN p).erase oldN } else s.dir q) ∧
      (∀ q, s'.file q = if q = p then some { f with name := newN } else s.file q) ∧
      s'.root = s.root ∧ s'.curr = s.curr ∧ s'.ticks = s.ticks := by
  obtain ⟨s1, hs1⟩ := modDir_of_live (fun x => { x with files := x.files.set newN p }) hd
  obtain ⟨d0, m1, m2, m3, m4, m5, m6, _⟩ := modDir_ok hs1
  rw [hd] at m1; cases m1
  have hf1 : s1.file p = some f := by rw [file_eq_of_fls m3]; exact hf
  obtain ⟨s2, hs2⟩ := modFile_of_live (fun x => { x with name := newN }) hf1
  obtain ⟨f0, n1, n2, n3, n4, n5, n6, _⟩ := modFile_ok hs2
  rw [hf1] at n1; cases n1
  have hd2 : s2.dir c = some { d with files := d.files.set newN p } := by
    rw [dir_eq_of_dirs n3, m2 c, if_pos rfl]
  obtain ⟨s3, hs3⟩ := modDir_of_live (fun x => { x with files := x.files.erase oldN }) hd2
  obtain ⟨d1, k1, k2, k3, k4, k5, k6, _⟩ := modDir_ok hs3
  rw [hd2] at k1; cases k1
  refine ⟨s3, ?_, ?_, ?_, by rw [k4, n4, m4], by rw [k5, n5, m5], by rw [k6, n6, m6]⟩
  · simp only [renameFile, derefCurr_of hc hd, ho, count_false_of h1, count_false_of h2,
      Bool.or_self, Bool.false_eq_true, if_false, hs1, hs2, hs3]
  · intro q
    rw [k2 q]
    by_cases e : q = c
    · simp only [e, if_true]
    · simp only [e, if_false]
      rw [dir_eq_of_dirs n3, m2 q, if_neg e]
  · intro q
    rw [file_eq_of_fls k3, n2 q, file_eq_of_fls m3]

/-- The effect of a successful `renameDirectory`, cell by cell. -/
theorem renameDirectory_done {s : FileSystem} {c : Ptr} {d : Directory} {oldN newN : Str}
    {p : Ptr} {pd : Directory} (hc : s.curr = some c) (hd : s.dir c = some d)
    (ho : d.subDirs.find oldN = some p) (hp : s.dir p = some pd) (hpc : p ≠ c)
    (h1 : d.files.find newN = none) (h2 : d.subDirs.find newN = none) :
    ∃ s', renameDirectory oldN newN s = .ok (.done, s') ∧
      (∀ q, s'.dir q = if q = c then
          some { d with subDirs := (d.subDirs.set newN p).erase oldN }
        else if q = p then some { pd with name := newN } else s.dir q) ∧
      s'.fls = s.fls ∧ s'.root = s.root ∧ s'.curr = s.curr ∧ s'.ticks = s.ticks := by
  obtain ⟨s1, hs1⟩ := modDir_of_live (fun x => { x with subDirs := x.subDirs.set newN p }) hd
  obtain ⟨d0, m1, m2, m3, m4, m5, m6, _⟩ := modDir_ok hs1
  rw [hd] at m1; cases m1
  have hp1 : s1.dir p = some pd := by rw [m2 p, if_neg hpc]; exact hp
  obtain ⟨s2, hs2⟩ := modDir_of_live (fun x => { x with name := newN }) hp1
  obtain ⟨f0, n1, n2, n3, n4, n5, n6, _⟩ := modDir_ok hs2
  rw [hp1] at n1; cases n1
  have hd2 : s2.dir c = some { d with subDirs := d.subDirs.set newN p } := by
    rw [n2 c, if_neg (fun e => hpc e.symm), m2 c, if_pos rfl]
  obtain ⟨s3, hs3⟩ := modDir_of_live (fun x => { x with subDirs := x.subDirs.erase oldN }) hd2
  obtain ⟨d1, k1, k2, k3, k4, k5, k6, _⟩ := modDir_ok hs3
  rw [hd2] at k1; cases k1
  refine ⟨s3, ?_, ?_, by rw [k3, n3, m3], by rw [k4, n4, m4], by rw [k5, n5, m5],
    by rw [k6, n6, m6]⟩
  · simp only [renameDirectory, derefCurr_of hc hd, ho, count_false_of h1, count_false_of h2,
      Bool.or_self, Bool.false_eq_true, if_false, hs1, hs2, hs3]
  · intro q
    rw [k2 q]
    by_cases e : q = c
    · simp only [e, if_true]
    · simp only [e, if_false]
      rw [n2 q]
      by_cases e2 : q = p
      · simp only [e2, if_true]
      · simp only [e2, if_false]
        rw [m2 q, if_neg e]

/-- C5: with the cursor on a live directory whose maps are in key order, `renameFile` and
`renameDirectory` leave the whole state unchanged and report NotFound when `oldName` is not
a child of that kind, and report a name collision when `newName` is already a file or a
subdirectory of the cursor (in particular when `newName = oldName`); otherwise the node
formerly stored under `oldName` is stored under `newName` and carries `newName` as its name,
`oldName` is no longer a child, every other entry of the cursor is as before, the content and
timestamps of a renamed file and the parent, subdirectories and files of a renamed directory
are unchanged, and so is every other object of the heap. -/
theorem rename_rekeys_in_place (s : FileSystem) (c : Ptr) (d : Directory)
    (oldN newN : Str) (hc : s.curr = some c) (hd : s.dir c = some d)
    (hsf : d.files.Sorted) (hsd : d.subDirs.Sorted) :
    (d.files.find oldN = none → renameFile oldN newN s = .ok (.notFound, s)) ∧
    (d.subDirs.find oldN = none → renameDirectory oldN newN s = .ok (.notFound, s)) ∧
    ((d.files.count newN = true ∨ d.subDirs.count newN = true) →
      (d.files.count oldN = true → renameFile oldN newN s = .ok (.nameCollision, s)) ∧
      (d.subDirs.count oldN = true →
        renameDirectory oldN newN s = .ok (.nameCollision, s))) ∧
    (d.files.count oldN = true → renameFile oldN oldN s = .ok (.nameCollision, s)) ∧
    (d.subDirs.count oldN = true → renameDirectory oldN oldN s = .ok (.nameCollision, s)) ∧
    (d.files.count newN = false → d.subDirs.count newN = false →
      (∀ p f, d.files.find oldN = some p → s.file p = some f →
        ∃ s' d', renameFile oldN newN s = .ok (.done, s') ∧ s'.dir c = some d' ∧
          d'.files.find newN = some p ∧ d'.files.find oldN = none ∧
          (∀ k, k ≠ oldN → k ≠ newN → d'.files.find k = d.files.find k) ∧
          d'.subDirs = d.subDirs ∧ d'.name = d.name ∧ d'.parent = d.parent ∧
          s'.file p = some { f with name := newN } ∧
          (∀ q, q ≠ p → s'.file q = s.file q) ∧ (∀ q, q ≠ c → s'.dir q = s.dir q) ∧
          s'.root = s.root ∧ s'.curr = s.curr) ∧
      (∀ p pd, d.subDirs.find oldN = some p → s.dir p = some pd → p ≠ c →
        ∃ s' d', renameDirectory oldN newN s = .ok (.done, s') ∧ s'.dir c = some d' ∧
          d'.subDirs.find newN = some p ∧ d'.subDirs.find oldN = none ∧
          (∀ k, k ≠ oldN → k ≠ newN → d'.subDirs.find k = d.subDirs.find k) ∧
          d'.files = d.files ∧ d'.name = d.name ∧ d'.parent = d.parent ∧
          s'.dir p = some { pd with name := newN } ∧
          (∀ q, q ≠ c → q ≠ p → s'.dir q = s.dir q) ∧ s'.fls = s.fls ∧
          s'.root = s.root ∧ s'.curr = s.curr)) := by
  have hcoll : ∀ n, (d.files.count n = true ∨ d.subDirs.count n = true) →
      (d.files.count oldN = true → renameFile oldN n s = .ok (.nameCollision, s)) ∧
      (d.subDirs.count oldN = true → renameDirectory oldN n s = .ok (.nameCollision, s)) := by
    intro n h
    constructor
    · intro ho
      obtain ⟨p, hp⟩ := Option.isSome_iff_exists.1 ho
      simp only [renameFile, derefCurr_of hc hd, hp]
      rcases h with h | h <;> simp [h]
    · intro ho
      obtain ⟨p, hp⟩ := Option.isSome_iff_exists.1 ho
      simp only [renameDirectory, derefCurr_of hc hd, hp]
      rcases h with h | h <;> simp [h]
  refine ⟨?_, ?_, hcoll newN, fun h => (hcoll oldN (Or.inl h)).1 h,
    fun h => (hcoll oldN (Or.inr h)).2 h, ?_⟩
  · intro h; simp only [renameFile, derefCurr_of hc hd, h]
  · intro h; simp only [renameDirectory, derefCurr_of hc hd, h]
  · intro h1 h2
    have hf := PMap.count_eq_false.1 h1
    have hs := PMap.count_eq_false.1 h2
    constructor
    · intro p f ho hp
      obtain ⟨s', a1, a2, a3, a4, a5, _⟩ := renameFile_done hc hd ho hp hf hs
      have hfind := find_rekey hsf ho hf
      have hne : newN ≠ oldN := by
        intro e; rw [e, ho] at hf; cases hf
      refine ⟨s', { d with files := (d.files.set newN p).erase oldN }, a1,
        by rw [a2 c, if_pos rfl], ?_, ?_, ?_, rfl, rfl, rfl,
        by rw [a3 p, if_pos rfl], fun q hq => by rw [a3 q, if_neg hq],
        fun q hq => by rw [a2 q, if_neg hq], a4, a5⟩
      · simp only [hfind, hne, if_false, if_true]
      · simp only [hfind, if_true]
      · intro k k1 k2; simp only [hfind, k1, k2, if_false]
    · intro p pd ho hp hpc
      obtain ⟨s', a1, a2, a3, a4, a5, _⟩ := renameDirectory_done hc hd ho hp hpc hf hs
      have hfind := find_rekey hsd ho hs
      have hne : newN ≠ oldN := by
        intro e; rw [e, ho] at hs; cases hs
      refine ⟨s', { d with subDirs := (d.subDirs.set newN p).erase oldN }, a1,
        by rw [a2 c, if_pos rfl], ?_, ?_, ?_, rfl, rfl, rfl,
        by rw [a2 p, if_neg hpc, if_pos rfl],
        fun q hq1 hq2 => by rw [a2 q, if_neg hq1, if_neg hq2], a3, a4, a5⟩
      · simp only [hfind, hne, if_false, if_true]
      · simp only [hfind, if_true]
      · intro k k1 k2; simp only [hfind, k1, k2, if_false]

/-- C5, witness: in the scenario tree the cursor is the directory "docs", whose maps are in
key order, and its file "a.txt" is renamed. -/
theorem rename_rekeys_in_place_witness :
    docsTree.curr = some 1 ∧
    (∃ s', renameFile "a.txt".toList "b.txt".toList docsTree = .ok (.done, s')) := by
  have h := rename_rekeys_in_place docsTree 1 ⟨"docs".toList, some 0, [], [("a.txt".toList, 0)]⟩
    "a.txt".toList "b.txt".toList rfl rfl (by decide) (by decide)
  obtain ⟨s', _, a, _⟩ := (h.2.2.2.2.2 (by decide) (by decide)).1 0 _ (by decide) rfl
  exact ⟨rfl, s', a⟩

end FSim

namespace FSim

open FileSystem

/-! ## Moving a file -/

/-- C7: with the cursor on a live directory whose file map is in key order and which holds a
live file under `name`, and a live target directory `T` with no child called `name`,
`moveFile(name, T)` succeeds; afterwards the cursor has no file called `name`, `T` has the
file under `name`, the very same `File` object with unchanged name, content, `createdAt` and
`modifiedAt`, every other entry of the cursor and of `T` is as before, and every other
directory and every file of the heap, the root and the cursor are unchanged. -/
theorem moveFile_relinks (s : FileSystem) (c : Ptr) (d : Directory) (name : Str)
    (target : Ptr) (t : Directory) (fp : Ptr) (f : File)
    (hc : s.curr = some c) (hd : s.dir c = some d) (hsf : d.files.Sorted)
    (hfind : d.files.find name = some fp) (hf : s.file fp = some f)
    (ht : s.dir target = some t) (ht1 : t.files.count name = false)
    (ht2 : t.subDirs.count name = false) :
    ∃ s' d' t', moveFile name target s = .ok (.done, s') ∧
      s'.dir c = some d' ∧ d'.files.find name = none ∧
      (∀ k, k ≠ name → d'.files.find k = d.files.find k) ∧
      d'.subDirs = d.subDirs ∧ d'.name = d.name ∧ d'.parent = d.parent ∧
      s'.dir target = some t' ∧ t'.files.find name = some fp ∧
      (∀ k, k ≠ name → t'.files.find k = t.files.find k) ∧
      t'.subDirs = t.subDirs ∧ t'.name = t.name ∧ t'.parent = t.parent ∧
      s'.file fp = some f ∧ s'.fls = s.fls ∧
      (∀ q, q ≠ c → q ≠ target → s'.dir q = s.dir q) ∧
      s'.root = s.root ∧ s'.curr = s.curr := by
  have hne : c ≠ target := by
    intro e
    rw [← e, hd] at ht; cases ht
    rw [count_true_of hfind] at ht1; cases ht1
  obtain ⟨s1, hs1⟩ := modDir_of_live (fun x => { x with files := x.files.set name fp }) ht
  obtain ⟨d0, m1, m2, m3, m4, m5, m6, _⟩ := modDir_ok hs1
  rw [ht] at m1; cases m1
  have hd1 : s1.dir c = some d := by rw [m2 c, if_neg hne]; exact hd
  obtain ⟨s2, hs2⟩ := modDir_of_live (fun x => { x with files := x.files.erase name }) hd1
  obtain ⟨d1, k1, k2, k3, k4, k5, k6, _⟩ := modDir_ok hs2
  rw [hd1] at k1; cases k1
  refine ⟨s2, { d with files := d.files.erase name }, { t with files := t.files.set name fp },
    ?_, by rw [k2 c, if_pos rfl], PMap.find_erase_self _ hsf.nodup, ?_, rfl, rfl, rfl, ?_, ?_,
    ?_, rfl, rfl, rfl, ?_, by rw [k3, m3], ?_, by rw [k4, m4], by rw [k5, m5]⟩
  · simp only [moveFile, derefCurr_of hc hd, hfind, derefDir_of ht, ht1, ht2, Bool.or_self,
      Bool.false_eq_true, if_false, hs1, hs2]
  · intro k hk
    exact PMap.find_erase_ne _ (fun e => hk e.symm)
  · rw [k2 target, if_neg (fun e => hne e.symm), m2 target, if_pos rfl]
  · simp only [PMap.find_set, if_true]
  · intro k hk
    simp only [PMap.find_set, if_neg (fun e : name = k => hk e.symm)]
  · rw [file_eq_of_fls k3, file_eq_of_fls m3]; exact hf
  · intro q h1 h2
    rw [k2 q, if_neg h1, m2 q, if_neg h2]

/-- C7, witness: in the scenario tree the file "a.txt" of "docs" is moved to the root. -/
theorem moveFile_relinks_witness :
    docsTree.curr = some 1 ∧
    (∃ s', moveFile "a.txt".toList 0 docsTree = .ok (.done, s')) := by
  obtain ⟨s', _, _, a, _⟩ := moveFile_relinks docsTree 1
    ⟨"docs".toList, some 0, [], [("a.txt".toList, 0)]⟩ "a.txt".toList 0
    ⟨"root".toList, none, [("docs".toList, 1)], []⟩ 0
    ⟨"a.txt".toList, "hello\n".toList, "2024-01-01 12:00:00".toList,
      "2024-01-01 12:00:00".toList⟩
    rfl rfl (by decide) (by decide) rfl rfl (by decide) (by decide)
  exact ⟨rfl, s', a⟩

/-! ## Failure of move and copy -/

theorem count_or_true {a b : Bool} (h : a = true ∨ b = true) : (a || b) = true := by
  rcases h with h | h <;> simp [h]

/-- C8: with the cursor on a live directory, each of `moveFile`, `moveDirectory`, `copyFile`
and `copyDirectory` reports NotFound when `name` is not a child of the requested kind in the
cursor, and reports a name collision when `name` is such a child and the live target already
has a file or a subdirectory called `name`, which is always so when the target is the cursor
itself; in all these cases the whole state, cursor included, is returned unchanged. -/
theorem move_copy_failure_atomic (τ : Nat → Str) (fuel : Nat) (s : FileSystem) (c : Ptr)
    (d : Directory) (name : Str) (target : Ptr) (hc : s.curr = some c)
    (hd : s.dir c = some d) :
    (d.files.find name = none →
      moveFile name target s = .ok (.notFound, s) ∧
      copyFile τ name target s = .ok (.notFound, s)) ∧
    (d.subDirs.find name = none →
      moveDirectory name target s = .ok (.notFound, s) ∧
      copyDirectory τ fuel name target s = .ok (.notFound, s)) ∧
    (∀ t, s.dir target = some t → (t.files.count name = true ∨ t.subDirs.count name = true) →
      (d.files.count name = true →
        moveFile name target s = .ok (.nameCollision, s) ∧
        copyFile τ name target s = .ok (.nameCollision, s)) ∧
      (d.subDirs.count name = true →
        moveDirectory name target s = .ok (.nameCollision, s) ∧
        copyDirectory τ fuel name target s = .ok (.nameCollision, s))) ∧
    (target = c →
      (d.files.count name = true →
        moveFile name target s = .ok (.nameCollision, s) ∧
        copyFile τ name target s = .ok (.nameCollision, s)) ∧
      (d.subDirs.count name = true →
        moveDirectory name target s = .ok (.nameCollision, s) ∧
        copyDirectory τ fuel name target s = .ok (.nameCollision, s))) := by
  have hcoll : ∀ t, s.dir target = some t →
      (t.files.count name = true ∨ t.subDirs.count name = true) →
      (d.files.count name = true →
        moveFile name target s = .ok (.nameCollision, s) ∧
        copyFile τ name target s = .ok (.nameCollision, s)) ∧
      (d.subDirs.count name = true →
        moveDirectory name target s = .ok (.nameCollision, s) ∧
        copyDirectory τ fuel name target s = .ok (.nameCollision, s)) := by
    intro t ht h
    have h' : (t.subDirs.count name || t.files.count name) = true := count_or_true h.symm
    have h'' : (t.files.count name || t.subDirs.count name) = true := count_or_true h
    constructor
    · intro ho
      obtain ⟨p, hp⟩ := Option.isSome_iff_exists.1 ho
      constructor
      · simp only [moveFile, derefCurr_of hc hd, hp, derefDir_of ht, h'', if_true]
      · simp only [copyFile, derefCurr_of hc hd, hp, derefDir_of ht, h'', if_true]
    · intro ho
      obtain ⟨p, hp⟩ := Option.isSome_iff_exists.1 ho
      constructor
      · simp only [moveDirectory, derefCurr_of hc hd, hp, derefDir_of ht, h', if_true]
      · simp only [copyDirectory, derefCurr_of hc hd, hp, derefDir_of ht, h', if_true]
  refine ⟨?_, ?_, hcoll, ?_⟩
  · intro h
    constructor
    · simp only [moveFile, derefCurr_of hc hd, h]
    · simp only [copyFile, derefCurr_of hc hd, h]
  · intro h
    constructor
    · simp only [moveDirectory, derefCurr_of hc hd, h]
    · simp only [copyDirectory, derefCurr_of hc hd, h]
  · intro e
    subst e
    exact ⟨fun h => (hcoll d hd (Or.inl h)).1 h, fun h => (hcoll d hd (Or.inr h)).2 h⟩

/-- C8, witness: in the scenario tree, with the cursor on "docs", moving or copying "a.txt"
into "docs" itself fails with a name collision and changes nothing. -/
theorem move_copy_failure_atomic_witness :
    docsTree.curr = some 1 ∧
    moveFile "a.txt".toList 1 docsTree = .ok (.nameCollision, docsTree) ∧
    copyFile noon "a.txt".toList 1 docsTree = .ok (.nameCollision, docsTree) :=
  ⟨rfl, ((move_copy_failure_atomic noon 0 docsTree 1
    ⟨"docs".toList, some 0, [], [("a.txt".toList, 0)]⟩ "a.txt".toList 1 rfl rfl).2.2.2 rfl).1
    (by decide)⟩

end FSim

namespace FSim

open FileSystem

/-! ## Deleting a subtree -/

theorem subtreeDirs_succ {s : FileSystem} {p : Ptr} {d : Directory} (h : Nat)
    (hd : s.dir p = some d) :
    s.subtreeDirs (h + 1) p = p :: d.subDirs.flatMap (fun kc => s.subtreeDirs h kc.2) := by
  rw [subtreeDirs]; simp only [hd]

theorem subtreeFiles_succ {s : FileSystem} {p : Ptr} {d : Directory} (h : Nat)
    (hd : s.dir p = some d) :
    s.subtreeFiles (h + 1) p
      = d.files.map (fun kf => kf.2) ++ d.subDirs.flatMap (fun kc => s.subtreeFiles h kc.2) := by
  rw [subtreeFiles]; simp only [hd]

theorem liveTree_zero (s : FileSystem) (p : Ptr) : s.liveTree 0 p = false := rfl

theorem liveTree_succ {s : FileSystem} {h : Nat} {p : Ptr} :
    s.liveTree (h + 1) p = true ↔ ∃ d, s.dir p = some d ∧
      (∀ kf ∈ d.files, (s.file kf.2).isSome) ∧ ∀ kc ∈ d.subDirs, s.liveTree h kc.2 = true := by
  rw [liveTree]
  cases hd : s.dir p with
  | none => simp
  | some d => simp [List.all_eq_true]

/-- A state that agrees with `s` on a live subtree of `s` has the same subtree. -/
theorem subtree_congr {s σ : FileSystem} : ∀ (h : Nat) (p : Ptr), s.liveTree h p = true →
    (∀ q ∈ s.subtreeDirs h p, σ.dir q = s.dir q) →
    (∀ f ∈ s.subtreeFiles h p, σ.file f = s.file f) →
    σ.liveTree h p = true ∧ σ.subtreeDirs h p = s.subtreeDirs h p ∧
      σ.subtreeFiles h p = s.subtreeFiles h p
  | 0, p, hl, _, _ => by rw [liveTree_zero] at hl; cases hl
  | h + 1, p, hl, hdirs, hfiles => by
    obtain ⟨d, hd, hf, hk⟩ := liveTree_succ.1 hl
    rw [subtreeDirs_succ h hd] at hdirs
    rw [subtreeFiles_succ h hd] at hfiles
    have hσ : σ.dir p = some d := by rw [hdirs p (List.mem_cons_self _ _)]; exact hd
    have ih : ∀ kc ∈ d.subDirs, σ.liveTree h kc.2 = true ∧
        σ.subtreeDirs h kc.2 = s.subtreeDirs h kc.2 ∧
        σ.subtreeFiles h kc.2 = s.subtreeFiles h kc.2 := by
      intro kc hkc
      refine subtree_congr h kc.2 (hk kc hkc) ?_ ?_
      · intro q hq
        exact hdirs q (List.mem_cons_of_mem _ (List.mem_flatMap.2 ⟨kc, hkc, hq⟩))
      · intro f hf'
        exact hfiles f (List.mem_append_right _ (List.mem_flatMap.2 ⟨kc, hkc, hf'⟩))
    refine ⟨liveTree_succ.2 ⟨d, hσ, ?_, fun kc hkc => (ih kc hkc).1⟩, ?_, ?_⟩
    · intro kf hkf
      rw [hfiles kf.2 (List.mem_append_left _ (List.mem_map.2 ⟨kf, hkf, rfl⟩))]
      exact hf kf hkf
    · rw [subtreeDirs_succ h hσ, subtreeDirs_succ h hd]
      exact congrArg _ (List.flatMap_congr (fun kc hkc => (ih kc hkc).2.1))
    · rw [subtreeFiles_succ h hσ, subtreeFiles_succ h hd]
      exact congrArg _ (List.flatMap_congr (fun kc hkc => (ih kc hkc).2.2))

theorem deleteFile_ok {s : FileSystem} {p : Ptr} (h : (s.file p).isSome) :
    ∃ s', s.deleteFile p = .ok s' ∧ (∀ q, s'.file q = if q = p then none else s.file q) ∧
      s'.dirs = s.dirs ∧ s'.root = s.root ∧ s'.curr = s.curr ∧ s'.ticks = s.ticks := by
  obtain ⟨f, hf⟩ := Option.isSome_iff_exists.1 h
  refine ⟨{ s with fls := s.fls.set p none }, by simp only [deleteFile, hf], ?_, rfl, rfl, rfl,
    rfl⟩
  intro q
  show (s.fls.set p none).getD q none = _
  rw [getD_set_none _ _ _ _ (file_lt hf)]; rfl

/-- The file loop of `~Directory`. -/
theorem deleteFiles_ok : ∀ (fs : PMap) (σ : FileSystem), (fs.map (fun kf => kf.2)).Nodup →
    (∀ kf ∈ fs, (σ.file kf.2).isSome) →
    ∃ σ', forEach (fun kf s => s.deleteFile kf.2) fs σ = .ok σ' ∧
      (∀ q, σ'.file q = if q ∈ fs.map (fun kf => kf.2) then none else σ.file q) ∧
      σ'.dirs = σ.dirs ∧ σ'.root = σ.root ∧ σ'.curr = σ.curr ∧ σ'.ticks = σ.ticks
  | [], σ, _, _ => ⟨σ, rfl, fun q => by simp, rfl, rfl, rfl, rfl⟩
  | kf :: fs, σ, hn, hl => by
    rw [List.map_cons, List.nodup_cons] at hn
    obtain ⟨σ1, a1, a2, a3, a4, a5, a6⟩ := deleteFile_ok (hl kf (List.mem_cons_self _ _))
    have hl1 : ∀ x ∈ fs, (σ1.file x.2).isSome := by
      intro x hx
      have : x.2 ≠ kf.2 := fun e => hn.1 (e ▸ List.mem_map.2 ⟨x, hx, rfl⟩)
      rw [a2, if_neg this]
      exact hl x (List.mem_cons_of_mem _ hx)
    obtain ⟨σ2, b1, b2, b3, b4, b5, b6⟩ := deleteFiles_ok fs σ1 hn.2 hl1
    refine ⟨σ2, by simp only [forEach, a1, b1], ?_, b3.trans a3, b4.trans a4, b5.trans a5,
      b6.trans a6⟩
    intro q
    rw [b2 q, a2 q]
    by_cases e1 : q ∈ fs.map (fun kf => kf.2)
    · simp [e1]
    · by_cases e2 : q = kf.2
      · simp [e2]
      · simp [e1, e2]

/-- The statement `delete d` on an owned subtree frees exactly its directories and files. -/
theorem deleteDir_spec : ∀ (h : Nat) (p : Ptr) (s : FileSystem), s.ownedTree h p →
    ∃ s', s.deleteDir h p = .ok s' ∧
      (∀ q, s'.dir q = if q ∈ s.subtreeDirs h p then none else s.dir q) ∧
      (∀ q, s'.file q = if q ∈ s.subtreeFiles h p then none else s.file q) ∧
      s'.root = s.root ∧ s'.curr = s.curr ∧ s'.ticks = s.ticks
  | 0, p, s, ho => by
    have := ho.1
    rw [liveTree_zero] at this; cases this
  | h + 1, p, s, ho => by
    obtain ⟨hl, hnd, hnf⟩ := ho
    obtain ⟨d, hd, hf, hk⟩ := liveTree_succ.1 hl
    rw [subtreeDirs_succ h hd, List.nodup_cons] at hnd
    rw [subtreeFiles_succ h hd, List.nodup_append] at hnf
    -- the loop over the subdirectories
    have kidsLoop : ∀ (cs : PMap) (σ : FileSystem),
        (∀ kc ∈ cs, s.liveTree h kc.2 = true) →
        (cs.flatMap (fun kc => s.subtreeDirs h kc.2)).Nodup →
        (cs.flatMap (fun kc => s.subtreeFiles h kc.2)).Nodup →
        (∀ q ∈ cs.flatMap (fun kc => s.subtreeDirs h kc.2), σ.dir q = s.dir q) →
        (∀ f ∈ cs.flatMap (fun kc => s.subtreeFiles h kc.2), σ.file f = s.file f) →
        ∃ σ', forEach (fun kc => deleteDir h kc.2) cs σ = .ok σ' ∧
          (∀ q, σ'.dir q
            = if q ∈ cs.flatMap (fun kc => s.subtreeDirs h kc.2) then none else σ.dir q) ∧
          (∀ q, σ'.file q
            = if q ∈ cs.flatMap (fun kc => s.subtreeFiles h kc.2) then none else σ.file q) ∧
          σ'.root = σ.root ∧ σ'.curr = σ.curr ∧ σ'.ticks = σ.ticks := by
      intro cs
      induction cs with
      | nil => intro σ _ _ _ _ _; exact ⟨σ, rfl, fun q => by simp, fun q => by simp, rfl, rfl, rfl⟩
      | cons kc cs ih =>
        intro σ hlive hn1 hn2 hag1 hag2
        rw [List.flatMap_cons, List.nodup_append] at hn1 hn2
        rw [List.flatMap_cons] at hag1 hag2
        have hc := subtree_congr h kc.2 (hlive kc (List.mem_cons_self _ _))
          (fun q hq => hag1 q (List.mem_append_left _ hq))
          (fun f hf' => hag2 f (List.mem_append_left _ hf'))
        obtain ⟨σ1, a1, a2, a3, a4, a5, a6⟩ := deleteDir_spec h kc.2 σ
          ⟨hc.1, by rw [hc.2.1]; exact hn1.1, by rw [hc.2.2]; exact hn2.1⟩
        rw [hc.2.1] at a2
        rw [hc.2.2] at a3
        obtain ⟨σ2, b1, b2, b3, b4, b5, b6⟩ := ih σ1
          (fun x hx => hlive x (List.mem_cons_of_mem _ hx)) hn1.2.1 hn2.2.1
          (by
            intro q hq
            rw [a2 q, if_neg (fun hq' => hn1.2.2 hq' hq)]
            exact hag1 q (List.mem_append_right _ hq))
          (by
            intro f hf'
            rw [a3 f, if_neg (fun hf'' => hn2.2.2 hf'' hf')]
            exact hag2 f (List.mem_append_right _ hf'))
        refine ⟨σ2, by simp only [forEach, a1, b1], ?_, ?_, b4.trans a4, b5.trans a5,
          b6.trans a6⟩
        · intro q
          rw [b2 q, a2 q]
          by_cases e1 : q ∈ cs.flatMap (fun kc => s.subtreeDirs h kc.2)
          · simp [e1]
          · by_cases e2 : q ∈ s.subtreeDirs h kc.2
            · simp [e2]
            · simp [e1, e2]
        · intro q
          rw [b3 q, a3 q]
          by_cases e1 : q ∈ cs.flatMap (fun kc => s.subtreeFiles h kc.2)
          · simp [e1]
          · by_cases e2 : q ∈ s.subtreeFiles h kc.2
            · simp [e2]
            · simp [e1, e2]
    obtain ⟨σ1, a1, a2, a3, a4, a5, a6⟩ := kidsLoop d.subDirs s hk hnd.2 hnf.2.1
      (fun _ _ => rfl) (fun _ _ => rfl)
    -- the loop over the files
    have hfl : ∀ kf ∈ d.files, (σ1.file kf.2).isSome := by
      intro kf hkf
      rw [a3, if_neg (fun hq => hnf.2.2 (List.mem_map.2 ⟨kf, hkf, rfl⟩) hq)]
      exact hf kf hkf
    obtain ⟨σ2, b1, b2, b3, b4, b5, b6⟩ := deleteFiles_ok d.files σ1 hnf.1 hfl
    have hp2 : σ2.dir p = some d := by
      rw [dir_eq_of_dirs b3, a2, if_neg hnd.1]; exact hd
    refine ⟨{ σ2 with dirs := σ2.dirs.set p none }, ?_, ?_, ?_, b4.trans a4, b5.trans a5,
      b6.trans a6⟩
    · rw [deleteDir]
      simp only [hd, a1, b1, hp2]
    · intro q
      show (σ2.dirs.set p none).getD q none = _
      have e0 : σ2.dirs.getD q none = σ2.dir q := rfl
      rw [getD_set_none _ _ _ _ (dir_lt hp2), e0, dir_eq_of_dirs b3, a2 q]
      by_cases e1 : q = p
      · simp [e1, subtreeDirs_succ h hd]
      · by_cases e2 : q ∈ d.subDirs.flatMap (fun kc => s.subtreeDirs h kc.2)
        · simp [e1, e2, subtreeDirs_succ h hd]
        · simp [e1, e2, subtreeDirs_succ h hd]
    · intro q
      show σ2.file q = _
      rw [b2 q, a3 q]
      by_cases e1 : q ∈ d.files.map (fun kf => kf.2)
      · simp [e1, subtreeFiles_succ h hd]
      · by_cases e2 : q ∈ d.subDirs.flatMap (fun kc => s.subtreeFiles h kc.2)
        · simp [e1, e2, subtreeFiles_succ h hd]
        · simp [e1, e2, subtreeFiles_succ h hd]

end FSim

namespace FSim

open FileSystem

/-- C6: with the cursor on a live directory whose maps are in key order,
`deleteFileByName(name)` and `deleteDirectoryByName(name)` report NotFound and leave the
whole state unchanged when `name` is not a child of that kind; otherwise the entry `name` is
removed from the cursor, the deleted file, or every directory and every file of the deleted
subtree, is freed, every other entry of the cursor is as before, and every directory
and file outside the removed subtree is unchanged.  For a directory the subtree has to be an
owned tree of height below `fuel` that does not contain the cursor. -/
theorem delete_removes_exactly_the_child (fuel : Nat) (s : FileSystem) (c : Ptr)
    (d : Directory) (name : Str) (hc : s.curr = some c) (hd : s.dir c = some d)
    (hsf : d.files.Sorted) (hsd : d.subDirs.Sorted) :
    (d.files.find name = none → deleteFileByName name s = .ok (.notFound, s)) ∧
    (d.subDirs.find name = none →
      deleteDirectoryByName fuel name s = .ok (.notFound, s)) ∧
    (∀ fp, d.files.find name = some fp → (s.file fp).isSome →
      ∃ s' d', deleteFileByName name s = .ok (.done, s') ∧ s'.dir c = some d' ∧
        d'.files.find name = none ∧ (∀ k, k ≠ name → d'.files.find k = d.files.find k) ∧
        d'.subDirs = d.subDirs ∧ d'.name = d.name ∧ d'.parent = d.parent ∧
        s'.file fp = none ∧ (∀ q, q ≠ fp → s'.file q = s.file q) ∧
        (∀ q, q ≠ c → s'.dir q = s.dir q) ∧ s'.root = s.root ∧ s'.curr = s.curr) ∧
    (∀ p, d.subDirs.find name = some p → s.ownedTree fuel p → c ∉ s.subtreeDirs fuel p →
      ∃ s' d', deleteDirectoryByName fuel name s = .ok (.done, s') ∧ s'.dir c = some d' ∧
        d'.subDirs.find name = none ∧
        (∀ k, k ≠ name → d'.subDirs.find k = d.subDirs.find k) ∧
        d'.files = d.files ∧ d'.name = d.name ∧ d'.parent = d.parent ∧
        (∀ q ∈ s.subtreeDirs fuel p, s'.dir q = none) ∧
        (∀ q ∈ s.subtreeFiles fuel p, s'.file q = none) ∧
        (∀ q, q ∉ s.subtreeDirs fuel p → q ≠ c → s'.dir q = s.dir q) ∧
        (∀ q, q ∉ s.subtreeFiles fuel p → s'.file q = s.file q) ∧
        s'.root = s.root ∧ s'.curr = s.curr) := by
  refine ⟨?_, ?_, ?_, ?_⟩
  · intro h; simp only [deleteFileByName, derefCurr_of hc hd, h]
  · intro h; simp only [deleteDirectoryByName, derefCurr_of hc hd, h]
  · intro fp hfind hlive
    obtain ⟨s1, a1, a2, a3, a4, a5, a6⟩ := deleteFile_ok hlive
    have hd1 : s1.dir c = some d := by rw [dir_eq_of_dirs a3]; exact hd
    obtain ⟨s2, hs2⟩ := modDir_of_live (fun x => { x with files := x.files.erase name }) hd1
    obtain ⟨d1, k1, k2, k3, k4, k5, k6, _⟩ := modDir_ok hs2
    rw [hd1] at k1; cases k1
    refine ⟨s2, { d with files := d.files.erase name }, ?_, by rw [k2 c, if_pos rfl],
      PMap.find_erase_self _ hsf.nodup, fun k hk => PMap.find_erase_ne _ (fun e => hk e.symm),
      rfl, rfl, rfl, ?_, ?_, ?_, by rw [k4, a4], by rw [k5, a5]⟩
    · simp only [deleteFileByName, derefCurr_of hc hd, hfind, a1, hs2]
    · rw [file_eq_of_fls k3, a2 fp, if_pos rfl]
    · intro q hq; rw [file_eq_of_fls k3, a2 q, if_neg hq]
    · intro q hq; rw [k2 q, if_neg hq, dir_eq_of_dirs a3]
  · intro p hfind how hcp
    obtain ⟨s1, a1, a2, a3, a4, a5, a6⟩ := deleteDir_spec fuel p s how
    have hd1 : s1.dir c = some d := by rw [a2 c, if_neg hcp]; exact hd
    obtain ⟨s2, hs2⟩ := modDir_of_live (fun x => { x with subDirs := x.subDirs.erase name }) hd1
    obtain ⟨d1, k1, k2, k3, k4, k5, k6, _⟩ := modDir_ok hs2
    rw [hd1] at k1; cases k1
    refine ⟨s2, { d with subDirs := d.subDirs.erase name }, ?_, by rw [k2 c, if_pos rfl],
      PMap.find_erase_self _ hsd.nodup, fun k hk => PMap.find_erase_ne _ (fun e => hk e.symm),
      rfl, rfl, rfl, ?_, ?_, ?_, ?_, by rw [k4, a4], by rw [k5, a5]⟩
    · simp only [deleteDirectoryByName, derefCurr_of hc hd, hfind, a1, hs2]
    · intro q hq
      have hqc : q ≠ c := fun e => hcp (e ▸ hq)
      rw [k2 q, if_neg hqc, a2 q, if_pos hq]
    · intro q hq
      rw [file_eq_of_fls k3, a3 q, if_pos hq]
    · intro q hq hqc
      rw [k2 q, if_neg hqc, a2 q, if_neg hq]
    · intro q hq
      rw [file_eq_of_fls k3, a3 q, if_neg hq]

/-- C6, witness: on the tree with the single directory "a" below the root and the cursor on
the root, "a" is an owned subtree without the cursor and is deleted. -/
theorem delete_removes_exactly_the_child_witness :
    selfTree.curr = some 0 ∧ selfTree.ownedTree 1 1 ∧
    (∃ s', deleteDirectoryByName 1 "a".toList selfTree = .ok (.done, s')) := by
  have h := delete_removes_exactly_the_child 1 selfTree 0
    ⟨"root".toList, none, [("a".toList, 1)], []⟩ "a".toList rfl rfl (by decide) (by decide)
  obtain ⟨s', _, a, _⟩ := h.2.2.2 1 (by decide) (by decide) (by decide)
  exact ⟨rfl, by decide, s', a⟩

end FSim

namespace FSim

open FileSystem

/-! ## Copying a subtree -/

theorem soundFiles_mem {s : FileSystem} {m : PMap} (h : s.soundFiles m = true) {kf : Str × Ptr}
    (hm : kf ∈ m) : ∃ f, s.file kf.2 = some f ∧ f.name = kf.1 := by
  have := List.all_eq_true.1 h kf hm
  cases hf : s.file kf.2 with
  | none => simp only [hf] at this; cases this
  | some f =>
    simp only [hf, decide_eq_true_eq] at this
    exact ⟨f, rfl, this⟩

theorem soundTree_zero (s : FileSystem) (p : Ptr) : s.soundTree 0 p = false := rfl

theorem soundTree_succ {s : FileSystem} {h : Nat} {p : Ptr} (hw : s.soundTree (h + 1) p = true) :
    ∃ d, s.dir p = some d ∧ d.subDirs.Sorted ∧ d.files.Sorted ∧
      (∀ kf ∈ d.files, ∃ f, s.file kf.2 = some f ∧ f.name = kf.1) ∧
      (∀ kc ∈ d.subDirs, (∃ c, s.dir kc.2 = some c ∧ c.name = kc.1) ∧
        s.soundTree h kc.2 = true) := by
  rw [soundTree] at hw
  cases hd : s.dir p with
  | none => simp only [hd] at hw; cases hw
  | some d =>
    simp only [hd, Bool.and_eq_true] at hw
    obtain ⟨⟨⟨h1, h2⟩, h4⟩, h5⟩ := hw
    refine ⟨d, rfl, PMap.sortedB_iff.1 h1, PMap.sortedB_iff.1 h2,
      fun kf hkf => soundFiles_mem h4 hkf, ?_⟩
    · intro kc hkc
      have := List.all_eq_true.1 h5 kc hkc
      rw [Bool.and_eq_true] at this
      refine ⟨?_, this.2⟩
      cases hc : s.dir kc.2 with
      | none => simp only [hc] at this; exact absurd this.1 (by decide)
      | some c =>
        simp only [hc, decide_eq_true_eq] at this
        exact ⟨c, rfl, this.1⟩

theorem cloneR_mono {a b : FileSystem} {lo flo lo' flo' : Nat} (h1 : lo' ≤ lo)
    (h2 : flo' ≤ flo) : ∀ (h : Nat) (p p' par : Ptr),
    CloneR a b lo flo h p p' par → CloneR a b lo' flo' h p p' par
  | 0, _, _, _, hc => hc
  | h + 1, p, p', par, hc => by
    obtain ⟨d, d', c1, c2, c3, c4, c5, c6, c7, c8, c9, c10, c11⟩ := hc
    refine ⟨d, d', c1, c2, Nat.le_trans h1 c3, c4, c5, c6, c7, c8, ?_, c10, ?_⟩
    · intro k fp fp' e1 e2
      obtain ⟨x1, x2⟩ := c9 k fp fp' e1 e2
      exact ⟨Nat.le_trans h2 x1, x2⟩
    · intro k c c' e1 e2
      exact cloneR_mono h1 h2 h c c' p' (c11 k c c' e1 e2)

theorem cloneR_stable {a b b2 : FileSystem} {lo flo : Nat}
    (hd : ∀ q, lo ≤ q → q < b.dirs.length → b2.dir q = b.dir q)
    (hf : ∀ f, flo ≤ f → f < b.fls.length → b2.file f = b.file f) :
    ∀ (h : Nat) (p p' par : Ptr),
    CloneR a b lo flo h p p' par → CloneR a b2 lo flo h p p' par
  | 0, _, _, _, hc => hc
  | h + 1, p, p', par, hc => by
    obtain ⟨d, d', c1, c2, c3, c4, c5, c6, c7, c8, c9, c10, c11⟩ := hc
    refine ⟨d, d', c1, by rw [hd p' c3 (dir_lt c2)]; exact c2, c3, c4, c5, c6, c7, c8, ?_, c10,
      ?_⟩
    · intro k fp fp' e1 e2
      obtain ⟨x1, f, f', x2, x3, x4⟩ := c9 k fp fp' e1 e2
      exact ⟨x1, f, f', x2, by rw [hf fp' x1 (file_lt x3)]; exact x3, x4⟩
    · intro k c c' e1 e2
      exact cloneR_stable hd hf h c c' p' (c11 k c c' e1 e2)

/-- One round of the file loop of `copyDirectoryHelper`. -/
theorem copyOneFile_ok (τ : Nat → Str) {σ : FileSystem} {copy : Ptr} {dc : Directory}
    {kf : Str × Ptr} {f : File} (hf : σ.file kf.2 = some f) (hc : σ.dir copy = some dc) :
    ∃ σ' f', copyOneFile τ copy kf σ = .ok σ' ∧
      (∀ q, σ'.dir q = if q = copy then some { dc with files := dc.files.set kf.1 σ.fls.length }
        else σ.dir q) ∧
      (∀ q, σ'.file q = if q = σ.fls.length then some f' else σ.file q) ∧
      f'.name = f.name ∧ f'.content = f.content ∧
      σ'.dirs.length = σ.dirs.length ∧ σ'.fls.length = σ.fls.length + 1 ∧
      σ'.root = σ.root ∧ σ'.curr = σ.curr := by
  obtain ⟨n1, n2, n3, n4, n5⟩ := newFile_frame τ σ f.name
  have hnf := file_newFile τ σ f.name
  have e0 : (σ.newFile τ f.name).2.getTimestamp τ
      = (τ (σ.ticks + 1), { (σ.newFile τ f.name).2 with ticks := σ.ticks + 1 + 1 }) := rfl
  have hlive : FileSystem.file { (σ.newFile τ f.name).2 with ticks := σ.ticks + 1 + 1 }
      (σ.newFile τ f.name).1 = some ⟨f.name, [], τ σ.ticks, τ σ.ticks⟩ := by
    show (σ.newFile τ f.name).2.file (σ.newFile τ f.name).1 = _
    rw [hnf, newFile_fst, if_pos rfl]
  obtain ⟨σ3, hσ3⟩ := modFile_of_live
    (fun x => { x with content := f.content, createdAt := τ (σ.ticks + 1),
                       modifiedAt := τ (σ.ticks + 1) }) hlive
  obtain ⟨x0, m1, m2, m3, m4, m5, m6, m7⟩ := modFile_ok hσ3
  rw [hlive] at m1; cases m1
  have hd3 : σ3.dir copy = some dc := by
    rw [dir_eq_of_dirs m3]; exact hc
  obtain ⟨σ4, hσ4⟩ := modDir_of_live
    (fun x => { x with files := x.files.set kf.1 (σ.newFile τ f.name).1 }) hd3
  obtain ⟨y0, k1, k2, k3, k4, k5, k6, k7⟩ := modDir_ok hσ4
  rw [hd3] at k1; cases k1
  refine ⟨σ4, ⟨f.name, f.content, τ (σ.ticks + 1), τ (σ.ticks + 1)⟩, ?_, ?_, ?_, rfl, rfl,
    ?_, ?_, by rw [k4, m4]; rfl, by rw [k5, m5]; rfl⟩
  · simp only [copyOneFile, derefFile_of hf]
    show (match FileSystem.modFile { (σ.newFile τ f.name).2 with ticks := σ.ticks + 1 + 1 }
        (σ.newFile τ f.name).1
        (fun x => { x with content := f.content, createdAt := τ (σ.ticks + 1),
                           modifiedAt := τ (σ.ticks + 1) }) with
      | Except.error e => Except.error e
      | Except.ok s3 => s3.modDir copy
          (fun x => { x with files := x.files.set kf.1 (σ.newFile τ f.name).1 })) = _
    rw [hσ3]; exact hσ4
  · intro q
    rw [k2 q, dir_eq_of_dirs m3]; rfl
  · intro q
    rw [file_eq_of_fls k3, m2 q]
    show (if q = σ.fls.length then _ else (σ.newFile τ f.name).2.file q) = _
    rw [hnf q]
    split_ifs <;> rfl
  · rw [k7, m3]; rfl
  · rw [k3, m7]; simp [newFile, getTimestamp]

/-- The file loop of `copyDirectoryHelper`. -/
theorem copyFiles_ok (τ : Nat → Str) (copy : Ptr) : ∀ (fs : PMap) (σ : FileSystem)
    (dc : Directory), σ.dir copy = some dc → (fs.keys).Nodup → dc.files.Sorted →
    (∀ kf ∈ fs, (σ.file kf.2).isSome) →
    ∃ σ' m, forEach (copyOneFile τ copy) fs σ = .ok σ' ∧
      (∀ q, σ'.dir q = if q = copy then some { dc with files := m } else σ.dir q) ∧
      m.Sorted ∧
      (∀ k, k ∉ fs.keys → m.find k = dc.files.find k) ∧
      (∀ k fp, (k, fp) ∈ fs → ∃ fp' f f', m.find k = some fp' ∧ σ.fls.length ≤ fp' ∧
        σ.file fp = some f ∧ σ'.file fp' = some f' ∧ f'.name = f.name ∧
        f'.content = f.content) ∧
      (∀ q, q < σ.fls.length → σ'.file q = σ.file q) ∧
      σ'.dirs.length = σ.dirs.length ∧ σ.fls.length ≤ σ'.fls.length ∧
      σ'.root = σ.root ∧ σ'.curr = σ.curr
  | [], σ, dc, hc, _, hs, _ => by
    refine ⟨σ, dc.files, rfl, ?_, hs, fun _ _ => rfl, ?_, fun _ _ => rfl, rfl,
      Nat.le_refl _, rfl, rfl⟩
    · intro q
      split_ifs with e
      · rw [e]; exact hc
      · rfl
    · intro k fp hm; cases hm
  | kf :: fs, σ, dc, hc, hn, hs, hl => by
    simp only [PMap.keys, List.map_cons, List.nodup_cons] at hn
    obtain ⟨f, hf⟩ := Option.isSome_iff_exists.1 (hl kf (List.mem_cons_self _ _))
    obtain ⟨σ1, f', a1, a2, a3, a4, a5, a6, a7, a8, a9⟩ := copyOneFile_ok τ hf hc
    have hc1 : σ1.dir copy = some { dc with files := dc.files.set kf.1 σ.fls.length } := by
      rw [a2 copy, if_pos rfl]
    have hl1 : ∀ x ∈ fs, (σ1.file x.2).isSome := by
      intro x hx
      obtain ⟨g, hg⟩ := Option.isSome_iff_exists.1 (hl x (List.mem_cons_of_mem _ hx))
      rw [a3 x.2, if_neg (Nat.ne_of_lt (file_lt hg)), hg]; rfl
    obtain ⟨σ2, m, b1, b2, b3, b4, b5, b6, b7, b8, b9, b10⟩ :=
      copyFiles_ok τ copy fs σ1 _ hc1 hn.2 (PMap.Sorted.set _ _ hs) hl1
    refine ⟨σ2, m, by simp only [forEach, a1, b1], ?_, b3, ?_, ?_, ?_, b7.trans a6, by omega,
      b9.trans a8, b10.trans a9⟩
    · intro q
      rw [b2 q, a2 q]
      split_ifs <;> rfl
    · intro k hk
      simp only [PMap.keys, List.map_cons, List.mem_cons, not_or] at hk
      rw [b4 k hk.2]
      simp only [PMap.find_set, if_neg (fun e : kf.1 = k => hk.1 e.symm)]
    · intro k fp hm
      rcases List.mem_cons.1 hm with e | e
      · subst e
        have hk : k ∉ PMap.keys fs := hn.1
        refine ⟨σ.fls.length, f, f', ?_, Nat.le_refl _, hf, ?_, a4, a5⟩
        · rw [b4 k hk]
          simp only [PMap.find_set, if_true]
        · rw [b6 _ (by omega), a3, if_pos rfl]
      · obtain ⟨fp', g, g', c1, c2, c3, c4, c5, c6⟩ := b5 k fp e
        have hfp : σ.file fp = some g := by
          obtain ⟨g0, hg0⟩ := Option.isSome_iff_exists.1 (hl _ (List.mem_cons_of_mem _ e))
          rw [a3 fp, if_neg (Nat.ne_of_lt (file_lt hg0))] at c3
          exact c3
        exact ⟨fp', g, g', c1, by omega, hfp, c4, c5, c6⟩
    · intro q hq
      rw [b6 q (by omega), a3 q, if_neg (Nat.ne_of_lt hq)]

end FSim

namespace FSim

open FileSystem

theorem namesUnique_of_parts {n : Str} {par : Option Ptr} {m mf : PMap} (h1 : m.Sorted)
    (h2 : mf.Sorted) (h3 : ∀ k, k ∈ m.keys → k ∉ mf.keys) : NamesUnique ⟨n, par, m, mf⟩ := by
  unfold NamesUnique
  rw [List.nodup_append]
  exact ⟨h1.nodup, h2.nodup, fun k hk hk' => h3 k hk hk'⟩

theorem find_isSome_of_mem {m : PMap} (hs : m.Sorted) {k : Str} {v : Ptr} (h : (k, v) ∈ m) :
    m.find k = some v := PMap.find_of_mem_nodup hs.nodup h

/-- The member `copyDirectoryHelper` on a sound source subtree of a reference state `a`, run
in a state `σ` that agrees with `a` on the objects of `a`: it allocates only new objects,
writes to the target only its new entry, and builds a copy at the first new address; when no
directory of `a` has a name twice, no new directory has. -/
theorem copyHelper_spec (τ : Nat → Str) (a : FileSystem) :
    ∀ (h : Nat) (orig tg : Nat) (σ : FileSystem), a.soundTree h orig = true →
    (∀ q, q < a.dirs.length → σ.dir q = a.dir q) →
    (∀ f, f < a.fls.length → σ.file f = a.file f) →
    a.dirs.length ≤ σ.dirs.length → a.fls.length ≤ σ.fls.length →
    (σ.dir tg).isSome →
    ∃ σ' t o, copyDirectoryHelper τ h orig tg σ = .ok σ' ∧
      σ.dir tg = some t ∧ a.dir orig = some o ∧
      (∀ q, q < σ.dirs.length → σ'.dir q = if q = tg then
        some { t with subDirs := t.subDirs.set o.name σ.dirs.length } else σ.dir q) ∧
      (∀ f, f < σ.fls.length → σ'.file f = σ.file f) ∧
      σ.dirs.length < σ'.dirs.length ∧ σ.fls.length ≤ σ'.fls.length ∧
      σ'.root = σ.root ∧ σ'.curr = σ.curr ∧
      CloneR a σ' σ.dirs.length σ.fls.length h orig σ.dirs.length tg ∧
      ((∀ q d, a.dir q = some d → NamesUnique d) →
        ∀ q d', σ.dirs.length ≤ q → σ'.dir q = some d' → NamesUnique d')
  | 0, orig, _, _, hw, _, _, _, _, _ => by rw [soundTree_zero] at hw; cases hw
  | h + 1, orig, tg, σ, hw, hagd, hagf, hld, hlf, htg => by
    obtain ⟨o, ho, srt1, srt2, hfiles, hkids⟩ := soundTree_succ hw
    obtain ⟨t, ht⟩ := Option.isSome_iff_exists.1 htg
    have horig : orig < a.dirs.length := dir_lt ho
    have hσo : σ.dir orig = some o := by rw [hagd orig horig]; exact ho
    have htglt : tg < σ.dirs.length := dir_lt ht
    have hoc : orig ≠ σ.dirs.length := by omega
    have htc : tg ≠ σ.dirs.length := by omega
    -- the new directory
    have hdir1 := dir_newDir σ o.name (some tg)
    obtain ⟨fr1, fr2, fr3, fr4, fr5⟩ := newDir_frame σ o.name (some tg)
    have hfile1 : ∀ f, (σ.newDir o.name (some tg)).2.file f = σ.file f :=
      fun f => file_eq_of_fls fr1 f
    have hc1 : (σ.newDir o.name (some tg)).2.dir σ.dirs.length
        = some ⟨o.name, some tg, [], []⟩ := by rw [hdir1, if_pos rfl]
    -- the file loop
    have hlive1 : ∀ kf ∈ o.files, ((σ.newDir o.name (some tg)).2.file kf.2).isSome := by
      intro kf hkf
      obtain ⟨f, hf, _⟩ := hfiles kf hkf
      rw [hfile1, hagf _ (file_lt hf), hf]; rfl
    obtain ⟨σ2, mf, b1, b2, b3, b4, b5, b6, b7, b8, b9, b10⟩ :=
      copyFiles_ok τ σ.dirs.length o.files (σ.newDir o.name (some tg)).2 _ hc1 srt2.nodup
        trivial hlive1
    rw [fr1] at b5 b6 b8
    rw [fr5] at b7
    have hdir2 : ∀ q, σ2.dir q = if q = σ.dirs.length then
        some ⟨o.name, some tg, [], mf⟩ else σ.dir q := by
      intro q
      rw [b2 q, hdir1 q]
      split_ifs <;> rfl
    have hfile2 : ∀ f, f < σ.fls.length → σ2.file f = σ.file f := by
      intro f hf; rw [b6 f hf, hfile1]
    have hσ2o : σ2.dir orig = some o := by
      rw [hdir2, if_neg hoc]; exact hσo
    -- the loop over the subdirectories
    have kidsLoop : ∀ (cs : PMap) (σi : FileSystem) (mi : PMap),
        (∀ kc ∈ cs, (∃ c, a.dir kc.2 = some c ∧ c.name = kc.1) ∧ a.soundTree h kc.2 = true) →
        (PMap.keys cs).Nodup →
        (∀ q, q < a.dirs.length → σi.dir q = a.dir q) →
        (∀ f, f < a.fls.length → σi.file f = a.file f) →
        σ.dirs.length < σi.dirs.length → σ.fls.length ≤ σi.fls.length →
        σi.dir σ.dirs.length = some ⟨o.name, some tg, mi, mf⟩ → mi.Sorted →
        ∃ σ' m, forEach (fun kc => copyDirectoryHelper τ h kc.2 σ.dirs.length) cs σi = .ok σ' ∧
          (∀ q, q < σi.dirs.length → σ'.dir q = if q = σ.dirs.length then
            some ⟨o.name, some tg, m, mf⟩ else σi.dir q) ∧
          (∀ f, f < σi.fls.length → σ'.file f = σi.file f) ∧
          σi.dirs.length ≤ σ'.dirs.length ∧ σi.fls.length ≤ σ'.fls.length ∧
          σ'.root = σi.root ∧ σ'.curr = σi.curr ∧
          m.Sorted ∧ (∀ k, k ∉ PMap.keys cs → m.find k = mi.find k) ∧
          (∀ k c, (k, c) ∈ cs → ∃ c', m.find k = some c' ∧
            CloneR a σ' (σ.dirs.length + 1) σ.fls.length h c c' σ.dirs.length) ∧
          ((∀ q d, a.dir q = some d → NamesUnique d) →
            ∀ q d', σi.dirs.length ≤ q → σ'.dir q = some d' → NamesUnique d') := by
      intro cs
      induction cs with
      | nil =>
        intro σi mi _ _ _ _ _ _ hci hsi
        refine ⟨σi, mi, rfl, ?_, fun _ _ => rfl, Nat.le_refl _, Nat.le_refl _, rfl, rfl, hsi,
          fun _ _ => rfl, fun k c hm => absurd hm (List.not_mem_nil _), ?_⟩
        · intro q _
          split_ifs with e
          · rw [e]; exact hci
          · rfl
        · intro _ q d' hq hd'
          exact absurd (dir_lt hd') (Nat.not_lt.2 hq)
      | cons kc cs ih =>
        intro σi mi hcs hn hai haf hli hlfi hci hsi
        obtain ⟨k, c⟩ := kc
        simp only [PMap.keys, List.map_cons, List.nodup_cons] at hn
        obtain ⟨⟨cd, hcd, hcn⟩, hwc⟩ := hcs (k, c) (List.mem_cons_self _ _)
        simp only at hcd hcn hwc
        obtain ⟨σ1', t', o', c1, c2, c3, c4, c5, c6, c7, c8, c9, c10, c11⟩ :=
          copyHelper_spec τ a h c σ.dirs.length σi hwc hai haf (by omega) (by omega)
            (by rw [hci]; rfl)
        rw [hci] at c2; cases c2
        rw [hcd] at c3; cases c3
        rw [hcn] at c4
        have hai1 : ∀ q, q < a.dirs.length → σ1'.dir q = a.dir q := by
          intro q hq
          rw [c4 q (by omega), if_neg (by omega : q ≠ σ.dirs.length)]; exact hai q hq
        have haf1 : ∀ f, f < a.fls.length → σ1'.file f = a.file f := by
          intro f hf
          rw [c5 f (by omega)]; exact haf f hf
        have hci1 : σ1'.dir σ.dirs.length
            = some ⟨o.name, some tg, mi.set k σi.dirs.length, mf⟩ := by
          rw [c4 _ hli, if_pos rfl]
        obtain ⟨σ', m, d1, d2, d3, d4, d5, d6, d7, d8, d9, d10, d11⟩ :=
          ih σ1' (mi.set k σi.dirs.length)
            (fun x hx => hcs x (List.mem_cons_of_mem _ hx)) hn.2 hai1 haf1 (by omega) (by omega)
            hci1 (PMap.Sorted.set _ _ hsi)
        refine ⟨σ', m, by simp only [forEach, c1, d1], ?_, ?_, by omega, by omega,
          d6.trans c8, d7.trans c9, d8, ?_, ?_, ?_⟩
        · intro q hq
          rw [d2 q (by omega)]
          split_ifs with e
          · rfl
          · rw [c4 q hq, if_neg e]
        · intro f hf
          rw [d3 f (by omega), c5 f hf]
        · intro k' hk'
          simp only [PMap.keys, List.map_cons, List.mem_cons, not_or] at hk'
          rw [d9 k' hk'.2]
          simp only [PMap.find_set, if_neg (fun e : k = k' => hk'.1 e.symm)]
        · intro k' c' hm
          rcases List.mem_cons.1 hm with e | e
          · rw [(Prod.mk.inj e).1, (Prod.mk.inj e).2]
            refine ⟨σi.dirs.length, ?_, ?_⟩
            · rw [d9 k hn.1]
              simp only [PMap.find_set, if_true]
            · refine cloneR_stable ?_ ?_ h _ _ _
                (cloneR_mono (by omega) hlfi h _ _ _ c10)
              · intro q hq1 hq2
                rw [d2 q hq2, if_neg (by omega : q ≠ σ.dirs.length)]
              · intro f _ hf2
                exact d3 f hf2
          · exact d10 k' c' e
        · intro hI q d' hq hd'
          by_cases hlt : q < σ1'.dirs.length
          · rw [d2 q hlt, if_neg (by omega : q ≠ σ.dirs.length)] at hd'
            exact c11 hI q d' hq hd'
          · exact d11 hI q d' (by omega) hd'
    have hkids' : ∀ kc ∈ o.subDirs, (∃ c, a.dir kc.2 = some c ∧ c.name = kc.1) ∧
        a.soundTree h kc.2 = true := by
      intro kc hkc
      exact hkids kc hkc
    obtain ⟨σ3, m, e1, e2, e3, e4, e5, e6, e7, e8, e9, e10, e11⟩ :=
      kidsLoop o.subDirs σ2 [] hkids' srt1.nodup
        (by
          intro q hq
          rw [hdir2, if_neg (by omega : q ≠ σ.dirs.length)]; exact hagd q hq)
        (by
          intro f hf
          rw [hfile2 f (by omega)]; exact hagf f hf)
        (by omega) b8 (by rw [hdir2, if_pos rfl]) trivial
    have hσ3o : σ3.dir orig = some o := by
      rw [e2 orig (by omega), if_neg hoc]; exact hσ2o
    have hσ3t : σ3.dir tg = some t := by
      rw [e2 tg (by omega), if_neg htc, hdir2, if_neg htc]; exact ht
    obtain ⟨σ4, hσ4⟩ := modDir_of_live
      (fun x => { x with subDirs := x.subDirs.set o.name σ.dirs.length }) hσ3t
    obtain ⟨t0, g1, g2, g3, g4, g5, g6, g7⟩ := modDir_ok hσ4
    rw [hσ3t] at g1; cases g1
    have hcopy4 : σ4.dir σ.dirs.length = some ⟨o.name, some tg, m, mf⟩ := by
      rw [g2, if_neg (fun e => htc e.symm), e2 _ (by omega), if_pos rfl]
    have hcall : copyDirectoryHelper τ (h + 1) orig tg σ = .ok σ4 := by
      rw [copyDirectoryHelper]
      simp only [derefDir_of hσo]
      have e0 : σ.newDir o.name (some tg) = (σ.dirs.length, (σ.newDir o.name (some tg)).2) := rfl
      rw [e0]
      simp only [b1, derefDir_of hσ2o, e1, derefDir_of hσ3o]
      exact hσ4
    refine ⟨σ4, t, o, hcall, ht, ho, ?_, ?_, by omega, by rw [g3]; omega, ?_, ?_, ?_, ?_⟩
    · intro q hq
      rw [g2 q]
      split_ifs with e
      · rfl
      · rw [e2 q (by omega), if_neg (by omega : q ≠ σ.dirs.length), hdir2,
          if_neg (by omega : q ≠ σ.dirs.length)]
    · intro f hf
      rw [file_eq_of_fls g3, e3 f (by omega), hfile2 f hf]
    · rw [g4, e6, b9]; exact fr2
    · rw [g5, e7, b10]; exact fr3
    · refine ⟨o, _, ho, hcopy4, Nat.le_refl _, rfl, rfl, e8, b3, ?_, ?_, ?_, ?_⟩
      · intro k
        by_cases hk : k ∈ o.files.keys
        · obtain ⟨kf, hkf, ek⟩ := List.mem_map.1 hk
          obtain ⟨k0, fp⟩ := kf
          simp only at ek; subst ek
          obtain ⟨fp', _, _, x1, _⟩ := b5 k0 fp hkf
          rw [x1, find_isSome_of_mem srt2 hkf]; rfl
        · rw [b4 k hk, PMap.find_none_iff.2 hk]; rfl
      · intro k fp fp' x1 x2
        obtain ⟨fp'', f, f', y1, y2, y3, y4, y5, y6⟩ := b5 k fp (PMap.find_mem x1)
        rw [x2] at y1; cases y1
        refine ⟨y2, f, f', ?_, ?_, y5, y6⟩
        · obtain ⟨g, hg, _⟩ := hfiles _ (PMap.find_mem x1)
          rw [hfile1, hagf _ (file_lt hg)] at y3
          exact y3
        · rw [file_eq_of_fls g3, e3 _ (file_lt y4)]; exact y4
      · intro k
        by_cases hk : k ∈ o.subDirs.keys
        · obtain ⟨kc, hkc, ek⟩ := List.mem_map.1 hk
          obtain ⟨k0, c⟩ := kc
          simp only at ek; subst ek
          obtain ⟨c', x1, _⟩ := e10 k0 c hkc
          rw [x1, find_isSome_of_mem srt1 hkc]; rfl
        · rw [e9 k hk, PMap.find_none_iff.2 hk]; rfl
      · intro k c c' x1 x2
        obtain ⟨c'', y1, y2⟩ := e10 k c (PMap.find_mem x1)
        rw [x2] at y1; cases y1
        refine cloneR_stable ?_ ?_ h _ _ _ (cloneR_mono (Nat.le_succ _) (Nat.le_refl _) h _ _ _ y2)
        · intro q hq1 _
          rw [g2 q, if_neg (by omega : q ≠ tg)]
        · intro f _ _
          exact file_eq_of_fls g3 f
    · intro hI q d' hq hd'
      rw [g2 q, if_neg (by omega : q ≠ tg)] at hd'
      by_cases hq' : q = σ.dirs.length
      · subst hq'
        rw [e2 _ (by omega), if_pos rfl] at hd'
        cases hd'
        refine namesUnique_of_parts e8 b3 ?_
        intro k hk hk'
        have h1 : k ∈ o.subDirs.keys := by
          by_contra hc
          have := e9 k hc
          rw [PMap.find_nil] at this
          exact (PMap.find_none_iff.1 this) hk
        have h2 : k ∈ o.files.keys := by
          by_contra hc
          have := b4 k hc
          have e0 : mf.find k = none := this
          exact (PMap.find_none_iff.1 e0) hk'
        exact (List.nodup_append.1 (hI orig o ho)).2.2 h1 h2
      · exact e11 hI q d' (by omega) hd'

end FSim

namespace FSim

open FileSystem

theorem dir_none_of_le {s : FileSystem} {p : Nat} (h : s.dirs.length ≤ p) : s.dir p = none := by
  cases hd : s.dir p with
  | none => rfl
  | some d => exact absurd (dir_lt hd) (Nat.not_lt.2 h)

theorem file_none_of_le {s : FileSystem} {p : Nat} (h : s.fls.length ≤ p) :
    s.file p = none := by
  cases hd : s.file p with
  | none => rfl
  | some d => exact absurd (file_lt hd) (Nat.not_lt.2 h)

theorem cloneR_copyOf {a b : FileSystem} {h : Nat} {p p' par : Ptr}
    (hc : CloneR a b a.dirs.length a.fls.length (h + 1) p p' par) :
    CopyOf a b p p' ∧ ∃ d', b.dir p' = some d' ∧ d'.parent = some par := by
  obtain ⟨d, d', c1, c2, c3, c4, c5, c6, c7, c8, c9, c10, c11⟩ := hc
  refine ⟨⟨d, d', c1, c2, dir_none_of_le c3, c4, c10, c8, ?_⟩, d', c2, c5⟩
  intro k fp fp' e1 e2
  obtain ⟨x1, x2⟩ := c9 k fp fp' e1 e2
  exact ⟨file_none_of_le x1, x2⟩

/-- Along every path of the original there is the same path in the copy. -/
theorem cloneR_walk {a b : FileSystem} {lo flo : Nat} : ∀ (q : List Str) (h : Nat)
    (p p' par r : Ptr), CloneR a b lo flo h p p' par → a.walk p q = some r →
    ∃ r' h' par', b.walk p' q = some r' ∧ CloneR a b lo flo (h' + 1) r r' par'
  | [], h, p, p', par, r, hc, hw => by
    rw [walk_nil] at hw; cases hw
    cases h with
    | zero => exact absurd hc (by simp [CloneR])
    | succ h => exact ⟨p', h, par, rfl, hc⟩
  | k :: ks, h, p, p', par, r, hc, hw => by
    cases h with
    | zero => exact absurd hc (by simp [CloneR])
    | succ h =>
      obtain ⟨d, d', c1, c2, c3, c4, c5, c6, c7, c8, c9, c10, c11⟩ := hc
      obtain ⟨d0, c, w1, w2, w3⟩ := walk_cons_some.1 hw
      rw [c1] at w1; cases w1
      have := c10 k
      rw [w2] at this
      obtain ⟨c', hc'⟩ := Option.isSome_iff_exists.1 this
      obtain ⟨r', h', par', x1, x2⟩ := cloneR_walk ks h c c' p' r (c11 k c c' w2 hc') w3
      exact ⟨r', h', par', walk_cons_some.2 ⟨d', c', c2, hc', x1⟩, x2⟩

/-- Along every path of the copy there is the same path in the original. -/
theorem cloneR_walk_back {a b : FileSystem} {lo flo : Nat} : ∀ (q : List Str) (h : Nat)
    (p p' par r' : Ptr), CloneR a b lo flo h p p' par → b.walk p' q = some r' →
    ∃ r h' par', a.walk p q = some r ∧ CloneR a b lo flo (h' + 1) r r' par'
  | [], h, p, p', par, r', hc, hw => by
    rw [walk_nil] at hw; cases hw
    cases h with
    | zero => exact absurd hc (by simp [CloneR])
    | succ h => exact ⟨p, h, par, rfl, hc⟩
  | k :: ks, h, p, p', par, r', hc, hw => by
    cases h with
    | zero => exact absurd hc (by simp [CloneR])
    | succ h =>
      obtain ⟨d, d', c1, c2, c3, c4, c5, c6, c7, c8, c9, c10, c11⟩ := hc
      obtain ⟨d0, c', w1, w2, w3⟩ := walk_cons_some.1 hw
      rw [c2] at w1; cases w1
      have := c10 k
      rw [w2] at this
      obtain ⟨c, hc0⟩ := Option.isSome_iff_exists.1 this.symm
      obtain ⟨r, h', par', x1, x2⟩ := cloneR_walk_back ks h c c' p' r' (c11 k c c' hc0 w2) w3
      exact ⟨r, h', par', walk_cons_some.2 ⟨d, c, c1, hc0, x1⟩, x2⟩

/-- The member `copyDirectory` on a sound source. -/
theorem copyDirectory_done (τ : Nat → Str) {fuel : Nat} {s : FileSystem} {c : Ptr}
    {d : Directory} {name : Str} {orig : Nat} {o : Directory} {target : Nat} {t : Directory}
    (hc : s.curr = some c) (hd : s.dir c = some d) (hfind : d.subDirs.find name = some orig)
    (ho : s.dir orig = some o) (hon : o.name = name) (hw : s.soundTree fuel orig = true)
    (ht : s.dir target = some t) (ht1 : t.subDirs.count name = false)
    (ht2 : t.files.count name = false) :
    ∃ s', copyDirectory τ fuel name target s = .ok (.done, s') ∧
      (∀ q, q < s.dirs.length → s'.dir q = if q = target then
        some { t with subDirs := t.subDirs.set name s.dirs.length } else s.dir q) ∧
      (∀ f, f < s.fls.length → s'.file f = s.file f) ∧
      s'.root = s.root ∧ s'.curr = s.curr ∧
      CloneR s s' s.dirs.length s.fls.length fuel orig s.dirs.length target ∧
      ((∀ q d, s.dir q = some d → NamesUnique d) →
        ∀ q d', s.dirs.length ≤ q → s'.dir q = some d' → NamesUnique d') := by
  obtain ⟨s', t', o', a1, a2, a3, a4, a5, a6, a7, a8, a9, a10, a11⟩ :=
    copyHelper_spec τ s fuel orig target s hw (fun _ _ => rfl) (fun _ _ => rfl) (Nat.le_refl _)
      (Nat.le_refl _) (by rw [ht]; rfl)
  rw [ht] at a2; cases a2
  rw [ho] at a3; cases a3
  rw [hon] at a4
  refine ⟨s', ?_, a4, a5, a8, a9, a10, a11⟩
  simp only [copyDirectory, derefCurr_of hc hd, hfind, derefDir_of ht, ht1, ht2, Bool.or_self,
    Bool.false_eq_true, if_false, a1]

/-- C9: with the cursor on a live directory that holds under `name` a subtree of height below
`fuel` whose maps are in key order and whose entries lead to live objects named by their keys
(`soundTree`; nothing is asked of I1, of the parent links or of the timestamps), whose top
directory is called `name`, and a live target directory `T` with no child called `name`, `copyDirectory(name, T)` succeeds; afterwards `T` has under
`name` a new directory with parent `T`, every other entry of `T` is as before, along every
path the original subtree and the copy reach directories with the same name, the same
subdirectory names, the same file names and files of equal name and content, all of them new
objects; every directory other than `T` and every file that existed before is unchanged. -/
theorem copyDirectory_clones_subtree (τ : Nat → Str) (fuel : Nat) (s : FileSystem) (c : Ptr)
    (d : Directory) (name : Str) (orig : Nat) (o : Directory) (target : Nat) (t : Directory)
    (hc : s.curr = some c) (hd : s.dir c = some d) (hfind : d.subDirs.find name = some orig)
    (ho : s.dir orig = some o) (hon : o.name = name) (hw : s.soundTree fuel orig = true)
    (ht : s.dir target = some t) (ht1 : t.subDirs.count name = false)
    (ht2 : t.files.count name = false) :
    ∃ s' t' cp, copyDirectory τ fuel name target s = .ok (.done, s') ∧
      s'.dir target = some t' ∧ t'.subDirs.find name = some s.dirs.length ∧
      (∀ k, k ≠ name → t'.subDirs.find k = t.subDirs.find k) ∧
      t'.files = t.files ∧ t'.name = t.name ∧ t'.parent = t.parent ∧
      s'.dir s.dirs.length = some cp ∧ cp.parent = some target ∧ cp.name = name ∧
      (∀ q p, s.walk orig q = some p →
        ∃ p', s'.walk s.dirs.length q = some p' ∧ CopyOf s s' p p') ∧
      (∀ q p', s'.walk s.dirs.length q = some p' →
        ∃ p, s.walk orig q = some p ∧ CopyOf s s' p p') ∧
      (∀ q, q < s.dirs.length → q ≠ target → s'.dir q = s.dir q) ∧
      (∀ f, f < s.fls.length → s'.file f = s.file f) ∧
      s'.root = s.root ∧ s'.curr = s.curr := by
  obtain ⟨s', a1, a2, a3, a4, a5, a6, _⟩ :=
    copyDirectory_done τ hc hd hfind ho hon hw ht ht1 ht2
  cases fuel with
  | zero => rw [soundTree_zero] at hw; cases hw
  | succ fuel =>
    obtain ⟨hcopy, cp, hcp, hpar⟩ := cloneR_copyOf a6
    obtain ⟨o', cp', x1, x2, _, x4, _⟩ := hcopy
    rw [ho] at x1; cases x1
    rw [hcp] at x2; cases x2
    refine ⟨s', { t with subDirs := t.subDirs.set name s.dirs.length }, cp, a1,
      by rw [a2 target (dir_lt ht), if_pos rfl], ?_, ?_, rfl, rfl, rfl, hcp, hpar,
      x4.trans hon, ?_, ?_, ?_, a3, a4, a5⟩
    · simp only [PMap.find_set, if_true]
    · intro k hk
      simp only [PMap.find_set, if_neg (fun e : name = k => hk e.symm)]
    · intro q p hw'
      obtain ⟨r', h', par', y1, y2⟩ := cloneR_walk q _ _ _ _ _ a6 hw'
      exact ⟨r', y1, (cloneR_copyOf y2).1⟩
    · intro q p' hw'
      obtain ⟨r, h', par', y1, y2⟩ := cloneR_walk_back q _ _ _ _ _ a6 hw'
      exact ⟨r, y1, (cloneR_copyOf y2).1⟩
    · intro q hq hne
      rw [a2 q hq, if_neg hne]

/-- C9, witness: in the tree with the nested directory "src" and the empty directory "dst",
"src" is copied into "dst". -/
theorem copyDirectory_clones_subtree_witness :
    copyTree.soundTree 2 1 = true ∧
    (∃ s', copyDirectory noon 2 "src".toList 3 copyTree = .ok (.done, s')) := by
  obtain ⟨s', _, _, a, _⟩ := copyDirectory_clones_subtree noon 2 copyTree 0
    ⟨"root".toList, none, [("dst".toList, 3), ("src".toList, 1)], []⟩ "src".toList 1
    ⟨"src".toList, some 0, [("in".toList, 2)], [("f".toList, 0)]⟩ 3
    ⟨"dst".toList, some 0, [], []⟩ rfl rfl (by decide) rfl rfl (by decide) rfl (by decide)
    (by decide)
  exact ⟨by decide, s', a⟩

end FSim

namespace FSim

open FileSystem

/-- The effect of `writeFile` on an existing file, cell by cell. -/
theorem writeFile_done (τ : Nat → Str) {s : FileSystem} {c : Ptr} {d : Directory} {name : Str}
    {fp : Ptr} {f : File} (append : Bool) (input : List Str)
    (hc : s.curr = some c) (hd : s.dir c = some d) (hf : d.files.find name = some fp)
    (hfile : s.file fp = some f) :
    ∃ s', writeFile τ name append input s = .ok (.done, s') ∧
      (∀ q, s'.file q = if q = fp then
        some { f with content := if append then f.content ++ readContent input
                                 else readContent input,
                      modifiedAt := τ s.ticks }
        else s.file q) ∧
      s'.dirs = s.dirs ∧ s'.root = s.root ∧ s'.curr = s.curr := by
  obtain ⟨s1, h1⟩ := modFile_of_live
    (fun x => { x with content := if append then x.content ++ readContent input
                                  else readContent input }) hfile
  obtain ⟨f0, a1, a2, a3, a4, a5, a6, a7⟩ := modFile_ok h1
  rw [hfile] at a1; cases a1
  have hfile2 : (s1.getTimestamp τ).2.file fp = some
      { f with content := if append then f.content ++ readContent input
                          else readContent input } := by
    have : (s1.getTimestamp τ).2.file fp = s1.file fp := rfl
    rw [this, a2 fp, if_pos rfl]
  obtain ⟨s3, h3⟩ := modFile_of_live (fun x => { x with modifiedAt := (s1.getTimestamp τ).1 })
    hfile2
  obtain ⟨f1, b1, b2, b3, b4, b5, b6, b7⟩ := modFile_ok h3
  rw [hfile2] at b1; cases b1
  refine ⟨s3, ?_, ?_, ?_, ?_, ?_⟩
  · simp only [writeFile, derefCurr_of hc hd, hf, h1, h3]
  · intro q
    rw [b2 q]
    by_cases e : q = fp
    · rw [if_pos e, if_pos e]
      have : (s1.getTimestamp τ).1 = τ s.ticks := by
        show τ s1.ticks = τ s.ticks
        rw [a6]
      rw [this]
    · rw [if_neg e, if_neg e]
      have : (s1.getTimestamp τ).2.file q = s1.file q := rfl
      rw [this, a2 q, if_neg e]
  · rw [b3]; exact a3
  · rw [b4]; exact a4
  · rw [b5]; exact a5

/-- C10: after a successful `copyDirectory(name, T)` of a subtree whose maps are in key order
and whose entries lead to live objects named by their keys (`soundTree`; nothing is asked of
I1, of the parent links or of the timestamps), take any file of the source subtree, reached along the path `q` under the key `k`.  The copy holds a file
under the same path and key, and it is another object.  With the cursor on the directory of
the copy, `writeFile` (overwrite or append) changes the copied file and leaves the original
file record, content and `modifiedAt` included, as it was; with the cursor on the directory
of the original, `writeFile` changes the original and leaves the copied file record as it
was. -/
theorem copy_is_deep (τ : Nat → Str) (fuel : Nat) (s : FileSystem) (c : Ptr)
    (d : Directory) (name : Str) (orig : Nat) (o : Directory) (target : Nat) (t : Directory)
    (hc : s.curr = some c) (hd : s.dir c = some d) (hfind : d.subDirs.find name = some orig)
    (ho : s.dir orig = some o) (hon : o.name = name) (hw : s.soundTree fuel orig = true)
    (ht : s.dir target = some t) (ht1 : t.subDirs.count name = false)
    (ht2 : t.files.count name = false) :
    ∃ s1, copyDirectory τ fuel name target s = .ok (.done, s1) ∧
      ∀ q po dpo k fo, s.walk orig q = some po → s.dir po = some dpo →
        dpo.files.find k = some fo →
        ∃ pc dpc fc f f', s1.walk s.dirs.length q = some pc ∧ s1.dir pc = some dpc ∧
          dpc.files.find k = some fc ∧ fc ≠ fo ∧
          s1.file fo = some f ∧ s1.file fc = some f' ∧
          (∀ σ append input, σ.dirs = s1.dirs → σ.fls = s1.fls → σ.curr = some pc →
            ∃ σ', writeFile τ k append input σ = .ok (.done, σ') ∧
              σ'.file fo = some f ∧
              σ'.file fc = some
                { f' with content := if append then f'.content ++ readContent input
                                     else readContent input,
                          modifiedAt := τ σ.ticks }) ∧
          (∀ σ append input, σ.dirs = s1.dirs → σ.fls = s1.fls → σ.curr = some po →
            ∃ σ', writeFile τ k append input σ = .ok (.done, σ') ∧
              σ'.file fc = some f' ∧
              σ'.file fo = some
                { f with content := if append then f.content ++ readContent input
                                    else readContent input,
                         modifiedAt := τ σ.ticks }) := by
  obtain ⟨s1, a1, a2, a3, a4, a5, a6, _⟩ :=
    copyDirectory_done τ hc hd hfind ho hon hw ht ht1 ht2
  refine ⟨s1, a1, ?_⟩
  intro q po dpo k fo hwalk hdpo hfo
  obtain ⟨pc, h', par', y1, y2⟩ := cloneR_walk q _ _ _ _ _ a6 hwalk
  obtain ⟨d0, dpc, c1, c2, c3, c4, c5, c6, c7, c8, c9, c10, c11⟩ := y2
  rw [hdpo] at c1; cases c1
  have hsome := c8 k
  rw [hfo] at hsome
  obtain ⟨fc, hfc⟩ := Option.isSome_iff_exists.1 hsome
  obtain ⟨x1, f, f', x2, x3, x4, x5⟩ := c9 k fo fc hfo hfc
  have hlt : fo < s.fls.length := file_lt x2
  have hne : fc ≠ fo := Nat.ne_of_gt (Nat.lt_of_lt_of_le hlt x1)
  have hfo1 : s1.file fo = some f := by rw [a3 fo hlt]; exact x2
  have hpo1 : ∃ dpo1, s1.dir po = some dpo1 ∧ dpo1.files.find k = some fo := by
    rw [a2 po (dir_lt hdpo)]
    by_cases e : po = target
    · rw [if_pos e]
      rw [e, ht] at hdpo; cases hdpo
      exact ⟨_, rfl, hfo⟩
    · rw [if_neg e]; exact ⟨_, hdpo, hfo⟩
  refine ⟨pc, dpc, fc, f, f', y1, c2, hfc, hne, hfo1, x3, ?_, ?_⟩
  · intro σ append input e1 e2 e3
    obtain ⟨σ', w1, w2, _⟩ := writeFile_done τ append input e3
      ((dir_eq_of_dirs e1 pc).trans c2) hfc ((file_eq_of_fls e2 fc).trans x3)
    refine ⟨σ', w1, ?_, ?_⟩
    · rw [w2 fo, if_neg (fun e => hne e.symm), file_eq_of_fls e2 fo]; exact hfo1
    · rw [w2 fc, if_pos rfl]
  · intro σ append input e1 e2 e3
    obtain ⟨dpo1, z1, z2⟩ := hpo1
    obtain ⟨σ', w1, w2, _⟩ := writeFile_done τ append input e3
      ((dir_eq_of_dirs e1 po).trans z1) z2 ((file_eq_of_fls e2 fo).trans hfo1)
    refine ⟨σ', w1, ?_, ?_⟩
    · rw [w2 fc, if_neg hne, file_eq_of_fls e2 fc]; exact x3
    · rw [w2 fo, if_pos rfl]

/-- C10, witness: "src" of the example tree is copied into "dst". -/
theorem copy_is_deep_witness :
    copyTree.soundTree 2 1 = true ∧
    (∃ s1, copyDirectory noon 2 "src".toList 3 copyTree = .ok (.done, s1)) := by
  obtain ⟨s1, a, _⟩ := copy_is_deep noon 2 copyTree 0
    ⟨"root".toList, none, [("dst".toList, 3), ("src".toList, 1)], []⟩ "src".toList 1
    ⟨"src".toList, some 0, [("in".toList, 2)], [("f".toList, 0)]⟩ 3
    ⟨"dst".toList, some 0, [], []⟩ rfl rfl (by decide) rfl rfl (by decide) rfl (by decide)
    (by decide)
  exact ⟨by decide, s1, a⟩

end FSim

namespace FSim

open FileSystem

/-! ## Invariant I1 -/

theorem I1_iff {s : FileSystem} : I1 s ↔ ∀ p d, s.dir p = some d → NamesUnique d := by
  unfold I1
  rw [List.all_eq_true]
  constructor
  · intro h p d hd
    have hlt : p < s.dirs.length := dir_lt hd
    have hm : s.dirs[p] ∈ s.dirs := List.getElem_mem hlt
    have e : s.dirs[p] = some d := by
      have : s.dir p = s.dirs[p] := by
        simp [dir, List.getD_eq_getElem?_getD, List.getElem?_eq_getElem hlt]
      rw [← this]; exact hd
    have := h _ hm
    rw [e] at this
    simpa using this
  · intro h x hx
    cases x with
    | none => rfl
    | some d =>
      obtain ⟨i, hi, e⟩ := List.getElem_of_mem hx
      have : s.dir i = some d := by
        simp [dir, List.getD_eq_getElem?_getD, List.getElem?_eq_getElem hi, e]
      simpa using h i d this

theorem I1_of_dir_eq {s s' : FileSystem} (h : I1 s) (e : ∀ q, s'.dir q = s.dir q) : I1 s' := by
  rw [I1_iff] at h ⊢
  intro p d hd
  rw [e] at hd
  exact h p d hd

theorem I1_of_dirs {s s' : FileSystem} (h : I1 s) (e : s'.dirs = s.dirs) : I1 s' :=
  I1_of_dir_eq h (dir_eq_of_dirs e)

/-- A write through a `Directory*` keeps I1 when the new value has unique names. -/
theorem I1_modDir {s s' : FileSystem} {p : Ptr} {f : Directory → Directory} (h : I1 s)
    (hm : s.modDir p f = .ok s')
    (hf : ∀ d, s.dir p = some d → NamesUnique d → NamesUnique (f d)) : I1 s' := by
  obtain ⟨d, a1, a2, _⟩ := modDir_ok hm
  rw [I1_iff] at h ⊢
  intro q dq hq
  rw [a2 q] at hq
  by_cases e : q = p
  · rw [if_pos e] at hq
    cases hq
    exact hf d a1 (h p d a1)
  · rw [if_neg e] at hq
    exact h q dq hq

theorem I1_modFile {s s' : FileSystem} {p : Ptr} {f : File → File} (h : I1 s)
    (hm : s.modFile p f = .ok s') : I1 s' := by
  obtain ⟨_, _, _, a3, _⟩ := modFile_ok hm
  exact I1_of_dirs h a3

theorem I1_deleteFile {s s' : FileSystem} {p : Ptr} (h : I1 s)
    (hm : s.deleteFile p = .ok s') : I1 s' := by
  unfold deleteFile at hm
  split at hm
  · cases hm; exact I1_of_dirs h rfl
  · cases hm

theorem I1_newDir {s : FileSystem} (h : I1 s) (n : Str) (par : Option Ptr) :
    I1 (s.newDir n par).2 := by
  rw [I1_iff] at h ⊢
  intro q dq hq
  rw [dir_newDir] at hq
  by_cases e : q = s.dirs.length
  · rw [if_pos e] at hq
    cases hq
    unfold NamesUnique
    exact List.nodup_nil
  · rw [if_neg e] at hq
    exact h q dq hq

theorem I1_newFile {s : FileSystem} (h : I1 s) (τ : Nat → Str) (n : Str) :
    I1 (s.newFile τ n).2 := I1_of_dirs h rfl

theorem I1_getTimestamp {s : FileSystem} (h : I1 s) (τ : Nat → Str) :
    I1 (s.getTimestamp τ).2 := I1_of_dirs h rfl

theorem I1_forEach {α : Type} {body : α → FileSystem → Except Fault FileSystem}
    (hb : ∀ x s s', body x s = .ok s' → I1 s → I1 s') :
    ∀ (xs : List α) (s s' : FileSystem), forEach body xs s = .ok s' → I1 s → I1 s'
  | [], s, s', h, hi => by
    simp only [forEach] at h
    cases h; exact hi
  | x :: xs, s, s', h, hi => by
    simp only [forEach] at h
    split at h
    · next s1 e => exact I1_forEach hb xs s1 s' h (hb x s s1 e hi)
    · cases h

theorem I1_deleteDir : ∀ (fuel : Nat) (p : Ptr) (s s' : FileSystem),
    s.deleteDir fuel p = .ok s' → I1 s → I1 s'
  | 0, p, s, s', h, _ => by simp only [deleteDir] at h; cases h
  | fuel + 1, p, s, s', h, hi => by
    simp only [deleteDir] at h
    split at h
    · cases h
    · next d hd =>
      split at h
      · cases h
      · next s1 e1 =>
        split at h
        · cases h
        · next s2 e2 =>
          split at h
          · cases h
          · next d2 hd2 =>
            cases h
            have i1 : I1 s1 :=
              I1_forEach (fun x a b hab ha => I1_deleteDir fuel x.2 a b hab ha) _ _ _ e1 hi
            have i2 : I1 s2 :=
              I1_forEach (fun x a b hab ha => I1_deleteFile ha hab) _ _ _ e2 i1
            rw [I1_iff] at i2 ⊢
            intro q dq hq
            have hq' : (s2.dirs.set p none).getD q none = some dq := hq
            rw [getD_set_none _ _ _ _ (dir_lt hd2)] at hq'
            by_cases e : q = p
            · rw [if_pos e] at hq'; cases hq'
            · rw [if_neg e] at hq'; exact i2 q dq hq'

/-! ## Unique names under the map updates -/

theorem namesUnique_set_subDirs {d : Directory} {k : Str} (v : Ptr) (h : NamesUnique d)
    (h1 : d.subDirs.count k = false) (h2 : d.files.count k = false) :
    NamesUnique { d with subDirs := d.subDirs.set k v } := by
  unfold NamesUnique at h ⊢
  rw [List.nodup_append] at h ⊢
  obtain ⟨a, b, c⟩ := h
  have n1 : k ∉ d.subDirs.keys := fun hk => by
    rw [PMap.count_eq_true.2 hk] at h1; cases h1
  have n2 : k ∉ d.files.keys := fun hk => by
    rw [PMap.count_eq_true.2 hk] at h2; cases h2
  refine ⟨PMap.nodup_keys_set a n1, b, ?_⟩
  intro x hx hx'
  rcases PMap.mem_keys_set.1 hx with e | e
  · rw [e] at hx'; exact n2 hx'
  · exact c e hx'

theorem namesUnique_set_files {d : Directory} {k : Str} (v : Ptr) (h : NamesUnique d)
    (h1 : d.subDirs.count k = false) (h2 : d.files.count k = false) :
    NamesUnique { d with files := d.files.set k v } := by
  unfold NamesUnique at h ⊢
  rw [List.nodup_append] at h ⊢
  obtain ⟨a, b, c⟩ := h
  have n1 : k ∉ d.subDirs.keys := fun hk => by
    rw [PMap.count_eq_true.2 hk] at h1; cases h1
  have n2 : k ∉ d.files.keys := fun hk => by
    rw [PMap.count_eq_true.2 hk] at h2; cases h2
  refine ⟨a, PMap.nodup_keys_set b n2, ?_⟩
  intro x hx hx'
  rcases PMap.mem_keys_set.1 hx' with e | e
  · rw [e] at hx; exact n1 hx
  · exact c hx e

theorem namesUnique_erase_subDirs {d : Directory} (k : Str) (h : NamesUnique d) :
    NamesUnique { d with subDirs := d.subDirs.erase k } := by
  unfold NamesUnique at h ⊢
  exact h.sublist (List.Sublist.append (PMap.keys_erase_sublist _ _) (List.Sublist.refl _))

theorem namesUnique_erase_files {d : Directory} (k : Str) (h : NamesUnique d) :
    NamesUnique { d with files := d.files.erase k } := by
  unfold NamesUnique at h ⊢
  exact h.sublist (List.Sublist.append (List.Sublist.refl _) (PMap.keys_erase_sublist _ _))

theorem derefCurr_ok {s : FileSystem} {c : Ptr} {d : Directory}
    (h : s.derefCurr = .ok (c, d)) : s.curr = some c ∧ s.dir c = some d := by
  unfold derefCurr at h
  split at h
  · cases h
  · next c0 hc =>
    split at h
    · next d0 hd => cases h; exact ⟨hc, hd⟩
    · cases h

theorem derefDir_ok {s : FileSystem} {p : Ptr} {d : Directory}
    (h : s.derefDir p = .ok d) : s.dir p = some d := by
  unfold derefDir at h
  split at h
  · next d0 hd => cases h; exact hd
  · cases h

theorem bor_false {a b : Bool} (h : ¬ (a || b) = true) : a = false ∧ b = false := by
  cases a <;> cases b <;> simp_all

end FSim

namespace FSim

open FileSystem

/-! ## I1 under the structural operations -/

theorem I1_makeDirectory {s s' : FileSystem} {r : Reply} {name : Str} (hi : I1 s)
    (h : makeDirectory name s = .ok (r, s')) : I1 s' := by
  unfold makeDirectory at h
  split at h
  · cases h
  · next c d hcd =>
    obtain ⟨_, hd⟩ := derefCurr_ok hcd
    split at h
    · cases h; exact hi
    · next hn =>
      obtain ⟨n1, n2⟩ := bor_false hn
      dsimp only at h
      split at h
      · cases h
      · next s2 e2 =>
        cases h
        refine I1_modDir (I1_newDir hi name (some c)) e2 ?_
        intro x hx _
        rw [dir_newDir, if_neg (Nat.ne_of_lt (dir_lt hd)), hd] at hx
        cases hx
        rw [I1_iff] at hi
        exact namesUnique_set_subDirs _ (hi c _ hd) n1 n2

theorem I1_createFile {τ : Nat → Str} {s s' : FileSystem} {r : Reply} {name : Str} (hi : I1 s)
    (h : createFile τ name s = .ok (r, s')) : I1 s' := by
  unfold createFile at h
  split at h
  · cases h
  · next c d hcd =>
    obtain ⟨_, hd⟩ := derefCurr_ok hcd
    split at h
    · cases h; exact hi
    · next hn =>
      obtain ⟨n2, n1⟩ := bor_false hn
      dsimp only at h
      split at h
      · cases h
      · next s2 e2 =>
        cases h
        refine I1_modDir (I1_newFile hi τ name) e2 ?_
        intro x hx _
        have : (s.newFile τ name).2.dir c = s.dir c := rfl
        rw [this, hd] at hx
        cases hx
        rw [I1_iff] at hi
        exact namesUnique_set_files _ (hi c _ hd) n1 n2

theorem I1_batchCreateFiles {τ : Nat → Str} {s s' : FileSystem} {input : Str} (hi : I1 s)
    (h : batchCreateFiles τ input s = .ok s') : I1 s' := by
  unfold batchCreateFiles at h
  refine I1_forEach ?_ _ _ _ h hi
  intro n a b hab ha
  split at hab
  · next r s1 e => cases hab; exact I1_createFile ha e
  · cases hab

theorem I1_deleteFileByName {s s' : FileSystem} {r : Reply} {name : Str} (hi : I1 s)
    (h : deleteFileByName name s = .ok (r, s')) : I1 s' := by
  unfold deleteFileByName at h
  split at h
  · cases h
  · next c d hcd =>
    split at h
    · cases h; exact hi
    · next fp hfp =>
      split at h
      · cases h
      · next s1 e1 =>
        split at h
        · cases h
        · next s2 e2 =>
          cases h
          exact I1_modDir (I1_deleteFile hi e1) e2
            (fun x _ hx => namesUnique_erase_files name hx)

theorem I1_deleteDirectoryByName {fuel : Nat} {s s' : FileSystem} {r : Reply} {name : Str}
    (hi : I1 s) (h : deleteDirectoryByName fuel name s = .ok (r, s')) : I1 s' := by
  unfold deleteDirectoryByName at h
  split at h
  · cases h
  · next c d hcd =>
    split at h
    · cases h; exact hi
    · next p hp =>
      split at h
      · cases h
      · next s1 e1 =>
        split at h
        · cases h
        · next s2 e2 =>
          cases h
          exact I1_modDir (I1_deleteDir _ _ _ _ e1 hi) e2
            (fun x _ hx => namesUnique_erase_subDirs name hx)

theorem I1_renameDirectory {s s' : FileSystem} {r : Reply} {oldN newN : Str} (hi : I1 s)
    (h : renameDirectory oldN newN s = .ok (r, s')) : I1 s' := by
  unfold renameDirectory at h
  split at h
  · cases h
  · next c d hcd =>
    obtain ⟨_, hd⟩ := derefCurr_ok hcd
    split at h
    · cases h; exact hi
    · next p hp =>
      split at h
      · cases h; exact hi
      · next hn =>
        obtain ⟨n1, n2⟩ := bor_false hn
        split at h
        · cases h
        · next s1 e1 =>
          split at h
          · cases h
          · next s2 e2 =>
            split at h
            · cases h
            · next s3 e3 =>
              cases h
              have i1 : I1 s1 := I1_modDir hi e1 (fun x hx ux => by
                rw [hd] at hx; cases hx
                exact namesUnique_set_subDirs _ ux n1 n2)
              have i2 : I1 s2 := I1_modDir i1 e2 (fun x _ ux => ux)
              exact I1_modDir i2 e3 (fun x _ ux => namesUnique_erase_subDirs oldN ux)

theorem I1_renameFile {s s' : FileSystem} {r : Reply} {oldN newN : Str} (hi : I1 s)
    (h : renameFile oldN newN s = .ok (r, s')) : I1 s' := by
  unfold renameFile at h
  split at h
  · cases h
  · next c d hcd =>
    obtain ⟨_, hd⟩ := derefCurr_ok hcd
    split at h
    · cases h; exact hi
    · next p hp =>
      split at h
      · cases h; exact hi
      · next hn =>
        obtain ⟨n2, n1⟩ := bor_false hn
        split at h
        · cases h
        · next s1 e1 =>
          split at h
          · cases h
          · next s2 e2 =>
            split at h
            · cases h
            · next s3 e3 =>
              cases h
              have i1 : I1 s1 := I1_modDir hi e1 (fun x hx ux => by
                rw [hd] at hx; cases hx
                exact namesUnique_set_files _ ux n1 n2)
              have i2 : I1 s2 := I1_modFile i1 e2
              exact I1_modDir i2 e3 (fun x _ ux => namesUnique_erase_files oldN ux)

theorem I1_moveFile {s s' : FileSystem} {r : Reply} {name : Str} {target : Ptr} (hi : I1 s)
    (h : moveFile name target s = .ok (r, s')) : I1 s' := by
  unfold moveFile at h
  split at h
  · cases h
  · next c d hcd =>
    split at h
    · cases h; exact hi
    · next fp hfp =>
      split at h
      · cases h
      · next t ht =>
        have ht' := derefDir_ok ht
        split at h
        · cases h; exact hi
        · next hn =>
          obtain ⟨n2, n1⟩ := bor_false hn
          split at h
          · cases h
          · next s1 e1 =>
            split at h
            · cases h
            · next s2 e2 =>
              cases h
              have i1 : I1 s1 := I1_modDir hi e1 (fun x hx ux => by
                rw [ht'] at hx; cases hx
                exact namesUnique_set_files _ ux n1 n2)
              exact I1_modDir i1 e2 (fun x _ ux => namesUnique_erase_files name ux)

theorem I1_moveDirectory {s s' : FileSystem} {r : Reply} {name : Str} {target : Ptr}
    (hi : I1 s) (h : moveDirectory name target s = .ok (r, s')) : I1 s' := by
  unfold moveDirectory at h
  split at h
  · cases h
  · next c d hcd =>
    split at h
    · cases h; exact hi
    · next p hp =>
      split at h
      · cases h
      · next t ht =>
        have ht' := derefDir_ok ht
        split at h
        · cases h; exact hi
        · next hn =>
          obtain ⟨n1, n2⟩ := bor_false hn
          split at h
          · cases h
          · next s1 e1 =>
            split at h
            · cases h
            · next d1 hd1 =>
              split at h
              · cases h
              · next p1 hp1 =>
                split at h
                · cases h
                · next s2 e2 =>
                  split at h
                  · cases h
                  · next s3 e3 =>
                    cases h
                    have i1 : I1 s1 := I1_modDir hi e1 (fun x hx ux => by
                      rw [ht'] at hx; cases hx
                      exact namesUnique_set_subDirs _ ux n1 n2)
                    have i2 : I1 s2 := I1_modDir i1 e2 (fun x _ ux => ux)
                    exact I1_modDir i2 e3 (fun x _ ux => namesUnique_erase_subDirs name ux)

theorem I1_copyFile {τ : Nat → Str} {s s' : FileSystem} {r : Reply} {name : Str}
    {target : Ptr} (hi : I1 s) (h : copyFile τ name target s = .ok (r, s')) : I1 s' := by
  unfold copyFile at h
  split at h
  · cases h
  · next c d hcd =>
    split at h
    · cases h; exact hi
    · next fp hfp =>
      split at h
      · cases h
      · next t ht =>
        have ht' := derefDir_ok ht
        split at h
        · cases h; exact hi
        · next hn =>
          obtain ⟨n2, n1⟩ := bor_false hn
          split at h
          · cases h
          · next orig ho =>
            dsimp only at h
            split at h
            · cases h
            · next s3 e3 =>
              split at h
              · cases h
              · next s4 e4 =>
                cases h
                have i3 : I1 s3 :=
                  I1_modFile (I1_getTimestamp (I1_newFile hi τ orig.name) τ) e3
                refine I1_modDir i3 e4 ?_
                intro x hx ux
                obtain ⟨_, _, _, a3, _⟩ := modFile_ok e3
                rw [dir_eq_of_dirs a3] at hx
                have : ((s.newFile τ orig.name).2.getTimestamp τ).2.dir target = s.dir target :=
                  rfl
                rw [this, ht'] at hx
                cases hx
                rw [I1_iff] at hi
                exact namesUnique_set_files _ (hi target _ ht') n1 n2

theorem I1_deleteAll {fuel : Nat} {s s' : FileSystem} {r : Reply} {confirm : Char}
    (hi : I1 s) (h : deleteAll fuel confirm s = .ok (r, s')) : I1 s' := by
  unfold deleteAll at h
  split at h
  · cases h; exact hi
  · split at h
    · cases h
    · next rt hrt =>
      split at h
      · cases h
      · next s1 e1 =>
        split at h
        · cases h
        · next s2 e2 =>
          split at h
          · cases h
          · next s3 e3 =>
            cases h
            have i1 : I1 s1 :=
              I1_forEach (fun x a b hab ha => I1_deleteDir fuel x.2 a b hab ha) _ _ _ e1 hi
            have i2 : I1 s2 :=
              I1_forEach (fun x a b hab ha => I1_deleteFile ha hab) _ _ _ e2 i1
            refine I1_modDir i2 e3 ?_
            intro x _ _
            unfold NamesUnique
            exact List.nodup_nil

theorem I1_copyDirectory {τ : Nat → Str} {fuel : Nat} {s s' : FileSystem} {r : Reply}
    {name : Str} {target : Ptr} (hi : I1 s)
    (hsrc : ∀ c d orig, s.curr = some c → s.dir c = some d →
      d.subDirs.find name = some orig →
      s.soundTree fuel orig = true ∧ ∃ o, s.dir orig = some o ∧ o.name = name)
    (h : copyDirectory τ fuel name target s = .ok (r, s')) : I1 s' := by
  cases hcd : s.derefCurr with
  | error e => simp only [copyDirectory, hcd] at h; cases h
  | ok cd =>
    obtain ⟨c, d⟩ := cd
    obtain ⟨hc, hd⟩ := derefCurr_ok hcd
    cases hf : d.subDirs.find name with
    | none => simp only [copyDirectory, hcd, hf] at h; cases h; exact hi
    | some orig =>
      cases ht : s.derefDir target with
      | error e => simp only [copyDirectory, hcd, hf, ht] at h; cases h
      | ok t =>
        have ht' := derefDir_ok ht
        by_cases hn : (t.subDirs.count name || t.files.count name) = true
        · simp only [copyDirectory, hcd, hf, ht, hn, if_true] at h; cases h; exact hi
        · obtain ⟨n1, n2⟩ := bor_false hn
          obtain ⟨hw, o, ho, hon⟩ := hsrc c d orig hc hd hf
          obtain ⟨s1, a1, a2, _, _, _, _, a7⟩ :=
            copyDirectory_done τ hc hd hf ho hon hw ht' n1 n2
          rw [a1] at h
          cases h
          rw [I1_iff] at hi ⊢
          intro q dq hq
          by_cases hlt : q < s.dirs.length
          · rw [a2 q hlt] at hq
            by_cases e : q = target
            · rw [if_pos e] at hq
              cases hq
              exact namesUnique_set_subDirs _ (hi target t ht') n1 n2
            · rw [if_neg e] at hq
              exact hi q dq hq
          · exact a7 hi q dq (Nat.le_of_not_lt hlt) hq

end FSim

namespace FSim

open FileSystem

/-- C2: if no directory of the heap has two children with the same name (I1), the same holds
in the state that any of the twelve structural operations returns, for every argument:
`makeDirectory`, `createFile`, `batchCreateFiles`, `renameDirectory`, `renameFile`,
`deleteDirectoryByName`, `deleteFileByName`, `moveFile`, `moveDirectory`, `copyFile`,
`copyDirectory` and `deleteAll`.  For `copyDirectory` the subtree to copy obeys the data
model: its top directory carries the name under which the cursor holds it, and below it
every entry is keyed by the name of its object (the copy is stored under the name fields). -/
theorem names_stay_unique (τ : Nat → Str) (fuel : Nat) (s : FileSystem) (hi : I1 s) :
    (∀ name r s', makeDirectory name s = .ok (r, s') → I1 s') ∧
    (∀ name r s', createFile τ name s = .ok (r, s') → I1 s') ∧
    (∀ input s', batchCreateFiles τ input s = .ok s' → I1 s') ∧
    (∀ oldN newN r s', renameDirectory oldN newN s = .ok (r, s') → I1 s') ∧
    (∀ oldN newN r s', renameFile oldN newN s = .ok (r, s') → I1 s') ∧
    (∀ name r s', deleteDirectoryByName fuel name s = .ok (r, s') → I1 s') ∧
    (∀ name r s', deleteFileByName name s = .ok (r, s') → I1 s') ∧
    (∀ name target r s', moveFile name target s = .ok (r, s') → I1 s') ∧
    (∀ name target r s', moveDirectory name target s = .ok (r, s') → I1 s') ∧
    (∀ name target r s', copyFile τ name target s = .ok (r, s') → I1 s') ∧
    (∀ name target r s',
      (∀ c d orig, s.curr = some c → s.dir c = some d → d.subDirs.find name = some orig →
        s.soundTree fuel orig = true ∧ ∃ o, s.dir orig = some o ∧ o.name = name) →
      copyDirectory τ fuel name target s = .ok (r, s') → I1 s') ∧
    (∀ confirm r s', deleteAll fuel confirm s = .ok (r, s') → I1 s') :=
  ⟨fun _ _ _ h => I1_makeDirectory hi h,
   fun _ _ _ h => I1_createFile hi h,
   fun _ _ h => I1_batchCreateFiles hi h,
   fun _ _ _ _ h => I1_renameDirectory hi h,
   fun _ _ _ _ h => I1_renameFile hi h,
   fun _ _ _ h => I1_deleteDirectoryByName hi h,
   fun _ _ _ h => I1_deleteFileByName hi h,
   fun _ _ _ _ h => I1_moveFile hi h,
   fun _ _ _ _ h => I1_moveDirectory hi h,
   fun _ _ _ _ h => I1_copyFile hi h,
   fun _ _ _ _ hsrc h => I1_copyDirectory hi hsrc h,
   fun _ _ _ h => I1_deleteAll hi h⟩

/-- C2, witness: the example tree satisfies I1, the copy of "src" into "dst" succeeds, and
the state it returns satisfies I1. -/
theorem names_stay_unique_witness :
    I1 copyTree ∧
    ∃ s', copyDirectory noon 2 "src".toList 3 copyTree = .ok (.done, s') ∧ I1 s' := by
  refine ⟨by decide, ?_⟩
  have hroot : copyTree.dir 0 =
      some ⟨"root".toList, none, [("dst".toList, 3), ("src".toList, 1)], []⟩ := rfl
  have hsrc : copyTree.dir 1 =
      some ⟨"src".toList, some 0, [("in".toList, 2)], [("f".toList, 0)]⟩ := rfl
  have hdst : copyTree.dir 3 = some ⟨"dst".toList, some 0, [], []⟩ := rfl
  obtain ⟨s', a, _⟩ := @copyDirectory_done noon 2 copyTree 0 _ "src".toList 1 _ 3 _
    rfl hroot (by decide) hsrc rfl
    (by decide) hdst (by decide) (by decide)
  refine ⟨s', a, ?_⟩
  refine (names_stay_unique noon 2 copyTree (by decide)).2.2.2.2.2.2.2.2.2.2.1
    "src".toList 3 .done s' ?_ a
  intro c d orig hc hd hf
  obtain rfl : 0 = c := Option.some.inj hc
  rw [hroot] at hd
  obtain rfl := Option.some.inj hd
  obtain rfl : 1 = orig := Option.some.inj hf
  exact ⟨by decide, _, hsrc, rfl⟩

end FSim

namespace FSim

open FileSystem

/-! ## Timestamps of a copied subtree -/

/-- A property every round of a loop keeps holds when the loop ends. -/
theorem forEach_inv {α : Type} {P : FileSystem → Prop}
    {body : α → FileSystem → Except Fault FileSystem}
    (hb : ∀ x s s', body x s = .ok s' → P s → P s') :
    ∀ (xs : List α) (s s' : FileSystem), forEach body xs s = .ok s' → P s → P s'
  | [], s, s', h, hi => by
    simp only [forEach] at h
    cases h; exact hi
  | x :: xs, s, s', h, hi => by
    simp only [forEach] at h
    split at h
    · next s1 e => exact forEach_inv hb xs s1 s' h (hb x s s1 e hi)
    · cases h

theorem stamped_of_same {τ : Nat → Str} {L T : Nat} {σ σ' : FileSystem} (h : Stamped τ L T σ)
    (e1 : σ'.fls = σ.fls) (e2 : σ'.ticks = σ.ticks) : Stamped τ L T σ' := by
  obtain ⟨a, b⟩ := h
  refine ⟨by rw [e2]; exact a, ?_⟩
  intro f x hf hx
  rw [file_eq_of_fls e1] at hx
  rw [e2]
  exact b f x hf hx

theorem stamped_modDir {τ : Nat → Str} {L T : Nat} {σ σ' : FileSystem} {p : Ptr}
    {g : Directory → Directory} (h : Stamped τ L T σ) (hm : σ.modDir p g = .ok σ') :
    Stamped τ L T σ' := by
  obtain ⟨_, _, _, a3, _, _, a6, _⟩ := modDir_ok hm
  exact stamped_of_same h a3 a6

theorem stamped_copyOneFile {τ : Nat → Str} {L T : Nat} {σ σ' : FileSystem} {copy : Ptr}
    {kf : Str × Ptr} (h : Stamped τ L T σ) (hm : copyOneFile τ copy kf σ = .ok σ') :
    Stamped τ L T σ' := by
  unfold copyOneFile at hm
  split at hm
  · cases hm
  · next orig ho =>
    dsimp only at hm
    split at hm
    · cases hm
    · next s3 e3 =>
      refine stamped_modDir ?_ hm
      obtain ⟨x0, b1, b2, _, _, _, b6, _⟩ := modFile_ok e3
      obtain ⟨a, b⟩ := h
      have htk : s3.ticks = σ.ticks + 2 := by rw [b6]; rfl
      refine ⟨by rw [htk]; omega, ?_⟩
      intro f x hf hx
      rw [b2 f] at hx
      by_cases e : f = (σ.newFile τ orig.name).1
      · rw [if_pos e] at hx
        cases hx
        exact ⟨σ.ticks + 1, by omega, by rw [htk]; omega, rfl, rfl⟩
      · rw [if_neg e] at hx
        have hx' : (σ.newFile τ orig.name).2.file f = some x := hx
        rw [file_newFile] at hx'
        rw [newFile_fst] at e
        rw [if_neg e] at hx'
        obtain ⟨t, t1, t2, t3, t4⟩ := b f x hf hx'
        exact ⟨t, t1, by rw [htk]; omega, t3, t4⟩

theorem stamped_copyHelper (τ : Nat → Str) (L T : Nat) : ∀ (h : Nat) (orig tg : Ptr)
    (σ σ' : FileSystem), copyDirectoryHelper τ h orig tg σ = .ok σ' → Stamped τ L T σ →
    Stamped τ L T σ'
  | 0, _, _, _, _, hm, _ => by simp only [copyDirectoryHelper] at hm; cases hm
  | h + 1, orig, tg, σ, σ', hm, hs => by
    simp only [copyDirectoryHelper] at hm
    split at hm
    · cases hm
    · next o ho =>
      split at hm
      · cases hm
      · next s2 e2 =>
        split at hm
        · cases hm
        · next o2 ho2 =>
          split at hm
          · cases hm
          · next s3 e3 =>
            split at hm
            · cases hm
            · next o3 ho3 =>
              have h1 : Stamped τ L T (σ.newDir o.name (some tg)).2 :=
                stamped_of_same hs rfl rfl
              have h2 : Stamped τ L T s2 :=
                forEach_inv (fun x a b hab ha => stamped_copyOneFile ha hab) _ _ _ e2 h1
              have h3 : Stamped τ L T s3 :=
                forEach_inv (fun x a b hab ha => stamped_copyHelper τ L T h x.2 _ a b hab ha)
                  _ _ _ e3 h2
              exact stamped_modDir h3 hm

/-- C11, the claim fails: in the example tree the files were stamped at noon; "src" is copied
into "dst" while the clock still shows noon, and the copy of "src/f" has the `createdAt` and
the `modifiedAt` of the original. -/
theorem copied_stamps_equal_originals :
    copyDirectory noon 2 "src".toList 3 copyTree = .ok (.done, copyTreeCopied) ∧
    (∃ f f', copyTree.fileAt ["src".toList] "f".toList = some f ∧
      copyTreeCopied.fileAt ["dst".toList, "src".toList] "f".toList = some f' ∧
      f'.createdAt = f.createdAt ∧ f'.modifiedAt = f.modifiedAt) := by
  refine ⟨by decide, _, _, rfl, rfl, rfl, rfl⟩

/-- C11, amended: after a successful `copyDirectory(name, T)` of a subtree whose maps are in
key order and whose entries lead to live objects named by their keys (`soundTree`; nothing is
asked of I1, of the parent links or of the timestamps of the originals), for every file of
the source subtree (reached along the path `q` under the key `k`) the copy
holds a file under the same path and key whose `createdAt` and `modifiedAt` are both one
reading of the clock taken during the call; so they differ from the stamps of the original
whenever the clock, from the call on, does not show the values the original carries. -/
theorem copied_stamps_are_clock_readings (τ : Nat → Str) (fuel : Nat) (s : FileSystem)
    (c : Ptr) (d : Directory) (name : Str) (orig : Nat) (o : Directory) (target : Nat)
    (t : Directory)
    (hc : s.curr = some c) (hd : s.dir c = some d) (hfind : d.subDirs.find name = some orig)
    (ho : s.dir orig = some o) (hon : o.name = name) (hw : s.soundTree fuel orig = true)
    (ht : s.dir target = some t) (ht1 : t.subDirs.count name = false)
    (ht2 : t.files.count name = false) :
    ∃ s1, copyDirectory τ fuel name target s = .ok (.done, s1) ∧
      ∀ q po dpo k fo forig, s.walk orig q = some po → s.dir po = some dpo →
        dpo.files.find k = some fo → s.file fo = some forig →
        ∃ pc dpc fc f' n, s1.walk s.dirs.length q = some pc ∧ s1.dir pc = some dpc ∧
          dpc.files.find k = some fc ∧ s1.file fc = some f' ∧
          s.ticks ≤ n ∧ n < s1.ticks ∧ f'.createdAt = τ n ∧ f'.modifiedAt = τ n ∧
          ((∀ m, s.ticks ≤ m → τ m ≠ forig.createdAt ∧ τ m ≠ forig.modifiedAt) →
            f'.createdAt ≠ forig.createdAt ∧ f'.modifiedAt ≠ forig.modifiedAt) := by
  obtain ⟨s1, a1, a2, a3, a4, a5, a6, _⟩ :=
    copyDirectory_done τ hc hd hfind ho hon hw ht ht1 ht2
  have hst : Stamped τ s.fls.length s.ticks s1 := by
    have e : copyDirectoryHelper τ fuel orig target s = .ok s1 := by
      simp only [copyDirectory, derefCurr_of hc hd, hfind, derefDir_of ht, ht1, ht2,
        Bool.or_self, Bool.false_eq_true, if_false] at a1
      split at a1
      · cases a1
      · next s2 e2 => cases a1; exact e2
    refine stamped_copyHelper τ _ _ fuel orig target s s1 e ⟨Nat.le_refl _, ?_⟩
    intro f x hf hx
    exact absurd (file_lt hx) (Nat.not_lt.2 hf)
  refine ⟨s1, a1, ?_⟩
  intro q po dpo k fo forig hwalk hdpo hfo hforig
  obtain ⟨pc, h', par', y1, y2⟩ := cloneR_walk q _ _ _ _ _ a6 hwalk
  obtain ⟨d0, dpc, c1, c2, c3, c4, c5, c6, c7, c8, c9, c10, c11⟩ := y2
  rw [hdpo] at c1; cases c1
  have hsome := c8 k
  rw [hfo] at hsome
  obtain ⟨fc, hfc⟩ := Option.isSome_iff_exists.1 hsome
  obtain ⟨x1, f, f', x2, x3, x4, x5⟩ := c9 k fo fc hfo hfc
  obtain ⟨n, n1, n2, n3, n4⟩ := hst.2 fc f' x1 x3
  refine ⟨pc, dpc, fc, f', n, y1, c2, hfc, x3, n1, n2, n3, n4, ?_⟩
  intro hclock
  rw [n3, n4]
  exact ⟨(hclock n n1).1, (hclock n n1).2⟩

/-- C11, witness: "src" of the example tree is copied into "dst". -/
theorem copied_stamps_are_clock_readings_witness :
    copyTree.soundTree 2 1 = true ∧
    (∃ s1, copyDirectory noon 2 "src".toList 3 copyTree = .ok (.done, s1)) := by
  obtain ⟨s1, a, _⟩ := copied_stamps_are_clock_readings noon 2 copyTree 0
    ⟨"root".toList, none, [("dst".toList, 3), ("src".toList, 1)], []⟩ "src".toList 1
    ⟨"src".toList, some 0, [("in".toList, 2)], [("f".toList, 0)]⟩ 3
    ⟨"dst".toList, some 0, [], []⟩ rfl rfl (by decide) rfl rfl (by decide) rfl (by decide)
    (by decide)
  exact ⟨by decide, s1, a⟩

end FSim

namespace FSim

open FileSystem

/-! ## Copy and write of one file -/

/-- C12: with the cursor on a live directory that holds the live file `f` under `name`, and a
live target directory `T` with no child called `name`, `copyFile(name, T)` succeeds;
afterwards `T` holds under `name` a new file with the name and the content of `f` whose
`createdAt` and `modifiedAt` are both the clock reading of the copy (the second reading of
the call); `T` is otherwise as before, and the source file and every other directory and
file are unchanged. -/
theorem copyFile_copies (τ : Nat → Str) (s : FileSystem) (c : Ptr) (d : Directory)
    (name : Str) (fp : Nat) (f : File) (target : Nat) (t : Directory)
    (hc : s.curr = some c) (hd : s.dir c = some d) (hfind : d.files.find name = some fp)
    (hfile : s.file fp = some f) (ht : s.dir target = some t)
    (ht1 : t.files.count name = false) (ht2 : t.subDirs.count name = false) :
    ∃ s' t', copyFile τ name target s = .ok (.done, s') ∧
      s'.dir target = some t' ∧ t'.files.find name = some s.fls.length ∧
      (∀ k, k ≠ name → t'.files.find k = t.files.find k) ∧
      t'.subDirs = t.subDirs ∧ t'.name = t.name ∧ t'.parent = t.parent ∧
      s.file s.fls.length = none ∧
      s'.file s.fls.length = some ⟨f.name, f.content, τ (s.ticks + 1), τ (s.ticks + 1)⟩ ∧
      s'.file fp = some f ∧
      (∀ q, q ≠ s.fls.length → s'.file q = s.file q) ∧
      (∀ q, q ≠ target → s'.dir q = s.dir q) ∧
      s'.root = s.root ∧ s'.curr = s.curr := by
  have hlive : ((s.newFile τ f.name).2.getTimestamp τ).2.file s.fls.length
      = some ⟨f.name, [], τ s.ticks, τ s.ticks⟩ := by
    have : ((s.newFile τ f.name).2.getTimestamp τ).2.file s.fls.length
        = (s.newFile τ f.name).2.file s.fls.length := rfl
    rw [this, file_newFile, if_pos rfl]
  obtain ⟨s3, h3⟩ := modFile_of_live
    (fun x => { x with content := f.content,
                       createdAt := ((s.newFile τ f.name).2.getTimestamp τ).1,
                       modifiedAt := ((s.newFile τ f.name).2.getTimestamp τ).1 }) hlive
  obtain ⟨x0, b1, b2, b3, b4, b5, b6, b7⟩ := modFile_ok h3
  rw [hlive] at b1; cases b1
  have hdir3 : ∀ q, s3.dir q = s.dir q := fun q => by rw [dir_eq_of_dirs b3]; rfl
  have ht3 : s3.dir target = some t := by rw [hdir3]; exact ht
  obtain ⟨s4, h4⟩ := modDir_of_live
    (fun x => { x with files := x.files.set name s.fls.length }) ht3
  obtain ⟨t0, e1, e2, e3, e4, e5, e6, e7⟩ := modDir_ok h4
  rw [ht3] at e1; cases e1
  have hnow : ((s.newFile τ f.name).2.getTimestamp τ).1 = τ (s.ticks + 1) := rfl
  have hfile4 : ∀ q, s4.file q = if q = s.fls.length then
      some ⟨f.name, f.content, τ (s.ticks + 1), τ (s.ticks + 1)⟩ else s.file q := by
    intro q
    rw [file_eq_of_fls e3, b2 q]
    by_cases e : q = s.fls.length
    · rw [if_pos e, if_pos e, hnow]
    · rw [if_neg e, if_neg e]
      have : ((s.newFile τ f.name).2.getTimestamp τ).2.file q
          = (s.newFile τ f.name).2.file q := rfl
      rw [this, file_newFile, if_neg e]
  have hne : fp ≠ s.fls.length := Nat.ne_of_lt (file_lt hfile)
  refine ⟨s4, { t with files := t.files.set name s.fls.length }, ?_,
    by rw [e2 target, if_pos rfl], ?_, ?_, rfl, rfl, rfl, file_length_none s,
    by rw [hfile4, if_pos rfl], by rw [hfile4, if_neg hne]; exact hfile, ?_, ?_, ?_, ?_⟩
  · simp only [copyFile, derefCurr_of hc hd, hfind, derefDir_of ht, ht1, ht2, Bool.or_self,
      Bool.false_eq_true, if_false, derefFile_of hfile]
    have h3' : ((s.newFile τ f.name).2.getTimestamp τ).2.modFile (s.newFile τ f.name).1
        (fun x => { x with content := f.content,
                           createdAt := ((s.newFile τ f.name).2.getTimestamp τ).1,
                           modifiedAt := ((s.newFile τ f.name).2.getTimestamp τ).1 })
        = .ok s3 := h3
    have h4' : s3.modDir target
        (fun x => { x with files := x.files.set name (s.newFile τ f.name).1 }) = .ok s4 := h4
    simp only [h3', h4']
  · simp only [PMap.find_set, if_true]
  · intro k hk
    simp only [PMap.find_set, if_neg (fun e : name = k => hk e.symm)]
  · intro q hq
    rw [hfile4, if_neg hq]
  · intro q hq
    rw [e2 q, if_neg hq, hdir3]
  · rw [e4, b4]; rfl
  · rw [e5, b5]; rfl

/-- C12, witness: the file "a.txt" of "docs" is copied into the root. -/
theorem copyFile_copies_witness :
    docsTree.curr = some 1 ∧
    (∃ s', copyFile noon "a.txt".toList 0 docsTree = .ok (.done, s')) := by
  obtain ⟨s', _, a, _⟩ := copyFile_copies noon docsTree 1
    ⟨"docs".toList, some 0, [], [("a.txt".toList, 0)]⟩ "a.txt".toList 0
    ⟨"a.txt".toList, "hello\n".toList, "2024-01-01 12:00:00".toList,
      "2024-01-01 12:00:00".toList⟩ 0
    ⟨"root".toList, none, [("docs".toList, 1)], []⟩
    rfl rfl (by decide) rfl rfl (by decide) (by decide)
  exact ⟨rfl, s', a⟩

/-- C14: with the cursor on a live directory, `writeFile(name, mode)` with the entered text
`readContent input` reports NotFound and changes nothing when the directory has no file
called `name`; otherwise it succeeds, the content of the file becomes the entered text
(overwrite) or the old content followed by the entered text (append), `modifiedAt` becomes
the clock reading of the call, the name and `createdAt` of the file stay, and every other
file and every directory is unchanged. -/
theorem writeFile_contract (τ : Nat → Str) (s : FileSystem) (c : Ptr) (d : Directory)
    (name : Str) (append : Bool) (input : List Str)
    (hc : s.curr = some c) (hd : s.dir c = some d) :
    (d.files.find name = none → writeFile τ name append input s = .ok (.notFound, s)) ∧
    (∀ fp f, d.files.find name = some fp → s.file fp = some f →
      ∃ s', writeFile τ name append input s = .ok (.done, s') ∧
        s'.file fp = some ⟨f.name,
          if append then f.content ++ readContent input else readContent input,
          f.createdAt, τ s.ticks⟩ ∧
        (∀ q, q ≠ fp → s'.file q = s.file q) ∧
        s'.dirs = s.dirs ∧ s'.root = s.root ∧ s'.curr = s.curr) := by
  constructor
  · intro hn
    simp only [writeFile, derefCurr_of hc hd, hn]
  · intro fp f hf hfile
    obtain ⟨s', a1, a2, a3, a4, a5⟩ := writeFile_done τ append input hc hd hf hfile
    refine ⟨s', a1, by rw [a2 fp, if_pos rfl], ?_, a3, a4, a5⟩
    intro q hq
    rw [a2 q, if_neg hq]

/-- C14, witness: "a.txt" in "docs" is overwritten with one line. -/
theorem writeFile_contract_witness :
    docsTree.curr = some 1 ∧
    (∃ s', writeFile noon "a.txt".toList false ["bye".toList, "EOF".toList] docsTree
      = .ok (.done, s') ∧
      (s'.file 0).map (fun x => x.content) = some "bye\n".toList) := by
  obtain ⟨s', a, b, _⟩ := (writeFile_contract noon docsTree 1
    ⟨"docs".toList, some 0, [], [("a.txt".toList, 0)]⟩ "a.txt".toList false
    ["bye".toList, "EOF".toList] rfl rfl).2 0
    ⟨"a.txt".toList, "hello\n".toList, "2024-01-01 12:00:00".toList,
      "2024-01-01 12:00:00".toList⟩ (by decide) rfl
  refine ⟨rfl, s', a, ?_⟩
  rw [b]
  decide

end FSim

namespace FSim

open FileSystem

/-! ## The path resolver -/

/-- The loop of `navigateToPath` is the walk along the non-empty tokens, as long as the
directories it passes are live. -/
theorem navLoop_walk (s : FileSystem) : ∀ (ts : List Str) (cur : Ptr),
    (∀ q p, s.walk cur q = some p → (s.dir p).isSome) →
    navLoop s ts cur = .ok (s.walk cur (ts.filter (fun t => !decide (t = []))))
  | [], cur, _ => rfl
  | t :: ts, cur, hl => by
    by_cases ht : t = []
    · subst ht
      rw [List.filter_cons_of_neg (by simp), navLoop]
      simp only [if_true]
      exact navLoop_walk s ts cur hl
    · rw [List.filter_cons_of_pos (by simp [ht]), navLoop]
      simp only [ht, if_false]
      obtain ⟨d, hd⟩ := Option.isSome_iff_exists.1 (hl [] cur rfl)
      cases hf : d.subDirs.find t with
      | none => simp only [walk_cons, hd, hf]
      | some c =>
        simp only [walk_cons, hd, hf]
        refine navLoop_walk s ts c ?_
        intro q p hq
        exact hl (t :: q) p (walk_cons_some.2 ⟨d, c, hd, hf, hq⟩)

theorem intercalate_two (sep x y : Str) (r : List Str) :
    List.intercalate sep (x :: y :: r) = x ++ sep ++ List.intercalate sep (y :: r) := by
  simp [List.intercalate, List.intersperse]

theorem segments_nil : segments [] = [] := rfl

theorem segments_part (x : Str) (h : '/' ∉ x) :
    segments x = [x].filter (fun t => !decide (t = [])) := by
  by_cases hx : x = []
  · subst hx; rfl
  · unfold segments
    rw [tokens_last '/' x h hx]

theorem segments_sep (x rest : Str) (h : '/' ∉ x) :
    segments (x ++ '/' :: rest) = [x].filter (fun t => !decide (t = [])) ++ segments rest := by
  unfold segments
  rw [tokens_sep '/' x rest h]
  by_cases hx : x = []
  · subst hx; simp
  · simp [hx]

/-- Splitting at the slashes: a path put together from slash-free pieces has the non-empty
pieces as its segments. -/
theorem segments_intercalate : ∀ (parts : List Str), (∀ x ∈ parts, '/' ∉ x) →
    segments (List.intercalate ['/'] parts) = parts.filter (fun t => !decide (t = []))
  | [], _ => rfl
  | [x], h => by
    have : List.intercalate ['/'] [x] = x := by simp [List.intercalate, List.intersperse]
    rw [this]
    exact segments_part x (h x (List.mem_cons_self _ _))
  | x :: y :: r, h => by
    rw [intercalate_two, List.append_assoc, List.singleton_append,
      segments_sep x _ (h x (List.mem_cons_self _ _)),
      segments_intercalate (y :: r) (fun z hz => h z (List.mem_cons_of_mem _ hz))]
    by_cases hx : x = []
    · subst hx; simp
    · simp [hx]

/-- A walk fails exactly at a name that has no entry in the directory reached so far. -/
theorem walk_none_iff (s : FileSystem) : ∀ (q : List Str) (p : Ptr),
    (∀ q' r, s.walk p q' = some r → (s.dir r).isSome) →
    (s.walk p q = none ↔ ∃ pre k post r dr, q = pre ++ k :: post ∧ s.walk p pre = some r ∧
      s.dir r = some dr ∧ dr.subDirs.find k = none)
  | [], p, _ => by
    constructor
    · intro h; rw [walk_nil] at h; cases h
    · rintro ⟨pre, k, post, r, dr, e, _⟩
      cases pre <;> cases e
  | k :: ks, p, hl => by
    obtain ⟨d, hd⟩ := Option.isSome_iff_exists.1 (hl [] p rfl)
    cases hf : d.subDirs.find k with
    | none =>
      have hw : s.walk p (k :: ks) = none := by simp only [walk_cons, hd, hf]
      rw [hw]
      exact ⟨fun _ => ⟨[], k, ks, p, d, rfl, rfl, hd, hf⟩, fun _ => rfl⟩
    | some c =>
      have hw : s.walk p (k :: ks) = s.walk c ks := by simp only [walk_cons, hd, hf]
      have hl' : ∀ q' r, s.walk c q' = some r → (s.dir r).isSome := fun q' r hq =>
        hl (k :: q') r (walk_cons_some.2 ⟨d, c, hd, hf, hq⟩)
      rw [hw, walk_none_iff s ks c hl']
      constructor
      · rintro ⟨pre, k', post, r, dr, e, w, hr, hk⟩
        exact ⟨k :: pre, k', post, r, dr, by rw [e]; rfl,
          walk_cons_some.2 ⟨d, c, hd, hf, w⟩, hr, hk⟩
      · rintro ⟨pre, k', post, r, dr, e, w, hr, hk⟩
        cases pre with
        | nil =>
          rw [walk_nil] at w
          cases w
          rw [hd] at hr; cases hr
          simp only [List.nil_append, List.cons.injEq] at e
          rw [← e.1, hf] at hk; cases hk
        | cons k0 pre =>
          simp only [List.cons_append, List.cons.injEq] at e
          obtain ⟨d0, c0, w1, w2, w3⟩ := walk_cons_some.1 w
          rw [hd] at w1; cases w1
          rw [← e.1, hf] at w2; cases w2
          exact ⟨pre, k', post, r, dr, e.2, w3, hr, hk⟩

/-- In a live subtree every directory a walk reaches is live. -/
theorem liveTree_walk {s : FileSystem} : ∀ (h : Nat) (p : Ptr) (q : List Str) (r : Ptr),
    s.liveTree h p = true → s.walk p q = some r → (s.dir r).isSome
  | 0, p, _, _, hl, _ => by rw [liveTree_zero] at hl; cases hl
  | h + 1, p, [], r, hl, hw => by
    obtain ⟨d, hd, _, _⟩ := liveTree_succ.1 hl
    rw [walk_nil] at hw; cases hw
    rw [hd]; rfl
  | h + 1, p, k :: ks, r, hl, hw => by
    obtain ⟨d, hd, _, hk⟩ := liveTree_succ.1 hl
    obtain ⟨d0, c, w1, w2, w3⟩ := walk_cons_some.1 hw
    rw [hd] at w1; cases w1
    exact liveTree_walk h c ks r (hk (k, c) (PMap.find_mem w2)) w3

/-- C13: in a tree whose directories reachable from the root are live, `navigateToPath(p)`
returns, for every path string `p`, the directory reached from the root (whatever the
cursor) by descending through the segments of `p` one at a time, each by exact match among
the subdirectory names; the segments are the non-empty pieces between the slashes; the
result is the root when there is no segment ("", "/", "//"); it is the null pointer exactly
when some segment has no entry among the subdirectories of the directory reached so far.
The resolver returns a pointer only: the tree is not an output. -/
theorem navigateToPath_resolves (s : FileSystem)
    (hlive : ∀ q p, s.walk s.root q = some p → (s.dir p).isSome) :
    (∀ p, navigateToPath s p = .ok (s.walk s.root (segments p))) ∧
    (∀ parts : List Str, (∀ x ∈ parts, '/' ∉ x) →
      navigateToPath s (List.intercalate ['/'] parts)
        = .ok (s.walk s.root (parts.filter (fun t => !decide (t = []))))) ∧
    (∀ p, segments p = [] → navigateToPath s p = .ok (some s.root)) ∧
    (navigateToPath s [] = .ok (some s.root) ∧ navigateToPath s ['/'] = .ok (some s.root) ∧
      navigateToPath s ['/', '/'] = .ok (some s.root)) ∧
    (∀ p, navigateToPath s p = .ok none ↔
      ∃ pre k post r dr, segments p = pre ++ k :: post ∧ s.walk s.root pre = some r ∧
        s.dir r = some dr ∧ dr.subDirs.find k = none) ∧
    (∀ s2 : FileSystem, s2.dirs = s.dirs → s2.root = s.root →
      ∀ p, navigateToPath s2 p = navigateToPath s p) := by
  have main : ∀ p, navigateToPath s p = .ok (s.walk s.root (segments p)) := by
    intro p
    unfold navigateToPath
    split
    · next h =>
      rcases h with h | h <;> subst h <;> rfl
    · exact navLoop_walk s _ _ hlive
  refine ⟨main, ?_, ?_, ⟨?_, ?_, ?_⟩, ?_, ?_⟩
  · intro parts hp
    rw [main, segments_intercalate parts hp]
  · intro p hp
    rw [main, hp]; rfl
  · exact main []
  · exact main ['/']
  · exact main ['/', '/']
  · intro p
    rw [main]
    constructor
    · intro h
      exact (walk_none_iff s _ _ hlive).1 (Except.ok.inj h)
    · intro h
      rw [(walk_none_iff s _ _ hlive).2 h]
  · intro s2 e1 e2 p
    have hw : ∀ (q : List Str) (r : Ptr), s2.walk r q = s.walk r q := by
      intro q
      induction q with
      | nil => intro r; rfl
      | cons k ks ih =>
        intro r
        rw [walk_cons, walk_cons, dir_eq_of_dirs e1]
        cases s.dir r with
        | none => rfl
        | some d =>
          simp only
          cases d.subDirs.find k with
          | none => rfl
          | some c => exact ih c
    have hlive2 : ∀ q p, s2.walk s2.root q = some p → (s2.dir p).isSome := by
      intro q p h
      rw [hw, e2] at h
      rw [dir_eq_of_dirs e1]
      exact hlive q p h
    have m2 : navigateToPath s2 p = .ok (s2.walk s2.root (segments p)) := by
      unfold navigateToPath
      split
      · next h =>
        rcases h with h | h <;> subst h <;> rfl
      · exact navLoop_walk s2 _ _ hlive2
    rw [m2, main, hw, e2]

/-- C13, witness: in the example tree with the cursor on "docs", the paths "docs" and
"/docs/" lead to that directory, "Docs" and "docs/a.txt" lead nowhere. -/
theorem navigateToPath_resolves_witness :
    (∀ q p, docsTree.walk docsTree.root q = some p → (docsTree.dir p).isSome) ∧
    navigateToPath docsTree "/docs/".toList = .ok (some 1) ∧
    navigateToPath docsTree "Docs".toList = .ok none ∧
    navigateToPath docsTree "docs/a.txt".toList = .ok none := by
  have hl : ∀ q p, docsTree.walk docsTree.root q = some p → (docsTree.dir p).isSome :=
    fun q p h => liveTree_walk 2 docsTree.root q p (by decide) h
  have h := (navigateToPath_resolves docsTree hl).1
  refine ⟨hl, ?_, ?_, ?_⟩
  · rw [h]; decide
  · rw [h]; decide
  · rw [h]; decide

end FSim

namespace FSim

open FileSystem

/-! ## Clearing the tree -/

theorem deleteFile_root {s s' : FileSystem} {p : Ptr} (hm : s.deleteFile p = .ok s') :
    s'.root = s.root ∧ s'.curr = s.curr := by
  unfold deleteFile at hm
  split at hm
  · cases hm; exact ⟨rfl, rfl⟩
  · cases hm

theorem deleteDir_root : ∀ (fuel : Nat) (p : Ptr) (s s' : FileSystem) (r : Ptr)
    (c : Option Ptr), s.deleteDir fuel p = .ok s' → s.root = r ∧ s.curr = c →
    s'.root = r ∧ s'.curr = c
  | 0, p, s, s', _, _, h, _ => by simp only [deleteDir] at h; cases h
  | fuel + 1, p, s, s', r, c, h, hi => by
    simp only [deleteDir] at h
    split at h
    · cases h
    · next d hd =>
      split at h
      · cases h
      · next s1 e1 =>
        split at h
        · cases h
        · next s2 e2 =>
          split at h
          · cases h
          · next d2 hd2 =>
            cases h
            have i1 : s1.root = r ∧ s1.curr = c :=
              @forEach_inv _ (fun σ => σ.root = r ∧ σ.curr = c) _
                (fun x a b hab ha => deleteDir_root fuel x.2 a b r c hab ha) _ _ _ e1 hi
            have i2 : s2.root = r ∧ s2.curr = c :=
              @forEach_inv _ (fun σ => σ.root = r ∧ σ.curr = c) _
                (fun x a b hab ha =>
                  ⟨(deleteFile_root hab).1.trans ha.1, (deleteFile_root hab).2.trans ha.2⟩)
                _ _ _ e2 i1
            exact i2

/-- C15: without an affirmative answer `deleteAll` returns the state as it was; with the
answer 'y' or 'Y', on a tree of live objects each owned once, and wherever the cursor is, it
succeeds, and afterwards the root has no subdirectory and no file. -/
theorem deleteAll_clears_root (h : Nat) (confirm : Char) (s : FileSystem)
    (hown : s.ownedTree (h + 1) s.root) :
    ((confirm ≠ 'y' ∧ confirm ≠ 'Y') → deleteAll h confirm s = .ok (.cancelled, s)) ∧
    ((confirm = 'y' ∨ confirm = 'Y') →
      ∃ s' r, deleteAll h confirm s = .ok (.done, s') ∧ s'.root = s.root ∧
        s'.curr = s.curr ∧ s'.dir s'.root = some r ∧ r.subDirs = [] ∧ r.files = []) := by
  constructor
  · intro hn
    unfold deleteAll
    rw [if_pos hn]
  · intro hy
    have hny : ¬ (confirm ≠ 'y' ∧ confirm ≠ 'Y') := by
      rcases hy with e | e <;> simp [e]
    obtain ⟨s0, h0, _⟩ := deleteDir_spec (h + 1) s.root s hown
    simp only [deleteDir] at h0
    split at h0
    · cases h0
    · next d hd =>
      split at h0
      · cases h0
      · next s1 e1 =>
        split at h0
        · cases h0
        · next s2 e2 =>
          split at h0
          · cases h0
          · next d2 hd2 =>
            have i1 : s1.root = s.root ∧ s1.curr = s.curr :=
              @forEach_inv _ (fun σ => σ.root = s.root ∧ σ.curr = s.curr) _
                (fun x a b hab ha => deleteDir_root h x.2 a b _ _ hab ha) _ _ _ e1 ⟨rfl, rfl⟩
            have i2 : s2.root = s.root ∧ s2.curr = s.curr :=
              @forEach_inv _ (fun σ => σ.root = s.root ∧ σ.curr = s.curr) _
                (fun x a b hab ha =>
                  ⟨(deleteFile_root hab).1.trans ha.1, (deleteFile_root hab).2.trans ha.2⟩)
                _ _ _ e2 i1
            have hd2' : s2.dir s2.root = some d2 := by rw [i2.1]; exact hd2
            obtain ⟨s3, h3⟩ := modDir_of_live
              (fun x => { x with subDirs := [], files := [] }) hd2'
            obtain ⟨x0, b1, b2, b3, b4, b5, b6, b7⟩ := modDir_ok h3
            rw [hd2'] at b1; cases b1
            refine ⟨s3, { d2 with subDirs := [], files := [] }, ?_, by rw [b4, i2.1],
              by rw [b5, i2.2], ?_, rfl, rfl⟩
            · unfold deleteAll
              rw [if_neg hny]
              simp only [derefDir_of hd, e1, e2, h3]
            · rw [b4, b2 s2.root, if_pos rfl]

/-- C15, witness: the example tree is cleared. -/
theorem deleteAll_clears_root_witness :
    copyTree.ownedTree 3 copyTree.root ∧
    (∃ s' r, deleteAll 2 'y' copyTree = .ok (.done, s') ∧ s'.dir s'.root = some r ∧
      r.subDirs = [] ∧ r.files = []) := by
  obtain ⟨s', r, a, _, _, b, c, d⟩ :=
    (deleteAll_clears_root 2 'y' copyTree (by decide)).2 (Or.inl rfl)
  exact ⟨by decide, s', r, a, b, c, d⟩

end FSim

namespace FSim

open FileSystem

/-! ## Search -/

/-- The test of `searchFiles` is the test for a contiguous piece. -/
theorem hasSubstr_iff (pat : Str) : ∀ (n : Str), hasSubstr pat n = true ↔ pat <:+: n
  | [] => by
    rw [hasSubstr]
    simp only [decide_eq_true_eq]
    constructor
    · intro h; subst h; exact List.infix_refl _
    · intro h; exact List.eq_nil_of_infix_nil h
  | c :: cs => by
    rw [hasSubstr, Bool.or_eq_true, List.isPrefixOf_iff_prefix, hasSubstr_iff pat cs,
      List.infix_cons_iff]

/-- The keys of a map in key order ascend. -/
theorem PMap.Sorted.keys_pairwise : ∀ {m : PMap}, m.Sorted →
    (PMap.keys m).Pairwise (fun a b => strLt a b = true)
  | [], _ => List.Pairwise.nil
  | (k, v) :: r, h => by
    obtain ⟨h1, h2⟩ := PMap.sorted_cons_iff.1 h
    simp only [PMap.keys, List.map_cons, List.pairwise_cons, List.mem_map]
    refine ⟨?_, PMap.Sorted.keys_pairwise h2⟩
    rintro x ⟨y, hy, rfl⟩
    exact h1 y hy

/-- C16: with the cursor on a live directory whose file map is in key order, `searchFiles`
reports the names of the files of that directory that contain the pattern as a contiguous
piece (bytes compared as they are), and only these: names of subdirectories and of files
elsewhere are not reported; the names come in ascending byte order, each once.  The search
returns the names only: the tree is not an output. -/
theorem searchFiles_reports (pattern : Str) (s : FileSystem) (c : Ptr) (d : Directory)
    (hc : s.curr = some c) (hd : s.dir c = some d) (hs : d.files.Sorted) :
    ∃ r, searchFiles pattern s = .ok r ∧
      (∀ n, n ∈ r ↔ n ∈ d.files.keys ∧ pattern <:+: n) ∧
      r.Pairwise (fun a b => strLt a b = true) ∧ r.Nodup ∧
      r.Sublist d.files.keys := by
  refine ⟨d.files.keys.filter (hasSubstr pattern), ?_, ?_, ?_, ?_, ?_⟩
  · simp only [searchFiles, derefCurr_of hc hd]
  · intro n
    rw [List.mem_filter, hasSubstr_iff]
  · exact (PMap.Sorted.keys_pairwise hs).filter _
  · exact hs.nodup.filter _
  · exact List.filter_sublist _

/-- C16, witness: the search for ".t" in "docs" reports "a.txt". -/
theorem searchFiles_reports_witness :
    docsTree.curr = some 1 ∧
    (∃ r, searchFiles ".t".toList docsTree = .ok r ∧ "a.txt".toList ∈ r) := by
  obtain ⟨r, a, b, _⟩ := searchFiles_reports ".t".toList docsTree 1
    ⟨"docs".toList, some 0, [], [("a.txt".toList, 0)]⟩ rfl rfl (by decide)
  refine ⟨rfl, r, a, (b _).2 ⟨by decide, ?_⟩⟩
  exact ⟨"a".toList, "xt".toList, by decide⟩

end FSim

namespace FSim

open FileSystem

/-! ## Loading a single file record -/

theorem chain_length (n : Str) (par : Option Ptr) (L : Nat) (fs : PMap) :
    ∀ q : List Str, (chain n par L fs q).length = q.length + 1 := by
  intro q
  induction q generalizing n par L with
  | nil => rfl
  | cons k ks ih => simp [chain, ih]

/-- The loop of `ensureDir` below a directory that is the last cell of the heap and has no
children: the chain of the path is built. -/
theorem ensureLoop_fresh : ∀ (q : List Str) (pre : List (Option Directory)) (n : Str)
    (par : Option Ptr) (s : FileSystem), s.dirs = pre ++ [some ⟨n, par, [], []⟩] →
    (∀ x ∈ q, x ≠ []) →
    ensureLoop q pre.length s
      = .ok (pre.length + q.length, { s with dirs := pre ++ chain n par pre.length [] q })
  | [], pre, n, par, s, h, _ => by
    obtain ⟨dirs, fls, root, curr, ticks, avail⟩ := s
    simp only at h
    subst h
    rfl
  | k :: ks, pre, n, par, s, h, hq => by
    obtain ⟨dirs, fls, root, curr, ticks, avail⟩ := s
    simp only at h
    subst h
    have hk : k ≠ [] := hq k (List.mem_cons_self _ _)
    have hd : (FileSystem.mk (pre ++ [some ⟨n, par, [], []⟩]) fls root curr ticks avail).dir pre.length
        = some ⟨n, par, [], []⟩ := by
      show (pre ++ [some (Directory.mk n par [] [])]).getD pre.length none = _
      rw [getD_append_one, if_pos rfl]
    have hset : ((pre ++ [some (Directory.mk n par [] [])])
          ++ [some (Directory.mk k (some pre.length) [] [])]).set pre.length
          (some (Directory.mk n par [(k, pre.length + 1)] []))
        = (pre ++ [some (Directory.mk n par [(k, pre.length + 1)] [])])
          ++ [some (Directory.mk k (some pre.length) [] [])] := by
      rw [List.append_assoc, List.set_append_right _ _ (Nat.le_refl _), Nat.sub_self,
        List.append_assoc]
      rfl
    have ih := ensureLoop_fresh ks (pre ++ [some ⟨n, par, [(k, pre.length + 1)], []⟩]) k
      (some pre.length)
      (FileSystem.mk ((pre ++ [some ⟨n, par, [(k, pre.length + 1)], []⟩])
        ++ [some ⟨k, some pre.length, [], []⟩]) fls root curr ticks avail) rfl
      (fun x hx => hq x (List.mem_cons_of_mem _ hx))
    rw [ensureLoop]
    simp only [hk, if_false, hd]
    have hfind : PMap.find ([] : PMap) k = none := rfl
    simp only [hfind, newDir, modDir]
    have hd1 : (FileSystem.mk ((pre ++ [some ⟨n, par, [], []⟩])
        ++ [some ⟨k, some pre.length, [], []⟩]) fls root curr ticks avail).dir pre.length
        = some ⟨n, par, [], []⟩ := by
      show ((pre ++ [some (Directory.mk n par [] [])])
        ++ [some (Directory.mk k (some pre.length) [] [])]).getD pre.length none = _
      rw [getD_append_one, if_neg (by simp), getD_append_one, if_pos rfl]
    simp only [hd1]
    have hlen : (pre ++ [some (Directory.mk n par [] [])]).length = pre.length + 1 := by simp
    have hs : PMap.set ([] : PMap) k (pre.length + 1) = [(k, pre.length + 1)] := rfl
    simp only [hlen, hs, hset]
    rw [show (pre ++ [some (Directory.mk n par [(k, pre.length + 1)] [])]).length
      = pre.length + 1 by simp] at ih
    rw [ih]
    simp only [chain, List.length_cons, List.append_assoc, List.singleton_append]
    have : pre.length + 1 + ks.length = pre.length + (ks.length + 1) := by omega
    rw [this]

/-- The last cell of a chain, and the chain after a write to the files of that cell. -/
theorem chain_last : ∀ (q : List Str) (pre : List (Option Directory)) (n : Str)
    (par : Option Ptr) (fs : PMap),
    ∃ nm pr, (pre ++ chain n par pre.length fs q).getD (pre.length + q.length) none
        = some ⟨nm, pr, [], fs⟩ ∧
      ∀ fs', (pre ++ chain n par pre.length fs q).set (pre.length + q.length)
        (some ⟨nm, pr, [], fs'⟩) = pre ++ chain n par pre.length fs' q
  | [], pre, n, par, fs => by
    refine ⟨n, par, ?_, ?_⟩
    · simp only [chain, List.length_nil, Nat.add_zero]
      rw [getD_append_one, if_pos rfl]
    · intro fs'
      simp only [chain, List.length_nil, Nat.add_zero]
      rw [List.set_append_right _ _ (Nat.le_refl _), Nat.sub_self]
      rfl
  | k :: ks, pre, n, par, fs => by
    obtain ⟨nm, pr, h1, h2⟩ := chain_last ks (pre ++ [some ⟨n, par, [(k, pre.length + 1)], []⟩])
      k (some pre.length) fs
    have hlen : (pre ++ [some (Directory.mk n par [(k, pre.length + 1)] [])]).length
        = pre.length + 1 := by simp
    rw [hlen] at h1 h2
    have e : pre.length + (k :: ks).length = pre.length + 1 + ks.length := by
      simp only [List.length_cons]; omega
    refine ⟨nm, pr, ?_, ?_⟩
    · rw [e]
      simpa only [chain, List.append_assoc, List.singleton_append] using h1
    · intro fs'
      rw [e]
      simpa only [chain, List.append_assoc, List.singleton_append] using h2 fs'

/-- A single file record applied to the fresh tree. -/
theorem applyRec_single (τ : Nat → Str) (q : List Str) (f : File) (hq : ∀ x ∈ q, x ≠ []) :
    applyRec τ (.file q f) init = .ok (singleFileTree q f) := by
  have h1 := ensureLoop_fresh q [] ['r', 'o', 'o', 't'] none init rfl hq
  simp only [List.length_nil, Nat.zero_add, List.nil_append] at h1
  obtain ⟨nm, pr, c1, c2⟩ := chain_last q [] ['r', 'o', 'o', 't'] none []
  simp only [List.length_nil, Nat.zero_add, List.nil_append] at c1 c2
  have e0 : init.root = 0 := rfl
  simp only [applyRec, e0, h1, derefDir, dir, c1]
  have hcount : PMap.count ([] : PMap) f.name = false := rfl
  simp only [hcount, Bool.false_eq_true, if_false, newFile, getTimestamp, modFile, file, modDir,
    dir]
  have hfl : (init.fls ++ [some (File.mk f.name [] (τ init.ticks) (τ init.ticks))]).getD
      init.fls.length none = some (File.mk f.name [] (τ init.ticks) (τ init.ticks)) := rfl
  simp only [hfl, c1]
  have hs : PMap.set ([] : PMap) f.name init.fls.length = [(f.name, 0)] := rfl
  simp only [hs, c2]
  cases f
  rfl

theorem chain_head (n : Str) (par : Option Ptr) (L : Nat) (fs : PMap) (q : List Str) :
    ∃ sd fl tl, chain n par L fs q = some ⟨n, par, sd, fl⟩ :: tl := by
  cases q with
  | nil => exact ⟨_, _, _, rfl⟩
  | cons k ks => exact ⟨_, _, _, rfl⟩

theorem getD_append_head {α : Type} (pre : List (Option α)) (x : Option α)
    (tl : List (Option α)) : (pre ++ x :: tl).getD pre.length none = x := by
  rw [List.getD_append_right _ _ _ _ (Nat.le_refl _), Nat.sub_self]
  rfl

/-- Along a chain the names of the path lead from each directory to the next. -/
theorem chain_walk : ∀ (q : List Str) (pre : List (Option Directory)) (n : Str)
    (par : Option Ptr) (fs : PMap) (s : FileSystem),
    s.dirs = pre ++ chain n par pre.length fs q →
    ∀ i, i ≤ q.length → s.walk pre.length (q.take i) = some (pre.length + i)
  | [], pre, n, par, fs, s, _, i, hi => by
    have : i = 0 := Nat.le_zero.1 hi
    subst this
    rfl
  | k :: ks, pre, n, par, fs, s, h, i, hi => by
    cases i with
    | zero => rfl
    | succ j =>
      have hd : s.dir pre.length = some ⟨n, par, [(k, pre.length + 1)], []⟩ := by
        show s.dirs.getD pre.length none = _
        rw [h]
        exact getD_append_head _ _ _
      have ih := chain_walk ks (pre ++ [some ⟨n, par, [(k, pre.length + 1)], []⟩]) k
        (some pre.length) fs s
        (by rw [h]; simp [chain]) j (Nat.le_of_succ_le_succ hi)
      have hlen : (pre ++ [some (Directory.mk n par [(k, pre.length + 1)] [])]).length
          = pre.length + 1 := by simp
      rw [hlen] at ih
      rw [List.take_succ_cons]
      refine walk_cons_some.2 ⟨_, pre.length + 1, hd, ?_, ?_⟩
      · simp [PMap.find_cons]
      · rw [ih]
        congr 1
        omega

/-- Along a chain every directory carries its name of the path and has the directory before
it as parent. -/
theorem chain_parent : ∀ (q : List Str) (pre : List (Option Directory)) (n : Str)
    (par : Option Ptr) (fs : PMap) (s : FileSystem),
    s.dirs = pre ++ chain n par pre.length fs q →
    ∀ i (hi : i < q.length), ∃ d, s.dir (pre.length + i + 1) = some d ∧
      d.name = q.get ⟨i, hi⟩ ∧ d.parent = some (pre.length + i)
  | [], _, _, _, _, _, _, i, hi => absurd hi (Nat.not_lt_zero i)
  | k :: ks, pre, n, par, fs, s, h, i, hi => by
    have hlen : (pre ++ [some (Directory.mk n par [(k, pre.length + 1)] [])]).length
        = pre.length + 1 := by simp
    have h' : s.dirs = (pre ++ [some ⟨n, par, [(k, pre.length + 1)], []⟩])
        ++ chain k (some pre.length)
          (pre ++ [some (Directory.mk n par [(k, pre.length + 1)] [])]).length fs ks := by
      rw [h, hlen]; simp [chain]
    cases i with
    | zero =>
      obtain ⟨sd, fl, tl, e⟩ := chain_head k (some pre.length) (pre.length + 1) fs ks
      refine ⟨⟨k, some pre.length, sd, fl⟩, ?_, rfl, rfl⟩
      have h2 : s.dirs = (pre ++ [some ⟨n, par, [(k, pre.length + 1)], []⟩])
          ++ some ⟨k, some pre.length, sd, fl⟩ :: tl := by
        rw [h, ← e]; simp [chain]
      have := getD_append_head (pre ++ [some (Directory.mk n par [(k, pre.length + 1)] [])])
        (some (Directory.mk k (some pre.length) sd fl)) tl
      rw [hlen] at this
      show s.dirs.getD (pre.length + 0 + 1) none = _
      rw [h2]
      exact this
    | succ j =>
      obtain ⟨d, a1, a2, a3⟩ := chain_parent ks _ k (some pre.length) fs s h' j
        (Nat.lt_of_succ_lt_succ hi)
      have e1 : pre.length + (j + 1) + 1
          = (pre ++ [some (Directory.mk n par [(k, pre.length + 1)] [])]).length + j + 1 := by
        rw [hlen]; omega
      have e2 : pre.length + (j + 1)
          = (pre ++ [some (Directory.mk n par [(k, pre.length + 1)] [])]).length + j := by
        rw [hlen]; omega
      refine ⟨d, ?_, a2, ?_⟩
      · rw [e1]; exact a1
      · rw [e2]; exact a3

/-- C17: the store that consists of one well-formed file record with the path
`/d1/.../dk/f` is loaded into the fresh tree as the tree that holds the directories `d1`,
`d1/d2`, ..., each with the one before as parent, the file in the last of them (in the root
when `k = 0`) with the `createdAt`, the `modifiedAt` and the content bytes of the record, and
nothing else: the heap has `k + 1` directories and one file. -/
theorem load_single_file_record (τ : Nat → Str) (q : List Str) (f : File)
    (hr : Rec.ok (.file q f)) :
    ∃ s', loadFromDisk τ (some (Rec.enc (.file q f))) init = .ok s' ∧
      s' = singleFileTree q f ∧ s'.root = init.root ∧
      s'.dirs.length = q.length + 1 ∧ s'.fls.length = 1 ∧
      (∀ i, i ≤ q.length → s'.walk s'.root (q.take i) = some i) ∧
      (∀ i (hi : i < q.length), ∃ d, s'.dir (i + 1) = some d ∧ d.name = q.get ⟨i, hi⟩ ∧
        d.parent = some i) ∧
      (∃ d, s'.dirAt q = some d ∧ d.subDirs = [] ∧ d.files.keys = [f.name]) ∧
      s'.fileAt q f.name = some f := by
  have hq : ∀ x ∈ q, x ≠ [] := okDirName_ne_nil hr.1
  have hlen : ∃ k, (Rec.enc (.file q f)).length = k + 1 := by
    refine ⟨(Rec.enc (.file q f)).length - 1, ?_⟩
    have : (Rec.enc (.file q f)).length ≠ 0 := fun e =>
      Rec.enc_ne_nil _ (List.length_eq_zero.1 e)
    omega
  obtain ⟨k, hk⟩ := hlen
  have h2 := loadLoop_file τ (k + 1) q f [] init hr hr.2.2.2.2.2
  rw [List.append_nil, applyRec_single τ q f hq] at h2
  have hdirs : (singleFileTree q f).dirs
      = [] ++ chain ['r', 'o', 'o', 't'] none ([] : List (Option Directory)).length
        [(f.name, 0)] q := rfl
  have hwalk := chain_walk q [] _ none _ (singleFileTree q f) hdirs
  have hpar := chain_parent q [] _ none _ (singleFileTree q f) hdirs
  simp only [List.length_nil, Nat.zero_add] at hwalk hpar
  obtain ⟨nm, pr, c1, _⟩ := chain_last q [] ['r', 'o', 'o', 't'] none [(f.name, 0)]
  simp only [List.length_nil, Nat.zero_add, List.nil_append] at c1
  have hlast : (singleFileTree q f).dir q.length = some ⟨nm, pr, [], [(f.name, 0)]⟩ := c1
  have hdirAt : (singleFileTree q f).dirAt q = some ⟨nm, pr, [], [(f.name, 0)]⟩ := by
    refine dirAt_some.2 ⟨q.length, ?_, hlast⟩
    have := hwalk q.length (Nat.le_refl _)
    rw [List.take_length] at this
    exact this
  refine ⟨singleFileTree q f, ?_, rfl, rfl, chain_length _ _ _ _ q, rfl, hwalk, hpar,
    ⟨_, hdirAt, rfl, rfl⟩, ?_⟩
  · unfold loadFromDisk
    simp only [hk, h2, loadLoop_empty]
    rfl
  · refine fileAt_some.2 ⟨_, 0, hdirAt, ?_, rfl⟩
    simp [PMap.find_cons]

/-- C17, witness: the record of the file "f" with the path "/a/b/f" and the content "hi". -/
theorem load_single_file_record_witness :
    Rec.ok (.file ["a".toList, "b".toList]
      ⟨"f".toList, "hi".toList, "t1".toList, "t2".toList⟩) ∧
    loadFromDisk noon (some "F|/a/b/f|t1|t2|2\nhi\n".toList) init = .ok
      { dirs := [some ⟨"root".toList, none, [("a".toList, 1)], []⟩,
                 some ⟨"a".toList, some 0, [("b".toList, 2)], []⟩,
                 some ⟨"b".toList, some 1, [], [("f".toList, 0)]⟩],
        fls := [some ⟨"f".toList, "hi".toList, "t1".toList, "t2".toList⟩],
        root := 0, curr := some 0, ticks := 1 } := by
  have hok : Rec.ok (.file ["a".toList, "b".toList]
      ⟨"f".toList, "hi".toList, "t1".toList, "t2".toList⟩) := by
    refine ⟨?_, by decide, by decide, by decide, by decide, by decide⟩
    intro x hx
    simp only [List.mem_cons, List.mem_singleton, List.not_mem_nil, or_false] at hx
    rcases hx with e | e <;> subst e <;> decide
  obtain ⟨s', a, b, _⟩ := load_single_file_record noon ["a".toList, "b".toList]
    ⟨"f".toList, "hi".toList, "t1".toList, "t2".toList⟩ hok
  refine ⟨hok, ?_⟩
  have e : Rec.enc (.file ["a".toList, "b".toList]
      ⟨"f".toList, "hi".toList, "t1".toList, "t2".toList⟩)
      = "F|/a/b/f|t1|t2|2\nhi\n".toList := by decide
  rw [e] at a
  rw [a, b]
  rfl

end FSim

namespace FSim

open FileSystem

/-! ## The load without a saved tree: what every record leaves behind -/

/-- The loop body for a file record is the reading of the fields, then `ensureDir`, then the
insertion. -/
theorem loadFileLine_eq (τ : Nat → Str) (line rest : Str) (s : FileSystem) :
    loadFileLine τ line rest s =
      match parseFileLine s.avail line rest with
      | .error e => .error e
      | .ok x =>
        match ensureDir s x.dirPart with
        | .error e => .error e
        | .ok (parent, s1) =>
          match putFile τ parent x.base x.createdAt x.modifiedAt x.content s1 with
          | .error e => .error e
          | .ok s2 => .ok (x.rest, s2) := by
  unfold loadFileLine parseFileLine
  dsimp only
  cases substr line 2 (szSub (sfind line '|' 2) 2) with
  | error e => rfl
  | ok filePath =>
    dsimp only
    cases substr line (szAdd (sfind line '|' 2) 1)
        (szSub (szSub (sfind line '|' (szAdd (sfind line '|' 2) 1)) (sfind line '|' 2)) 1) with
    | error e => rfl
    | ok createdAt =>
      dsimp only
      cases substr line (szAdd (sfind line '|' (szAdd (sfind line '|' 2) 1)) 1)
          (szSub (szSub (sfind line '|' (szAdd (sfind line '|' (szAdd (sfind line '|' 2) 1)) 1))
            (sfind line '|' (szAdd (sfind line '|' 2) 1))) 1) with
      | error e => rfl
      | ok modifiedAt =>
        dsimp only
        cases substr line
            (szAdd (sfind line '|' (szAdd (sfind line '|' (szAdd (sfind line '|' 2) 1)) 1)) 1)
            npos with
        | error e => rfl
        | ok lenStr =>
          dsimp only
          cases stoul lenStr with
          | error e => rfl
          | ok len =>
            dsimp only
            cases readN s.avail rest len with
            | error e => rfl
            | ok cr =>
            dsimp only
            cases (if sfindLast filePath '/' = npos then (Except.ok [] : Except Fault Str)
                else substr filePath 0 (sfindLast filePath '/')) with
            | error e => rfl
            | ok dirPart =>
              dsimp only
              cases substr filePath (szAdd (sfindLast filePath '/') 1) npos with
              | error e => rfl
              | ok base =>
                dsimp only
                cases ensureDir s dirPart with
                | error e => rfl
                | ok ps =>
                  obtain ⟨parent, s1⟩ := ps
                  dsimp only
                  unfold putFile
                  cases s1.derefDir parent with
                  | error e => rfl
                  | ok pd =>
                    dsimp only
                    by_cases hc : pd.files.count base = true
                    · simp only [hc, if_true]
                    · simp only [hc, Bool.false_eq_true, if_false]
                      cases FileSystem.modFile _ _ _ with
                      | error e => rfl
                      | ok s3 => rfl

/-- A record of the abstract form is `ensureDir` along the names, then the insertion. -/
theorem applyRec_file_eq (τ : Nat → Str) (q : List Str) (f : File) (s : FileSystem) :
    applyRec τ (.file q f) s =
      match ensureLoop q s.root s with
      | .error e => .error e
      | .ok (parent, s1) => putFile τ parent f.name f.createdAt f.modifiedAt f.content s1 := by
  simp only [applyRec]
  cases ensureLoop q s.root s with
  | error e => rfl
  | ok ps =>
    obtain ⟨parent, s1⟩ := ps
    simp only [putFile]

/-- An insertion where the name is taken changes nothing. -/
theorem putFile_present {s : FileSystem} {parent : Ptr} {d : Directory} (τ : Nat → Str)
    (base c m ct : Str) (hd : s.dir parent = some d) (hc : d.files.count base = true) :
    putFile τ parent base c m ct s = .ok s := by
  simp only [putFile, derefDir_of hd, hc, if_true]

/-- The loop of `ensureDir` along a path that exists changes nothing. -/
theorem ensureLoop_present (s : FileSystem) : ∀ (ts : List Str) (cur p : Ptr),
    s.walk cur (ts.filter (fun t => !decide (t = []))) = some p →
    ensureLoop ts cur s = .ok (p, s)
  | [], cur, p, h => by
    rw [List.filter_nil, walk_nil] at h
    cases h; rfl
  | t :: ts, cur, p, h => by
    by_cases ht : t = []
    · subst ht
      rw [List.filter_cons_of_neg (by simp)] at h
      rw [ensureLoop]
      simp only [if_true]
      exact ensureLoop_present s ts cur p h
    · rw [List.filter_cons_of_pos (by simp [ht])] at h
      obtain ⟨d, c, h1, h2, h3⟩ := walk_cons_some.1 h
      rw [ensureLoop]
      simp only [ht, if_false, h1, h2]
      exact ensureLoop_present s ts c p h3

theorem putFile_avail {τ : Nat → Str} {s s' : FileSystem} {parent : Ptr}
    {base c m ct : Str} (h : putFile τ parent base c m ct s = .ok s') :
    s'.avail = s.avail := by
  unfold putFile at h
  split at h
  · cases h
  · split at h
    · cases h; rfl
    · dsimp only at h
      split at h
      · cases h
      · next s3 e3 =>
        rw [modDir_avail h, modFile_avail e3]
        rfl

end FSim

namespace FSim

open FileSystem

theorem find_nil_none (k : Str) : PMap.find ([] : PMap) k = none := rfl

/-- One step of `ensureDir` that makes a directory: the tree grows and stays closed. -/
theorem mkdir_step {s : FileSystem} {cur : Ptr} {d : Directory} (t : Str) (hs : Closed s)
    (hd : s.dir cur = some d) (hf : d.subDirs.find t = none) :
    ∃ s2, (s.newDir t (some cur)).2.modDir cur
        (fun x => { x with subDirs := x.subDirs.set t (s.newDir t (some cur)).1 }) = .ok s2 ∧
      Grows s s2 ∧ Closed s2 ∧
      s2.dir s.dirs.length = some ⟨t, some cur, [], []⟩ ∧
      (∃ d2, s2.dir cur = some d2 ∧ d2.subDirs.find t = some s.dirs.length) ∧
      s2.fls = s.fls ∧ s2.ticks = s.ticks ∧ s2.curr = s.curr := by
  have hne : cur ≠ s.dirs.length := Nat.ne_of_lt (dir_lt hd)
  have hd1 : (s.newDir t (some cur)).2.dir cur = some d := by
    rw [dir_newDir, if_neg hne]; exact hd
  obtain ⟨s2, h2⟩ := modDir_of_live
    (fun x => { x with subDirs := x.subDirs.set t (s.newDir t (some cur)).1 }) hd1
  obtain ⟨x0, b1, b2, b3, b4, b5, b6, b7⟩ := modDir_ok h2
  rw [hd1] at b1; cases b1
  have hcell : ∀ q, s2.dir q = if q = cur then
      some { d with subDirs := d.subDirs.set t s.dirs.length }
      else if q = s.dirs.length then some ⟨t, some cur, [], []⟩ else s.dir q := by
    intro q
    rw [b2 q, dir_newDir]
    rfl
  have hg : Grows s s2 := by
    refine ⟨by rw [b4]; rfl, ?_, ?_⟩
    · intro p dp hp
      rw [hcell p]
      by_cases e : p = cur
      · rw [if_pos e]
        rw [e, hd] at hp; cases hp
        refine ⟨_, rfl, ?_, fun _ _ h => h⟩
        intro k c hk
        have hkt : t ≠ k := fun e' => by rw [e', hk] at hf; cases hf
        simp only [PMap.find_set, if_neg hkt]
        exact hk
      · rw [if_neg e, if_neg (Nat.ne_of_lt (dir_lt hp))]
        exact ⟨dp, hp, fun _ _ h => h, fun _ _ h => h⟩
    · intro fp f hf'
      rw [file_eq_of_fls b3]
      exact hf'
  have hnew : s2.dir s.dirs.length = some ⟨t, some cur, [], []⟩ := by
    rw [hcell, if_neg (fun e => hne e.symm), if_pos rfl]
  have hlive : ∀ c, (s.dir c).isSome → (s2.dir c).isSome := by
    intro c hc
    obtain ⟨dc, hdc⟩ := Option.isSome_iff_exists.1 hc
    obtain ⟨d', e1, _⟩ := hg.dirs c dc hdc
    rw [e1]; rfl
  refine ⟨s2, h2, hg, ⟨?_, ?_⟩, hnew, ⟨_, by rw [hcell, if_pos rfl], ?_⟩, by rw [b3]; rfl,
    by rw [b6]; rfl, by rw [b5]; rfl⟩
  · rw [hg.root]; exact hlive _ hs.1
  · intro p dp k c hp hk
    rw [hcell p] at hp
    by_cases e : p = cur
    · rw [if_pos e] at hp
      cases hp
      simp only [PMap.find_set] at hk
      by_cases e2 : t = k
      · rw [if_pos e2] at hk
        cases hk
        rw [hnew]; rfl
      · rw [if_neg e2] at hk
        exact hlive c (hs.2 cur d k c hd hk)
    · rw [if_neg e] at hp
      by_cases e3 : p = s.dirs.length
      · rw [if_pos e3] at hp
        cases hp
        rw [find_nil_none] at hk; cases hk
      · rw [if_neg e3] at hp
        exact hlive c (hs.2 p dp k c hp hk)
  · simp only [PMap.find_set, if_true]

/-- The loop of `ensureDir` in a closed tree, from a live directory: it returns, the tree
grows and stays closed, the path leads to the directory returned, and that directory has no
files when the loop made it. -/
theorem ensureLoop_closed : ∀ (ts : List Str) (cur : Ptr) (s : FileSystem), Closed s →
    (s.dir cur).isSome →
    ∃ p s', ensureLoop ts cur s = .ok (p, s') ∧ Grows s s' ∧ Closed s' ∧
      s'.walk cur (ts.filter (fun t => !decide (t = []))) = some p ∧ (s'.dir p).isSome ∧
      s'.fls = s.fls ∧ s'.ticks = s.ticks ∧ s'.curr = s.curr ∧
      ((s.walk cur (ts.filter (fun t => !decide (t = []))) = none ∨
          ∃ d, s.dir cur = some d ∧ d.subDirs = [] ∧ d.files = []) →
        ∃ d', s'.dir p = some d' ∧ d'.files = [])
  | [], cur, s, hs, hc => by
    refine ⟨cur, s, rfl, Grows.refl s, hs, rfl, hc, rfl, rfl, rfl, ?_⟩
    rintro (h | ⟨d, hd, _, hf⟩)
    · rw [List.filter_nil, walk_nil] at h; cases h
    · exact ⟨d, hd, hf⟩
  | t :: ts, cur, s, hs, hc => by
    by_cases ht : t = []
    · subst ht
      obtain ⟨p, s', a1, a2, a3, a4, a5, a6, a7, a8, a9⟩ := ensureLoop_closed ts cur s hs hc
      refine ⟨p, s', ?_, a2, a3, ?_, a5, a6, a7, a8, ?_⟩
      · rw [ensureLoop]; simp only [if_true]; exact a1
      · rw [List.filter_cons_of_neg (by simp)]; exact a4
      · rw [List.filter_cons_of_neg (by simp)]; exact a9
    · obtain ⟨d, hd⟩ := Option.isSome_iff_exists.1 hc
      rw [List.filter_cons_of_pos (by simp [ht])]
      cases hf : d.subDirs.find t with
      | some c =>
        obtain ⟨p, s', a1, a2, a3, a4, a5, a6, a7, a8, a9⟩ :=
          ensureLoop_closed ts c s hs (hs.2 cur d t c hd hf)
        obtain ⟨d', e1, f1, _⟩ := a2.dirs cur d hd
        refine ⟨p, s', ?_, a2, a3, walk_cons_some.2 ⟨d', c, e1, f1 t c hf, a4⟩, a5, a6, a7, a8,
          ?_⟩
        · rw [ensureLoop]; simp only [ht, if_false, hd, hf]; exact a1
        · rintro (h | ⟨d0, hd0, hsub, _⟩)
          · refine a9 (Or.inl ?_)
            have : s.walk cur (t :: ts.filter (fun t => !decide (t = [])))
                = s.walk c (ts.filter (fun t => !decide (t = []))) := by
              simp only [walk_cons, hd, hf]
            rw [← this]; exact h
          · rw [hd] at hd0; cases hd0
            rw [hsub, find_nil_none] at hf; cases hf
      | none =>
        obtain ⟨s2, h2, g2, c2, n2, ⟨d2, hd2, hfind2⟩, e1, e2, e3⟩ := mkdir_step t hs hd hf
        obtain ⟨p, s', a1, a2, a3, a4, a5, a6, a7, a8, a9⟩ :=
          ensureLoop_closed ts s.dirs.length s2 c2 (by rw [n2]; rfl)
        obtain ⟨d', x1, x2, _⟩ := a2.dirs cur d2 hd2
        refine ⟨p, s', ?_, g2.trans a2, a3,
          walk_cons_some.2 ⟨d', s.dirs.length, x1, x2 t _ hfind2, a4⟩, a5, a6.trans e1,
          a7.trans e2, a8.trans e3, ?_⟩
        · rw [ensureLoop]
          simp only [ht, if_false, hd, hf]
          have h2' : (s.newDir t (some cur)).2.modDir cur
              (fun x => { x with subDirs := x.subDirs.set t (s.newDir t (some cur)).1 })
              = .ok s2 := h2
          simp only [h2']
          exact a1
        · intro _
          exact a9 (Or.inr ⟨_, n2, rfl, rfl⟩)

/-- The insertion of a file record in a closed tree, into a live directory: it returns, the
tree grows and stays closed, the name is taken afterwards, and when it was free the new file
carries the fields of the record. -/
theorem putFile_closed (τ : Nat → Str) {s : FileSystem} {parent : Ptr} {pd : Directory}
    (base c m ct : Str) (hs : Closed s) (hd : s.dir parent = some pd) :
    ∃ s', putFile τ parent base c m ct s = .ok s' ∧ Grows s s' ∧ Closed s' ∧
      s'.curr = s.curr ∧
      (∃ d', s'.dir parent = some d' ∧ d'.files.count base = true) ∧
      (pd.files.count base = false →
        ∃ d' fp, s'.dir parent = some d' ∧ d'.files.find base = some fp ∧
          s'.file fp = some ⟨base, ct, c, m⟩) := by
  by_cases hc : pd.files.count base = true
  · refine ⟨s, putFile_present τ base c m ct hd hc, Grows.refl s, hs, rfl, ⟨pd, hd, hc⟩, ?_⟩
    intro h; rw [h] at hc; cases hc
  · have hc' : pd.files.count base = false := by
      cases h : pd.files.count base with
      | true => exact absurd h hc
      | false => rfl
    have hfind : pd.files.find base = none := PMap.count_eq_false.1 hc'
    have hlive : (s.newFile τ base).2.file s.fls.length
        = some ⟨base, [], τ s.ticks, τ s.ticks⟩ := by
      rw [file_newFile, if_pos rfl]
    obtain ⟨s3, h3⟩ := modFile_of_live
      (fun x => { x with createdAt := c, modifiedAt := m, content := ct }) hlive
    obtain ⟨x0, b1, b2, b3, b4, b5, b6, b7⟩ := modFile_ok h3
    rw [hlive] at b1; cases b1
    have hdir3 : ∀ q, s3.dir q = s.dir q := fun q => by rw [dir_eq_of_dirs b3]; rfl
    obtain ⟨s4, h4⟩ := modDir_of_live
      (fun x => { x with files := x.files.set base s.fls.length })
      ((hdir3 parent).trans hd)
    obtain ⟨y0, e1, e2, e3, e4, e5, e6, e7⟩ := modDir_ok h4
    rw [hdir3, hd] at e1; cases e1
    have hcell : ∀ q, s4.dir q = if q = parent then
        some { pd with files := pd.files.set base s.fls.length } else s.dir q := by
      intro q; rw [e2 q, hdir3]
    have hfile : ∀ q, s4.file q = if q = s.fls.length then some ⟨base, ct, c, m⟩
        else s.file q := by
      intro q
      rw [file_eq_of_fls e3, b2 q]
      by_cases e : q = s.fls.length
      · rw [if_pos e, if_pos e]
      · rw [if_neg e, if_neg e, file_newFile, if_neg e]
    have hg : Grows s s4 := by
      refine ⟨by rw [e4, b4]; rfl, ?_, ?_⟩
      · intro p dp hp
        rw [hcell p]
        by_cases e : p = parent
        · rw [if_pos e]
          rw [e, hd] at hp; cases hp
          refine ⟨_, rfl, fun _ _ h => h, ?_⟩
          intro k fp hk
          have hkt : base ≠ k := fun e' => by rw [e', hk] at hfind; cases hfind
          simp only [PMap.find_set, if_neg hkt]
          exact hk
        · rw [if_neg e]
          exact ⟨dp, hp, fun _ _ h => h, fun _ _ h => h⟩
      · intro fp f hf'
        rw [hfile, if_neg (Nat.ne_of_lt (file_lt hf'))]
        exact hf'
    have hlive4 : ∀ q, (s.dir q).isSome → (s4.dir q).isSome := by
      intro q hq
      obtain ⟨dq, hdq⟩ := Option.isSome_iff_exists.1 hq
      obtain ⟨d', x1, _⟩ := hg.dirs q dq hdq
      rw [x1]; rfl
    refine ⟨s4, ?_, hg, ⟨?_, ?_⟩, by rw [e5, b5]; rfl,
      ⟨_, by rw [hcell, if_pos rfl], ?_⟩, ?_⟩
    · simp only [putFile, derefDir_of hd, hc', Bool.false_eq_true, if_false]
      have h3' : (s.newFile τ base).2.modFile (s.newFile τ base).1
          (fun x => { x with createdAt := c, modifiedAt := m, content := ct }) = .ok s3 := h3
      have h4' : s3.modDir parent
          (fun x => { x with files := x.files.set base (s.newFile τ base).1 }) = .ok s4 := h4
      simp only [h3', h4']
    · rw [hg.root]; exact hlive4 _ hs.1
    · intro p dp k cc hp hk
      rw [hcell p] at hp
      by_cases e : p = parent
      · rw [if_pos e] at hp
        cases hp
        exact hlive4 cc (hs.2 parent pd k cc hd hk)
      · rw [if_neg e] at hp
        exact hlive4 cc (hs.2 p dp k cc hp hk)
    · simp only [PMap.count, PMap.find_set, if_true, Option.isSome_some]
    · intro _
      refine ⟨_, s.fls.length, by rw [hcell, if_pos rfl], ?_, by rw [hfile, if_pos rfl]⟩
      simp only [PMap.find_set, if_true]

end FSim

namespace FSim

open FileSystem

/-! ## Loading a store twice -/

theorem closed_init : Closed init := by
  refine ⟨rfl, ?_⟩
  intro p d k c hp hk
  have hlt : p < 1 := dir_lt hp
  have hp0 : p = 0 := Nat.lt_one_iff.1 hlt
  subst hp0
  have : d = ⟨['r', 'o', 'o', 't'], none, [], []⟩ := by
    have e : init.dir 0 = some ⟨['r', 'o', 'o', 't'], none, [], []⟩ := rfl
    rw [e] at hp
    exact (Option.some.inj hp).symm
  subst this
  rw [find_nil_none] at hk
  cases hk

/-- The read loop in a closed tree: when it returns, the tree has grown and is closed, and
the same loop on the same bytes, run on any tree that holds at least as much (with the same
limit of the allocator), returns that tree as it is. -/
theorem loadLoop_again (τ τ' : Nat → Str) : ∀ (fuel : Nat) (inp : Str) (s s' : FileSystem),
    loadLoop τ fuel inp s = .ok s' → Closed s →
    Grows s s' ∧ Closed s' ∧ s'.avail = s.avail ∧
      ∀ u, Grows s' u → u.avail = s.avail → loadLoop τ' fuel inp u = .ok u
  | 0, _, _, _, h, _ => by simp only [loadLoop] at h; cases h
  | fuel + 1, inp, s, s', h, hs => by
    rw [loadLoop] at h
    cases hg : getline inp with
    | none =>
      rw [hg] at h
      cases h
      refine ⟨Grows.refl s, hs, rfl, ?_⟩
      intro u _ _
      rw [loadLoop, hg]
    | some lr =>
      obtain ⟨line, rest⟩ := lr
      rw [hg] at h
      simp only at h
      by_cases hD : line.take 2 = ['D', '|']
      · rw [if_pos hD] at h
        cases hsub : substr line 2 npos with
        | error e => rw [hsub] at h; cases h
        | ok path =>
          rw [hsub] at h
          simp only at h
          obtain ⟨p, s1, a1, a2, a3, a4, a5, _⟩ :=
            ensureLoop_closed (tokens '/' path) s.root s hs hs.1
          have a1' : ensureDir s path = .ok (p, s1) := a1
          rw [a1'] at h
          simp only at h
          have hav1 : s1.avail = s.avail := ensureLoop_avail _ _ _ _ _ a1
          obtain ⟨i1, i2, i4, i3⟩ := loadLoop_again τ τ' fuel rest s1 s' h a3
          refine ⟨a2.trans i1, i2, i4.trans hav1, ?_⟩
          intro u hu hav
          have hgu : Grows s1 u := i1.trans hu
          have hroot : u.root = s.root := hgu.root.trans a2.root
          have hw := hgu.walk_mono _ _ _ a4
          have e1 : ensureDir u path = .ok (p, u) := by
            unfold ensureDir
            rw [hroot]
            exact ensureLoop_present u _ _ _ hw
          rw [loadLoop, hg]
          simp only [hD, if_true, hsub, e1]
          exact i3 u hu (hav.trans hav1.symm)
      · rw [if_neg hD] at h
        by_cases hF : line.take 2 = ['F', '|']
        · rw [if_pos hF, loadFileLine_eq] at h
          cases hp : parseFileLine s.avail line rest with
          | error e => rw [hp] at h; cases h
          | ok x =>
            rw [hp] at h
            simp only at h
            obtain ⟨p, s1, a1, a2, a3, a4, a5, _⟩ :=
              ensureLoop_closed (tokens '/' x.dirPart) s.root s hs hs.1
            have a1' : ensureDir s x.dirPart = .ok (p, s1) := a1
            rw [a1'] at h
            simp only at h
            obtain ⟨pd, hpd⟩ := Option.isSome_iff_exists.1 a5
            obtain ⟨s2, b1, b2, b3, _, ⟨d2, hd2, hc2⟩, _⟩ :=
              putFile_closed τ x.base x.createdAt x.modifiedAt x.content a3 hpd
            rw [b1] at h
            simp only at h
            have hav2 : s2.avail = s.avail :=
              (putFile_avail b1).trans (ensureLoop_avail _ _ _ _ _ a1)
            obtain ⟨i1, i2, i4, i3⟩ := loadLoop_again τ τ' fuel x.rest s2 s' h b3
            refine ⟨(a2.trans b2).trans i1, i2, i4.trans hav2, ?_⟩
            intro u hu hav
            have hgu1 : Grows s1 u := (b2.trans i1).trans hu
            have hgu2 : Grows s2 u := i1.trans hu
            have hroot : u.root = s.root := hgu1.root.trans a2.root
            have hw := hgu1.walk_mono _ _ _ a4
            have e1 : ensureDir u x.dirPart = .ok (p, u) := by
              unfold ensureDir
              rw [hroot]
              exact ensureLoop_present u _ _ _ hw
            obtain ⟨du, hdu, _, hfu⟩ := hgu2.dirs p d2 hd2
            have hcu : du.files.count x.base = true := by
              obtain ⟨fp, hfp⟩ := Option.isSome_iff_exists.1 hc2
              exact count_true_of (hfu _ _ hfp)
            have e2 := putFile_present τ' x.base x.createdAt x.modifiedAt x.content hdu hcu
            rw [loadLoop, hg]
            simp only [hD, if_false, hF, if_true, loadFileLine_eq, hav, hp, e1, e2]
            exact i3 u hu (hav.trans hav2.symm)
        · rw [if_neg hF] at h
          obtain ⟨i1, i2, i4, i3⟩ := loadLoop_again τ τ' fuel rest s s' h hs
          refine ⟨i1, i2, i4, ?_⟩
          intro u hu hav
          rw [loadLoop, hg]
          simp only [hD, if_false, hF]
          exact i3 u hu hav

/-- C19: when `loadFromDisk` on a store returns from the fresh tree, `loadFromDisk` on the
same store run on the tree it returned (whatever the clock shows then) returns that tree as
it is: no directory and no file is added or changed. -/
theorem load_twice (τ τ' : Nat → Str) (store : Option Str) (s1 : FileSystem)
    (h : loadFromDisk τ store init = .ok s1) : loadFromDisk τ' store s1 = .ok s1 := by
  cases store with
  | none => rfl
  | some inp =>
    unfold loadFromDisk at h ⊢
    simp only at h ⊢
    cases hl : loadLoop τ (inp.length + 1) inp init with
    | error e => rw [hl] at h; cases h
    | ok s0 =>
      rw [hl] at h
      simp only at h
      obtain ⟨i1, i2, i4, i3⟩ := loadLoop_again τ τ' _ _ _ _ hl closed_init
      have h1 : s1 = { s0 with curr := some s0.root } := (Except.ok.inj h).symm
      have hg : Grows s0 s1 := by
        rw [h1]
        exact ⟨rfl, fun p d hd => ⟨d, hd, fun _ _ x => x, fun _ _ x => x⟩, fun _ _ x => x⟩
      rw [i3 s1 hg (by rw [h1]; exact i4)]
      simp only
      rw [h1]

/-- C19, witness: the store with the record of "/a/b/f" is loaded, then loaded again. -/
theorem load_twice_witness :
    loadFromDisk noon (some "F|/a/b/f|t1|t2|2\nhi\n".toList) init = .ok
      { dirs := [some ⟨"root".toList, none, [("a".toList, 1)], []⟩,
                 some ⟨"a".toList, some 0, [("b".toList, 2)], []⟩,
                 some ⟨"b".toList, some 1, [], [("f".toList, 0)]⟩],
        fls := [some ⟨"f".toList, "hi".toList, "t1".toList, "t2".toList⟩],
        root := 0, curr := some 0, ticks := 1 } ∧
    loadFromDisk noon (some "F|/a/b/f|t1|t2|2\nhi\n".toList)
      { dirs := [some ⟨"root".toList, none, [("a".toList, 1)], []⟩,
                 some ⟨"a".toList, some 0, [("b".toList, 2)], []⟩,
                 some ⟨"b".toList, some 1, [], [("f".toList, 0)]⟩],
        fls := [some ⟨"f".toList, "hi".toList, "t1".toList, "t2".toList⟩],
        root := 0, curr := some 0, ticks := 1 } = .ok
      { dirs := [some ⟨"root".toList, none, [("a".toList, 1)], []⟩,
                 some ⟨"a".toList, some 0, [("b".toList, 2)], []⟩,
                 some ⟨"b".toList, some 1, [], [("f".toList, 0)]⟩],
        fls := [some ⟨"f".toList, "hi".toList, "t1".toList, "t2".toList⟩],
        root := 0, curr := some 0, ticks := 1 } :=
  ⟨by decide, load_twice noon noon _ _ (by decide)⟩

end FSim

namespace FSim

open FileSystem

/-! ## Duplicate file records -/

/-- The load of the bytes of a list of well-formed records. -/
theorem loadFromDisk_recs (τ : Nat → Str) (recs : List Rec) (s : FileSystem)
    (hok : ∀ r ∈ recs, r.ok) (hfit : ∀ r ∈ recs, r.fits s.avail) :
    loadFromDisk τ (some (encAll recs)) s =
      match applyRecs τ recs s with
      | .error e => .error e
      | .ok s1 => .ok { s1 with curr := some s1.root } := by
  have hfuel : (encAll recs).length + 1
      = recs.length + (((encAll recs).length - recs.length) + 1) := by
    have := length_le_encAll recs
    omega
  have h1 := loadLoop_recs τ recs (((encAll recs).length - recs.length) + 1) [] s hok hfit
  rw [List.append_nil] at h1
  unfold loadFromDisk
  simp only
  have h2 : loadLoop τ ((encAll recs).length + 1) (encAll recs) s =
      match applyRecs τ recs s with
      | .error e => .error e
      | .ok s1 => loadLoop τ (((encAll recs).length - recs.length) + 1) [] s1 := by
    rw [hfuel]; exact h1
  rw [h2]
  cases applyRecs τ recs s with
  | error e => rfl
  | ok s1 => rfl

theorem applyRecs_append (τ : Nat → Str) : ∀ (a b : List Rec) (s : FileSystem),
    applyRecs τ (a ++ b) s =
      match applyRecs τ a s with
      | .error e => .error e
      | .ok s1 => applyRecs τ b s1
  | [], b, s => rfl
  | r :: a, b, s => by
    rw [List.cons_append, applyRecs, applyRecs]
    cases applyRec τ r s with
    | error e => rfl
    | ok s1 => exact applyRecs_append τ a b s1

theorem filter_nonempty {q : List Str} (hq : ∀ x ∈ q, x ≠ []) :
    q.filter (fun t => !decide (t = [])) = q :=
  List.filter_eq_self.2 (fun x hx => by simp [hq x hx])

/-- A well-formed record applied to a closed tree: it returns, the tree grows and stays
closed; a file record whose place is free leaves its file there. -/
theorem applyRec_closed (τ : Nat → Str) (r : Rec) (s : FileSystem) (hr : r.ok)
    (hs : Closed s) :
    ∃ s', applyRec τ r s = .ok s' ∧ Grows s s' ∧ Closed s' ∧
      (∀ q f, r = .file q f → (∀ d, s.dirAt q = some d → d.files.count f.name = false) →
        s'.fileAt q f.name = some f) := by
  cases r with
  | dir q =>
    obtain ⟨p, s1, a1, a2, a3, _⟩ := ensureLoop_closed q s.root s hs hs.1
    refine ⟨s1, by simp only [applyRec, a1], a2, a3, ?_⟩
    intro q' f e
    cases e
  | file q f =>
    have hq : ∀ x ∈ q, x ≠ [] := okDirName_ne_nil hr.1
    obtain ⟨p, s1, a1, a2, a3, a4, a5, a6, a7, a8, a9⟩ := ensureLoop_closed q s.root s hs hs.1
    rw [filter_nonempty hq] at a4 a9
    obtain ⟨pd, hpd⟩ := Option.isSome_iff_exists.1 a5
    obtain ⟨s2, b1, b2, b3, b4, b5, b6⟩ :=
      putFile_closed τ f.name f.createdAt f.modifiedAt f.content a3 hpd
    refine ⟨s2, by rw [applyRec_file_eq, a1]; exact b1, a2.trans b2, b3, ?_⟩
    intro q' f' e habs
    cases e
    have hfree : pd.files.count f.name = false := by
      cases hw : s.walk s.root q with
      | none =>
        obtain ⟨d', hd', hfl⟩ := a9 (Or.inl hw)
        rw [hpd] at hd'
        cases hd'
        rw [hfl]
        rfl
      | some p0 =>
        have e1 := ensureLoop_present s q s.root p0 (by rw [filter_nonempty hq]; exact hw)
        rw [a1] at e1
        have e2 := Prod.mk.inj (Except.ok.inj e1)
        have hp : p = p0 := e2.1
        have hs1 : s1 = s := e2.2
        rw [hs1, hp] at hpd
        exact habs pd (dirAt_some.2 ⟨p0, hw, hpd⟩)
    obtain ⟨d', fp, c1, c2, c3⟩ := b6 hfree
    refine fileAt_some.2 ⟨d', fp, dirAt_some.2 ⟨p, ?_, c1⟩, c2, ?_⟩
    · rw [(a2.trans b2).root]
      exact b2.walk_mono _ _ _ a4
    · rw [c3, File.eta]

theorem applyRecs_closed (τ : Nat → Str) : ∀ (recs : List Rec) (s : FileSystem),
    (∀ r ∈ recs, r.ok) → Closed s →
    ∃ s', applyRecs τ recs s = .ok s' ∧ Grows s s' ∧ Closed s'
  | [], s, _, hs => ⟨s, rfl, Grows.refl s, hs⟩
  | r :: rs, s, hok, hs => by
    obtain ⟨s1, a1, a2, a3, _⟩ := applyRec_closed τ r s (hok r (List.mem_cons_self _ _)) hs
    obtain ⟨s2, b1, b2, b3⟩ := applyRecs_closed τ rs s1
      (fun x hx => hok x (List.mem_cons_of_mem _ hx)) a3
    exact ⟨s2, by simp only [applyRecs, a1, b1], a2.trans b2, b3⟩

theorem Grows.fileAt_mono {a b : FileSystem} (h : Grows a b) {q : List Str} {k : Str}
    {f : File} (hf : a.fileAt q k = some f) : b.fileAt q k = some f := by
  obtain ⟨d, fp, h1, h2, h3⟩ := fileAt_some.1 hf
  obtain ⟨d', e1, e2⟩ := h.dirAt_mono h1
  exact fileAt_some.2 ⟨d', fp, e1, e2 k fp h2, h.files fp f h3⟩

/-- A file record whose place is taken changes nothing. -/
theorem applyRec_taken (τ : Nat → Str) {s : FileSystem} {q : List Str} {f g : File}
    (hq : ∀ x ∈ q, x ≠ []) (h : s.fileAt q f.name = some g) :
    applyRec τ (.file q f) s = .ok s := by
  obtain ⟨d, fp, h1, h2, _⟩ := fileAt_some.1 h
  obtain ⟨p, hw, hp⟩ := dirAt_some.1 h1
  rw [applyRec_file_eq,
    ensureLoop_present s q s.root p (by rw [filter_nonempty hq]; exact hw)]
  exact putFile_present τ _ _ _ _ hp (count_true_of h2)

theorem fileAt_curr (s : FileSystem) (c : Option Ptr) (q : List Str) (k : Str) :
    ({ s with curr := c } : FileSystem).fileAt q k = s.fileAt q k := by
  unfold fileAt dirAt
  rw [walk_curr]
  rfl

theorem dirAt_curr (s : FileSystem) (c : Option Ptr) (q : List Str) :
    ({ s with curr := c } : FileSystem).dirAt q = s.dirAt q := by
  unfold dirAt
  rw [walk_curr]
  rfl

/-- C18: a store of well-formed records holds two file records with the same full path, the
first of them being the first to put a file at that path (the records before it leave no
file of that name there).  The load returns; afterwards the file at that path is the file of
the first record (content, `createdAt`, `modifiedAt`), and the tree is the one the store
without the second record loads to: the second record is read to its end and discarded, and
the records after it are loaded as they would be without it. -/
theorem first_record_wins (τ : Nat → Str) (pre mid post : List Rec) (q : List Str)
    (f1 f2 : File) (hname : f2.name = f1.name)
    (hok : ∀ r ∈ pre ++ Rec.file q f1 :: (mid ++ Rec.file q f2 :: post), r.ok)
    (habs : ∀ s0 d, loadFromDisk τ (some (encAll pre)) init = .ok s0 →
      s0.dirAt q = some d → d.files.count f1.name = false) :
    ∃ s', loadFromDisk τ
        (some (encAll (pre ++ Rec.file q f1 :: (mid ++ Rec.file q f2 :: post)))) init
          = .ok s' ∧
      s'.fileAt q f1.name = some f1 ∧
      loadFromDisk τ (some (encAll (pre ++ Rec.file q f1 :: (mid ++ post)))) init = .ok s' := by
  have hpre : ∀ r ∈ pre, r.ok := fun r hr => hok r (List.mem_append_left _ hr)
  have hr1 : (Rec.file q f1).ok := hok _ (List.mem_append_right _ (List.mem_cons_self _ _))
  have hmid : ∀ r ∈ mid, r.ok := fun r hr =>
    hok r (List.mem_append_right _ (List.mem_cons_of_mem _ (List.mem_append_left _ hr)))
  have hr2 : (Rec.file q f2).ok :=
    hok _ (List.mem_append_right _ (List.mem_cons_of_mem _
      (List.mem_append_right _ (List.mem_cons_self _ _))))
  have hpost : ∀ r ∈ post, r.ok := fun r hr =>
    hok r (List.mem_append_right _ (List.mem_cons_of_mem _
      (List.mem_append_right _ (List.mem_cons_of_mem _ hr))))
  have hq : ∀ x ∈ q, x ≠ [] := okDirName_ne_nil hr1.1
  obtain ⟨s0, a1, a2, a3⟩ := applyRecs_closed τ pre init hpre closed_init
  have hload0 : loadFromDisk τ (some (encAll pre)) init
      = .ok { s0 with curr := some s0.root } := by
    rw [loadFromDisk_recs τ pre init hpre (fits_init hpre), a1]
  obtain ⟨s1, b1, b2, b3, b4⟩ := applyRec_closed τ (.file q f1) s0 hr1 a3
  have hf1 : s1.fileAt q f1.name = some f1 := by
    refine b4 q f1 rfl ?_
    intro d hd
    exact habs _ d hload0 (by rw [dirAt_curr]; exact hd)
  obtain ⟨s2, c1, c2, c3⟩ := applyRecs_closed τ mid s1 hmid b3
  have hf2 : s2.fileAt q f1.name = some f1 := c2.fileAt_mono hf1
  have d1 : applyRec τ (.file q f2) s2 = .ok s2 :=
    applyRec_taken τ hq (by rw [hname]; exact hf2)
  obtain ⟨s3, e1, e2, e3⟩ := applyRecs_closed τ post s2 hpost c3
  have hf3 : s3.fileAt q f1.name = some f1 := e2.fileAt_mono hf2
  have hokB : ∀ r ∈ pre ++ Rec.file q f1 :: (mid ++ post), r.ok := by
    intro r hr
    rcases List.mem_append.1 hr with h | h
    · exact hpre r h
    · rcases List.mem_cons.1 h with h | h
      · rw [h]; exact hr1
      · rcases List.mem_append.1 h with h | h
        · exact hmid r h
        · exact hpost r h
  refine ⟨{ s3 with curr := some s3.root }, ?_, by rw [fileAt_curr]; exact hf3, ?_⟩
  · rw [loadFromDisk_recs τ _ init hok (fits_init hok)]
    simp only [applyRecs_append, applyRecs, a1, b1, c1, d1, e1]
  · rw [loadFromDisk_recs τ _ init hokB (fits_init hokB)]
    simp only [applyRecs_append, applyRecs, a1, b1, c1, e1]

/-- C18, witness: two records for "/f", the first with the content "one", the second with
"two" and a newline inside, then the record of the directory "d"; the file holds "one" and
the directory is there. -/
theorem first_record_wins_witness :
    loadFromDisk noon (some "F|/f|t1|t2|3\none\nF|/f|t3|t4|4\nt\nwo\nD|/d\n".toList) init
      = .ok
        { dirs := [some ⟨"root".toList, none, [("d".toList, 1)], [("f".toList, 0)]⟩,
                   some ⟨"d".toList, some 0, [], []⟩],
          fls := [some ⟨"f".toList, "one".toList, "t1".toList, "t2".toList⟩],
          root := 0, curr := some 0, ticks := 1 } ∧
    (∃ s', loadFromDisk noon (some (encAll ([] ++
        Rec.file [] ⟨"f".toList, "one".toList, "t1".toList, "t2".toList⟩ :: ([] ++
        Rec.file [] ⟨"f".toList, "t\nwo".toList, "t3".toList, "t4".toList⟩ ::
        [Rec.dir ["d".toList]])))) init = .ok s' ∧
      s'.fileAt [] "f".toList = some ⟨"f".toList, "one".toList, "t1".toList, "t2".toList⟩) := by
  refine ⟨by decide, ?_⟩
  obtain ⟨s', a, b, _⟩ := first_record_wins noon [] [] [Rec.dir ["d".toList]] []
    ⟨"f".toList, "one".toList, "t1".toList, "t2".toList⟩
    ⟨"f".toList, "t\nwo".toList, "t3".toList, "t4".toList⟩ rfl
    (by
      intro r hr
      simp only [List.nil_append, List.mem_cons, List.mem_singleton, List.not_mem_nil,
        or_false] at hr
      rcases hr with e | e | e
      · subst e; exact ⟨by simp, by decide, by decide, by decide, by decide, by decide⟩
      · subst e; exact ⟨by simp, by decide, by decide, by decide, by decide, by decide⟩
      · subst e
        refine ⟨?_, by decide⟩
        intro x hx
        rw [List.mem_singleton] at hx
        subst hx
        decide)
    (by
      intro s0 d h0 hd
      have e0 : loadFromDisk noon (some (encAll [])) init = .ok init := by decide
      rw [e0] at h0
      cases h0
      have : init.dirAt [] = some ⟨['r', 'o', 'o', 't'], none, [], []⟩ := rfl
      rw [this] at hd
      cases hd
      rfl)
  exact ⟨s', a, b⟩

end FSim

namespace FSim

open FileSystem

/-! ## Stores with malformed records -/

/-- The fields `loadFromDisk` cuts out of a line "F|path|created|modified|length": the three
fields before the length are found whatever the length field holds. -/
theorem parseFileLine_header (avail : Nat) (fp ca ma lf rest line : Str) (h1 : '|' ∉ fp)
    (h2 : '|' ∉ ca)
    (h3 : '|' ∉ ma)
    (hlen : 2 + fp.length + 1 + ca.length + 1 + ma.length + 1 + lf.length + 2 < sizeMod)
    (hline : line = ['F', '|'] ++ fp ++ ['|'] ++ ca ++ ['|'] ++ ma ++ ['|'] ++ lf) :
    parseFileLine avail line rest =
      match stoul lf with
      | .error e => .error e
      | .ok len =>
        match readN avail rest len with
        | .error e => .error e
        | .ok cr =>
          match (if sfindLast fp '/' = npos then (Except.ok [] : Except Fault Str)
              else substr fp 0 (sfindLast fp '/')) with
          | .error e => .error e
          | .ok dirPart =>
            match substr fp (szAdd (sfindLast fp '/') 1) npos with
            | .error e => .error e
            | .ok base => .ok ⟨dirPart, base, ca, ma, cr.1, cr.2.drop 1⟩ := by
  have hsz : sizeMod = npos + 1 := rfl
  have hp1 : sfind line '|' 2 = 2 + fp.length :=
    sfind_at line ['F', '|'] fp (ca ++ '|' :: (ma ++ '|' :: lf)) '|' 2
      (by simp [hline]) rfl h1
  have ha1 : szAdd (2 + fp.length) 1 = 2 + fp.length + 1 := szAdd_small (by omega)
  have hp2 : sfind line '|' (2 + fp.length + 1) = 2 + fp.length + 1 + ca.length := by
    have := sfind_at line (['F', '|'] ++ fp ++ ['|']) ca (ma ++ '|' :: lf) '|'
      (2 + fp.length + 1) (by simp [hline]) (by simp <;> omega) h2
    simpa [Nat.add_comm, Nat.add_left_comm, Nat.add_assoc] using this
  have ha2 : szAdd (2 + fp.length + 1 + ca.length) 1 = 2 + fp.length + 1 + ca.length + 1 :=
    szAdd_small (by omega)
  have hp3 : sfind line '|' (2 + fp.length + 1 + ca.length + 1)
      = 2 + fp.length + 1 + ca.length + 1 + ma.length := by
    have := sfind_at line (['F', '|'] ++ fp ++ ['|'] ++ ca ++ ['|']) ma lf '|'
      (2 + fp.length + 1 + ca.length + 1) (by simp [hline]) (by simp <;> omega) h3
    simpa [Nat.add_comm, Nat.add_left_comm, Nat.add_assoc] using this
  have ha3 : szAdd (2 + fp.length + 1 + ca.length + 1 + ma.length) 1
      = 2 + fp.length + 1 + ca.length + 1 + ma.length + 1 := szAdd_small (by omega)
  have hs1 : szSub (2 + fp.length) 2 = fp.length := by
    have e1 := @szSub_small (2 + fp.length) 2 (by omega) (by omega)
    rw [e1]; omega
  have hs2 : szSub (szSub (2 + fp.length + 1 + ca.length) (2 + fp.length)) 1 = ca.length := by
    have e1 := @szSub_small (2 + fp.length + 1 + ca.length) (2 + fp.length) (by omega) (by omega)
    have e2 := @szSub_small (2 + fp.length + 1 + ca.length - (2 + fp.length)) 1 (by omega)
      (by omega)
    rw [e1, e2]; omega
  have hs3 : szSub (szSub (2 + fp.length + 1 + ca.length + 1 + ma.length)
      (2 + fp.length + 1 + ca.length)) 1 = ma.length := by
    have e1 := @szSub_small (2 + fp.length + 1 + ca.length + 1 + ma.length)
      (2 + fp.length + 1 + ca.length) (by omega) (by omega)
    have e2 := @szSub_small (2 + fp.length + 1 + ca.length + 1 + ma.length
      - (2 + fp.length + 1 + ca.length)) 1 (by omega) (by omega)
    rw [e1, e2]; omega
  have hf1 : substr line 2 fp.length = .ok fp :=
    substr_mid line ['F', '|'] fp ('|' :: (ca ++ '|' :: (ma ++ '|' :: lf))) 2 _
      (by simp [hline]) rfl rfl
  have hf2 : substr line (2 + fp.length + 1) ca.length = .ok ca :=
    substr_mid line (['F', '|'] ++ fp ++ ['|']) ca ('|' :: (ma ++ '|' :: lf)) _ _
      (by simp [hline]) (by simp <;> omega) rfl
  have hf3 : substr line (2 + fp.length + 1 + ca.length + 1) ma.length = .ok ma :=
    substr_mid line (['F', '|'] ++ fp ++ ['|'] ++ ca ++ ['|']) ma ('|' :: lf) _ _
      (by simp [hline]) (by simp <;> omega) rfl
  have hf4 : substr line (2 + fp.length + 1 + ca.length + 1 + ma.length + 1) npos = .ok lf :=
    substr_end line (['F', '|'] ++ fp ++ ['|'] ++ ca ++ ['|'] ++ ma ++ ['|']) lf _ _
      (by simp [hline]) (by simp <;> omega) (by omega)
  simp only [parseFileLine, hp1, ha1, hp2, ha2, hp3, ha3, hs1, hs2, hs3, hf1, hf2, hf3, hf4]

/-- The path of a record splits into the path of the directory and the file name. -/
theorem parseFileLine_path (avail : Nat) (q : List Str) (name ca ma lf rest line : Str)
    (hq : ∀ x ∈ q, okDirName x = true) (hname : okFileName name = true)
    (hca : okStamp ca = true) (hma : okStamp ma = true)
    (hlen : 2 + ((pathStr q).length + 1 + name.length) + 1 + ca.length + 1 + ma.length + 1
      + lf.length + 2 < sizeMod)
    (hline : line = ['F', '|'] ++ (pathStr q ++ ['/'] ++ name) ++ ['|'] ++ ca ++ ['|'] ++ ma
      ++ ['|'] ++ lf) :
    parseFileLine avail line rest =
      match stoul lf with
      | .error e => .error e
      | .ok len =>
        match readN avail rest len with
        | .error e => .error e
        | .ok cr => .ok ⟨pathStr q, name, ca, ma, cr.1, cr.2.drop 1⟩ := by
  rw [okFileName_iff] at hname
  rw [okStamp_iff] at hca hma
  have hsz : sizeMod = npos + 1 := rfl
  obtain ⟨fp, hfp⟩ : ∃ fp, fp = pathStr q ++ ['/'] ++ name := ⟨_, rfl⟩
  have hfl : fp.length = (pathStr q).length + 1 + name.length := by
    simp [hfp]; omega
  have hfpbar : '|' ∉ fp := by
    simp only [hfp, List.mem_append, List.mem_singleton, not_or]
    exact ⟨⟨not_mem_pathStr '|' (by decide) q (fun x hx => (okDirName_iff.1 (hq x hx)).2.2.1),
      by decide⟩, hname.2.1⟩
  rw [← hfp] at hline
  rw [parseFileLine_header avail fp ca ma lf rest line hfpbar hca.1 hma.1 (by rw [hfl]; omega) hline]
  have hls : sfindLast fp '/' = (pathStr q).length := by
    have : fp = pathStr q ++ '/' :: name := by simp [hfp]
    rw [this]; exact sfindLast_at _ _ _ hname.1
  have hne : (pathStr q).length ≠ npos := by omega
  have hdp : substr fp 0 (pathStr q).length = .ok (pathStr q) :=
    substr_mid fp [] (pathStr q) ('/' :: name) 0 _ (by simp [hfp]) rfl rfl
  have ha4 : szAdd (pathStr q).length 1 = (pathStr q).length + 1 := szAdd_small (by omega)
  have hbs : substr fp ((pathStr q).length + 1) npos = .ok name :=
    substr_end fp (pathStr q ++ ['/']) name _ _ (by simp [hfp]) (by simp) (by omega)
  simp only [hls, hne, if_false, hdp, ha4, hbs]

end FSim

namespace FSim

open FileSystem

theorem getline_lt {inp line rest : Str} (h : getline inp = some (line, rest)) :
    rest.length < inp.length := by
  cases inp with
  | nil => simp [getline] at h
  | cons c cs =>
    simp only [getline, Option.some.injEq, Prod.mk.injEq] at h
    rw [← h.2, List.length_drop]
    have := (List.dropWhile_suffix (fun x => decide (x ≠ '\n')) (l := c :: cs)).length_le
    simp only [List.length_cons] at this ⊢
    omega

theorem parseFileLine_rest {avail : Nat} {line rest : Str} {x : FileFields}
    (h : parseFileLine avail line rest = .ok x) : x.rest.length ≤ rest.length := by
  unfold parseFileLine at h
  dsimp only at h
  split at h
  · cases h
  · split at h
    · cases h
    · split at h
      · cases h
      · split at h
        · cases h
        · split at h
          · cases h
          · split at h
            · cases h
            · next cr hcr =>
              obtain ⟨e, _, _⟩ := readN_ok_eq hcr
              split at h
              · cases h
              · split at h
                · cases h
                · cases h
                  rw [e]
                  simp only [readBytes, List.length_drop]
                  omega

/-- The read loop does not depend on the fuel once there is more fuel than bytes. -/
theorem loadLoop_fuel (τ : Nat → Str) : ∀ (f1 f2 : Nat) (inp : Str) (s : FileSystem),
    inp.length < f1 → inp.length < f2 → loadLoop τ f1 inp s = loadLoop τ f2 inp s
  | 0, _, _, _, h, _ => absurd h (Nat.not_lt_zero _)
  | _ + 1, 0, _, _, _, h => absurd h (Nat.not_lt_zero _)
  | f1 + 1, f2 + 1, inp, s, h1, h2 => by
    rw [loadLoop, loadLoop]
    cases hg : getline inp with
    | none => rfl
    | some lr =>
      obtain ⟨line, rest⟩ := lr
      have hlt := getline_lt hg
      simp only
      by_cases hD : line.take 2 = ['D', '|']
      · simp only [hD, if_true]
        cases substr line 2 npos with
        | error e => rfl
        | ok path =>
          simp only
          cases ensureDir s path with
          | error e => rfl
          | ok ps =>
            simp only
            exact loadLoop_fuel τ f1 f2 rest ps.2 (by omega) (by omega)
      · by_cases hF : line.take 2 = ['F', '|']
        · simp only [hD, if_false, hF, if_true]
          cases hl : loadFileLine τ line rest s with
          | error e => rfl
          | ok rs =>
            simp only
            have hle : rs.1.length ≤ rest.length := by
              rw [loadFileLine_eq] at hl
              cases hp : parseFileLine s.avail line rest with
              | error e => rw [hp] at hl; cases hl
              | ok x =>
                rw [hp] at hl
                simp only at hl
                have := parseFileLine_rest hp
                split at hl
                · cases hl
                · split at hl
                  · cases hl
                  · cases hl; exact this
            exact loadLoop_fuel τ f1 f2 rs.1 rs.2 (by omega) (by omega)
        · simp only [hD, hF, if_false]
          exact loadLoop_fuel τ f1 f2 rest s (by omega) (by omega)

/-- The load of a store that starts with well-formed records: the records are applied, then
the read loop runs on what follows. -/
theorem loadFromDisk_after (τ : Nat → Str) (pre : List Rec) (tl : Str) (s : FileSystem)
    (hok : ∀ r ∈ pre, r.ok) (hfit : ∀ r ∈ pre, r.fits s.avail) :
    loadFromDisk τ (some (encAll pre ++ tl)) s =
      match applyRecs τ pre s with
      | .error e => .error e
      | .ok s0 =>
        match loadLoop τ (tl.length + 1) tl s0 with
        | .error e => .error e
        | .ok s1 => .ok { s1 with curr := some s1.root } := by
  have hle := length_le_encAll pre
  have hfuel : (encAll pre ++ tl).length + 1
      = pre.length + (((encAll pre).length - pre.length) + tl.length + 1) := by
    rw [List.length_append]; omega
  have h1 := loadLoop_recs τ pre (((encAll pre).length - pre.length) + tl.length + 1) tl s hok hfit
  unfold loadFromDisk
  simp only
  rw [hfuel]
  have h1' : loadLoop τ (pre.length + (((encAll pre).length - pre.length) + tl.length + 1))
      (encAll pre ++ tl) s = match applyRecs τ pre s with
      | .error e => .error e
      | .ok s1 => loadLoop τ (((encAll pre).length - pre.length) + tl.length + 1) tl s1 := h1
  rw [h1']
  cases applyRecs τ pre s with
  | error e => rfl
  | ok s0 =>
    simp only
    rw [loadLoop_fuel τ _ (tl.length + 1) tl s0 (by omega) (by omega)]

end FSim

namespace FSim

open FileSystem

/-- C20, the claim fails: the store that holds the line "junk" is loaded without an error,
and the store whose only record declares five content bytes where two remain is loaded
without an error as a file that holds these two bytes and three NUL bytes. -/
theorem malformed_store_is_loaded :
    loadFromDisk noon (some "junk\n".toList) init = .ok init ∧
    loadFromDisk noon (some "F|/f|t1|t2|5\nab".toList) init = .ok
      { dirs := [some ⟨"root".toList, none, [], [("f".toList, 0)]⟩],
        fls := [some ⟨"f".toList, ['a', 'b', Char.ofNat 0, Char.ofNat 0, Char.ofNat 0],
                      "t1".toList, "t2".toList⟩],
        root := 0, curr := some 0, ticks := 1 } := by
  constructor <;> decide

/-- One round of the read loop on a line that is neither a directory record nor a file
record. -/
theorem loadLoop_skip (τ : Nat → Str) (fuel : Nat) (line rest : Str) (s : FileSystem)
    (hnl : '\n' ∉ line) (hD : line.take 2 ≠ ['D', '|']) (hF : line.take 2 ≠ ['F', '|']) :
    loadLoop τ (fuel + 1) (line ++ '\n' :: rest) s = loadLoop τ fuel rest s := by
  rw [loadLoop, getline_line _ _ hnl]
  simp only [hD, hF, if_false]

/-- One round of the read loop on a file record whose header is well formed up to the length
field. -/
theorem loadLoop_header (τ : Nat → Str) (fuel : Nat) (q : List Str) (name ca ma lf rest : Str)
    (s : FileSystem) (hq : ∀ x ∈ q, okDirName x = true) (hname : okFileName name = true)
    (hca : okStamp ca = true) (hma : okStamp ma = true) (hlf : '\n' ∉ lf)
    (hlen : 2 + ((pathStr q).length + 1 + name.length) + 1 + ca.length + 1 + ma.length + 1
      + lf.length + 2 < sizeMod) :
    loadLoop τ (fuel + 1) ((['F', '|'] ++ (pathStr q ++ ['/'] ++ name) ++ ['|'] ++ ca ++ ['|']
        ++ ma ++ ['|'] ++ lf) ++ '\n' :: rest) s =
      match stoul lf with
      | .error e => .error e
      | .ok len =>
        match readN s.avail rest len with
        | .error e => .error e
        | .ok cr =>
          match applyRec τ (.file q ⟨name, cr.1, ca, ma⟩) s with
          | .error e => .error e
          | .ok s1 => loadLoop τ fuel (cr.2.drop 1) s1 := by
  obtain ⟨line, hline⟩ : ∃ line, line = ['F', '|'] ++ (pathStr q ++ ['/'] ++ name) ++ ['|']
      ++ ca ++ ['|'] ++ ma ++ ['|'] ++ lf := ⟨_, rfl⟩
  rw [← hline]
  have hnl : '\n' ∉ line := by
    have c4 := not_mem_pathStr '\n' (by decide) q
      (fun x hx => (okDirName_iff.1 (hq x hx)).2.2.2)
    have c6 := (okFileName_iff.1 hname).2.2
    have c7 := (okStamp_iff.1 hca).2
    have c8 := (okStamp_iff.1 hma).2
    simp [hline, c4, hlf, c6, c7, c8]
  have h2 : line.take 2 = ['F', '|'] := by simp [hline]
  have h2' : ¬ (['F', '|'] = ['D', '|']) := by decide
  rw [loadLoop, getline_line _ _ hnl]
  simp only [h2, h2', if_false, if_true, loadFileLine_eq,
    parseFileLine_path s.avail q name ca ma lf rest line hq hname hca hma hlen hline]
  cases stoul lf with
  | error e => rfl
  | ok len =>
    simp only
    cases readN s.avail rest len with
    | error e => rfl
    | ok cr =>
      simp only [ensureDir_pathStr s q hq, applyRec_file_eq]
      cases ensureLoop q s.root s with
      | error e => rfl
      | ok ps =>
        simp only
        cases putFile τ ps.1 name ca ma cr.1 ps.2 with
        | error e => rfl
        | ok s2 => rfl

theorem substr_error {l : Str} {pos n : Nat} {e : Fault} (h : substr l pos n = .error e) :
    e = .uncaught := by
  unfold substr at h
  split at h
  · cases h; rfl
  · cases h

theorem stoul_error {l : Str} {e : Fault} (h : stoul l = .error e) : e = .uncaught := by
  unfold stoul at h
  dsimp only at h
  split_ifs at h <;> (cases h; rfl)

/-- The length field `stoul` accepts starts with white space, a sign or a digit. -/
theorem stoul_head {l : Str} {n : Nat} (h : stoul l = .ok n) :
    ∃ c, l.head? = some c ∧ (isSpace c = true ∨ c = '-' ∨ c = '+' ∨ isDigit c = true) := by
  cases l with
  | nil => simp [stoul] at h
  | cons c cs =>
    refine ⟨c, rfl, ?_⟩
    by_contra hc
    simp only [not_or] at hc
    obtain ⟨h1, h2, h3, h4⟩ := hc
    have e1 : (c :: cs).dropWhile isSpace = c :: cs := by
      simp [List.dropWhile, h1]
    have e2 : (c :: cs).takeWhile isDigit = [] := by
      simp [List.takeWhile, h4]
    unfold stoul at h
    simp only [e1, List.head?_cons, Option.some.injEq, h2, h3, or_self, if_false, e2,
      if_true] at h
    cases h

/-- An error of the reading of the fields is an uncaught exception, and when the fields are
read, `stoul` has accepted the text after the third delimiter found. -/
theorem parseFileLine_cases (avail : Nat) (line rest : Str) :
    parseFileLine avail line rest = .error .uncaught ∨
    ∃ x lenStr len, parseFileLine avail line rest = .ok x ∧
      substr line (szAdd (sfind line '|' (szAdd (sfind line '|' (szAdd (sfind line '|' 2) 1))
        1)) 1) npos = .ok lenStr ∧ stoul lenStr = .ok len := by
  unfold parseFileLine
  dsimp only
  cases h1 : substr line 2 (szSub (sfind line '|' 2) 2) with
  | error e => left; rw [substr_error h1]
  | ok filePath =>
    dsimp only
    cases h2 : substr line (szAdd (sfind line '|' 2) 1)
        (szSub (szSub (sfind line '|' (szAdd (sfind line '|' 2) 1)) (sfind line '|' 2)) 1) with
    | error e => left; rw [substr_error h2]
    | ok createdAt =>
      dsimp only
      cases h3 : substr line (szAdd (sfind line '|' (szAdd (sfind line '|' 2) 1)) 1)
          (szSub (szSub (sfind line '|' (szAdd (sfind line '|' (szAdd (sfind line '|' 2) 1)) 1))
            (sfind line '|' (szAdd (sfind line '|' 2) 1))) 1) with
      | error e => left; rw [substr_error h3]
      | ok modifiedAt =>
        dsimp only
        cases h4 : substr line
            (szAdd (sfind line '|' (szAdd (sfind line '|' (szAdd (sfind line '|' 2) 1)) 1)) 1)
            npos with
        | error e => left; rw [substr_error h4]
        | ok lenStr =>
          dsimp only
          cases h5 : stoul lenStr with
          | error e => left; rw [stoul_error h5]
          | ok len =>
            dsimp only
            cases h8 : readN avail rest len with
            | error e => left; rw [readN_uncaught h8]
            | ok cr =>
            dsimp only
            cases h6 : (if sfindLast filePath '/' = npos then (Except.ok [] : Except Fault Str)
                else substr filePath 0 (sfindLast filePath '/')) with
            | error e =>
              left
              split at h6
              · cases h6
              · rw [substr_error h6]
            | ok dirPart =>
              dsimp only
              cases h7 : substr filePath (szAdd (sfindLast filePath '/') 1) npos with
              | error e => left; rw [substr_error h7]
              | ok base => right; exact ⟨_, lenStr, len, rfl, rfl, h5⟩

theorem sfind_none (line pre b : Str) (c : Char) (pos : Nat) (hl : line = pre ++ b)
    (hp : pos = pre.length) (hc : c ∉ b) : sfind line c pos = npos := by
  subst hl hp
  simp [sfind, findIdx_none c b hc]

theorem szAdd_npos : szAdd npos 1 = 0 := by decide

theorem szAdd_one : szAdd 1 1 = 2 := by decide

theorem take_npos_cons (x : Char) (xs : Str) :
    (x :: xs).take npos = x :: xs.take 18446744073709551614 := rfl

theorem stoul_F (l : Str) (n : Nat) : stoul ('F' :: l) ≠ .ok n := by
  intro h
  obtain ⟨c, hc, h'⟩ := stoul_head h
  cases hc
  revert h'
  decide

theorem stoul_slash (l : Str) (n : Nat) : stoul ('/' :: l) ≠ .ok n := by
  intro h
  obtain ⟨c, hc, h'⟩ := stoul_head h
  cases hc
  revert h'
  decide

/-- A line "F|a" without a further delimiter: `stoul` is given the whole line. -/
theorem parseFileLine_one (avail : Nat) (a rest : Str) (ha : '|' ∉ a) :
    parseFileLine avail ('F' :: '|' :: a) rest = .error .uncaught := by
  rcases parseFileLine_cases avail ('F' :: '|' :: a) rest with
    h | ⟨x, lenStr, len, _, hs, hst⟩
  · exact h
  · exfalso
    have hp1 : sfind ('F' :: '|' :: a) '|' 2 = npos :=
      sfind_none _ ['F', '|'] a '|' 2 rfl rfl ha
    have hp2 : sfind ('F' :: '|' :: a) '|' 0 = 1 :=
      sfind_at _ [] ['F'] a '|' 0 rfl rfl (by decide)
    rw [hp1, szAdd_npos, hp2, szAdd_one, hp1, szAdd_npos] at hs
    simp only [substr, Nat.not_lt_zero, if_false, List.drop_zero, take_npos_cons,
      Except.ok.injEq] at hs
    rw [← hs] at hst
    exact stoul_F _ _ hst

/-- A line "F|a|b" with a path that starts with a slash: `stoul` is given the text after
"F|". -/
theorem parseFileLine_two (avail : Nat) (a b rest : Str) (ha : '|' ∉ a) (hb : '|' ∉ b)
    (hlen : 2 + (a.length + 1) + 1 < sizeMod) :
    parseFileLine avail (['F', '|'] ++ ('/' :: a) ++ '|' :: b) rest = .error .uncaught := by
  rcases parseFileLine_cases avail (['F', '|'] ++ ('/' :: a) ++ '|' :: b) rest with
    h | ⟨x, lenStr, len, _, hs, hst⟩
  · exact h
  · exfalso
    have ha' : '|' ∉ '/' :: a := by
      simp only [List.mem_cons, not_or]
      exact ⟨by decide, ha⟩
    have hp1 : sfind (['F', '|'] ++ ('/' :: a) ++ '|' :: b) '|' 2 = 2 + (a.length + 1) :=
      sfind_at _ ['F', '|'] ('/' :: a) b '|' 2 (by simp) rfl ha'
    have ha1 : szAdd (2 + (a.length + 1)) 1 = 2 + (a.length + 1) + 1 := szAdd_small (by omega)
    have hp2 : sfind (['F', '|'] ++ ('/' :: a) ++ '|' :: b) '|' (2 + (a.length + 1) + 1)
        = npos :=
      sfind_none (['F', '|'] ++ ('/' :: a) ++ '|' :: b) (['F', '|'] ++ ('/' :: a) ++ ['|']) b
        '|' (2 + (a.length + 1) + 1) (by simp)
        (by simp only [List.length_append, List.length_cons, List.length_nil]) hb
    have hp3 : sfind (['F', '|'] ++ ('/' :: a) ++ '|' :: b) '|' 0 = 1 :=
      sfind_at _ [] ['F'] (('/' :: a) ++ '|' :: b) '|' 0 (by simp) rfl (by decide)
    rw [hp1, ha1, hp2, szAdd_npos, hp3, szAdd_one] at hs
    have e : (['F', '|'] ++ ('/' :: a) ++ '|' :: b).drop 2 = '/' :: (a ++ '|' :: b) := by simp
    simp only [substr, e, take_npos_cons] at hs
    split at hs
    · cases hs
    · rw [← Except.ok.inj hs] at hst
      exact stoul_slash _ _ hst

/-- A line "F|a|b|c" with three delimiters: `stoul` is given the whole line. -/
theorem parseFileLine_three (avail : Nat) (a b c rest : Str) (ha : '|' ∉ a) (hb : '|' ∉ b)
    (hc : '|' ∉ c) (hlen : 2 + a.length + 1 + b.length + 1 < sizeMod) :
    parseFileLine avail (['F', '|'] ++ a ++ '|' :: b ++ '|' :: c) rest = .error .uncaught := by
  rcases parseFileLine_cases avail (['F', '|'] ++ a ++ '|' :: b ++ '|' :: c) rest with
    h | ⟨x, lenStr, len, _, hs, hst⟩
  · exact h
  · exfalso
    have hp1 : sfind (['F', '|'] ++ a ++ '|' :: b ++ '|' :: c) '|' 2 = 2 + a.length :=
      sfind_at _ ['F', '|'] a (b ++ '|' :: c) '|' 2 (by simp) rfl ha
    have ha1 : szAdd (2 + a.length) 1 = 2 + a.length + 1 := szAdd_small (by omega)
    have hp2 : sfind (['F', '|'] ++ a ++ '|' :: b ++ '|' :: c) '|' (2 + a.length + 1)
        = 2 + a.length + 1 + b.length := by
      have := sfind_at (['F', '|'] ++ a ++ '|' :: b ++ '|' :: c) (['F', '|'] ++ a ++ ['|']) b c
        '|' (2 + a.length + 1) (by simp)
        (by simp only [List.length_append, List.length_cons, List.length_nil]) hb
      simpa [Nat.add_comm, Nat.add_left_comm, Nat.add_assoc] using this
    have ha2 : szAdd (2 + a.length + 1 + b.length) 1 = 2 + a.length + 1 + b.length + 1 :=
      szAdd_small (by omega)
    have hp3 : sfind (['F', '|'] ++ a ++ '|' :: b ++ '|' :: c) '|'
        (2 + a.length + 1 + b.length + 1) = npos :=
      sfind_none (['F', '|'] ++ a ++ '|' :: b ++ '|' :: c)
        (['F', '|'] ++ a ++ ['|'] ++ b ++ ['|']) c '|' (2 + a.length + 1 + b.length + 1)
        (by simp) (by simp only [List.length_append, List.length_cons, List.length_nil]) hc
    rw [hp1, ha1, hp2, ha2, hp3, szAdd_npos] at hs
    have e : (['F', '|'] ++ a ++ '|' :: b ++ '|' :: c)
        = 'F' :: ('|' :: (a ++ '|' :: b ++ '|' :: c)) := by simp
    rw [e] at hs
    simp only [substr, Nat.not_lt_zero, if_false, List.drop_zero, take_npos_cons,
      Except.ok.injEq] at hs
    rw [← hs] at hst
    exact stoul_F _ _ hst

/-- One round of the read loop on a file line whose fields cannot be read. -/
theorem loadLoop_abort (τ : Nat → Str) (fuel : Nat) (line rest : Str) (s : FileSystem)
    (hnl : '\n' ∉ line) (hF : line.take 2 = ['F', '|'])
    (hp : parseFileLine s.avail line rest = .error .uncaught) :
    loadLoop τ (fuel + 1) (line ++ '\n' :: rest) s = .error .uncaught := by
  have h2' : ¬ (['F', '|'] = ['D', '|']) := by decide
  rw [loadLoop, getline_line _ _ hnl]
  simp only [hF, h2', if_false, if_true, loadFileLine_eq, hp]

theorem closed_initIn (a : Nat) : Closed (initIn a) := closed_init

/-- C20, amended: the load has no error report.  In a run whose allocator grants at most `a`
bytes for a buffer, after any well-formed records (which that run can load),
(a) a line that starts with neither "D|" nor "F|" is skipped: the store loads like the store
without that line;
(b) a file record with a well-formed header whose length field `stoul` does not accept makes
the load end with an uncaught exception, and no tree is returned;
(c) a file record that declares more content bytes than the store has left, when the buffer
of the declared length is granted (the length is at most `max_size()` and at most `a`), is
loaded as a file whose content is the bytes left followed by NUL bytes up to the declared
length: the store loads, without an error, like the store that holds the record with that
content;
(c') a file record with a well-formed header whose declared length is above `max_size()` or
above `a` makes the load end with an uncaught exception (`std::length_error` or
`std::bad_alloc` from `string content(len, 0)`), whatever follows the header;
(d) a file record with fewer than four delimiters whose path starts with a slash ("F|/a",
"F|/a|b", "F|/a|b|c") makes the load end with an uncaught exception: `stoul` is given text
that starts with "F" or with the slash. -/
theorem malformed_records_as_loaded (τ : Nat → Str) (a : Nat) (pre : List Rec)
    (hpre : ∀ r ∈ pre, r.ok) (hfit : ∀ r ∈ pre, r.fits a) :
    (∀ line rest : Str, '\n' ∉ line → line.take 2 ≠ ['D', '|'] → line.take 2 ≠ ['F', '|'] →
      loadFromDisk τ (some (encAll pre ++ (line ++ '\n' :: rest))) (initIn a)
        = loadFromDisk τ (some (encAll pre ++ rest)) (initIn a)) ∧
    (∀ (q : List Str) (name ca ma lf rest : Str), (∀ x ∈ q, okDirName x = true) →
      okFileName name = true → okStamp ca = true → okStamp ma = true → '\n' ∉ lf →
      2 + ((pathStr q).length + 1 + name.length) + 1 + ca.length + 1 + ma.length + 1
        + lf.length + 2 < sizeMod →
      stoul lf = .error .uncaught →
      loadFromDisk τ (some (encAll pre ++ ((['F', '|'] ++ (pathStr q ++ ['/'] ++ name) ++ ['|']
        ++ ca ++ ['|'] ++ ma ++ ['|'] ++ lf) ++ '\n' :: rest))) (initIn a)
          = .error .uncaught) ∧
    (∀ (q : List Str) (f : File) (tail : Str), Rec.ok (.file q f) → f.content.length ≤ a →
      tail.length < f.content.length →
      f.content = tail ++ List.replicate (f.content.length - tail.length) (Char.ofNat 0) →
      (∃ s', loadFromDisk τ (some (encAll pre ++ ((['F', '|'] ++ (pathStr q ++ ['/'] ++ f.name)
          ++ ['|'] ++ f.createdAt ++ ['|'] ++ f.modifiedAt ++ ['|']
          ++ toDecimal f.content.length) ++ '\n' :: tail))) (initIn a) = .ok s' ∧
        loadFromDisk τ (some (encAll (pre ++ [Rec.file q f]))) (initIn a) = .ok s' ∧
        ((∀ s0 d, loadFromDisk τ (some (encAll pre)) (initIn a) = .ok s0 →
            s0.dirAt q = some d → d.files.count f.name = false) →
          s'.fileAt q f.name = some f))) ∧
    (∀ (q : List Str) (name ca ma lf rest : Str) (len : Nat), (∀ x ∈ q, okDirName x = true) →
      okFileName name = true → okStamp ca = true → okStamp ma = true → '\n' ∉ lf →
      2 + ((pathStr q).length + 1 + name.length) + 1 + ca.length + 1 + ma.length + 1
        + lf.length + 2 < sizeMod →
      stoul lf = .ok len → (maxSize < len ∨ a < len) →
      loadFromDisk τ (some (encAll pre ++ ((['F', '|'] ++ (pathStr q ++ ['/'] ++ name) ++ ['|']
        ++ ca ++ ['|'] ++ ma ++ ['|'] ++ lf) ++ '\n' :: rest))) (initIn a)
          = .error .uncaught) ∧
    (∀ (a' b c rest : Str), '|' ∉ a' → '|' ∉ b → '|' ∉ c → '\n' ∉ a' → '\n' ∉ b →
      '\n' ∉ c → 2 + (a'.length + 1) + 1 + b.length + 1 < sizeMod →
      loadFromDisk τ (some (encAll pre ++ ((['F', '|'] ++ ('/' :: a')) ++ '\n' :: rest)))
        (initIn a) = .error .uncaught ∧
      loadFromDisk τ (some (encAll pre ++ ((['F', '|'] ++ ('/' :: a') ++ '|' :: b)
        ++ '\n' :: rest))) (initIn a) = .error .uncaught ∧
      loadFromDisk τ (some (encAll pre ++ ((['F', '|'] ++ ('/' :: a') ++ '|' :: b ++ '|' :: c)
        ++ '\n' :: rest))) (initIn a) = .error .uncaught) := by
  have hfit' : ∀ r ∈ pre, r.fits (initIn a).avail := hfit
  obtain ⟨s0, a1, a2, a3⟩ := applyRecs_closed τ pre (initIn a) hpre (closed_initIn a)
  have hav : s0.avail = a := applyRecs_avail pre _ _ a1
  refine ⟨?_, ?_, ?_, ?_, ?_⟩
  · intro line rest hnl hD hF
    rw [loadFromDisk_after τ pre _ _ hpre hfit', loadFromDisk_after τ pre _ _ hpre hfit', a1]
    simp only
    rw [loadLoop_skip τ _ line rest s0 hnl hD hF]
    rw [loadLoop_fuel τ _ (rest.length + 1) rest s0
      (by rw [List.length_append, List.length_cons]; omega) (by omega)]
  · intro q name ca ma lf rest hq hname hca hma hlf hlen hst
    rw [loadFromDisk_after τ pre _ _ hpre hfit', a1]
    simp only
    rw [loadLoop_header τ _ q name ca ma lf rest s0 hq hname hca hma hlf hlen, hst]
  · intro q f tail hr hfa hlt hpad
    obtain ⟨s1, b1, b2, b3, b4⟩ := applyRec_closed τ (.file q f) s0 hr a3
    have hr' := hr
    obtain ⟨hq, hname, hca, hma, hlen, hmax⟩ := hr
    obtain ⟨hd1, hd2, hd3⟩ := toDecimal_spec f.content.length
    have hlen0 := hlen
    simp only [Rec.enc, fileRecord, List.length_append, List.length_cons,
      List.length_nil] at hlen0
    have hlf : '\n' ∉ toDecimal f.content.length :=
      fun hm => (isDigit_not_delim (hd2 _ hm)).2.1 rfl
    have hst : stoul (toDecimal f.content.length) = .ok f.content.length :=
      stoul_toDecimal _ (by omega)
    have hrd : readN s0.avail tail f.content.length = .ok (f.content, []) := by
      rw [readN_ok _ hmax (by rw [hav]; exact hfa)]
      unfold readBytes
      rw [List.take_of_length_le (Nat.le_of_lt hlt), List.drop_of_length_le (Nat.le_of_lt hlt),
        ← hpad]
    have hokB : ∀ r ∈ pre ++ [Rec.file q f], r.ok := by
      intro r hr
      rcases List.mem_append.1 hr with h | h
      · exact hpre r h
      · rw [List.mem_singleton] at h; rw [h]; exact hr'
    have hfitB : ∀ r ∈ pre ++ [Rec.file q f], r.fits (initIn a).avail := by
      intro r hr
      rcases List.mem_append.1 hr with h | h
      · exact hfit r h
      · rw [List.mem_singleton] at h; rw [h]; exact hfa
    refine ⟨{ s1 with curr := some s1.root }, ?_, ?_, ?_⟩
    · rw [loadFromDisk_after τ pre _ _ hpre hfit', a1]
      simp only
      rw [loadLoop_header τ _ q f.name f.createdAt f.modifiedAt _ tail s0 hq hname hca hma hlf
        (by omega), hst]
      simp only [hrd, File.eta, b1, List.drop_nil]
      rw [List.length_append, List.length_cons, Nat.add_succ, loadLoop_empty]
    · rw [loadFromDisk_recs τ _ _ hokB hfitB]
      simp only [applyRecs_append, applyRecs, a1, b1]
    · intro habs
      have hload0 : loadFromDisk τ (some (encAll pre)) (initIn a)
          = .ok { s0 with curr := some s0.root } := by
        rw [loadFromDisk_recs τ pre _ hpre hfit', a1]
      rw [fileAt_curr]
      refine b4 q f rfl ?_
      intro d hd
      exact habs _ d hload0 (by rw [dirAt_curr]; exact hd)
  · intro q name ca ma lf rest len hq hname hca hma hlf hlen hst hbig
    rw [loadFromDisk_after τ pre _ _ hpre hfit', a1]
    simp only
    rw [loadLoop_header τ _ q name ca ma lf rest s0 hq hname hca hma hlf hlen, hst]
    simp only
    rw [readN_error rest (by rw [hav]; exact hbig)]
  · intro a' b c rest ha hb hc na nb nc hlen
    have ha' : '|' ∉ '/' :: a' := by
      simp only [List.mem_cons, not_or]
      exact ⟨by decide, ha⟩
    have na' : '\n' ∉ '/' :: a' := by
      simp only [List.mem_cons, not_or]
      exact ⟨by decide, na⟩
    refine ⟨?_, ?_, ?_⟩
    · rw [loadFromDisk_after τ pre _ _ hpre hfit', a1]
      simp only
      have h1 : parseFileLine s0.avail (['F', '|'] ++ ('/' :: a')) rest = .error .uncaught :=
        parseFileLine_one _ ('/' :: a') rest ha'
      rw [loadLoop_abort τ _ (['F', '|'] ++ ('/' :: a')) rest s0 (by simp [na]) (by simp) h1]
    · rw [loadFromDisk_after τ pre _ _ hpre hfit', a1]
      simp only
      rw [loadLoop_abort τ _ (['F', '|'] ++ ('/' :: a') ++ '|' :: b) rest s0
        (by simp [na, nb]) (by simp) (parseFileLine_two _ a' b rest ha hb (by omega))]
    · rw [loadFromDisk_after τ pre _ _ hpre hfit', a1]
      simp only
      rw [loadLoop_abort τ _ (['F', '|'] ++ ('/' :: a') ++ '|' :: b ++ '|' :: c) rest s0
        (by simp [na, nb, nc]) (by simp)
        (parseFileLine_three _ ('/' :: a') b c rest ha' hb hc
          (by simp only [List.length_cons]; omega))]

/-- C20, witness: without a shortage of memory and after no records, the line "junk" is
skipped, and the record that comes next is loaded; the record that declares five bytes where
two are left is loaded with three NUL bytes; the record that declares the length "-1", which
`stoul` reads as `2 ^ 64 - 1`, ends the load with an uncaught exception; and so does the
record that declares five bytes in a run whose allocator grants three. -/
theorem malformed_records_as_loaded_witness :
    loadFromDisk noon (some "junk\nD|/a\n".toList) init
      = loadFromDisk noon (some "D|/a\n".toList) init ∧
    loadFromDisk noon (some "D|/a\n".toList) init = .ok
      { dirs := [some ⟨"root".toList, none, [("a".toList, 1)], []⟩,
                 some ⟨"a".toList, some 0, [], []⟩],
        fls := [], root := 0, curr := some 0, ticks := 0 } ∧
    (∃ s', loadFromDisk noon (some "F|/f|t1|t2|5\nab".toList) init = .ok s' ∧
      s'.fileAt [] "f".toList = some ⟨"f".toList,
        ['a', 'b', Char.ofNat 0, Char.ofNat 0, Char.ofNat 0], "t1".toList, "t2".toList⟩) ∧
    loadFromDisk noon (some "F|/f|t1|t2|-1\nab".toList) init = .error .uncaught ∧
    loadFromDisk noon (some "F|/f|t1|t2|5\nab".toList) (initIn 3) = .error .uncaught := by
  have h := malformed_records_as_loaded noon maxSize []
    (fun r hr => absurd hr (List.not_mem_nil r)) (fun r hr => absurd hr (List.not_mem_nil r))
  have h3 := malformed_records_as_loaded noon 3 []
    (fun r hr => absurd hr (List.not_mem_nil r)) (fun r hr => absurd hr (List.not_mem_nil r))
  refine ⟨?_, by decide, ?_, ?_, ?_⟩
  · exact h.1 "junk".toList "D|/a\n".toList (by decide) (by decide) (by decide)
  · obtain ⟨s', a1, _, a3⟩ := h.2.2.1 []
      ⟨"f".toList, ['a', 'b', Char.ofNat 0, Char.ofNat 0, Char.ofNat 0], "t1".toList,
        "t2".toList⟩ "ab".toList
      ⟨fun x hx => absurd hx (List.not_mem_nil x), by decide, by decide, by decide, by decide,
        by decide⟩ (by decide) (by decide) (by decide)
    refine ⟨s', a1, a3 ?_⟩
    intro s0 d h0 hd
    have e0 : loadFromDisk noon (some (encAll [])) (initIn maxSize) = .ok init := by decide
    rw [e0] at h0
    cases h0
    have : init.dirAt [] = some ⟨['r', 'o', 'o', 't'], none, [], []⟩ := rfl
    rw [this] at hd
    cases hd
    rfl
  · exact h.2.2.2.1 [] "f".toList "t1".toList "t2".toList "-1".toList "ab".toList
      18446744073709551615 (fun x hx => absurd hx (List.not_mem_nil x)) (by decide) (by decide)
      (by decide) (by decide) (by decide) (by decide) (Or.inl (by decide))
  · exact h3.2.2.2.1 [] "f".toList "t1".toList "t2".toList "5".toList "ab".toList
      5 (fun x hx => absurd hx (List.not_mem_nil x)) (by decide) (by decide)
      (by decide) (by decide) (by decide) (by decide) (Or.inr (by decide))

end FSim

namespace FSim

open FileSystem

/-! ## Timestamp order -/

theorem timeOrdered_of_fls {τ : Nat → Str} {s s' : FileSystem} (h : TimeOrdered τ s)
    (e1 : s'.fls = s.fls) (e2 : s.ticks ≤ s'.ticks) : TimeOrdered τ s' := by
  intro fp f hf
  rw [file_eq_of_fls e1] at hf
  obtain ⟨a, b⟩ := h fp f hf
  exact ⟨a, fun t ht => b t (Nat.le_trans e2 ht)⟩

theorem timeOrdered_modDir {τ : Nat → Str} {s s' : FileSystem} {p : Ptr}
    {g : Directory → Directory} (h : TimeOrdered τ s) (hm : s.modDir p g = .ok s') :
    TimeOrdered τ s' := by
  obtain ⟨_, _, _, a3, _, _, a6, _⟩ := modDir_ok hm
  exact timeOrdered_of_fls h a3 (Nat.le_of_eq a6.symm)

/-- A write to a file keeps the order when the new value is in order. -/
theorem timeOrdered_modFile {τ : Nat → Str} {s s' : FileSystem} {p : Ptr} {g : File → File}
    (h : TimeOrdered τ s) (hm : s.modFile p g = .ok s')
    (hg : ∀ x, s.file p = some x → strLt (g x).modifiedAt (g x).createdAt = false ∧
      ∀ t, s.ticks ≤ t → strLt (τ t) (g x).createdAt = false) : TimeOrdered τ s' := by
  obtain ⟨x, a1, a2, _, _, _, a6, _⟩ := modFile_ok hm
  intro fp f hf
  rw [a2 fp] at hf
  rw [a6]
  by_cases e : fp = p
  · rw [if_pos e] at hf
    cases hf
    exact hg x a1
  · rw [if_neg e] at hf
    exact h fp f hf

theorem timeOrdered_deleteFile {τ : Nat → Str} {s s' : FileSystem} {p : Ptr}
    (h : TimeOrdered τ s) (hm : s.deleteFile p = .ok s') : TimeOrdered τ s' := by
  unfold deleteFile at hm
  split at hm
  · next x hx =>
    cases hm
    intro fp f hf
    have hf' : (s.fls.set p none).getD fp none = some f := hf
    rw [getD_set_none _ _ _ _ (file_lt hx)] at hf'
    by_cases e : fp = p
    · rw [if_pos e] at hf'; cases hf'
    · rw [if_neg e] at hf'; exact h fp f hf'
  · cases hm

theorem timeOrdered_newFile {τ : Nat → Str} {s : FileSystem}
    (hτ : ∀ i j, i ≤ j → strLt (τ j) (τ i) = false) (h : TimeOrdered τ s) (n : Str) :
    TimeOrdered τ (s.newFile τ n).2 := by
  intro fp f hf
  rw [file_newFile] at hf
  have ht : (s.newFile τ n).2.ticks = s.ticks + 1 := rfl
  rw [ht]
  by_cases e : fp = s.fls.length
  · rw [if_pos e] at hf
    cases hf
    exact ⟨strLt_irrefl _, fun t ht' => hτ _ _ (by omega)⟩
  · rw [if_neg e] at hf
    obtain ⟨a, b⟩ := h fp f hf
    exact ⟨a, fun t ht' => b t (by omega)⟩

theorem timeOrdered_tick {τ : Nat → Str} {s : FileSystem} (h : TimeOrdered τ s) :
    TimeOrdered τ (s.getTimestamp τ).2 :=
  timeOrdered_of_fls h rfl (Nat.le_succ _)

theorem timeOrdered_deleteDir {τ : Nat → Str} : ∀ (fuel : Nat) (p : Ptr) (s s' : FileSystem),
    s.deleteDir fuel p = .ok s' → TimeOrdered τ s → TimeOrdered τ s'
  | 0, p, s, s', h, _ => by simp only [deleteDir] at h; cases h
  | fuel + 1, p, s, s', h, hi => by
    simp only [deleteDir] at h
    split at h
    · cases h
    · next d hd =>
      split at h
      · cases h
      · next s1 e1 =>
        split at h
        · cases h
        · next s2 e2 =>
          split at h
          · cases h
          · next d2 hd2 =>
            cases h
            have i1 : TimeOrdered τ s1 :=
              @forEach_inv _ (TimeOrdered τ) _
                (fun x a b hab ha => timeOrdered_deleteDir fuel x.2 a b hab ha) _ _ _ e1 hi
            have i2 : TimeOrdered τ s2 :=
              @forEach_inv _ (TimeOrdered τ) _
                (fun x a b hab ha => timeOrdered_deleteFile ha hab) _ _ _ e2 i1
            exact timeOrdered_of_fls i2 rfl (Nat.le_refl _)

theorem stateOf_ok {r : Except Fault (Reply × FileSystem)} {s' : FileSystem}
    (h : stateOf r = .ok s') : ∃ m, r = .ok (m, s') := by
  unfold stateOf at h
  split at h
  · cases h
  · next m s => cases h; exact ⟨m, rfl⟩

end FSim

namespace FSim

open FileSystem

theorem timeOrdered_makeDirectory {τ : Nat → Str} {s s' : FileSystem} {r : Reply}
    {name : Str} (hi : TimeOrdered τ s) (h : makeDirectory name s = .ok (r, s')) :
    TimeOrdered τ s' := by
  unfold makeDirectory at h
  split at h
  · cases h
  · next c d hcd =>
    split at h
    · cases h; exact hi
    · dsimp only at h
      split at h
      · cases h
      · next s2 e2 =>
        cases h
        have h1 : TimeOrdered τ (s.newDir name (some c)).2 :=
          timeOrdered_of_fls hi rfl (Nat.le_refl _)
        exact timeOrdered_modDir h1 e2

theorem timeOrdered_createFile {τ : Nat → Str} {s s' : FileSystem} {r : Reply} {name : Str}
    (hτ : ∀ i j, i ≤ j → strLt (τ j) (τ i) = false) (hi : TimeOrdered τ s)
    (h : createFile τ name s = .ok (r, s')) : TimeOrdered τ s' := by
  unfold createFile at h
  split at h
  · cases h
  · split at h
    · cases h; exact hi
    · dsimp only at h
      split at h
      · cases h
      · next s2 e2 =>
        cases h
        exact timeOrdered_modDir (timeOrdered_newFile hτ hi name) e2

theorem timeOrdered_batchCreateFiles {τ : Nat → Str} {s s' : FileSystem} {input : Str}
    (hτ : ∀ i j, i ≤ j → strLt (τ j) (τ i) = false) (hi : TimeOrdered τ s)
    (h : batchCreateFiles τ input s = .ok s') : TimeOrdered τ s' := by
  unfold batchCreateFiles at h
  refine @forEach_inv _ (TimeOrdered τ) _ ?_ _ _ _ h hi
  intro n a b hab ha
  split at hab
  · next r s1 e => cases hab; exact timeOrdered_createFile hτ ha e
  · cases hab

theorem timeOrdered_deleteFileByName {τ : Nat → Str} {s s' : FileSystem} {r : Reply}
    {name : Str} (hi : TimeOrdered τ s) (h : deleteFileByName name s = .ok (r, s')) :
    TimeOrdered τ s' := by
  unfold deleteFileByName at h
  split at h
  · cases h
  · split at h
    · cases h; exact hi
    · split at h
      · cases h
      · next s1 e1 =>
        split at h
        · cases h
        · next s2 e2 =>
          cases h
          exact timeOrdered_modDir (timeOrdered_deleteFile hi e1) e2

theorem timeOrdered_deleteDirectoryByName {τ : Nat → Str} {fuel : Nat} {s s' : FileSystem}
    {r : Reply} {name : Str} (hi : TimeOrdered τ s)
    (h : deleteDirectoryByName fuel name s = .ok (r, s')) : TimeOrdered τ s' := by
  unfold deleteDirectoryByName at h
  split at h
  · cases h
  · split at h
    · cases h; exact hi
    · split at h
      · cases h
      · next s1 e1 =>
        split at h
        · cases h
        · next s2 e2 =>
          cases h
          exact timeOrdered_modDir (timeOrdered_deleteDir _ _ _ _ e1 hi) e2

theorem timeOrdered_renameDirectory {τ : Nat → Str} {s s' : FileSystem} {r : Reply}
    {oldN newN : Str} (hi : TimeOrdered τ s) (h : renameDirectory oldN newN s = .ok (r, s')) :
    TimeOrdered τ s' := by
  unfold renameDirectory at h
  split at h
  · cases h
  · split at h
    · cases h; exact hi
    · split at h
      · cases h; exact hi
      · split at h
        · cases h
        · next s1 e1 =>
          split at h
          · cases h
          · next s2 e2 =>
            split at h
            · cases h
            · next s3 e3 =>
              cases h
              exact timeOrdered_modDir (timeOrdered_modDir (timeOrdered_modDir hi e1) e2) e3

theorem timeOrdered_renameFile {τ : Nat → Str} {s s' : FileSystem} {r : Reply}
    {oldN newN : Str} (hi : TimeOrdered τ s) (h : renameFile oldN newN s = .ok (r, s')) :
    TimeOrdered τ s' := by
  unfold renameFile at h
  split at h
  · cases h
  · split at h
    · cases h; exact hi
    · split at h
      · cases h; exact hi
      · split at h
        · cases h
        · next s1 e1 =>
          split at h
          · cases h
          · next s2 e2 =>
            split at h
            · cases h
            · next s3 e3 =>
              cases h
              have i1 := timeOrdered_modDir hi e1
              have i2 : TimeOrdered τ s2 :=
                timeOrdered_modFile i1 e2 (fun x hx => i1 _ x hx)
              exact timeOrdered_modDir i2 e3

theorem timeOrdered_writeFile {τ : Nat → Str} {s s' : FileSystem} {r : Reply} {name : Str}
    {append : Bool} {input : List Str} (hi : TimeOrdered τ s)
    (h : writeFile τ name append input s = .ok (r, s')) : TimeOrdered τ s' := by
  unfold writeFile at h
  split at h
  · cases h
  · split at h
    · cases h; exact hi
    · next fp hfp =>
      dsimp only at h
      split at h
      · cases h
      · next s1 e1 =>
        split at h
        · cases h
        · next s3 e3 =>
          cases h
          have i1 : TimeOrdered τ s1 := timeOrdered_modFile hi e1 (fun x hx => hi _ x hx)
          obtain ⟨_, _, _, _, _, _, a6, _⟩ := modFile_ok e1
          refine timeOrdered_modFile (timeOrdered_tick i1) e3 ?_
          intro x hx
          have hx1 : s1.file fp = some x := hx
          obtain ⟨_, b⟩ := i1 fp x hx1
          exact ⟨b s1.ticks (Nat.le_refl _), fun t ht => b t (Nat.le_trans (Nat.le_succ _) ht)⟩

theorem timeOrdered_moveFile {τ : Nat → Str} {s s' : FileSystem} {r : Reply} {name : Str}
    {target : Ptr} (hi : TimeOrdered τ s) (h : moveFile name target s = .ok (r, s')) :
    TimeOrdered τ s' := by
  unfold moveFile at h
  split at h
  · cases h
  · split at h
    · cases h; exact hi
    · split at h
      · cases h
      · split at h
        · cases h; exact hi
        · split at h
          · cases h
          · next s1 e1 =>
            split at h
            · cases h
            · next s2 e2 =>
              cases h
              exact timeOrdered_modDir (timeOrdered_modDir hi e1) e2

theorem timeOrdered_moveDirectory {τ : Nat → Str} {s s' : FileSystem} {r : Reply}
    {name : Str} {target : Ptr} (hi : TimeOrdered τ s)
    (h : moveDirectory name target s = .ok (r, s')) : TimeOrdered τ s' := by
  unfold moveDirectory at h
  split at h
  · cases h
  · split at h
    · cases h; exact hi
    · split at h
      · cases h
      · split at h
        · cases h; exact hi
        · split at h
          · cases h
          · next s1 e1 =>
            split at h
            · cases h
            · split at h
              · cases h
              · split at h
                · cases h
                · next s2 e2 =>
                  split at h
                  · cases h
                  · next s3 e3 =>
                    cases h
                    exact timeOrdered_modDir
                      (timeOrdered_modDir (timeOrdered_modDir hi e1) e2) e3

theorem timeOrdered_copyFile {τ : Nat → Str} {s s' : FileSystem} {r : Reply} {name : Str}
    {target : Ptr} (hτ : ∀ i j, i ≤ j → strLt (τ j) (τ i) = false) (hi : TimeOrdered τ s)
    (h : copyFile τ name target s = .ok (r, s')) : TimeOrdered τ s' := by
  unfold copyFile at h
  split at h
  · cases h
  · split at h
    · cases h; exact hi
    · split at h
      · cases h
      · split at h
        · cases h; exact hi
        · split at h
          · cases h
          · next orig ho =>
            dsimp only at h
            split at h
            · cases h
            · next s3 e3 =>
              split at h
              · cases h
              · next s4 e4 =>
                cases h
                refine timeOrdered_modDir ?_ e4
                refine timeOrdered_modFile
                  (timeOrdered_tick (timeOrdered_newFile hτ hi orig.name)) e3 ?_
                intro x _
                exact ⟨strLt_irrefl _, fun t ht => hτ _ _ (Nat.le_trans (Nat.le_succ _) ht)⟩

theorem timeOrdered_copyOneFile {τ : Nat → Str} {s s' : FileSystem} {copy : Ptr}
    {kf : Str × Ptr} (hτ : ∀ i j, i ≤ j → strLt (τ j) (τ i) = false) (hi : TimeOrdered τ s)
    (h : copyOneFile τ copy kf s = .ok s') : TimeOrdered τ s' := by
  unfold copyOneFile at h
  split at h
  · cases h
  · next orig ho =>
    dsimp only at h
    split at h
    · cases h
    · next s3 e3 =>
      refine timeOrdered_modDir ?_ h
      refine timeOrdered_modFile
        (timeOrdered_tick (timeOrdered_newFile hτ hi orig.name)) e3 ?_
      intro x _
      exact ⟨strLt_irrefl _, fun t ht => hτ _ _ (Nat.le_trans (Nat.le_succ _) ht)⟩

theorem timeOrdered_copyHelper {τ : Nat → Str}
    (hτ : ∀ i j, i ≤ j → strLt (τ j) (τ i) = false) : ∀ (h : Nat) (orig tg : Ptr)
    (σ σ' : FileSystem), copyDirectoryHelper τ h orig tg σ = .ok σ' → TimeOrdered τ σ →
    TimeOrdered τ σ'
  | 0, _, _, _, _, hm, _ => by simp only [copyDirectoryHelper] at hm; cases hm
  | h + 1, orig, tg, σ, σ', hm, hs => by
    simp only [copyDirectoryHelper] at hm
    split at hm
    · cases hm
    · next o ho =>
      split at hm
      · cases hm
      · next s2 e2 =>
        split at hm
        · cases hm
        · next o2 ho2 =>
          split at hm
          · cases hm
          · next s3 e3 =>
            split at hm
            · cases hm
            · next o3 ho3 =>
              have h1 : TimeOrdered τ (σ.newDir o.name (some tg)).2 :=
                timeOrdered_of_fls hs rfl (Nat.le_refl _)
              have h2 : TimeOrdered τ s2 :=
                @forEach_inv _ (TimeOrdered τ) _
                  (fun x a b hab ha => timeOrdered_copyOneFile hτ ha hab) _ _ _ e2 h1
              have h3 : TimeOrdered τ s3 :=
                @forEach_inv _ (TimeOrdered τ) _
                  (fun x a b hab ha => timeOrdered_copyHelper hτ h x.2 _ a b hab ha)
                  _ _ _ e3 h2
              exact timeOrdered_modDir h3 hm

theorem timeOrdered_copyDirectory {τ : Nat → Str} {fuel : Nat} {s s' : FileSystem}
    {r : Reply} {name : Str} {target : Ptr}
    (hτ : ∀ i j, i ≤ j → strLt (τ j) (τ i) = false) (hi : TimeOrdered τ s)
    (h : copyDirectory τ fuel name target s = .ok (r, s')) : TimeOrdered τ s' := by
  unfold copyDirectory at h
  split at h
  · cases h
  · split at h
    · cases h; exact hi
    · split at h
      · cases h
      · split at h
        · cases h; exact hi
        · split at h
          · cases h
          · next s1 e1 =>
            cases h
            exact timeOrdered_copyHelper hτ _ _ _ _ _ e1 hi

theorem timeOrdered_deleteAll {τ : Nat → Str} {fuel : Nat} {s s' : FileSystem} {r : Reply}
    {confirm : Char} (hi : TimeOrdered τ s) (h : deleteAll fuel confirm s = .ok (r, s')) :
    TimeOrdered τ s' := by
  unfold deleteAll at h
  split at h
  · cases h; exact hi
  · split at h
    · cases h
    · split at h
      · cases h
      · next s1 e1 =>
        split at h
        · cases h
        · next s2 e2 =>
          split at h
          · cases h
          · next s3 e3 =>
            cases h
            have i1 : TimeOrdered τ s1 :=
              @forEach_inv _ (TimeOrdered τ) _
                (fun x a b hab ha => timeOrdered_deleteDir fuel x.2 a b hab ha) _ _ _ e1 hi
            have i2 : TimeOrdered τ s2 :=
              @forEach_inv _ (TimeOrdered τ) _
                (fun x a b hab ha => timeOrdered_deleteFile ha hab) _ _ _ e2 i1
            exact timeOrdered_modDir i2 e3

theorem timeOrdered_changeDirectory {τ : Nat → Str} {s s' : FileSystem} {r : Reply}
    {choice : Int} (hi : TimeOrdered τ s) (h : changeDirectory choice s = .ok (r, s')) :
    TimeOrdered τ s' := by
  unfold changeDirectory at h
  split at h
  · cases h
  · dsimp only at h
    split_ifs at h <;> cases h
    all_goals exact hi

theorem timeOrdered_withTarget {τ : Nat → Str} {s s' : FileSystem} {path : Str}
    {op : Ptr → FileSystem → Except Fault (Reply × FileSystem)} (hi : TimeOrdered τ s)
    (hop : ∀ t r s1, op t s = .ok (r, s1) → TimeOrdered τ s1)
    (h : withTarget s path op = .ok s') : TimeOrdered τ s' := by
  unfold withTarget at h
  split at h
  · cases h
  · cases h; exact hi
  · next t _ =>
    obtain ⟨m, hm⟩ := stateOf_ok h
    exact hop t m s' hm

/-- Every request keeps the timestamps in order when the clock does not go back. -/
theorem timeOrdered_run {τ : Nat → Str} {fuel : Nat} {s s' : FileSystem}
    (hτ : ∀ i j, i ≤ j → strLt (τ j) (τ i) = false) (c : Cmd) (hi : TimeOrdered τ s)
    (h : c.run τ fuel s = .ok s') : TimeOrdered τ s' := by
  cases c with
  | makeDirectory n =>
    obtain ⟨m, hm⟩ := stateOf_ok h; exact timeOrdered_makeDirectory hi hm
  | createFile n =>
    obtain ⟨m, hm⟩ := stateOf_ok h; exact timeOrdered_createFile hτ hi hm
  | batchCreateFiles inp => exact timeOrdered_batchCreateFiles hτ hi h
  | deleteDirectoryByName n =>
    obtain ⟨m, hm⟩ := stateOf_ok h; exact timeOrdered_deleteDirectoryByName hi hm
  | deleteFileByName n =>
    obtain ⟨m, hm⟩ := stateOf_ok h; exact timeOrdered_deleteFileByName hi hm
  | renameDirectory o n =>
    obtain ⟨m, hm⟩ := stateOf_ok h; exact timeOrdered_renameDirectory hi hm
  | renameFile o n =>
    obtain ⟨m, hm⟩ := stateOf_ok h; exact timeOrdered_renameFile hi hm
  | writeFile n a inp =>
    obtain ⟨m, hm⟩ := stateOf_ok h; exact timeOrdered_writeFile hi hm
  | moveFile n p =>
    exact timeOrdered_withTarget hi (fun _ _ _ hm => timeOrdered_moveFile hi hm) h
  | moveDirectory n p =>
    exact timeOrdered_withTarget hi (fun _ _ _ hm => timeOrdered_moveDirectory hi hm) h
  | copyFile n p =>
    exact timeOrdered_withTarget hi (fun _ _ _ hm => timeOrdered_copyFile hτ hi hm) h
  | copyDirectory n p =>
    exact timeOrdered_withTarget hi (fun _ _ _ hm => timeOrdered_copyDirectory hτ hi hm) h
  | deleteAll c =>
    obtain ⟨m, hm⟩ := stateOf_ok h; exact timeOrdered_deleteAll hi hm
  | changeDirectory c =>
    obtain ⟨m, hm⟩ := stateOf_ok h; exact timeOrdered_changeDirectory hi hm

end FSim

namespace FSim

open FileSystem

/-- C21, the claim fails: the constructor takes the stamps of a file from the store as they
are, so after the load of `lateStore` the file "f" has `modifiedAt` before `createdAt`; and
when the clock goes back between the creation of "f" and a write to it, as `fallBack` does,
the write stores a `modifiedAt` before `createdAt`. -/
theorem stamps_out_of_order :
    (Reach noon 0 (some lateStore) lateTree ∧
      lateTree.file 0 = some ⟨"f".toList, [], "2024-01-02 00:00:00".toList,
        "2024-01-01 00:00:00".toList⟩ ∧
      strLt "2024-01-01 00:00:00".toList "2024-01-02 00:00:00".toList = true) ∧
    (Reach fallBack 0 none fallBackTree ∧
      fallBackTree.file 0 = some ⟨"f".toList, "x\n".toList, "2024-10-27 02:30:00".toList,
        "2024-10-27 02:00:00".toList⟩ ∧
      strLt "2024-10-27 02:00:00".toList "2024-10-27 02:30:00".toList = true) := by
  refine ⟨⟨Reach.start (by decide), by decide, by decide⟩, ⟨?_, by decide, by decide⟩⟩
  have h1 : Reach fallBack 0 none fallBackMade :=
    @Reach.step fallBack 0 none init fallBackMade (.createFile "f".toList) (Reach.start rfl)
      (by decide)
  exact @Reach.step fallBack 0 none fallBackMade fallBackTree
    (.writeFile "f".toList false ["x".toList, "EOF".toList]) h1 (by decide)

/-- C21 as it holds: the readings of the clock never go back, and in the tree the
constructor has loaded every file has `modifiedAt` not before `createdAt` and `createdAt` not
after any later reading of the clock (a fresh tree without a store has no file).  Then in
every state reached by any sequence of requests (create, write, rename, move, copy, delete,
change of directory) every file has `modifiedAt` not before `createdAt`. -/
theorem timestamps_stay_ordered (τ : Nat → Str) (fuel : Nat) (store : Option Str)
    (s : FileSystem) (hτ : ∀ i j, i ≤ j → strLt (τ j) (τ i) = false)
    (hload : ∀ s0, loadFromDisk τ store init = .ok s0 → TimeOrdered τ s0)
    (hr : Reach τ fuel store s) :
    ∀ fp f, s.file fp = some f → strLt f.modifiedAt f.createdAt = false := by
  have inv : TimeOrdered τ s := by
    induction hr with
    | start h0 => exact hload _ h0
    | step c _ hc ih => exact timeOrdered_run hτ c ih hc
  exact fun fp f hf => (inv fp f hf).1

theorem timeOrdered_earlyTree : TimeOrdered noon earlyTree := by
  intro fp f hf
  match fp, hf with
  | 0, hf =>
    cases hf
    refine ⟨by decide, fun t _ => ?_⟩
    show strLt "2024-01-01 12:00:00".toList "2023-01-01 00:00:00".toList = false
    decide
  | n + 1, hf => cases hf

theorem timestamps_stay_ordered_witness :
    (∀ i j, i ≤ j → strLt (noon j) (noon i) = false) ∧
    (∀ s0, loadFromDisk noon (some earlyStore) init = .ok s0 → TimeOrdered noon s0) ∧
    Reach noon 0 (some earlyStore) earlyWritten ∧
    earlyWritten.file 0 = some ⟨"f".toList, "x\n".toList, "2023-01-01 00:00:00".toList,
      "2024-01-01 12:00:00".toList⟩ ∧
    ∀ fp f, earlyWritten.file fp = some f → strLt f.modifiedAt f.createdAt = false :=
  have h1 : ∀ i j, i ≤ j → strLt (noon j) (noon i) = false := fun _ _ _ => strLt_irrefl _
  have h0 : loadFromDisk noon (some earlyStore) init = .ok earlyTree := by decide
  have h2 : ∀ s0, loadFromDisk noon (some earlyStore) init = .ok s0 → TimeOrdered noon s0 :=
    fun s0 h => by
      rw [h0] at h
      cases h
      exact timeOrdered_earlyTree
  have h3 : Reach noon 0 (some earlyStore) earlyWritten :=
    @Reach.step noon 0 (some earlyStore) earlyTree earlyWritten
      (.writeFile "f".toList false ["x".toList, "EOF".toList]) (Reach.start h0) (by decide)
  ⟨h1, h2, h3, by decide, timestamps_stay_ordered noon 0 (some earlyStore) earlyWritten h1 h2 h3⟩

end FSim

namespace FSim

open FileSystem

/-- C22, the code at the failing input: the constructor loads `clashStore`, whose directory
record and file record name the same path "/x", and the root of the loaded tree holds a
subdirectory "x" and a file "x", against I1 (`ensureDir` looks only into `subDirs`, the file
branch only into `files`, where `makeDirectory` and `createFile` look into both).  A store
of this kind is also written by the program: after `makeDirectory("a/b")` and
`createFile("a")` the tree satisfies I1, `saveToDisk` writes `slashFileStore`, and the
constructor builds from it a root with a subdirectory "a" and a file "a". -/
theorem load_breaks_name_uniqueness :
    (loadFromDisk noon (some clashStore) init = .ok clashTree ∧ ¬ I1 clashTree ∧
      clashTree.dir 0 = some ⟨"root".toList, none, [("x".toList, 1)], [("x".toList, 0)]⟩) ∧
    (Reach noon 0 none slashFileTree ∧ I1 slashFileTree ∧
      slashFileTree.saveToDisk 2 = .ok slashFileStore ∧
      loadFromDisk noon (some slashFileStore) init = .ok slashFileLoaded ∧
      ¬ I1 slashFileLoaded) := by
  refine ⟨⟨by decide, by decide, by decide⟩, ?_, by decide, by decide, by decide, by decide⟩
  have h1 : Reach noon 0 none slashTree :=
    @Reach.step noon 0 none init slashTree (.makeDirectory "a/b".toList) (Reach.start rfl)
      (by decide)
  exact @Reach.step noon 0 none slashTree slashFileTree (.createFile "a".toList) h1 (by decide)

/-- C25, the code at the failing run: from the fresh tree, `makeDirectory("a")`, a change
into "a" and a confirmed `deleteAll` lead to a state whose cursor holds the address of the
deleted directory "a" (`deleteAll` does not set `curr = root`, which `loadFromDisk` does),
so that the cursor designates no directory and the next request on it is undefined
behaviour.  And after `makeDirectory("..")` on the fresh tree, the choice of that directory
in `changeDirectory` sets the cursor to the parent of the root, which is null. -/
theorem deleteAll_leaves_cursor_dangling :
    (Reach noon 3 none danglingTree ∧ danglingTree.curr = some 1 ∧
      danglingTree.dir 1 = none ∧ danglingTree.walk danglingTree.root ["a".toList] = none ∧
      Cmd.run noon 3 (.makeDirectory "b".toList) danglingTree = .error .undefinedBehaviour) ∧
    (Reach noon 3 none dotsGone ∧ dotsGone.curr = none ∧
      Cmd.run noon 3 (.makeDirectory "b".toList) dotsGone = .error .undefinedBehaviour) := by
  refine ⟨⟨?_, by decide, by decide, by decide, by decide⟩, ?_, by decide, by decide⟩
  · have h1 : Reach noon 3 none selfTree :=
      @Reach.step noon 3 none init selfTree (.makeDirectory "a".toList) (Reach.start rfl)
        (by decide)
    have h2 : Reach noon 3 none insideTree :=
      @Reach.step noon 3 none selfTree insideTree (.changeDirectory 1) h1 (by decide)
    exact @Reach.step noon 3 none insideTree danglingTree (.deleteAll 'y') h2 (by decide)
  · have h1 : Reach noon 3 none dotsTree :=
      @Reach.step noon 3 none init dotsTree (.makeDirectory "..".toList) (Reach.start rfl)
        (by decide)
    exact @Reach.step noon 3 none dotsTree dotsGone (.changeDirectory 1) h1 (by decide)

end FSim

namespace FSim

open FileSystem

end FSim

namespace FSim

open FileSystem

end FSim

namespace FSim

open FileSystem

theorem fileRecords_live {s : FileSystem} (q : List Str) : ∀ (m : PMap),
    (∀ kf ∈ m, (s.file kf.2).isSome) →
    s.fileRecords (pathStr q) m
      = .ok (encAll (m.filterMap (fun kf => (s.file kf.2).map (Rec.file q))))
  | [], _ => rfl
  | (k, fp) :: r, h => by
    obtain ⟨f, hf⟩ := Option.isSome_iff_exists.1 (h (k, fp) (List.mem_cons_self _ _))
    have hr : ∀ kf ∈ r, (s.file kf.2).isSome := fun kf hkf => h kf (List.mem_cons_of_mem _ hkf)
    have hf' : s.file fp = some f := hf
    rw [fileRecords]
    simp only [derefFile, hf', fileRecords_live q r hr]
    rw [List.filterMap_cons_some (b := Rec.file q f) (by simp [hf']), encAll_cons]
    rfl

/-- The queue loop works off a whole level of live directories. -/
theorem saveLoop_level_live {s : FileSystem} {h : Nat} : ∀ (qu : List (Ptr × List Str)),
    (∀ x ∈ qu, s.liveTree (h + 1) x.1 = true) →
    ∀ (fuel : Nat) (rest : List (Ptr × Str)),
      s.saveLoop (fuel + qu.length) (qu.map conc ++ rest) =
        match s.saveLoop fuel (rest ++ (s.kids qu).map conc) with
        | .error e => .error e
        | .ok out => .ok (encAll (s.levelRecs qu) ++ out)
  | [], _, fuel, rest => by
    simp only [List.length_nil, Nat.add_zero, List.map_nil, List.nil_append, kids, levelRecs,
      List.flatMap_nil, List.append_nil, encAll_nil]
    cases s.saveLoop fuel rest <;> rfl
  | x :: qu, hq, fuel, rest => by
    obtain ⟨d, hd, hsf, _⟩ := liveTree_succ.1 (hq x (List.mem_cons_self _ _))
    have ih := saveLoop_level_live qu (fun y hy => hq y (List.mem_cons_of_mem _ hy)) fuel
      (rest ++ (d.subDirs.map (fun kc => (kc.2, x.2 ++ [kc.1]))).map conc)
    have e1 : fuel + (x :: qu).length = (fuel + qu.length) + 1 := by simp; omega
    have e2 : (x :: qu).map conc ++ rest = (x.1, pathStr x.2) :: (qu.map conc ++ rest) := rfl
    have e3 : (d.subDirs.map (fun kc => (kc.2, pathStr x.2 ++ ['/'] ++ kc.1)))
        = (d.subDirs.map (fun kc => (kc.2, x.2 ++ [kc.1]))).map conc := by
      simp [conc, pathStr_snoc]
    have hfr := fileRecords_live (s := s) x.2 d.files hsf
    rw [e1, e2, saveLoop]
    simp only [derefDir, hd, hfr]
    rw [e3, List.append_assoc, ih, kids_cons hd, levelRecs_cons hd]
    simp only [List.map_append, List.append_assoc]
    cases s.saveLoop fuel (rest ++ ((d.subDirs.map (fun kc => (kc.2, x.2 ++ [kc.1]))).map conc
        ++ (s.kids qu).map conc)) with
    | error e => rfl
    | ok out =>
      simp only [encAll_append, List.append_assoc]
      rw [← List.append_assoc, block_eq x.2 d _ hfr hfr]

theorem kids_nil (s : FileSystem) : s.kids [] = [] := rfl

theorem levelRecs_nil (s : FileSystem) : s.levelRecs [] = [] := rfl

theorem filePtrs_nil (s : FileSystem) : s.filePtrs [] = [] := rfl

theorem kids_append (s : FileSystem) (a b : List (Ptr × List Str)) :
    s.kids (a ++ b) = s.kids a ++ s.kids b := by
  simp [kids]

theorem levelRecs_append (s : FileSystem) (a b : List (Ptr × List Str)) :
    s.levelRecs (a ++ b) = s.levelRecs a ++ s.levelRecs b := by
  simp [levelRecs]

theorem filePtrs_append (s : FileSystem) (a b : List (Ptr × List Str)) :
    s.filePtrs (a ++ b) = s.filePtrs a ++ s.filePtrs b := by
  simp [filePtrs]

theorem filePtrs_cons {s : FileSystem} {x : Ptr × List Str} {d : Directory}
    (hd : s.dir x.1 = some d) (qu : List (Ptr × List Str)) :
    s.filePtrs (x :: qu) = d.files.map (fun kf => kf.2) ++ s.filePtrs qu := by
  simp [filePtrs, hd]

theorem bfsDirs_zero (s : FileSystem) (qu : List (Ptr × List Str)) : s.bfsDirs 0 qu = [] := rfl

theorem bfsDirs_succ (s : FileSystem) (h : Nat) (qu : List (Ptr × List Str)) :
    s.bfsDirs (h + 1) qu = qu ++ s.bfsDirs h (s.kids qu) := rfl

theorem live_zero_nil {s : FileSystem} {qu : List (Ptr × List Str)}
    (hq : ∀ x ∈ qu, s.liveTree 0 x.1 = true) : qu = [] := by
  cases qu with
  | nil => rfl
  | cons x qu =>
    have := hq x (List.mem_cons_self _ _)
    rw [liveTree_zero] at this; cases this

theorem kids_live {s : FileSystem} {h : Nat} {qu : List (Ptr × List Str)}
    (hq : ∀ x ∈ qu, s.liveTree (h + 1) x.1 = true) :
    ∀ y ∈ s.kids qu, s.liveTree h y.1 = true := by
  intro y hy
  obtain ⟨x, hx, d, hd, kc, hm, e⟩ := mem_kids.1 hy
  subst e
  obtain ⟨d', hd', _, hk⟩ := liveTree_succ.1 (hq x hx)
  rw [hd] at hd'; cases hd'
  exact hk kc hm

/-- The queue loop of `saveToDisk` on a queue of live trees: with one unit of fuel for every
directory it visits, it returns the records of the directories in the order of the visits. -/
theorem saveLoop_bfs {s : FileSystem} : ∀ (h : Nat) (qu : List (Ptr × List Str)),
    (∀ x ∈ qu, s.liveTree h x.1 = true) →
    ∀ fuel, (s.bfsDirs h qu).length ≤ fuel →
      s.saveLoop fuel (qu.map conc) = .ok (encAll (s.levelRecs (s.bfsDirs h qu)))
  | 0, qu, hq, fuel, _ => by
    rw [live_zero_nil hq]
    exact saveLoop_nil s fuel
  | h + 1, qu, hq, fuel, hf => by
    rw [bfsDirs_succ, List.length_append] at hf
    have ih := saveLoop_bfs h (s.kids qu) (kids_live hq) (fuel - qu.length) (by omega)
    have hl := saveLoop_level_live (s := s) (h := h) qu hq (fuel - qu.length) []
    have e1 : fuel - qu.length + qu.length = fuel := by omega
    rw [e1, List.append_nil, List.nil_append, ih] at hl
    rw [hl, bfsDirs_succ, levelRecs_append, encAll_append]

/-- The visits with their first level set apart: what follows the queue is what the visits
add. -/
theorem bfsDirs_kids {s : FileSystem} : ∀ (h : Nat) (qu : List (Ptr × List Str)),
    (∀ x ∈ qu, s.liveTree h x.1 = true) → s.bfsDirs h qu = qu ++ s.kids (s.bfsDirs h qu)
  | 0, qu, hq => by
    rw [live_zero_nil hq]
    rfl
  | h + 1, qu, hq => by
    have ih := bfsDirs_kids h (s.kids qu) (kids_live hq)
    rw [bfsDirs_succ, kids_append, ← ih]

theorem bfsDirs_live {s : FileSystem} : ∀ (h : Nat) (qu : List (Ptr × List Str)),
    (∀ x ∈ qu, s.liveTree h x.1 = true) →
    ∀ x ∈ s.bfsDirs h qu, ∃ h', s.liveTree (h' + 1) x.1 = true
  | 0, qu, _, x, hx => by rw [bfsDirs_zero] at hx; cases hx
  | h + 1, qu, hq, x, hx => by
    rw [bfsDirs_succ] at hx
    rcases List.mem_append.1 hx with e | e
    · exact ⟨h, hq x e⟩
    · exact bfsDirs_live h (s.kids qu) (kids_live hq) x e

end FSim

namespace FSim

open FileSystem

theorem flatMap_kids_entry {α : Type} (g : Ptr → List α) (q : List Str)
    (m : PMap) :
    (m.map (fun kc => ((kc.2, q ++ [kc.1]) : Ptr × List Str))).flatMap (fun y => g y.1)
      = m.flatMap (fun kc => g kc.2) := by
  induction m with
  | nil => rfl
  | cons x r ih =>
    simp only [List.map_cons, List.flatMap_cons, ih]

/-- The directories below a level of live directories: the level itself and the directories
below what the level adds to the queue. -/
theorem subtreeDirs_level {s : FileSystem} {h : Nat} : ∀ (qu : List (Ptr × List Str)),
    (∀ x ∈ qu, s.liveTree (h + 1) x.1 = true) →
    (qu.flatMap (fun x => s.subtreeDirs (h + 1) x.1)).Perm
      (qu.map Prod.fst ++ (s.kids qu).flatMap (fun y => s.subtreeDirs h y.1))
  | [], _ => by
    rw [kids_nil]
    exact List.Perm.refl _
  | x :: qu, hq => by
    obtain ⟨d, hd, _, _⟩ := liveTree_succ.1 (hq x (List.mem_cons_self _ _))
    have ih := subtreeDirs_level qu (fun y hy => hq y (List.mem_cons_of_mem _ hy))
    rw [List.flatMap_cons, subtreeDirs_succ h hd, kids_cons hd, List.flatMap_append,
      flatMap_kids_entry, List.map_cons, List.cons_append, List.cons_append]
    refine List.Perm.cons _ ?_
    refine (List.Perm.append_left _ ih).trans ?_
    rw [← List.append_assoc, ← List.append_assoc]
    exact List.Perm.append_right _ List.perm_append_comm

theorem subtreeFiles_level {s : FileSystem} {h : Nat} : ∀ (qu : List (Ptr × List Str)),
    (∀ x ∈ qu, s.liveTree (h + 1) x.1 = true) →
    (qu.flatMap (fun x => s.subtreeFiles (h + 1) x.1)).Perm
      (s.filePtrs qu ++ (s.kids qu).flatMap (fun y => s.subtreeFiles h y.1))
  | [], _ => by
    rw [kids_nil]
    exact List.Perm.refl _
  | x :: qu, hq => by
    obtain ⟨d, hd, _, _⟩ := liveTree_succ.1 (hq x (List.mem_cons_self _ _))
    have ih := subtreeFiles_level qu (fun y hy => hq y (List.mem_cons_of_mem _ hy))
    rw [List.flatMap_cons, subtreeFiles_succ h hd, kids_cons hd, List.flatMap_append,
      flatMap_kids_entry, filePtrs_cons hd, List.append_assoc, List.append_assoc]
    refine List.Perm.append_left _ ?_
    refine (List.Perm.append_left _ ih).trans ?_
    rw [← List.append_assoc, ← List.append_assoc]
    exact List.Perm.append_right _ List.perm_append_comm

/-- The visits of `saveToDisk` reach every directory below the queue once for every time it
is held. -/
theorem bfsDirs_perm {s : FileSystem} : ∀ (h : Nat) (qu : List (Ptr × List Str)),
    (∀ x ∈ qu, s.liveTree h x.1 = true) →
    ((s.bfsDirs h qu).map Prod.fst).Perm (qu.flatMap (fun x => s.subtreeDirs h x.1))
  | 0, qu, hq => by
    rw [live_zero_nil hq]
    exact List.Perm.refl _
  | h + 1, qu, hq => by
    have ih := bfsDirs_perm h (s.kids qu) (kids_live hq)
    rw [bfsDirs_succ, List.map_append]
    exact (List.Perm.append_left _ ih).trans (subtreeDirs_level qu hq).symm

theorem filePtrs_perm {s : FileSystem} : ∀ (h : Nat) (qu : List (Ptr × List Str)),
    (∀ x ∈ qu, s.liveTree h x.1 = true) →
    (s.filePtrs (s.bfsDirs h qu)).Perm (qu.flatMap (fun x => s.subtreeFiles h x.1))
  | 0, qu, hq => by
    rw [live_zero_nil hq]
    exact List.Perm.refl _
  | h + 1, qu, hq => by
    have ih := filePtrs_perm h (s.kids qu) (kids_live hq)
    rw [bfsDirs_succ, filePtrs_append]
    exact (List.Perm.append_left _ ih).trans (subtreeFiles_level qu hq).symm

theorem keyed_dir {s : FileSystem} (hk : s.keyed = true) {p : Ptr} {d : Directory}
    (hd : s.dir p = some d) :
    d.subDirs.Sorted ∧ d.files.Sorted ∧
      ∀ k fp f, (k, fp) ∈ d.files → s.file fp = some f → f.name = k := by
  have hmem : some d ∈ s.dirs := by
    have hlt := dir_lt hd
    have : s.dirs.getD p none = some d := hd
    rw [List.getD_eq_getElem?_getD, List.getElem?_eq_getElem hlt] at this
    have e : s.dirs[p] = some d := by simpa using this
    rw [← e]
    exact List.getElem_mem _
  have h1 := List.all_eq_true.1 hk (some d) hmem
  simp only [Bool.and_eq_true] at h1
  refine ⟨PMap.sortedB_iff.1 h1.1.1, PMap.sortedB_iff.1 h1.1.2, ?_⟩
  intro k fp f hm hf
  have h2 := List.all_eq_true.1 h1.2 (k, fp) hm
  simp only [hf, decide_eq_true_eq] at h2
  exact h2

/-- Every directory `saveToDisk` visits is the one its path leads to. -/
theorem bfsDirs_paths {s : FileSystem} (hk : s.keyed = true) :
    ∀ (h : Nat) (qu : List (Ptr × List Str)),
    (∀ x ∈ qu, s.walk s.root x.2 = some x.1) →
    ∀ x ∈ s.bfsDirs h qu, s.walk s.root x.2 = some x.1
  | 0, qu, _, x, hx => by rw [bfsDirs_zero] at hx; cases hx
  | h + 1, qu, hq, x, hx => by
    rw [bfsDirs_succ] at hx
    rcases List.mem_append.1 hx with e | e
    · exact hq x e
    · refine bfsDirs_paths hk h (s.kids qu) ?_ x e
      intro y hy
      obtain ⟨z, hz, d, hd, kc, hm, e'⟩ := mem_kids.1 hy
      subst e'
      obtain ⟨k, c⟩ := kc
      exact walk_snoc_some.2 ⟨z.1, d, hq z hz, hd,
        PMap.find_of_mem_nodup (keyed_dir hk hd).1.nodup hm⟩

theorem filter_isDir_files (s : FileSystem) (q : List Str) : ∀ (m : PMap),
    (m.filterMap (fun kf => (s.file kf.2).map (Rec.file q))).filter Rec.isDir = []
  | [] => rfl
  | kf :: r => by
    cases hf : s.file kf.2 with
    | none =>
      rw [List.filterMap_cons_none (by simp [hf])]
      exact filter_isDir_files s q r
    | some f =>
      rw [List.filterMap_cons_some (b := Rec.file q f) (by simp [hf]),
        List.filter_cons_of_neg (by simp [Rec.isDir])]
      exact filter_isDir_files s q r

theorem filter_isDir_dirs (q : List Str) : ∀ (m : PMap),
    (m.map (fun kc => Rec.dir (q ++ [kc.1]))).filter Rec.isDir
      = (m.map (fun kc => ((kc.2, q ++ [kc.1]) : Ptr × List Str))).map (fun y => Rec.dir y.2)
  | [] => rfl
  | kc :: r => by
    rw [List.map_cons, List.filter_cons_of_pos (by simp [Rec.isDir]), filter_isDir_dirs q r]
    rfl

/-- The directory records written for a list of directories are the records of what their
visits add to the queue. -/
theorem levelRecs_dirs (s : FileSystem) : ∀ (qu : List (Ptr × List Str)),
    (s.levelRecs qu).filter Rec.isDir = (s.kids qu).map (fun y => Rec.dir y.2)
  | [] => rfl
  | x :: qu => by
    cases hd : s.dir x.1 with
    | none =>
      have e1 : s.levelRecs (x :: qu) = s.levelRecs qu := by simp [levelRecs, hd]
      have e2 : s.kids (x :: qu) = s.kids qu := by simp [kids, hd]
      rw [e1, e2]
      exact levelRecs_dirs s qu
    | some d =>
      rw [levelRecs_cons hd, kids_cons hd, List.filter_append, List.map_append,
        levelRecs_dirs s qu, blockRecs, List.filter_append, filter_isDir_files,
        List.append_nil, filter_isDir_dirs]

theorem filterMap_toFile_dirs (q : List Str) : ∀ (m : PMap),
    (m.map (fun kc => Rec.dir (q ++ [kc.1]))).filterMap Rec.toFile = []
  | [] => rfl
  | kc :: r => by
    rw [List.map_cons, List.filterMap_cons_none (by rfl)]
    exact filterMap_toFile_dirs q r

theorem filterMap_toFile_files (s : FileSystem) (q : List Str) : ∀ (m : PMap),
    (∀ kf ∈ m, (s.file kf.2).isSome) →
    ((m.filterMap (fun kf => (s.file kf.2).map (Rec.file q))).filterMap Rec.toFile).map some
      = (m.map (fun kf => kf.2)).map s.file
  | [], _ => rfl
  | kf :: r, h => by
    obtain ⟨f, hf⟩ := Option.isSome_iff_exists.1 (h kf (List.mem_cons_self _ _))
    have hf' : s.file kf.2 = some f := hf
    rw [List.filterMap_cons_some (b := Rec.file q f) (by simp [hf']),
      List.filterMap_cons_some (b := f) (by rfl), List.map_cons, List.map_cons, List.map_cons,
      filterMap_toFile_files s q r (fun x hx => h x (List.mem_cons_of_mem _ hx)), hf']

/-- The file records written for a list of live directories are the files these hold, one
record for every file. -/
theorem levelRecs_files (s : FileSystem) : ∀ (qu : List (Ptr × List Str)),
    (∀ x ∈ qu, ∃ h, s.liveTree (h + 1) x.1 = true) →
    ((s.levelRecs qu).filterMap Rec.toFile).map some = (s.filePtrs qu).map s.file
  | [], _ => rfl
  | x :: qu, hq => by
    obtain ⟨h, hx⟩ := hq x (List.mem_cons_self _ _)
    obtain ⟨d, hd, hf, _⟩ := liveTree_succ.1 hx
    rw [levelRecs_cons hd, filePtrs_cons hd, List.filterMap_append, List.map_append,
      List.map_append, levelRecs_files s qu (fun y hy => hq y (List.mem_cons_of_mem _ hy)),
      blockRecs, List.filterMap_append, filterMap_toFile_dirs, List.nil_append,
      filterMap_toFile_files s x.2 d.files hf]

theorem blockRecs_depth {s : FileSystem} {q : List Str} {d : Directory} {r : Rec}
    (hr : r ∈ s.blockRecs q d) : r.depth = q.length + 1 := by
  rw [blockRecs] at hr
  rcases List.mem_append.1 hr with e | e
  · obtain ⟨kc, _, e'⟩ := List.mem_map.1 e
    subst e'
    simp [Rec.depth]
  · obtain ⟨kf, _, e'⟩ := List.mem_filterMap.1 e
    cases hf : s.file kf.2 with
    | none => rw [hf] at e'; cases e'
    | some f =>
      rw [hf] at e'
      cases e'
      rfl

/-- Along the records written for the visits of a queue of directories of one depth, the
depth of the node recorded never decreases, and it is below the depth of the queue
nowhere. -/
theorem levelRecs_depth {s : FileSystem} : ∀ (h : Nat) (qu : List (Ptr × List Str)) (n : Nat),
    (∀ x ∈ qu, x.2.length = n) →
    (s.levelRecs (s.bfsDirs h qu)).Pairwise (fun a b => a.depth ≤ b.depth) ∧
      ∀ r ∈ s.levelRecs (s.bfsDirs h qu), n + 1 ≤ r.depth
  | 0, qu, n, _ => by
    rw [bfsDirs_zero, levelRecs_nil]
    exact ⟨List.Pairwise.nil, fun r hr => by cases hr⟩
  | h + 1, qu, n, hq => by
    have hkids : ∀ y ∈ s.kids qu, y.2.length = n + 1 := by
      intro y hy
      obtain ⟨z, hz, d, hd, kc, hm, e'⟩ := mem_kids.1 hy
      subst e'
      simp [hq z hz]
    obtain ⟨i1, i2⟩ := levelRecs_depth h (s.kids qu) (n + 1) hkids
    have hlev : ∀ r ∈ s.levelRecs qu, r.depth = n + 1 := by
      intro r hr
      obtain ⟨x, hx, d, hd, hm⟩ := mem_levelRecs.1 hr
      rw [blockRecs_depth hm, hq x hx]
    rw [bfsDirs_succ, levelRecs_append]
    constructor
    · rw [List.pairwise_append]
      refine ⟨?_, i1, ?_⟩
      · refine List.Pairwise.imp_of_mem ?_ (List.pairwise_of_forall (fun _ _ => trivial))
        intro a b ha hb _
        rw [hlev a ha, hlev b hb]
      · intro a ha b hb
        rw [hlev a ha]
        exact Nat.le_of_succ_le (i2 b hb)
    · intro r hr
      rcases List.mem_append.1 hr with e | e
      · rw [hlev r e]
      · exact Nat.le_of_succ_le (i2 r e)

end FSim

namespace FSim

open FileSystem

theorem dirs_block (q : List Str) (m : PMap) :
    m.map (fun kc => Rec.dir (q ++ [kc.1])) = (PMap.keys m).map (fun k => Rec.dir (q ++ [k])) := by
  simp [PMap.keys]

/-- The file records of one directory, as a list of files: one for every entry of the map,
in the order of the map, each file named by its key. -/
theorem files_block (s : FileSystem) (q : List Str) : ∀ (m : PMap),
    (∀ kf ∈ m, (s.file kf.2).isSome) →
    (∀ k fp f, (k, fp) ∈ m → s.file fp = some f → f.name = k) →
    ∃ fs : List File, m.filterMap (fun kf => (s.file kf.2).map (Rec.file q)) = fs.map (Rec.file q) ∧
      m.map (fun kf => s.file kf.2) = fs.map some ∧ fs.map File.name = PMap.keys m
  | [], _, _ => ⟨[], rfl, rfl, rfl⟩
  | (k, fp) :: r, hl, hn => by
    obtain ⟨f, hf⟩ := Option.isSome_iff_exists.1 (hl (k, fp) (List.mem_cons_self _ _))
    have hf' : s.file fp = some f := hf
    obtain ⟨fs, a1, a2, a3⟩ := files_block s q r
      (fun x hx => hl x (List.mem_cons_of_mem _ hx))
      (fun k' fp' f' hm => hn k' fp' f' (List.mem_cons_of_mem _ hm))
    refine ⟨f :: fs, ?_, ?_, ?_⟩
    · rw [List.filterMap_cons_some (b := Rec.file q f) (by simp [hf']), a1]
      rfl
    · rw [List.map_cons, a2, hf']
      rfl
    · rw [List.map_cons, a3, hn k fp f (List.mem_cons_self _ _) hf']
      rfl

/-- The records of one visited directory stand together in the stream: the records of its
subdirectories in the order of their names, then the records of its files in the order of
their names. -/
theorem levelRecs_block {s : FileSystem} (hk : s.keyed = true) {v : List (Ptr × List Str)}
    {x : Ptr × List Str} {d : Directory} (hx : x ∈ v) (hd : s.dir x.1 = some d)
    (hl : ∀ kf ∈ d.files, (s.file kf.2).isSome) :
    ∃ (pre post : List Rec) (fs : List File),
      s.levelRecs v = pre ++ ((PMap.keys d.subDirs).map (fun k => Rec.dir (x.2 ++ [k]))
        ++ fs.map (Rec.file x.2)) ++ post ∧
      d.files.map (fun kf => s.file kf.2) = fs.map some ∧
      (PMap.keys d.subDirs).Pairwise (fun a b => strLt a b = true) ∧
      (fs.map File.name).Pairwise (fun a b => strLt a b = true) := by
  obtain ⟨a, b, e⟩ := List.append_of_mem hx
  obtain ⟨s1, s2, s3⟩ := keyed_dir hk hd
  obtain ⟨fs, f1, f2, f3⟩ := files_block s x.2 d.files hl s3
  refine ⟨s.levelRecs a, s.levelRecs b, fs, ?_, f2, s1.keys_pairwise, ?_⟩
  · rw [e, levelRecs_append, levelRecs_cons hd, blockRecs, dirs_block, f1]
    simp only [List.append_assoc]
  · rw [f3]
    exact s2.keys_pairwise

theorem visited_succ (s : FileSystem) (h : Nat) :
    s.visited (h + 1) = (s.root, []) :: s.bfsDirs h (s.kids [(s.root, [])]) := rfl

/-- C23: for every tree of live objects of height below `h`, each owned once, with maps in
key order and every file stored under its name, `saveToDisk` returns — with one unit of fuel
for every directory — the bytes of the records `saveRecs`, written while the directories
`visited` are taken off the queue.  The directories visited are the directories of the
tree, each once, the root first, each with the path that leads to it; the directory records
of the stream are, in order, the records of the visited directories other than the root, and
the file records are, in order, the files the visited directories hold, which are the files
of the tree, each once; no record describes the root (every record has depth at least 1); a
file record carries as length field the decimal numeral of the number of bytes of its
content, followed by these bytes; the records written for one visited directory stand
together in the stream, first one for every subdirectory in ascending order of the names,
then one for every file in ascending order of the names; and the depth of the node recorded
never decreases along the stream. -/
theorem saveToDisk_breadth_first (s : FileSystem) (h : Nat) (ho : s.ownedTree h s.root)
    (hk : s.keyed = true) :
    (∀ fuel, (s.visited h).length ≤ fuel → s.saveToDisk fuel = .ok (encAll (s.saveRecs h))) ∧
    (((s.visited h).map Prod.fst).Perm (s.subtreeDirs h s.root) ∧
      ((s.visited h).map Prod.fst).Nodup ∧ (s.visited h).head? = some (s.root, []) ∧
      ∀ x ∈ s.visited h, s.walk s.root x.2 = some x.1) ∧
    (s.saveRecs h).filter Rec.isDir = (s.visited h).tail.map (fun x => Rec.dir x.2) ∧
    ((s.filePtrs (s.visited h)).Perm (s.subtreeFiles h s.root) ∧
      (s.filePtrs (s.visited h)).Nodup ∧
      ((s.saveRecs h).filterMap Rec.toFile).map some = (s.filePtrs (s.visited h)).map s.file) ∧
    (∀ r ∈ s.saveRecs h, 1 ≤ r.depth) ∧
    (∀ q f, Rec.file q f ∈ s.saveRecs h →
      (Rec.file q f).enc = ['F', '|'] ++ (pathStr q ++ ['/'] ++ f.name) ++ ['|'] ++ f.createdAt
        ++ ['|'] ++ f.modifiedAt ++ ['|'] ++ toDecimal f.content.length ++ ['\n'] ++ f.content
        ++ ['\n'] ∧
      (f.content.length < sizeMod → stoul (toDecimal f.content.length) = .ok f.content.length)) ∧
    (∀ x ∈ s.visited h, ∀ d, s.dir x.1 = some d →
      ∃ (pre post : List Rec) (fs : List File),
        s.saveRecs h = pre ++ ((PMap.keys d.subDirs).map (fun k => Rec.dir (x.2 ++ [k]))
          ++ fs.map (Rec.file x.2)) ++ post ∧
        d.files.map (fun kf => s.file kf.2) = fs.map some ∧
        (PMap.keys d.subDirs).Pairwise (fun a b => strLt a b = true) ∧
        (fs.map File.name).Pairwise (fun a b => strLt a b = true)) ∧
    (s.saveRecs h).Pairwise (fun a b => a.depth ≤ b.depth) := by
  obtain ⟨hl, nd, nf⟩ := ho
  have hq : ∀ x ∈ [((s.root, []) : Ptr × List Str)], s.liveTree h x.1 = true := by
    intro x hx
    rw [List.mem_singleton] at hx; subst hx
    exact hl
  have hpd : ((s.visited h).map Prod.fst).Perm (s.subtreeDirs h s.root) := by
    have := bfsDirs_perm h _ hq
    simpa [visited] using this
  have hpf : (s.filePtrs (s.visited h)).Perm (s.subtreeFiles h s.root) := by
    have := filePtrs_perm h _ hq
    simpa [visited] using this
  have hdep := levelRecs_depth (s := s) h [(s.root, [])] 0 (by
    intro x hx
    rw [List.mem_singleton] at hx; subst hx
    rfl)
  have hkids := bfsDirs_kids h _ hq
  refine ⟨?_, ⟨hpd, hpd.nodup_iff.2 nd, ?_, ?_⟩, ?_, ⟨hpf, hpf.nodup_iff.2 nf, ?_⟩, ?_, ?_, ?_,
    hdep.1⟩
  · intro fuel hf
    exact saveLoop_bfs h _ hq fuel hf
  · cases h with
    | zero => rw [liveTree_zero] at hl; cases hl
    | succ h => rfl
  · refine bfsDirs_paths hk h _ ?_
    intro x hx
    rw [List.mem_singleton] at hx; subst hx
    rfl
  · show (s.levelRecs (s.visited h)).filter Rec.isDir = _
    rw [levelRecs_dirs]
    have e : s.visited h = (s.root, []) :: s.kids (s.visited h) := hkids
    rw [e, List.tail_cons, ← e]
  · exact levelRecs_files s _ (bfsDirs_live h _ hq)
  · intro r hr
    have := hdep.2 r hr
    omega
  · intro q f _
    exact ⟨rfl, fun hn => stoul_toDecimal _ hn⟩
  · intro x hx d hd
    obtain ⟨h', hx'⟩ := bfsDirs_live h _ hq x hx
    obtain ⟨d', hd', hfl, _⟩ := liveTree_succ.1 hx'
    rw [hd] at hd'; cases hd'
    exact levelRecs_block hk hx hd hfl

theorem saveToDisk_breadth_first_witness :
    copyTree.ownedTree 3 copyTree.root ∧ copyTree.keyed = true ∧
    ((∀ fuel, (copyTree.visited 3).length ≤ fuel →
        copyTree.saveToDisk fuel = .ok (encAll (copyTree.saveRecs 3))) ∧
      (((copyTree.visited 3).map Prod.fst).Perm (copyTree.subtreeDirs 3 copyTree.root) ∧
        ((copyTree.visited 3).map Prod.fst).Nodup ∧
        (copyTree.visited 3).head? = some (copyTree.root, []) ∧
        ∀ x ∈ copyTree.visited 3, copyTree.walk copyTree.root x.2 = some x.1) ∧
      (copyTree.saveRecs 3).filter Rec.isDir
        = (copyTree.visited 3).tail.map (fun x => Rec.dir x.2) ∧
      ((copyTree.filePtrs (copyTree.visited 3)).Perm (copyTree.subtreeFiles 3 copyTree.root) ∧
        (copyTree.filePtrs (copyTree.visited 3)).Nodup ∧
        ((copyTree.saveRecs 3).filterMap Rec.toFile).map some
          = (copyTree.filePtrs (copyTree.visited 3)).map copyTree.file) ∧
      (∀ r ∈ copyTree.saveRecs 3, 1 ≤ r.depth) ∧
      (∀ q f, Rec.file q f ∈ copyTree.saveRecs 3 →
        (Rec.file q f).enc = ['F', '|'] ++ (pathStr q ++ ['/'] ++ f.name) ++ ['|']
          ++ f.createdAt ++ ['|'] ++ f.modifiedAt ++ ['|'] ++ toDecimal f.content.length
          ++ ['\n'] ++ f.content ++ ['\n'] ∧
        (f.content.length < sizeMod →
          stoul (toDecimal f.content.length) = .ok f.content.length)) ∧
      (∀ x ∈ copyTree.visited 3, ∀ d, copyTree.dir x.1 = some d →
        ∃ (pre post : List Rec) (fs : List File),
          copyTree.saveRecs 3
            = pre ++ ((PMap.keys d.subDirs).map (fun k => Rec.dir (x.2 ++ [k]))
              ++ fs.map (Rec.file x.2)) ++ post ∧
          d.files.map (fun kf => copyTree.file kf.2) = fs.map some ∧
          (PMap.keys d.subDirs).Pairwise (fun a b => strLt a b = true) ∧
          (fs.map File.name).Pairwise (fun a b => strLt a b = true)) ∧
      (copyTree.saveRecs 3).Pairwise (fun a b => a.depth ≤ b.depth)) :=
  ⟨by decide, by decide, saveToDisk_breadth_first copyTree 3 (by decide) (by decide)⟩

end FSim
